import Mathlib

/-!
# Master server (matchmaking broker) of lasercrabs

A shallow embedding of src/platform/master_server.cpp: the node registry, the
role lists, the packet dispatcher (packet_handle), eviction
(disconnected), and the audit, the matchmaking pass and the main loop of
proc.

Conventions of the embedding

* The global variables nodes, servers, clients_waiting and
  clients_connecting become the fields of one record, Broker, that every
  function takes and returns.  (servers_loading is declared in the source and
  never used; it is left out.)
* The registry std::unordered_map<Sock::Address, Node> is a list of nodes
  keyed by their addr field: lookup finds the first node with the address, a
  write through a Node* rewrites the nodes with that address, erase drops
  them.
* The Messenger is an external collaborator.  The verdict of
  messenger.received is an input of packet_handle and every
  messenger.send is recorded, in order, in the field sent.
* r64 timestamps are rationals; s8 arithmetic is Int arithmetic wrapped by
  wrap8.
* A failed vi_assert sets the field assert_failed and execution goes on.
* The main loop of proc is a step function on its locals (Loop); what an
  iteration gets from outside (the reading of the clock, the order in which
  the registry yields the nodes an audit collects, the datagram read) is its
  Input.
-/

namespace VI
namespace Net
namespace Master

/-! ## Data model -/

/-- Sock::Address, a host and a port. -/
structure Address where
  host : Nat
  port : Nat
deriving DecidableEq, Repr

/-- Node::State of the source, without the count sentinel. -/
inductive State where
  | Invalid
  | ServerActive
  | ServerLoading
  | ServerIdle
  | ClientWaiting
  | ClientConnecting
  | ClientIdle
deriving DecidableEq, Repr

/-- Modelled from the spec: the struct ServerState of game/master.h is not among
the sources.  The spec gives its fields: a level identifier, open_slots (an
integer at least 0), the story_mode flag and team_count. -/
structure ServerState where
  level : Int
  open_slots : Nat
  story_mode : Bool
  team_count : Int
deriving DecidableEq, Repr

/-- Modelled from the spec: ServerState::equals is not among the sources; the
spec compares descriptions for being the same description. -/
def ServerState.equals (s t : ServerState) : Bool := decide (s = t)

/-- The struct Node: a server or a client. -/
structure Node where
  last_message_timestamp : ℚ
  state : State
  addr : Address
  server_state : ServerState
deriving DecidableEq, Repr

/-- The struct ClientConnection: a client paired with a server. -/
structure ClientConnection where
  client : Address
  server : Address
deriving DecidableEq, Repr

/-- A message handed to messenger.send by send_server_load or
send_client_connect: the time of sending, the destination and the payload. -/
inductive Outgoing where
  | ServerLoad (timestamp : ℚ) (dest : Address) (s : ServerState)
  | ClientConnect (timestamp : ℚ) (dest : Address) (host : Nat) (port : Nat)
deriving DecidableEq, Repr

/-- Modelled from the spec: the enum Message and the wire format of
game/master.h are not among the sources.  A packet that passed the sequence
and type header is one of the wire messages of the spec with its fields
decoded; the description is none when serialize_server_state fails.  ServerLoad
and ClientConnect are outbound only and reach the default case of the
dispatcher. -/
inductive Packet where
  | Ack
  | Disconnect
  | ClientRequestServer (s : Option ServerState)
  | ServerStatusUpdate (secret : Int) (active : Bool) (s : Option ServerState)
  | ServerLoad
  | ClientConnect
deriving DecidableEq, Repr

/-- Constants the source takes from files that are not among the sources:
Settings::secret (read from the configuration file), Asset::Level::count,
Asset::Level::Medias_Res and MAX_PLAYERS. -/
structure Env where
  secret : Int
  level_count : Int
  medias_res : Int
  max_players : Int
deriving DecidableEq, Repr

/-- The global state of the master server. -/
structure Broker where
  nodes : List Node
  servers : List Address
  clients_waiting : List Address
  clients_connecting : List ClientConnection
  sent : List Outgoing
  assert_failed : Bool
deriving DecidableEq, Repr

/-- The state at the start of proc: empty registry and lists. -/
def Broker.empty : Broker :=
  { nodes := [], servers := [], clients_waiting := [], clients_connecting := [],
    sent := [], assert_failed := false }

/-- MASTER_AUDIT_INTERVAL: remove inactive nodes every x seconds. -/
def MASTER_AUDIT_INTERVAL : ℚ := 5 / 4

/-- MASTER_MATCH_INTERVAL: run matchmaking searches every x seconds. -/
def MASTER_MATCH_INTERVAL : ℚ := 1 / 2

/-- MASTER_INACTIVE_THRESHOLD: remove node if it is inactive for x seconds. -/
def MASTER_INACTIVE_THRESHOLD : ℚ := 7

/-- Conversion of an integer to s8 (two's complement wrap-around). -/
def wrap8 (x : Int) : Int := (x + 128) % 256 - 128

/-- Modelled from the spec: Array<T>::remove of data/array.h is not among the
sources and the spec does not describe it.  It is the unordered removal (the
last element takes the place of the removed one); the order-preserving
removal is the separate remove_ordered used in game/player.cpp.  The lemmas
below use of it only that the result is a permutation of the other
elements (array_remove_perm). -/
def array_remove {α : Type} (xs : List α) (i : Nat) : List α :=
  match xs.getLast? with
  | none => xs
  | some l => (xs.set i l).dropLast

/-- The loop idiom of disconnected,
for (i = 0; i < xs.length; i++) if (p(xs[i])) { body(xs[i]); xs.remove(i); i--; },
started at index i, with the effect of the body on the rest of the state
threaded through.  Each round either removes an element or advances i, so
xs.length - i rounds are enough. -/
def remove_loop {α σ : Type} (p : α → Bool) (body : σ → α → σ) :
    Nat → Nat → List α → σ → List α × σ
  | 0, _, xs, s => (xs, s)
  | fuel + 1, i, xs, s =>
    match xs[i]? with
    | none => (xs, s)
    | some x =>
      if p x then remove_loop p body fuel i (array_remove xs i) (body s x)
      else remove_loop p body fuel (i + 1) xs s

/-! ## Registry -/

/-- Node(): the value-initialised node, with its address set as
node_for_address does after inserting it. -/
def Node.fresh (addr : Address) : Node :=
  { last_message_timestamp := 0, state := State.Invalid, addr := addr,
    server_state := { level := 0, open_slots := 0, story_mode := false, team_count := 0 } }

/-- The lookup nodes.find(addr). -/
def find_node (nodes : List Node) (addr : Address) : Option Node :=
  nodes.find? (fun n => decide (n.addr = addr))

/-- The function node_for_address: the node of the address, inserted first when
the registry has none.  Returns the registry after the call and the node. -/
def node_for_address (b : Broker) (addr : Address) : Broker × Node :=
  match find_node b.nodes addr with
  | some n => (b, n)
  | none => ({ b with nodes := b.nodes ++ [Node.fresh addr] }, Node.fresh addr)

/-- A write through the Node* that node_for_address yields for the address:
the nodes of the address are rewritten by f.  (Every write of the source goes
through such a pointer, and no node is erased between the lookup and the
write.) -/
def update_node (b : Broker) (addr : Address) (f : Node → Node) : Broker :=
  let b := (node_for_address b addr).1
  { b with nodes := b.nodes.map (fun n => if n.addr = addr then f n else n) }

/-- The node a lookup of the address yields: the registered node, or the fresh
node node_for_address would insert. -/
def node_at (b : Broker) (addr : Address) : Node :=
  (find_node b.nodes addr).getD (Node.fresh addr)

/-- Whether a state is one of the three server states. -/
def State.is_server (s : State) : Bool :=
  s = State.ServerActive || s = State.ServerLoading || s = State.ServerIdle

/-! ## Eviction -/

/-- The call nodes.erase(addr). -/
def erase_node (b : Broker) (addr : Address) : Broker :=
  { b with nodes := b.nodes.filter (fun n => !decide (n.addr = addr)) }

/-- The body of the second loop of disconnected: the client of a pairing
with the leaving server goes back to ClientWaiting. -/
def reset_client (s : Broker) (c : ClientConnection) : Broker :=
  update_node s c.client (fun n => { n with state := State.ClientWaiting })

/-- The function disconnected. -/
def disconnected (b : Broker) (addr : Address) : Broker :=
  let b0 := (node_for_address b addr).1
  let node := (node_for_address b addr).2
  let b1 : Broker :=
    if node.state = State.ServerActive
        ∨ node.state = State.ServerLoading
        ∨ node.state = State.ServerIdle then
      -- it is a server; remove from the server list
      let servers := (remove_loop (fun a => decide (a = addr)) (fun (u : Unit) _ => u)
        b0.servers.length 0 b0.servers ()).1
      let b0 := { b0 with servers := servers }
      -- reset any clients trying to connect to this server
      let r := remove_loop (fun (c : ClientConnection) => decide (c.server = addr))
        reset_client b0.clients_connecting.length 0 b0.clients_connecting b0
      { r.2 with clients_connecting := r.1 }
    else if node.state = State.ClientWaiting then
      -- it is a client waiting for a server; remove it from the wait list
      { b0 with clients_waiting :=
          (remove_loop (fun a => decide (a = addr)) (fun (u : Unit) _ => u)
            b0.clients_waiting.length 0 b0.clients_waiting ()).1 }
    else if node.state = State.ClientConnecting then
      -- remove it from the connecting list
      { b0 with clients_connecting :=
          (remove_loop (fun (c : ClientConnection) => decide (c.client = addr))
            (fun (u : Unit) _ => u)
            b0.clients_connecting.length 0 b0.clients_connecting ()).1 }
    else b0
  erase_node b1 addr

/-! ## Outgoing messages -/

/-- The function send_server_load.  Modelled from the spec: writing the
description with serialize_server_state (not among the sources) succeeds. -/
def send_server_load (timestamp : ℚ) (b : Broker) (server : Address) (s : ServerState) :
    Broker :=
  let b := update_node b server
    (fun n => { n with state := State.ServerLoading, server_state := s })
  { b with sent := b.sent ++ [Outgoing.ServerLoad timestamp server s] }

/-- The function send_client_connect. -/
def send_client_connect (timestamp : ℚ) (b : Broker) (server_addr addr : Address) : Broker :=
  { b with sent := b.sent ++
      [Outgoing.ClientConnect timestamp addr server_addr.host server_addr.port] }

/-! ## Packet dispatcher -/

/-- The validity test of a requested description in the ClientRequestServer
case: true when the request is refused. -/
def request_invalid (k : Env) (s : ServerState) : Bool :=
  s.level < 0
    || s.open_slots == 0
    || s.level ≥ k.level_count
    || (s.story_mode && s.open_slots != 1)
    || (s.story_mode && s.team_count != 2)

/-- The function packet_handle.  The argument received is the verdict of
messenger.received.  Modelled from the spec: the macro net_error (not among
the sources) rejects the message, so the function returns false where it
stands. -/
def packet_handle (k : Env) (b : Broker) (received : Bool) (p : Packet) (addr : Address)
    (timestamp : ℚ) : Bool × Broker :=
  if !received then (false, b) -- out of order
  else
    let b := update_node b addr (fun n => { n with last_message_timestamp := timestamp })
    let node := node_at b addr
    match p with
    | Packet.Ack => (true, b)
    | Packet.Disconnect => (true, disconnected b addr)
    | Packet.ClientRequestServer none => (false, b)
    | Packet.ClientRequestServer (some s) =>
      if request_invalid k s then (false, b)
      else if node.state = State.ClientConnecting then
        (true, b) -- ignore
      else if node.state = State.Invalid
          ∨ node.state = State.ClientIdle
          ∨ node.state = State.ClientWaiting then
        let b := update_node b addr (fun n => { n with server_state := s })
        let b :=
          if node.state ≠ State.ClientWaiting then
            -- add to client waiting list
            { b with clients_waiting := b.clients_waiting ++ [node.addr] }
          else b
        (true, update_node b addr (fun n => { n with state := State.ClientWaiting }))
      else (false, b) -- invalid state transition
    | Packet.ServerStatusUpdate secret active os =>
      if secret ≠ k.secret then (false, b)
      else
        match os with
        | none => (false, b)
        | some s =>
          if node.state = State.ServerLoading then
            if s.equals node.server_state && active then -- done loading
              let b := update_node b addr
                (fun n => { n with server_state := s, state := State.ServerActive })
              -- tell clients to connect to this server
              (true, b.clients_connecting.foldl
                (fun acc connection =>
                  if connection.server = node.addr then
                    send_client_connect timestamp acc node.addr connection.client
                  else acc) b)
            else (true, b)
          else if node.state = State.Invalid
              ∨ node.state = State.ServerActive
              ∨ node.state = State.ServerIdle then
            let b := update_node b addr (fun n => { n with server_state := s })
            let b :=
              if node.state = State.Invalid then
                -- add to server list
                { b with servers := b.servers ++ [node.addr] }
              else b
            (true, update_node b addr (fun n =>
              { n with state := if active then State.ServerActive else State.ServerIdle }))
          else (true, b)
    | Packet.ServerLoad => (false, b)
    | Packet.ClientConnect => (false, b)

/-! ## Matchmaking -/

/-- The function client_queue_join: take the client out of the waiting list
(first entry found) and record its pairing with the server. -/
def client_queue_join (b : Broker) (server client : Address) : Broker :=
  let b : Broker :=
    if (node_at b client).state = State.ClientWaiting then b
    else { b with assert_failed := true }
  let i := b.clients_waiting.indexOf client
  let b : Broker :=
    if i < b.clients_waiting.length then
      { b with clients_waiting := array_remove b.clients_waiting i }
    else { b with assert_failed := true }
  let b : Broker :=
    { b with clients_connecting :=
        b.clients_connecting ++ [{ client := client, server := server }] }
  update_node b client (fun n => { n with state := State.ClientConnecting })

/-- The body of the loop of server_open_slots: a pairing with the server takes
the open slots its client asked for off the count (s8 arithmetic); the lookup
of the client may insert a node. -/
def open_slots_step (server_addr : Address) (acc : Int × Broker)
    (connection : ClientConnection) : Int × Broker :=
  if connection.server = server_addr then
    (wrap8 (acc.1 - (node_for_address acc.2 connection.client).2.server_state.open_slots),
      (node_for_address acc.2 connection.client).1)
  else acc

/-- The function server_open_slots: the advertised open slots of the server
minus the open slots of the clients paired with it, in s8 arithmetic.  Returns
the count and the state (lookups may insert nodes). -/
def server_open_slots (b : Broker) (server : Address) : Int × Broker :=
  let node := node_at b server
  if node.state = State.ServerLoading
      ∨ node.state = State.ServerActive
      ∨ node.state = State.ServerIdle then
    b.clients_connecting.foldl (open_slots_step node.addr)
      (wrap8 node.server_state.open_slots, b)
  else (0, { b with assert_failed := true })

/-- The function alloc_server, scanning the servers from the given list on:
the first idle server is told to load the description. -/
def alloc_server (timestamp : ℚ) (s : ServerState) : List Address → Broker →
    Option Address × Broker
  | [], b => (none, b)
  | a :: rest, b =>
    let b := (node_for_address b a).1
    if (node_at b a).state = State.ServerIdle then
      (some a, send_server_load timestamp b a s)
    else alloc_server timestamp s rest b

/-- The locals of the matchmaking pass of proc next to the global state. -/
structure MatchState where
  broker : Broker
  multiplayer_servers : List Address
  existing_multiplayer_slots : Int
  idle_servers : Int
deriving DecidableEq, Repr

/-- The inner loop of the first pass for an idle server: find someone looking
for a story-mode server and give this server to them.  The list is the part
of the waiting list still to scan; the loop leaves at the first match. -/
def story_scan (timestamp : ℚ) (server : Address) : List Address → Broker → Broker
  | [], b => b
  | c :: rest, b =>
    let b := (node_for_address b c).1
    let client := node_at b c
    if client.server_state.story_mode then
      client_queue_join (send_server_load timestamp b server client.server_state) server c
    else story_scan timestamp server rest b

/-- One round of the first loop of the matchmaking pass, for servers[i] = a. -/
def match_server (timestamp : ℚ) (m : MatchState) (a : Address) : MatchState :=
  let b := (node_for_address m.broker a).1
  if (node_at b a).state = State.ServerIdle then
    let b := story_scan timestamp a b.clients_waiting b
    if (node_at b a).state = State.ServerIdle then -- still idle
      { m with broker := b, idle_servers := m.idle_servers + 1 }
    else { m with broker := b }
  else
    let b : Broker :=
      if (node_at b a).state = State.ServerActive
          ∨ (node_at b a).state = State.ServerLoading then b
      else { b with assert_failed := true }
    let r := server_open_slots b a
    if !(node_at r.2 a).server_state.story_mode && r.1 > 0 then
      { broker := r.2
        multiplayer_servers := m.multiplayer_servers ++ [a]
        existing_multiplayer_slots := m.existing_multiplayer_slots + r.1
        idle_servers := m.idle_servers }
    else { m with broker := r.2 }

/-- The sum of the open slots the waiting clients outside story mode ask
for. -/
def needed_multiplayer_slots (b : Broker) : Int × Broker :=
  b.clients_waiting.foldl
    (fun (acc : Int × Broker) a =>
      let b := (node_for_address acc.2 a).1
      if !(node_at b a).server_state.story_mode then
        (acc.1 + (node_at b a).server_state.open_slots, b)
      else (acc.1, b))
    (0, b)

/-- The description given to a server allocated for multiplayer. -/
def multiplayer_state (k : Env) : ServerState :=
  { level := k.medias_res, open_slots := 4, story_mode := false, team_count := 2 }

/-- The number of servers to allocate:
vi_min(idle_servers, ((needed - existing) + MAX_PLAYERS - 1) / MAX_PLAYERS),
the division being the truncating division of C. -/
def server_allocs (k : Env) (idle_servers needed existing : Int) : Int :=
  min idle_servers (Int.tdiv ((needed - existing) + k.max_players - 1) k.max_players)

/-- The allocation loop: at most n calls of alloc_server, left at the first
that finds no idle server. -/
def alloc_loop (k : Env) (timestamp : ℚ) : Nat → MatchState → MatchState
  | 0, m => m
  | n + 1, m =>
    match alloc_server timestamp (multiplayer_state k) m.broker.servers m.broker with
    | (some a, b) =>
      alloc_loop k timestamp n
        { m with broker := b, multiplayer_servers := m.multiplayer_servers ++ [a] }
    | (none, b) => { m with broker := b } -- not enough servers available

/-- The inner loop of the assignment, over the waiting list from index j on,
with the slots left on the server.  A round never lengthens the waiting list
and always advances j, so clients_waiting.length rounds are enough. -/
def assign_loop (timestamp : ℚ) (server : Address) : Nat → Nat → Int → Broker → Broker
  | 0, _, _, b => b
  | fuel + 1, j, slots, b =>
    match b.clients_waiting[j]? with
    | none => b
    | some c =>
      let b := (node_for_address b c).1
      let open_slots : Int := (node_at b c).server_state.open_slots
      if slots ≥ open_slots then
        let b := client_queue_join b server c
        let b :=
          if (node_at b server).state ≠ State.ServerLoading then
            -- server already loaded, no need to wait for it
            send_client_connect timestamp b server c
          else b
        let slots := wrap8 (slots - open_slots)
        if slots = 0 then b
        else assign_loop timestamp server fuel (j + 1) slots b
      else assign_loop timestamp server fuel (j + 1) slots b

/-- One round of the assignment loop, for multiplayer_servers[i] = a. -/
def assign_target (timestamp : ℚ) (b : Broker) (a : Address) : Broker :=
  let b := (node_for_address b a).1
  let r := server_open_slots b a
  assign_loop timestamp a r.2.clients_waiting.length 0 r.1 r.2

/-- The matchmaking pass of proc (the body of the if on MASTER_MATCH_INTERVAL). -/
def matchmake (k : Env) (b : Broker) (timestamp : ℚ) : Broker :=
  let m := b.servers.foldl (match_server timestamp)
    { broker := b, multiplayer_servers := [], existing_multiplayer_slots := 0,
      idle_servers := 0 }
  -- allocate multiplayer servers as necessary
  let needed := needed_multiplayer_slots m.broker
  let m := { m with broker := needed.2 }
  let n := server_allocs k m.idle_servers needed.1 m.existing_multiplayer_slots
  let m := alloc_loop k timestamp n.toNat m
  -- assign clients to servers
  m.multiplayer_servers.foldl (assign_target timestamp) m.broker

/-- The locals of the matchmaking pass at its start. -/
def match_start (b : Broker) : MatchState :=
  { broker := b, multiplayer_servers := [], existing_multiplayer_slots := 0,
    idle_servers := 0 }

/-- The first loop of the matchmaking pass, over the servers list. -/
def match_servers (b : Broker) (timestamp : ℚ) : MatchState :=
  b.servers.foldl (match_server timestamp) (match_start b)

/-- The allocation step of the matchmaking pass, from the locals the first
loop leaves. -/
def match_alloc (k : Env) (timestamp : ℚ) (m : MatchState) : MatchState :=
  let needed := needed_multiplayer_slots m.broker
  let m := { m with broker := needed.2 }
  let n := server_allocs k m.idle_servers needed.1 m.existing_multiplayer_slots
  alloc_loop k timestamp n.toNat m

/-- The assignment loop of the matchmaking pass, from the locals the
allocation step leaves. -/
def match_assign (timestamp : ℚ) (m : MatchState) : Broker :=
  m.multiplayer_servers.foldl (assign_target timestamp) m.broker

/-! ## Audit -/

/-- The addresses the audit collects: the nodes whose last message is older
than the threshold, in registry order. -/
def audit_removals (b : Broker) (timestamp : ℚ) : List Address :=
  (b.nodes.filter
    (fun n => decide (n.last_message_timestamp < timestamp - MASTER_INACTIVE_THRESHOLD))).map
    (fun n => n.addr)

/-- The audit of proc: every collected address is disconnected. -/
def audit (b : Broker) (timestamp : ℚ) : Broker :=
  (audit_removals b timestamp).foldl disconnected b

/-- The states the master server can be in: the empty state, and what
packet_handle, an audit and a matchmaking pass make of a state it can be in.
The iteration order of the registry is unspecified, so an audit may disconnect
the collected addresses in any order. -/
inductive Reachable (k : Env) : Broker → Prop where
  | init : Reachable k Broker.empty
  | packet (b : Broker) (received : Bool) (p : Packet) (addr : Address) (timestamp : ℚ) :
      Reachable k b → Reachable k (packet_handle k b received p addr timestamp).2
  | audit (b : Broker) (timestamp : ℚ) (order : List Address) :
      Reachable k b → order.Perm (audit_removals b timestamp) →
      Reachable k (order.foldl disconnected b)
  | matchmake (b : Broker) (timestamp : ℚ) :
      Reachable k b → Reachable k (matchmake k b timestamp)

/-- The sum of the open slots requested by the clients of the pairings that
reference the server. -/
def paired_slots (b : Broker) (server : Address) : Nat :=
  ((b.clients_connecting.filter (fun c => decide (c.server = server))).map
    (fun c => (node_at b c.client).server_state.open_slots)).sum

/-! ## Main loop -/

/-- The locals of the main loop of proc next to the global state. -/
structure Loop where
  broker : Broker
  last_audit : ℚ
  last_match : ℚ
  timestamp : ℚ
  last_update : ℚ

/-- What one iteration of the main loop gets from outside: the reading of
platform::time, the order in which the registry yields the nodes the audit
collects, and the datagram read, when there is one with a good checksum: the
verdict of messenger.received on it, the message and the sender. -/
structure Input where
  time : ℚ
  order : List Address
  packet : Option (Bool × Packet × Address)

/-- The locals of proc on entry of the main loop, platform::time reading
t0. -/
def proc_start (t0 : ℚ) : Loop :=
  { broker := Broker.empty, last_audit := 0, last_match := 0, timestamp := 0,
    last_update := t0 }

/-- One iteration of the main loop of proc.  Modelled from the spec: the call
messenger.update (not among the sources) is the retransmission housekeeping
of the messenger and leaves the state of the broker alone. -/
def proc_step (k : Env) (s : Loop) (i : Input) : Loop :=
  let timestamp := s.timestamp + min (1 / 4) (i.time - s.last_update)
  -- remove inactive nodes
  let s1 : Loop :=
    if timestamp - s.last_audit > MASTER_AUDIT_INTERVAL then
      { s with broker := i.order.foldl disconnected s.broker, last_audit := timestamp }
    else s
  let s2 : Loop :=
    if timestamp - s1.last_match > MASTER_MATCH_INTERVAL then
      { s1 with broker := matchmake k s1.broker timestamp, last_match := timestamp }
    else s1
  let b3 : Broker :=
    match i.packet with
    | none => s2.broker
    | some (received, p, addr) => (packet_handle k s2.broker received p addr timestamp).2
  { broker := b3, last_audit := s2.last_audit, last_match := s2.last_match,
    timestamp := timestamp, last_update := i.time }

/-- The main loop of proc over the inputs of its iterations. -/
def proc_run (k : Env) (s : Loop) (inputs : List Input) : Loop :=
  inputs.foldl (proc_step k) s

/-! ## Vocabulary of the properties -/

/-- A description the ClientRequestServer case accepts: the refusal test of
the source (request_invalid) negated, condition by condition. -/
def valid_request (k : Env) (s : ServerState) : Prop :=
  0 ≤ s.level ∧ s.level < k.level_count ∧ s.open_slots ≠ 0
    ∧ (s.story_mode = true → s.open_slots = 1 ∧ s.team_count = 2)

/-- The role invariant, on the state st of every address, the waiting list W
and the pairing list P: the waiting list holds waiting clients, once each;
the clients of the pairings are connecting clients, in one pairing each; and
every connecting client has a pairing. -/
structure RoleInv (st : Address → State) (W : List Address) (P : List ClientConnection) :
    Prop where
  waiting_state : ∀ a ∈ W, st a = State.ClientWaiting
  waiting_nodup : W.Nodup
  pairing_state : ∀ c ∈ P, st c.client = State.ClientConnecting
  pairing_nodup : (P.map (fun c => c.client)).Nodup
  connecting_paired : ∀ a, st a = State.ClientConnecting → a ∈ P.map (fun c => c.client)

/-- The role invariant of a state of the master server, with the registry
holding one node for an address at most. -/
structure PairingInv (b : Broker) : Prop where
  keys : (b.nodes.map (fun n => n.addr)).Nodup
  roles : RoleInv (fun a => (node_at b a).state) b.clients_waiting b.clients_connecting

/-- A property of the state that every elementary step of the matchmaking
pass keeps.  The steps are: a registry lookup, a failed assertion, telling an
idle server to load, joining a client of the waiting list to a server, and
sending the connect notice for a pairing that is in the list. -/
structure PassStable (timestamp : ℚ) (R : Broker → Prop) : Prop where
  lookup : ∀ b a, R b → R (node_for_address b a).1
  assert : ∀ b, R b → R { b with assert_failed := true }
  load : ∀ b a s, R b → (node_at b a).state = State.ServerIdle →
    R (send_server_load timestamp b a s)
  join : ∀ b server c, R b → c ∈ b.clients_waiting → R (client_queue_join b server c)
  connect : ∀ b server c, R b → { client := c, server := server } ∈ b.clients_connecting →
    R (send_client_connect timestamp b server c)

/-- From the state b0 to the state b no pairing was removed (the pairing list
of b0 starts the pairing list of b), messages were only added to those sent,
and the pairing of every ClientConnect among the added messages, the
addressee with the server named in the message, is in the pairing list of
b. -/
def pairings_kept (b0 b : Broker) : Prop :=
  b0.clients_connecting <+: b.clients_connecting
  ∧ ∃ ms : List Outgoing, b.sent = b0.sent ++ ms
    ∧ ∀ (t : ℚ) (c : Address) (host port : Nat), Outgoing.ClientConnect t c host port ∈ ms →
      ({ client := c, server := ⟨host, port⟩ } : ClientConnection) ∈ b.clients_connecting

/-- For every server node, the open slots requested by the clients paired
with it do not exceed the open slots it advertises. -/
def slots_bounded (b : Broker) : Prop :=
  ∀ s, (node_at b s).state.is_server = true →
    paired_slots b s ≤ (node_at b s).server_state.open_slots

/-- Every server node advertises a number of open slots that an s8 holds. -/
def slots_fit_s8 (b : Broker) : Prop :=
  ∀ s, (node_at b s).state.is_server = true → (node_at b s).server_state.open_slots ≤ 127

/-- The invariant of the assignment scan of the target a with z slots left:
for every server the paired slots, with the slots left counted in for the
target, stay within the advertised open slots. -/
def scan_bounded (a : Address) (z : Int) (b : Broker) : Prop :=
  slots_fit_s8 b
  ∧ ∀ s, (node_at b s).state.is_server = true →
    (paired_slots b s : Int) + (if s = a then z else 0)
      ≤ ((node_at b s).server_state.open_slots : Int)

/-- The addresses that have a node in the registry. -/
def registered (b : Broker) : List Address := b.nodes.map (fun n => n.addr)

/-- What disconnected makes of the state b for the address A, written out:
the node of A is gone; when A was a server the clients paired with it are
back to ClientWaiting; A is taken out of the list of its role (the removal
of the source may reorder the list, hence the permutations); nothing is
sent. -/
structure Disconnected (b b' : Broker) (A : Address) : Prop where
  node : ∀ a, node_at b' a =
    if a = A then Node.fresh A
    else if (node_at b A).state.is_server = true
        ∧ a ∈ (b.clients_connecting.filter (fun c => decide (c.server = A))).map
          (fun c => c.client)
      then { node_at b a with state := State.ClientWaiting }
      else node_at b a
  keys : ∀ a, a ∈ registered b' ↔
    a ≠ A ∧ (a ∈ registered b ∨ ((node_at b A).state.is_server = true
      ∧ a ∈ (b.clients_connecting.filter (fun c => decide (c.server = A))).map
        (fun c => c.client)))
  keys_nodup : (registered b).Nodup → (registered b').Nodup
  servers : b'.servers.Perm
    (if (node_at b A).state.is_server = true
      then b.servers.filter (fun a => !decide (a = A)) else b.servers)
  waiting : b'.clients_waiting.Perm
    (if (node_at b A).state = State.ClientWaiting
      then b.clients_waiting.filter (fun a => !decide (a = A)) else b.clients_waiting)
  pairings : b'.clients_connecting.Perm
    (if (node_at b A).state.is_server = true
      then b.clients_connecting.filter (fun c => !decide (c.server = A))
      else if (node_at b A).state = State.ClientConnecting
        then b.clients_connecting.filter (fun c => !decide (c.client = A))
        else b.clients_connecting)
  sent : b'.sent = b.sent
  assert_failed : b'.assert_failed = b.assert_failed

/-- The server half of the role invariant, on the state st of every address,
the servers list S and the pairing list P: the servers list holds the nodes
in a server state, once each, and the server of every pairing is in the
servers list. -/
structure ServerCore (st : Address → State) (S : List Address) (P : List ClientConnection) :
    Prop where
  servers_state : ∀ a ∈ S, (st a).is_server = true
  servers_nodup : S.Nodup
  server_listed : ∀ a, (st a).is_server = true → a ∈ S
  pairing_server : ∀ p ∈ P, p.server ∈ S

/-- The invariant of the states of the master server: the role invariant of
clients and pairings, and that of the servers. -/
structure FullInv (b : Broker) : Prop where
  pairing : PairingInv b
  servers : ServerCore (fun a => (node_at b a).state) b.servers b.clients_connecting

/-- A property of the state that the lookups of the matchmaking pass keep,
each taken as the pass takes it: a lookup of an address of one of the role
lists, and an assertion failing on a listed server that is in no server
state. -/
structure LookupStep (R : Broker → Prop) : Prop where
  lookup : ∀ b a, R b →
    (a ∈ b.servers ∨ a ∈ b.clients_waiting
      ∨ a ∈ b.clients_connecting.map (fun c => c.client)) →
    R (node_for_address b a).1
  assert : ∀ b a, R b → a ∈ b.servers → (node_at b a).state.is_server = false →
    R { b with assert_failed := true }

/-- A property of the state that the steps of the assignment loop keep: the
lookups, joining a client of the waiting list to a listed server, and sending
the connect notice of a pairing in the list whose server is listed and not
loading. -/
structure AssignStep (timestamp : ℚ) (R : Broker → Prop) extends LookupStep R : Prop where
  join : ∀ b server c, R b → c ∈ b.clients_waiting → server ∈ b.servers →
    R (client_queue_join b server c)
  connect : ∀ b server c, R b →
    { client := c, server := server } ∈ b.clients_connecting → server ∈ b.servers →
    (node_at b server).state ≠ State.ServerLoading →
    R (send_client_connect timestamp b server c)

/-- A property of the state that every elementary step of the matchmaking
pass keeps: the steps of the assignment loop, and telling a listed idle server
to load the default multiplayer description or the story-mode description of
a waiting client. -/
structure PassStep (k : Env) (timestamp : ℚ) (R : Broker → Prop)
    extends AssignStep timestamp R : Prop where
  load : ∀ b a s, R b → a ∈ b.servers → (node_at b a).state = State.ServerIdle →
    (s = multiplayer_state k
      ∨ ∃ c ∈ b.clients_waiting, (node_at b c).server_state = s ∧ s.story_mode = true) →
    R (send_server_load timestamp b a s)

/-- Nothing refers to the address: it has no registry entry, it is in neither
the servers list nor the waiting list, and no pairing has it as its client or
as its server. -/
def no_reference (b : Broker) (A : Address) : Prop :=
  find_node b.nodes A = none ∧ A ∉ b.servers ∧ A ∉ b.clients_waiting
    ∧ ∀ p ∈ b.clients_connecting, p.client ≠ A ∧ p.server ≠ A

/-- The state b shows what the state b0 shows: the same node at every address,
the same role lists and pairings, the same messages sent.  (Lookups may have
inserted nodes in state Invalid, and an assertion may have failed.) -/
structure SameView (b0 b : Broker) : Prop where
  node : ∀ a, node_at b a = node_at b0 a
  servers : b.servers = b0.servers
  waiting : b.clients_waiting = b0.clients_waiting
  pairings : b.clients_connecting = b0.clients_connecting
  sent : b.sent = b0.sent

/-- The outcome of the story-mode step for the server S and the client c
with the description d: the server is loading d, the client is connecting and
out of the waiting list, the two are paired, and the server has been sent
ServerLoad with d. -/
structure StoryPaired (timestamp : ℚ) (S c : Address) (d : ServerState) (b : Broker) :
    Prop where
  inv : FullInv b
  server_state : (node_at b S).state = State.ServerLoading
  description : (node_at b S).server_state = d
  client_state : (node_at b c).state = State.ClientConnecting
  not_waiting : c ∉ b.clients_waiting
  paired : { client := c, server := S } ∈ b.clients_connecting
  sent : Outgoing.ServerLoad timestamp S d ∈ b.sent

/-- The number of addresses of the list whose node is ServerIdle. -/
def idle_among (b : Broker) (l : List Address) : Nat :=
  (l.filter (fun a => decide ((node_at b a).state = State.ServerIdle))).length

/-- The number of servers of the servers list that are ServerIdle. -/
def idle_count (b : Broker) : Nat := idle_among b b.servers

/-- The open slots the waiting clients outside story mode ask for, summed. -/
def waiting_demand (b : Broker) : Int :=
  ((b.clients_waiting.filter (fun c => !(node_at b c).server_state.story_mode)).map
    (fun c => ((node_at b c).server_state.open_slots : Int))).sum

/-- The effective open slots of the targets of the pass, summed. -/
def targets_capacity (m : MatchState) : Int :=
  (m.multiplayer_servers.map (fun a => (server_open_slots m.broker a).1)).sum

/-- The input is one the iteration can get in the state s: the clock does not
run backwards, and when the audit is due the order is an order of the
addresses it collects. -/
def input_ok (s : Loop) (i : Input) : Prop :=
  s.last_update ≤ i.time
  ∧ (s.timestamp + min (1 / 4) (i.time - s.last_update) - s.last_audit > MASTER_AUDIT_INTERVAL →
    i.order.Perm
      (audit_removals s.broker (s.timestamp + min (1 / 4) (i.time - s.last_update))))

/-- Every input of the list is one its iteration can get. -/
def inputs_ok (k : Env) : Loop → List Input → Prop
  | _, [] => True
  | s, i :: rest => input_ok s i ∧ inputs_ok k (proc_step k s i) rest

/-- The address A has been silent since the time L, in the state s of the
loop: its node, when it has one, bears a time no later than L, and it has
none when the last audit ran later than L + the inactivity threshold. -/
structure Silent (A : Address) (L : ℚ) (s : Loop) : Prop where
  inv : FullInv s.broker
  stamp : A ∈ registered s.broker → (node_at s.broker A).last_message_timestamp ≤ L
  gone : s.last_audit > L + MASTER_INACTIVE_THRESHOLD → A ∉ registered s.broker

instance input_ok_decidable (s : Loop) (i : Input) : Decidable (input_ok s i) := by
  unfold input_ok
  infer_instance

/-- Whether every input of the list is one its iteration can get. -/
def inputs_ok_decide (k : Env) : (s : Loop) → (l : List Input) → Decidable (inputs_ok k s l)
  | _, [] => isTrue True.intro
  | s, i :: rest =>
    match input_ok_decidable s i, inputs_ok_decide k (proc_step k s i) rest with
    | isTrue h1, isTrue h2 => isTrue ⟨h1, h2⟩
    | isFalse h1, _ => isFalse (fun h => h1 h.1)
    | _, isFalse h2 => isFalse (fun h => h2 h.2)

instance inputs_ok_decidable (k : Env) (s : Loop) (l : List Input) :
    Decidable (inputs_ok k s l) := inputs_ok_decide k s l

/-- Whether the first loop of the matchmaking pass takes the server as a
target: it is ServerActive or ServerLoading, its description is not story
mode, and server_open_slots gives a positive number for it. -/
def multiplayer_capable (b : Broker) (a : Address) : Bool :=
  (decide ((node_at b a).state = State.ServerActive)
      || decide ((node_at b a).state = State.ServerLoading))
    && !(node_at b a).server_state.story_mode
    && decide ((server_open_slots b a).1 > 0)

/-- A property of the state that the matchmaking pass keeps, step by step as
the pass takes them from a state with the invariant of the lists: a lookup of
an address of one of the role lists; the story-mode step (a listed idle
server is told to load the description of a waiting client asking for story
mode, and the client joins it); the allocation of a listed idle server with
the default multiplayer description; and the assignment of a waiting client to
a listed server, with the connect notice when the server is ServerActive and
without it when the server is ServerLoading. -/
structure TickStep (k : Env) (timestamp : ℚ) (R : Broker → Prop) : Prop where
  lookup : ∀ b a, FullInv b → R b →
    (a ∈ b.servers ∨ a ∈ b.clients_waiting
      ∨ a ∈ b.clients_connecting.map (fun c => c.client)) →
    R (node_for_address b a).1
  story : ∀ b S c, FullInv b → R b → S ∈ b.servers →
    (node_at b S).state = State.ServerIdle → c ∈ b.clients_waiting →
    (node_at b c).server_state.story_mode = true →
    R (client_queue_join (send_server_load timestamp b S (node_at b c).server_state) S c)
  alloc : ∀ b a, FullInv b → R b → a ∈ b.servers →
    (node_at b a).state = State.ServerIdle →
    R (send_server_load timestamp b a (multiplayer_state k))
  assign_active : ∀ b server c, FullInv b → R b → c ∈ b.clients_waiting →
    server ∈ b.servers → (node_at b server).state = State.ServerActive →
    R (send_client_connect timestamp (client_queue_join b server c) server c)
  assign_loading : ∀ b server c, FullInv b → R b → c ∈ b.clients_waiting →
    server ∈ b.servers → (node_at b server).state = State.ServerLoading →
    R (client_queue_join b server c)

/-- Whether the message is a connect notice. -/
def Outgoing.is_connect : Outgoing → Bool
  | Outgoing.ClientConnect _ _ _ _ => true
  | Outgoing.ServerLoad _ _ _ => false

/-- Whether the message is a connect notice for the client c. -/
def Outgoing.connects (c : Address) : Outgoing → Bool
  | Outgoing.ClientConnect _ dest _ _ => decide (dest = c)
  | Outgoing.ServerLoad _ _ _ => false

/-- The connect notice send_client_connect sends for the pairing at the time
t. -/
def connect_notice (t : ℚ) (p : ClientConnection) : Outgoing :=
  Outgoing.ClientConnect t p.client p.server.host p.server.port

/-- What the matchmaking pass at time t has made of the state b0 so far, in
the state b: it has appended the pairings new and sent the messages ms; the
server of every new pairing is ServerActive or ServerLoading; and the connect
notices among ms are those of the new pairings whose server is ServerActive,
one each, in the order of the pairings. -/
def TickLog (t : ℚ) (b0 b : Broker) (new : List ClientConnection) (ms : List Outgoing) :
    Prop :=
  b.clients_connecting = b0.clients_connecting ++ new
  ∧ b.sent = b0.sent ++ ms
  ∧ (∀ p ∈ new, (node_at b p.server).state = State.ServerActive
    ∨ (node_at b p.server).state = State.ServerLoading)
  ∧ ms.filter Outgoing.is_connect
    = (new.filter (fun p => decide ((node_at b p.server).state = State.ServerActive))).map
      (connect_notice t)

/-- Whether a state is ClientWaiting or ClientConnecting, the states of a
client that has asked for a server. -/
def State.is_asking (s : State) : Bool :=
  s = State.ClientWaiting || s = State.ClientConnecting

/-- The role of a node in the state s is the role of the node in the state
s2: a server state stays a server state, and a client that has asked for a
server stays one. -/
def role_kept (s s2 : State) : Prop :=
  (s.is_server = true → s2.is_server = true) ∧ (s.is_asking = true → s2.is_asking = true)

/-- A run of the master server from the state b to the state b2 in which the
address a has a registry node after every step: the steps are those of
Reachable (a message, an audit, a matchmaking pass). -/
inductive StaysFrom (k : Env) (a : Address) (b : Broker) : Broker → Prop where
  | start : StaysFrom k a b b
  | packet (b1 : Broker) (received : Bool) (p : Packet) (addr : Address) (timestamp : ℚ) :
      StaysFrom k a b b1 →
      a ∈ registered (packet_handle k b1 received p addr timestamp).2 →
      StaysFrom k a b (packet_handle k b1 received p addr timestamp).2
  | audit (b1 : Broker) (timestamp : ℚ) (order : List Address) :
      StaysFrom k a b b1 → order.Perm (audit_removals b1 timestamp) →
      a ∈ registered (order.foldl disconnected b1) →
      StaysFrom k a b (order.foldl disconnected b1)
  | matchmake (b1 : Broker) (timestamp : ℚ) :
      StaysFrom k a b b1 → StaysFrom k a b (matchmake k b1 timestamp)

/-- Whether the message is a ServerLoad for the server a. -/
def Outgoing.loads (a : Address) : Outgoing → Bool
  | Outgoing.ServerLoad _ dest _ => decide (dest = a)
  | Outgoing.ClientConnect _ _ _ _ => false

/-- The ServerLoad messages of a pass so far, ms: each went at the time of
the pass to a listed server that was ServerIdle at the start of the pass, is
the only one of the pass for that server, and the server is ServerLoading
with the description of the message. -/
def LoadLog (t : ℚ) (b0 b : Broker) (ms : List Outgoing) : Prop :=
  b.sent = b0.sent ++ ms
  ∧ ∀ (t2 : ℚ) (a : Address) (s : ServerState), Outgoing.ServerLoad t2 a s ∈ ms →
    t2 = t ∧ a ∈ b0.servers ∧ (node_at b0 a).state = State.ServerIdle
    ∧ (node_at b a).state = State.ServerLoading ∧ (node_at b a).server_state = s
    ∧ ms.filter (Outgoing.loads a) = [Outgoing.ServerLoad t a s]

/-! ## Example runs -/

/-- Constants of the example runs: the secret is 7 and there are 10 levels. -/
def example_env : Env := { secret := 7, level_count := 10, medias_res := 3, max_players := 4 }

/-- The address of the server of the example runs. -/
def example_server : Address := ⟨1, 1⟩

/-- The address of the client of the example runs. -/
def example_client : Address := ⟨2, 2⟩

/-- A multiplayer request for two slots. -/
def example_request : ServerState := ⟨1, 2, false, 2⟩

/-- A story-mode request for two slots (scenario B of the spec). -/
def example_story_two : ServerState := ⟨1, 2, true, 2⟩

/-- First run, step 1: a server reports active with 4 open slots at time 1. -/
def run1 : Broker :=
  (packet_handle example_env Broker.empty true
    (Packet.ServerStatusUpdate 7 true (some ⟨1, 4, false, 2⟩)) example_server 1).2

/-- First run, step 2: a client asks for a server for two players at time 2. -/
def run2 : Broker :=
  (packet_handle example_env run1 true
    (Packet.ClientRequestServer (some example_request)) example_client 2).2

/-- First run, step 3: the matchmaking pass pairs the client with the active
server and sends the connect notice. -/
def run3 : Broker := matchmake example_env run2 2

/-- First run, step 4: the server reports active with 1 open slot at time 3. -/
def run4 : Broker :=
  (packet_handle example_env run3 true
    (Packet.ServerStatusUpdate 7 true (some ⟨1, 1, false, 2⟩)) example_server 3).2

/-- Second run, step 1: a server reports idle at time 1. -/
def load1 : Broker :=
  (packet_handle example_env Broker.empty true
    (Packet.ServerStatusUpdate 7 false (some ⟨1, 4, false, 2⟩)) example_server 1).2

/-- Second run, step 2: a client asks for a server for two players. -/
def load2 : Broker :=
  (packet_handle example_env load1 true
    (Packet.ClientRequestServer (some example_request)) example_client 2).2

/-- Second run, step 3: the matchmaking pass allocates the idle server
(ServerLoading) and pairs the client with it. -/
def load3 : Broker := matchmake example_env load2 2

/-- Second run, step 4: the server reports active with the assigned
description at time 3. -/
def load4 : Broker :=
  (packet_handle example_env load3 true
    (Packet.ServerStatusUpdate 7 true (some ⟨3, 4, false, 2⟩)) example_server 3).2

/-- The address of a second client. -/
def example_second_client : Address := ⟨3, 3⟩

/-- First run, step 4 bis: instead of reporting, the server says Disconnect at
time 3. -/
def left1 : Broker :=
  (packet_handle example_env run3 true Packet.Disconnect example_server 3).2

/-- First run, step 5 bis: the client asks again at time 4. -/
def left2 : Broker :=
  (packet_handle example_env left1 true
    (Packet.ClientRequestServer (some example_request)) example_client 4).2

/-- First run, step 6 bis: another server, at (4, 4), reports active with 4
open slots at time 4. -/
def left3 : Broker :=
  (packet_handle example_env left2 true
    (Packet.ServerStatusUpdate 7 true (some ⟨1, 4, false, 2⟩)) ⟨4, 4⟩ 4).2

/-- First run, step 7 bis: the matchmaking pass at time 5. -/
def left4 : Broker := matchmake example_env left3 5

/-- Third run (scenario C of the spec), step 3: after the idle server and the
first client of the second run, a second client asks for a server for two
players. -/
def pair1 : Broker :=
  (packet_handle example_env load2 true
    (Packet.ClientRequestServer (some example_request)) example_second_client 2).2

/-- Third run, step 4: the matchmaking pass at time 2. -/
def pair2 : Broker := matchmake example_env pair1 2

/-- Third run, step 5: the matchmaking pass at time 3. -/
def pair3 : Broker := matchmake example_env pair2 3

/-- A story-mode request (scenario A of the spec). -/
def example_story : ServerState := ⟨2, 1, true, 2⟩

/-- Fourth run (scenario A), step 2: after the idle server of the second run,
a client asks for a story-mode server at time 2. -/
def story1 : Broker :=
  (packet_handle example_env load1 true
    (Packet.ClientRequestServer (some example_story)) example_client 2).2

/-- Fifth run (scenario D of the spec), first iteration: the clock reads 1/4
and a server reports active. -/
def quiet_first : Input :=
  { time := 1 / 4, order := [],
    packet := some (true, Packet.ServerStatusUpdate 7 true (some ⟨1, 4, false, 2⟩),
      example_server) }

/-- Fifth run, the next 34 iterations, a quarter of a second apart, without
any datagram; the audit of the iteration at time 15/2 collects the server. -/
def quiet_rest : List Input :=
  (List.range 34).map (fun n =>
    { time := ((n : ℚ) + 2) / 4, order := if n = 28 then [example_server] else [],
      packet := none })

/-- Sixth run, step 4: after step 3 of the first run the server reports
active with no open slot at time 3. -/
def full1 : Broker :=
  (packet_handle example_env run3 true
    (Packet.ServerStatusUpdate 7 true (some ⟨1, 0, false, 2⟩)) example_server 3).2

/-- Sixth run, step 5: a second client asks for a server for four players at
time 3. -/
def full2 : Broker :=
  (packet_handle example_env full1 true
    (Packet.ClientRequestServer (some ⟨1, 4, false, 2⟩)) example_second_client 3).2

/-- Seventh run, step 3: after the active server and the first client of the
first run, a second client asks for a server for two players at time 2. -/
def skip1 : Broker :=
  (packet_handle example_env run2 true
    (Packet.ClientRequestServer (some example_request)) example_second_client 2).2

/-- Seventh run, step 4: the matchmaking pass at time 2. -/
def skip2 : Broker := matchmake example_env skip1 2

/-- Eighth run, step 2: after the active server of the first run, a client
asks for a story-mode server at time 2. -/
def mixed1 : Broker :=
  (packet_handle example_env run1 true
    (Packet.ClientRequestServer (some example_story)) example_client 2).2

/-- Eighth run, step 3: the matchmaking pass at time 2. -/
def mixed2 : Broker := matchmake example_env mixed1 2

/-! ## Lemmas -/

theorem array_remove_split {α : Type} (pre : List α) (x : α) (t : List α) :
    ∃ r, array_remove (pre ++ x :: t) pre.length = pre ++ r ∧ r.Perm t := by
  rcases List.eq_nil_or_concat t with ht | ⟨t', l, ht⟩
  on_goal 2 => rw [List.concat_eq_append] at ht
  · subst ht
    refine ⟨[], ?_, List.Perm.refl _⟩
    simp [array_remove, List.getLast?_append]
  · subst ht
    refine ⟨l :: t', ?_, ?_⟩
    · have h1 : (pre ++ x :: (t' ++ [l])).getLast? = some l := by
        rw [← List.cons_append, ← List.append_assoc, List.getLast?_concat]
      unfold array_remove
      rw [h1]
      simp only []
      have h2 : (pre ++ x :: (t' ++ [l])).set pre.length l = (pre ++ l :: t') ++ [l] := by
        simp [List.set_append]
      rw [h2, List.dropLast_concat]
    · exact (List.perm_append_singleton l t').symm

theorem remove_loop_spec {α σ : Type} (p : α → Bool) (body : σ → α → σ) :
    ∀ (fuel : Nat) (pre suf : List α) (s : σ), suf.length ≤ fuel →
      ∃ (r rs : List α), remove_loop p body fuel pre.length (pre ++ suf) s = (pre ++ r, rs.foldl body s)
        ∧ r.Perm (suf.filter (fun x => !p x)) ∧ rs.Perm (suf.filter p) := by
  intro fuel
  induction fuel with
  | zero =>
    intro pre suf s h
    have : suf = [] := List.length_eq_zero.mp (Nat.le_zero.mp h)
    subst this
    exact ⟨[], [], by simp [remove_loop], by simp, by simp⟩
  | succ n ih =>
    intro pre suf s h
    cases suf with
    | nil => exact ⟨[], [], by simp [remove_loop], by simp, by simp⟩
    | cons x t =>
      have hx : (pre ++ x :: t)[pre.length]? = some x := by
        rw [List.getElem?_append_right (le_refl _)]; simp
      by_cases hp : p x = true
      · obtain ⟨t', ht', hperm⟩ := array_remove_split pre x t
        have hlen : t'.length ≤ n := by
          rw [hperm.length_eq]; simpa using h
        obtain ⟨r, rs, hr, hr1, hr2⟩ := ih pre t' (body s x) hlen
        refine ⟨r, x :: rs, ?_, ?_, ?_⟩
        · simp only [remove_loop, hx, hp, if_true, ht', hr, List.foldl_cons]
        · simpa [List.filter_cons, hp] using hr1.trans (hperm.filter _)
        · simpa [List.filter_cons, hp] using hr2.trans (hperm.filter _)
      · have hlen : t.length ≤ n := by simpa using h
        obtain ⟨r, rs, hr, hr1, hr2⟩ := ih (pre ++ [x]) t s hlen
        refine ⟨x :: r, rs, ?_, ?_, ?_⟩
        · have e1 : pre ++ x :: t = (pre ++ [x]) ++ t := by simp
          have e2 : pre.length + 1 = (pre ++ [x]).length := by simp
          simp only [remove_loop, hx, hp]
          rw [e1, e2, hr]
          simp
        · simpa [List.filter_cons, hp] using hr1
        · simpa [List.filter_cons, hp] using hr2

/-- The removal loop run from index 0 with enough fuel. -/
theorem remove_loop_zero {α σ : Type} (p : α → Bool) (body : σ → α → σ) (xs : List α) (s : σ) :
    ∃ (rs : List α), (remove_loop p body xs.length 0 xs s).1.Perm (xs.filter (fun x => !p x))
      ∧ (remove_loop p body xs.length 0 xs s).2 = rs.foldl body s ∧ rs.Perm (xs.filter p) := by
  obtain ⟨r, rs, h, h1, h2⟩ := remove_loop_spec p body xs.length [] xs s le_rfl
  simp only [List.length_nil, List.nil_append] at h
  exact ⟨rs, by rw [h]; exact h1, by rw [h], h2⟩

theorem find_node_addr {nodes : List Node} {a : Address} {n : Node}
    (h : find_node nodes a = some n) : n.addr = a := by
  have := List.find?_some h
  simpa using this

theorem node_at_addr (b : Broker) (a : Address) : (node_at b a).addr = a := by
  unfold node_at
  cases h : find_node b.nodes a with
  | none => rfl
  | some n => simpa using find_node_addr h

theorem node_for_address_snd (b : Broker) (a : Address) :
    (node_for_address b a).2 = node_at b a := by
  unfold node_for_address node_at
  cases h : find_node b.nodes a <;> rfl

theorem node_at_node_for_address (b : Broker) (a c : Address) :
    node_at (node_for_address b a).1 c = node_at b c := by
  unfold node_for_address node_at
  cases h : find_node b.nodes a with
  | some n => rfl
  | none =>
    simp only [find_node, List.find?_append, List.find?_cons, List.find?_nil] at h ⊢
    by_cases hc : a = c
    · subst hc
      simp [h, Node.fresh]
    · cases h2 : List.find? (fun n => decide (n.addr = c)) b.nodes <;> simp [Node.fresh, hc]

theorem node_for_address_servers (b : Broker) (a : Address) :
    (node_for_address b a).1.servers = b.servers := by
  unfold node_for_address; cases find_node b.nodes a <;> rfl

theorem node_for_address_clients_waiting (b : Broker) (a : Address) :
    (node_for_address b a).1.clients_waiting = b.clients_waiting := by
  unfold node_for_address; cases find_node b.nodes a <;> rfl

theorem node_for_address_clients_connecting (b : Broker) (a : Address) :
    (node_for_address b a).1.clients_connecting = b.clients_connecting := by
  unfold node_for_address; cases find_node b.nodes a <;> rfl

theorem node_for_address_sent (b : Broker) (a : Address) :
    (node_for_address b a).1.sent = b.sent := by
  unfold node_for_address; cases find_node b.nodes a <;> rfl

theorem node_for_address_assert_failed (b : Broker) (a : Address) :
    (node_for_address b a).1.assert_failed = b.assert_failed := by
  unfold node_for_address; cases find_node b.nodes a <;> rfl

theorem find_node_node_for_address (b : Broker) (a : Address) :
    find_node (node_for_address b a).1.nodes a = some (node_at b a) := by
  unfold node_for_address node_at
  cases h : find_node b.nodes a with
  | some n => simp [h]
  | none =>
    simp only [find_node, List.find?_append] at h ⊢
    simp [h, Node.fresh]

theorem find_node_map (nodes : List Node) (a c : Address) (f : Node → Node)
    (hf : ∀ n, (f n).addr = n.addr) :
    find_node (nodes.map (fun n => if n.addr = a then f n else n)) c
      = (find_node nodes c).map (fun n => if n.addr = a then f n else n) := by
  induction nodes with
  | nil => rfl
  | cons x xs ih =>
    have hx : (if x.addr = a then f x else x).addr = x.addr := by
      split
      · exact hf x
      · rfl
    simp only [find_node, List.map_cons, List.find?_cons, hx] at ih ⊢
    by_cases h : x.addr = c
    · simp [h]
    · simp [h, ih]

theorem node_at_update_node (b : Broker) (a c : Address) (f : Node → Node)
    (hf : ∀ n, (f n).addr = n.addr) :
    node_at (update_node b a f) c = if c = a then f (node_at b a) else node_at b c := by
  by_cases hc : c = a
  · subst hc
    simp only [update_node, node_at, if_true]
    rw [find_node_map _ _ _ _ hf, find_node_node_for_address]
    have := node_at_addr b c
    simp only [Option.map_some', Option.getD_some, this, if_true]
    rfl
  · have h1 := node_at_node_for_address b a c
    simp only [update_node, node_at, if_neg hc] at h1 ⊢
    rw [find_node_map _ _ _ _ hf, ← h1]
    cases h : find_node (node_for_address b a).1.nodes c with
    | none => rfl
    | some n =>
      have := find_node_addr h
      simp [this, hc]

theorem update_node_servers (b : Broker) (a : Address) (f : Node → Node) :
    (update_node b a f).servers = b.servers := by
  simp [update_node, node_for_address_servers]

theorem update_node_clients_waiting (b : Broker) (a : Address) (f : Node → Node) :
    (update_node b a f).clients_waiting = b.clients_waiting := by
  simp [update_node, node_for_address_clients_waiting]

theorem update_node_clients_connecting (b : Broker) (a : Address) (f : Node → Node) :
    (update_node b a f).clients_connecting = b.clients_connecting := by
  simp [update_node, node_for_address_clients_connecting]

theorem update_node_sent (b : Broker) (a : Address) (f : Node → Node) :
    (update_node b a f).sent = b.sent := by
  simp [update_node, node_for_address_sent]

theorem update_node_assert_failed (b : Broker) (a : Address) (f : Node → Node) :
    (update_node b a f).assert_failed = b.assert_failed := by
  simp [update_node, node_for_address_assert_failed]

theorem client_queue_join_clients_connecting (b : Broker) (server client : Address) :
    (client_queue_join b server client).clients_connecting
      = b.clients_connecting ++ [{ client := client, server := server }] := by
  unfold client_queue_join
  simp only [update_node_clients_connecting]
  split <;> split <;> rfl

theorem send_server_load_clients_waiting (t : ℚ) (b : Broker) (a : Address) (s : ServerState) :
    (send_server_load t b a s).clients_waiting = b.clients_waiting := by
  simp [send_server_load, update_node_clients_waiting]

theorem pass_slots_fold {timestamp : ℚ} {R : Broker → Prop}
    (st : PassStable timestamp R) (a1 : Address) (l : List ClientConnection) (z : Int)
    (b : Broker) (h : R b) :
    R (l.foldl (open_slots_step a1) (z, b)).2 := by
  induction l generalizing z b with
  | nil => exact h
  | cons x xs ih =>
    simp only [List.foldl_cons, open_slots_step]
    split
    · exact ih _ _ (st.lookup _ _ h)
    · exact ih _ _ h

theorem pass_server_open_slots {timestamp : ℚ} {R : Broker → Prop}
    (st : PassStable timestamp R) (b : Broker) (a : Address) (h : R b) :
    R (server_open_slots b a).2 := by
  unfold server_open_slots
  simp only []
  split
  · exact pass_slots_fold st _ _ _ _ h
  · exact st.assert _ h

theorem pass_needed_multiplayer_slots {timestamp : ℚ} {R : Broker → Prop}
    (st : PassStable timestamp R) (b : Broker) (h : R b) :
    R (needed_multiplayer_slots b).2 := by
  unfold needed_multiplayer_slots
  generalize (0 : Int) = z
  generalize hl : b.clients_waiting = l
  clear hl
  induction l generalizing z b with
  | nil => exact h
  | cons x xs ih =>
    simp only [List.foldl_cons]
    split
    · exact ih _ (st.lookup _ _ h) _
    · exact ih _ (st.lookup _ _ h) _

theorem pass_alloc_server {timestamp : ℚ} {R : Broker → Prop}
    (st : PassStable timestamp R) (s : ServerState) (l : List Address) (b : Broker) (h : R b) :
    R (alloc_server timestamp s l b).2 := by
  induction l generalizing b with
  | nil => exact h
  | cons x xs ih =>
    simp only [alloc_server]
    split
    · next hs => exact st.load _ _ _ (st.lookup _ _ h) hs
    · exact ih _ (st.lookup _ _ h)

theorem pass_story_scan {timestamp : ℚ} {R : Broker → Prop}
    (st : PassStable timestamp R) (server : Address) (l : List Address) (b : Broker) (h : R b)
    (hs : (node_at b server).state = State.ServerIdle)
    (hl : ∀ c ∈ l, c ∈ b.clients_waiting) :
    R (story_scan timestamp server l b) := by
  induction l generalizing b with
  | nil => exact h
  | cons x xs ih =>
    simp only [story_scan]
    split
    · apply st.join
      · apply st.load _ _ _ (st.lookup _ _ h)
        rw [node_at_node_for_address]; exact hs
      · rw [send_server_load_clients_waiting, node_for_address_clients_waiting]
        exact hl x (List.mem_cons_self _ _)
    · apply ih _ (st.lookup _ _ h)
      · rw [node_at_node_for_address]; exact hs
      · intro c hc
        rw [node_for_address_clients_waiting]
        exact hl c (List.mem_cons_of_mem _ hc)

theorem pass_match_server {timestamp : ℚ} {R : Broker → Prop}
    (st : PassStable timestamp R) (m : MatchState) (a : Address) (h : R m.broker) :
    R (match_server timestamp m a).broker := by
  by_cases hs : (node_at (node_for_address m.broker a).1 a).state = State.ServerIdle
  · have h1 : R (story_scan timestamp a (node_for_address m.broker a).1.clients_waiting
        (node_for_address m.broker a).1) :=
      pass_story_scan st a _ _ (st.lookup _ _ h) hs (fun c hc => hc)
    simp only [match_server, hs, if_true]
    split <;> exact h1
  · by_cases ha : (node_at (node_for_address m.broker a).1 a).state = State.ServerActive
        ∨ (node_at (node_for_address m.broker a).1 a).state = State.ServerLoading
    · simp only [match_server, hs, if_false, ha, if_true]
      split <;> exact pass_server_open_slots st _ _ (st.lookup _ _ h)
    · simp only [match_server, hs, if_false, ha]
      split <;> exact pass_server_open_slots st _ _ (st.assert _ (st.lookup _ _ h))

theorem pass_match_servers {timestamp : ℚ} {R : Broker → Prop}
    (st : PassStable timestamp R) (l : List Address) (m : MatchState) (h : R m.broker) :
    R (l.foldl (match_server timestamp) m).broker := by
  induction l generalizing m with
  | nil => exact h
  | cons x xs ih => exact ih _ (pass_match_server st m x h)

theorem pass_alloc_loop {timestamp : ℚ} {R : Broker → Prop} (k : Env)
    (st : PassStable timestamp R) (n : Nat) (m : MatchState) (h : R m.broker) :
    R (alloc_loop k timestamp n m).broker := by
  induction n generalizing m with
  | zero => exact h
  | succ n ih =>
    unfold alloc_loop
    have h1 := pass_alloc_server st (multiplayer_state k) m.broker.servers m.broker h
    split
    · next a b he => rw [he] at h1; exact ih _ h1
    · next b he => rw [he] at h1; exact h1

theorem pass_assign_loop {timestamp : ℚ} {R : Broker → Prop}
    (st : PassStable timestamp R) (server : Address) (fuel j : Nat) (slots : Int) (b : Broker)
    (h : R b) : R (assign_loop timestamp server fuel j slots b) := by
  induction fuel generalizing j slots b with
  | zero => exact h
  | succ n ih =>
    unfold assign_loop
    split
    · exact h
    · next c hc =>
      have hmem : c ∈ (node_for_address b c).1.clients_waiting := by
        rw [node_for_address_clients_waiting]
        exact List.mem_iff_getElem?.mpr ⟨j, hc⟩
      have hj := st.join _ server c (st.lookup _ c h) hmem
      have h2 : R (if (node_at (client_queue_join (node_for_address b c).1 server c) server).state
            ≠ State.ServerLoading
          then send_client_connect timestamp (client_queue_join (node_for_address b c).1 server c)
            server c
          else client_queue_join (node_for_address b c).1 server c) := by
        split
        · apply st.connect _ _ _ hj
          rw [client_queue_join_clients_connecting]
          simp
        · exact hj
      simp only []
      split
      · split
        · exact h2
        · exact ih _ _ _ h2
      · exact ih _ _ _ (st.lookup _ _ h)

theorem pass_assign_target {timestamp : ℚ} {R : Broker → Prop}
    (st : PassStable timestamp R) (b : Broker) (a : Address) (h : R b) :
    R (assign_target timestamp b a) := by
  unfold assign_target
  exact pass_assign_loop st _ _ _ _ _ (pass_server_open_slots st _ _ (st.lookup _ _ h))

theorem pass_assign_targets {timestamp : ℚ} {R : Broker → Prop}
    (st : PassStable timestamp R) (l : List Address) (b : Broker) (h : R b) :
    R (l.foldl (assign_target timestamp) b) := by
  induction l generalizing b with
  | nil => exact h
  | cons x xs ih => exact ih _ (pass_assign_target st b x h)

/-- Induction principle for the matchmaking pass: a property of the state that
every elementary step of the pass keeps is kept by the pass. -/
theorem pass_matchmake {timestamp : ℚ} {R : Broker → Prop} (k : Env)
    (st : PassStable timestamp R) (b : Broker) (h : R b) :
    R (matchmake k b timestamp) := by
  unfold matchmake
  simp only []
  apply pass_assign_targets st
  apply pass_alloc_loop k st
  exact pass_needed_multiplayer_slots st _ (pass_match_servers st _ _ h)

theorem RoleInv.perm {st : Address → State} {W W' : List Address}
    {P P' : List ClientConnection} (hW : W'.Perm W) (hP : P'.Perm P) (h : RoleInv st W P) :
    RoleInv st W' P' where
  waiting_state a ha := h.waiting_state a (hW.mem_iff.mp ha)
  waiting_nodup := hW.nodup_iff.mpr h.waiting_nodup
  pairing_state c hc := h.pairing_state c (hP.mem_iff.mp hc)
  pairing_nodup := (hP.map _).nodup_iff.mpr h.pairing_nodup
  connecting_paired a ha := ((hP.map _).mem_iff).mpr (h.connecting_paired a ha)

theorem RoleInv.neutral {st : Address → State} {W : List Address} {P : List ClientConnection}
    (a : Address) (x : State) (h : RoleInv st W P)
    (h1 : st a ≠ State.ClientWaiting) (h2 : st a ≠ State.ClientConnecting)
    (h3 : x ≠ State.ClientConnecting) :
    RoleInv (fun c => if c = a then x else st c) W P where
  waiting_state c hc := by
    have := h.waiting_state c hc
    have hne : c ≠ a := fun e => h1 (e ▸ this)
    simp [hne, this]
  waiting_nodup := h.waiting_nodup
  pairing_state c hc := by
    have := h.pairing_state c hc
    have hne : c.client ≠ a := fun e => h2 (e ▸ this)
    simp [hne, this]
  pairing_nodup := h.pairing_nodup
  connecting_paired c hc := by
    by_cases hca : c = a
    · simp [hca] at hc; exact absurd hc h3
    · simp [hca] at hc; exact h.connecting_paired c hc

theorem RoleInv.request {st : Address → State} {W : List Address} {P : List ClientConnection}
    (a : Address) (h : RoleInv st W P)
    (h1 : st a ≠ State.ClientWaiting) (h2 : st a ≠ State.ClientConnecting) :
    RoleInv (fun c => if c = a then State.ClientWaiting else st c) (W ++ [a]) P where
  waiting_state c hc := by
    by_cases hca : c = a
    · simp [hca]
    · simp only [hca, if_false]
      apply h.waiting_state
      simpa [hca] using hc
  waiting_nodup := by
    rw [List.nodup_append]
    refine ⟨h.waiting_nodup, List.nodup_singleton a, ?_⟩
    intro c hc hc'
    rw [List.mem_singleton] at hc'
    subst hc'
    exact h1 (h.waiting_state c hc)
  pairing_state c hc := by
    have := h.pairing_state c hc
    have hne : c.client ≠ a := fun e => h2 (e ▸ this)
    simp [hne, this]
  pairing_nodup := h.pairing_nodup
  connecting_paired c hc := by
    by_cases hca : c = a
    · simp [hca] at hc
    · simp [hca] at hc; exact h.connecting_paired c hc

theorem RoleInv.join {st : Address → State} {W : List Address} {P : List ClientConnection}
    (c server : Address) (h : RoleInv st W P) (hc : c ∈ W) :
    RoleInv (fun a => if a = c then State.ClientConnecting else st a) (W.erase c)
      (P ++ [{ client := c, server := server }]) where
  waiting_state a ha := by
    have hne : a ≠ c := fun e => by
      subst e
      exact (List.Nodup.not_mem_erase h.waiting_nodup) ha
    simp only [hne, if_false]
    exact h.waiting_state a (List.mem_of_mem_erase ha)
  waiting_nodup := h.waiting_nodup.erase c
  pairing_state p hp := by
    rw [List.mem_append, List.mem_singleton] at hp
    rcases hp with hp | hp
    · have := h.pairing_state p hp
      by_cases e : p.client = c <;> simp [e, this]
    · subst hp; simp
  pairing_nodup := by
    rw [List.map_append, List.nodup_append]
    refine ⟨h.pairing_nodup, by simp, ?_⟩
    intro a ha ha'
    simp only [List.map_cons, List.map_nil, List.mem_singleton] at ha'
    subst ha'
    obtain ⟨p, hp, hpc⟩ := List.mem_map.mp ha
    have h1 := h.pairing_state p hp
    have h2 := h.waiting_state _ hc
    rw [hpc] at h1
    rw [h1] at h2
    exact State.noConfusion h2
  connecting_paired a ha := by
    by_cases hac : a = c
    · simp [hac]
    · simp only [hac, if_false] at ha
      have := h.connecting_paired a ha
      simp only [List.map_append, List.mem_append]
      exact Or.inl this

theorem RoleInv.pairing_inj {st : Address → State} {W : List Address}
    {P : List ClientConnection} (h : RoleInv st W P) {p q : ClientConnection}
    (hp : p ∈ P) (hq : q ∈ P) (e : p.client = q.client) : p = q :=
  List.inj_on_of_nodup_map h.pairing_nodup hp hq e

theorem RoleInv.drop_server {st : Address → State} {W : List Address}
    {P : List ClientConnection} (A : Address) (h : RoleInv st W P) :
    RoleInv
      (fun a => if a ∈ (P.filter (fun c => decide (c.server = A))).map (fun c => c.client)
        then State.ClientWaiting else st a)
      W (P.filter (fun c => !decide (c.server = A))) where
  waiting_state a ha := by
    have := h.waiting_state a ha
    by_cases e : a ∈ (P.filter (fun c => decide (c.server = A))).map (fun c => c.client)
    · simp only [e, if_true]
    · simp only [e, if_false]; exact this
  waiting_nodup := h.waiting_nodup
  pairing_state p hp := by
    rw [List.mem_filter] at hp
    have hps : p.server ≠ A := by simpa using hp.2
    have hn : p.client ∉ (P.filter (fun c => decide (c.server = A))).map (fun c => c.client) := by
      intro hm
      obtain ⟨q, hq, hqc⟩ := List.mem_map.mp hm
      rw [List.mem_filter] at hq
      have := h.pairing_inj hq.1 hp.1 hqc
      subst this
      exact hps (by simpa using hq.2)
    simp only [hn, if_false]
    exact h.pairing_state p hp.1
  pairing_nodup := (List.filter_sublist P).map _ |>.nodup h.pairing_nodup
  connecting_paired a ha := by
    by_cases e : a ∈ (P.filter (fun c => decide (c.server = A))).map (fun c => c.client)
    · simp [e] at ha
    · simp only [e, if_false] at ha
      obtain ⟨p, hp, hpc⟩ := List.mem_map.mp (h.connecting_paired a ha)
      refine List.mem_map.mpr ⟨p, ?_, hpc⟩
      rw [List.mem_filter]
      refine ⟨hp, ?_⟩
      by_cases hs : p.server = A
      · exact absurd (List.mem_map.mpr ⟨p, List.mem_filter.mpr ⟨hp, by simpa using hs⟩, hpc⟩) e
      · simpa using hs

theorem RoleInv.drop_waiting {st : Address → State} {W : List Address}
    {P : List ClientConnection} (A : Address) (h : RoleInv st W P)
    (hA : st A = State.ClientWaiting) :
    RoleInv (fun a => if a = A then State.Invalid else st a)
      (W.filter (fun a => !decide (a = A))) P where
  waiting_state a ha := by
    rw [List.mem_filter] at ha
    have hne : a ≠ A := by simpa using ha.2
    simp only [hne, if_false]
    exact h.waiting_state a ha.1
  waiting_nodup := h.waiting_nodup.filter _
  pairing_state p hp := by
    have := h.pairing_state p hp
    have hne : p.client ≠ A := fun e => by rw [e, hA] at this; exact State.noConfusion this
    simp only [hne, if_false]; exact this
  pairing_nodup := h.pairing_nodup
  connecting_paired a ha := by
    by_cases e : a = A
    · simp [e] at ha
    · simp only [e, if_false] at ha; exact h.connecting_paired a ha

theorem RoleInv.drop_connecting {st : Address → State} {W : List Address}
    {P : List ClientConnection} (A : Address) (h : RoleInv st W P)
    (hA : st A = State.ClientConnecting) :
    RoleInv (fun a => if a = A then State.Invalid else st a) W
      (P.filter (fun c => !decide (c.client = A))) where
  waiting_state a ha := by
    have := h.waiting_state a ha
    have hne : a ≠ A := fun e => by rw [e, hA] at this; exact State.noConfusion this
    simp only [hne, if_false]; exact this
  waiting_nodup := h.waiting_nodup
  pairing_state p hp := by
    rw [List.mem_filter] at hp
    have hne : p.client ≠ A := by simpa using hp.2
    simp only [hne, if_false]
    exact h.pairing_state p hp.1
  pairing_nodup := (List.filter_sublist P).map _ |>.nodup h.pairing_nodup
  connecting_paired a ha := by
    by_cases e : a = A
    · simp [e] at ha
    · simp only [e, if_false] at ha
      obtain ⟨p, hp, hpc⟩ := List.mem_map.mp (h.connecting_paired a ha)
      refine List.mem_map.mpr ⟨p, List.mem_filter.mpr ⟨hp, ?_⟩, hpc⟩
      simpa [hpc] using e

theorem array_remove_perm {α : Type} (xs : List α) (i : Nat) (h : i < xs.length) :
    (array_remove xs i).Perm (xs.eraseIdx i) := by
  have hx : xs = xs.take i ++ xs[i] :: xs.drop (i + 1) := by
    rw [← List.drop_eq_getElem_cons h, List.take_append_drop]
  have hl : (xs.take i).length = i := by
    rw [List.length_take]; omega
  obtain ⟨r, hr, hp⟩ := array_remove_split (xs.take i) xs[i] (xs.drop (i + 1))
  rw [hl, ← hx] at hr
  rw [hr, List.eraseIdx_eq_take_drop_succ]
  exact hp.append_left _

theorem node_at_of_nodes_eq {b b' : Broker} (h : b'.nodes = b.nodes) (a : Address) :
    node_at b' a = node_at b a := by
  unfold node_at; rw [h]

theorem keys_node_for_address (b : Broker) (a : Address)
    (h : (b.nodes.map (fun n => n.addr)).Nodup) :
    ((node_for_address b a).1.nodes.map (fun n => n.addr)).Nodup := by
  unfold node_for_address
  cases hf : find_node b.nodes a with
  | some n => exact h
  | none =>
    simp only [List.map_append, List.map_cons, List.map_nil]
    rw [List.nodup_append]
    refine ⟨h, List.nodup_singleton _, ?_⟩
    intro c hc hc'
    rw [List.mem_singleton] at hc'
    subst hc'
    obtain ⟨n, hn, hna⟩ := List.mem_map.mp hc
    have := (List.find?_eq_none.mp hf) n hn
    exact this (by simpa using hna)

theorem node_for_address_nodes_congr {b b' : Broker} (h : b'.nodes = b.nodes) (a : Address) :
    (node_for_address b' a).1.nodes = (node_for_address b a).1.nodes := by
  unfold node_for_address
  rw [h]
  cases find_node b.nodes a <;> simp [h]

theorem update_node_nodes_congr {b b' : Broker} (h : b'.nodes = b.nodes) (a : Address)
    (f : Node → Node) : (update_node b' a f).nodes = (update_node b a f).nodes := by
  simp only [update_node, node_for_address_nodes_congr h]

theorem keys_update_node (b : Broker) (a : Address) (f : Node → Node)
    (hf : ∀ n, (f n).addr = n.addr) (h : (b.nodes.map (fun n => n.addr)).Nodup) :
    ((update_node b a f).nodes.map (fun n => n.addr)).Nodup := by
  have h1 := keys_node_for_address b a h
  have e : (update_node b a f).nodes.map (fun n => n.addr)
      = (node_for_address b a).1.nodes.map (fun n => n.addr) := by
    simp only [update_node, List.map_map]
    apply List.map_congr_left
    intro n _
    simp only [Function.comp]
    split
    · exact hf n
    · rfl
  rw [e]; exact h1

theorem node_at_erase (b : Broker) (a c : Address) :
    (find_node (b.nodes.filter (fun n => !decide (n.addr = a))) c).getD (Node.fresh c)
      = if c = a then Node.fresh c else node_at b c := by
  unfold node_at find_node
  induction b.nodes with
  | nil => simp
  | cons x xs ih =>
    by_cases hxa : x.addr = a
    · simp only [List.filter_cons, hxa, decide_True, Bool.not_true, Bool.false_eq_true, if_false,
        List.find?_cons]
      rw [ih]
      by_cases hca : c = a
      · simp [hca]
      · have : ¬ a = c := fun e => hca e.symm
        simp [hca, this]
    · simp only [List.filter_cons, hxa, decide_False, Bool.not_false, if_true, List.find?_cons]
      by_cases hxc : x.addr = c
      · have hca : ¬ c = a := fun e => hxa (hxc.trans e)
        simp [hxc, hca]
      · simp only [hxc, decide_False]
        exact ih

/-! Effects of the elementary steps on the lists. -/

theorem client_queue_join_nodes (b : Broker) (server client : Address) :
    (client_queue_join b server client).nodes
      = (update_node b client (fun n => { n with state := State.ClientConnecting })).nodes := by
  by_cases h1 : (node_at b client).state = State.ClientWaiting <;>
    by_cases h2 : b.clients_waiting.indexOf client < b.clients_waiting.length <;>
    simp only [client_queue_join, h1, h2, if_true, if_false] <;>
    (apply update_node_nodes_congr; rfl)

theorem node_at_client_queue_join (b : Broker) (server client a : Address) :
    node_at (client_queue_join b server client) a
      = if a = client then { node_at b client with state := State.ClientConnecting }
        else node_at b a := by
  rw [node_at_of_nodes_eq (client_queue_join_nodes b server client)]
  exact node_at_update_node _ _ _ _ (fun _ => rfl)

theorem client_queue_join_clients_waiting (b : Broker) (server client : Address)
    (h : client ∈ b.clients_waiting) :
    (client_queue_join b server client).clients_waiting
      = array_remove b.clients_waiting (b.clients_waiting.indexOf client) := by
  have hi : b.clients_waiting.indexOf client < b.clients_waiting.length :=
    List.indexOf_lt_length.mpr h
  unfold client_queue_join
  simp only [update_node_clients_waiting]
  split <;> simp [hi]

theorem client_queue_join_waiting_perm (b : Broker) (server client : Address)
    (h : client ∈ b.clients_waiting) :
    (client_queue_join b server client).clients_waiting.Perm (b.clients_waiting.erase client) := by
  rw [client_queue_join_clients_waiting b server client h,
    ← List.eraseIdx_indexOf_eq_erase]
  exact array_remove_perm _ _ (List.indexOf_lt_length.mpr h)

theorem client_queue_join_servers (b : Broker) (server client : Address) :
    (client_queue_join b server client).servers = b.servers := by
  unfold client_queue_join
  simp only [update_node_servers]
  split <;> split <;> rfl

theorem client_queue_join_sent (b : Broker) (server client : Address) :
    (client_queue_join b server client).sent = b.sent := by
  unfold client_queue_join
  simp only [update_node_sent]
  split <;> split <;> rfl

theorem node_at_send_server_load (t : ℚ) (b : Broker) (a c : Address) (s : ServerState) :
    node_at (send_server_load t b a s) c
      = if c = a then { node_at b a with state := State.ServerLoading, server_state := s }
        else node_at b c := by
  have : (send_server_load t b a s).nodes = (update_node b a
      (fun n => { n with state := State.ServerLoading, server_state := s })).nodes := rfl
  rw [node_at_of_nodes_eq this]
  exact node_at_update_node _ _ _ _ (fun _ => rfl)

theorem send_server_load_clients_connecting (t : ℚ) (b : Broker) (a : Address)
    (s : ServerState) :
    (send_server_load t b a s).clients_connecting = b.clients_connecting := by
  simp [send_server_load, update_node_clients_connecting]

theorem send_server_load_servers (t : ℚ) (b : Broker) (a : Address) (s : ServerState) :
    (send_server_load t b a s).servers = b.servers := by
  simp [send_server_load, update_node_servers]

theorem send_server_load_sent (t : ℚ) (b : Broker) (a : Address) (s : ServerState) :
    (send_server_load t b a s).sent = b.sent ++ [Outgoing.ServerLoad t a s] := by
  simp [send_server_load, update_node_sent]

theorem PairingInv.of_roles {b : Broker} {st : Address → State} {W : List Address}
    {P : List ClientConnection} (hk : (b.nodes.map (fun n => n.addr)).Nodup)
    (hr : RoleInv st W P) (hst : ∀ a, (node_at b a).state = st a)
    (hW : b.clients_waiting = W) (hP : b.clients_connecting = P) : PairingInv b := by
  refine ⟨hk, ?_⟩
  have : (fun a => (node_at b a).state) = st := funext hst
  rw [this, hW, hP]
  exact hr

theorem PairingInv.lookup {b : Broker} (a : Address) (h : PairingInv b) :
    PairingInv (node_for_address b a).1 :=
  PairingInv.of_roles (keys_node_for_address b a h.keys) h.roles
    (fun c => by rw [node_at_node_for_address])
    (node_for_address_clients_waiting b a) (node_for_address_clients_connecting b a)

theorem PairingInv.same_state {b : Broker} (a : Address) (f : Node → Node)
    (hf : ∀ n, (f n).addr = n.addr) (hs : ∀ n, (f n).state = n.state) (h : PairingInv b) :
    PairingInv (update_node b a f) :=
  PairingInv.of_roles (keys_update_node b a f hf h.keys) h.roles
    (fun c => by
      rw [node_at_update_node b a c f hf]
      split
      · next e => rw [hs, e]
      · rfl)
    (update_node_clients_waiting b a f) (update_node_clients_connecting b a f)

theorem PairingInv.of_neutral {b : Broker} (a : Address) (f : Node → Node)
    (hf : ∀ n, (f n).addr = n.addr) (h : PairingInv b)
    (h1 : (node_at b a).state ≠ State.ClientWaiting)
    (h2 : (node_at b a).state ≠ State.ClientConnecting)
    (h3 : (f (node_at b a)).state ≠ State.ClientConnecting) :
    PairingInv (update_node b a f) :=
  PairingInv.of_roles (keys_update_node b a f hf h.keys)
    (h.roles.neutral a (f (node_at b a)).state h1 h2 h3)
    (fun c => by
      rw [node_at_update_node b a c f hf]
      split <;> rfl)
    (update_node_clients_waiting b a f) (update_node_clients_connecting b a f)

theorem PairingInv.congr {b : Broker} (h : PairingInv b) (b' : Broker)
    (hn : b'.nodes = b.nodes) (hW : b'.clients_waiting = b.clients_waiting)
    (hP : b'.clients_connecting = b.clients_connecting) : PairingInv b' :=
  PairingInv.of_roles (by rw [hn]; exact h.keys) h.roles
    (fun c => by rw [node_at_of_nodes_eq hn]) hW hP

theorem PairingInv.load {b : Broker} (t : ℚ) (a : Address) (s : ServerState)
    (h : PairingInv b) (hs : (node_at b a).state = State.ServerIdle) :
    PairingInv (send_server_load t b a s) := by
  have h1 : PairingInv (update_node b a
      (fun n => { n with state := State.ServerLoading, server_state := s })) :=
    h.of_neutral a _ (fun _ => rfl) (by rw [hs]; decide) (by rw [hs]; decide) (by simp)
  exact h1.congr _ rfl rfl rfl

theorem PairingInv.of_join {b : Broker} (server c : Address) (h : PairingInv b)
    (hc : c ∈ b.clients_waiting) : PairingInv (client_queue_join b server c) := by
  refine PairingInv.of_roles ?_
    ((h.roles.join c server hc).perm (client_queue_join_waiting_perm b server c hc)
      (List.Perm.refl _)) ?_ rfl (client_queue_join_clients_connecting b server c)
  · rw [client_queue_join_nodes]
    exact keys_update_node b c _ (fun _ => rfl) h.keys
  · intro a
    rw [node_at_client_queue_join]
    split <;> rfl

theorem PairingInv.pass (t : ℚ) : PassStable t PairingInv where
  lookup _ a h := h.lookup a
  assert _ h := h.congr _ rfl rfl rfl
  load _ a s h hs := h.load t a s hs
  join _ server c h hc := h.of_join server c hc
  connect _ _ _ h _ := h.congr _ rfl rfl rfl

theorem PairingInv.of_matchmake (k : Env) (b : Broker) (t : ℚ) (h : PairingInv b) :
    PairingInv (matchmake k b t) :=
  pass_matchmake k (PairingInv.pass t) b h

theorem node_at_set_state (b : Broker) (a c : Address) (x : State) :
    node_at (update_node b a (fun n => { n with state := x })) c
      = if c = a then { node_at b a with state := x } else node_at b c :=
  node_at_update_node b a c _ (fun _ => rfl)

/-- The effect of resetting the clients of a list of pairings. -/
theorem reset_fold (rs : List ClientConnection) (b : Broker) :
    ((b.nodes.map (fun n => n.addr)).Nodup →
      ((rs.foldl reset_client b).nodes.map (fun n => n.addr)).Nodup)
    ∧ (∀ a, node_at (rs.foldl reset_client b) a
        = if a ∈ rs.map (fun c => c.client)
          then { node_at b a with state := State.ClientWaiting } else node_at b a)
    ∧ (rs.foldl reset_client b).servers = b.servers
    ∧ (rs.foldl reset_client b).clients_waiting = b.clients_waiting
    ∧ (rs.foldl reset_client b).clients_connecting = b.clients_connecting
    ∧ (rs.foldl reset_client b).sent = b.sent
    ∧ (rs.foldl reset_client b).assert_failed = b.assert_failed := by
  induction rs generalizing b with
  | nil => simp
  | cons x xs ih =>
    obtain ⟨h1, h2, h3, h4, h5, h6, h7⟩ := ih (reset_client b x)
    simp only [List.foldl_cons]
    refine ⟨fun hk => h1 (keys_update_node b _ _ (fun _ => rfl) hk), ?_,
      h3.trans (update_node_servers _ _ _), h4.trans (update_node_clients_waiting _ _ _),
      h5.trans (update_node_clients_connecting _ _ _), h6.trans (update_node_sent _ _ _),
      h7.trans (update_node_assert_failed _ _ _)⟩
    intro a
    rw [h2 a]
    unfold reset_client
    rw [node_at_set_state]
    by_cases e1 : a = x.client
    · subst e1
      by_cases e2 : x.client ∈ xs.map (fun c => c.client) <;> simp [e2]
    · by_cases e2 : a ∈ xs.map (fun c => c.client)
      · have : ∃ c ∈ xs, c.client = a := by simpa using e2
        simp [e1, e2, this]
      · simp only [List.map_cons, List.mem_cons, e1, e2, or_self, if_false]

theorem remove_loop_unit {α : Type} (p : α → Bool) (xs : List α) :
    (remove_loop p (fun (u : Unit) _ => u) xs.length 0 xs ()).1.Perm
      (xs.filter (fun x => !p x)) := by
  obtain ⟨rs, h, _, _⟩ := remove_loop_zero p (fun (u : Unit) _ => u) xs ()
  exact h

theorem keys_erase (nodes : List Node) (a : Address)
    (h : (nodes.map (fun n => n.addr)).Nodup) :
    ((nodes.filter (fun n => !decide (n.addr = a))).map (fun n => n.addr)).Nodup :=
  ((List.filter_sublist nodes).map _).nodup h

/-- Erasing the node of an address that no role list mentions. -/
theorem PairingInv.erase {b1 : Broker} (A : Address)
    (hk : (b1.nodes.map (fun n => n.addr)).Nodup)
    (hr : RoleInv (fun c => if c = A then State.Invalid else (node_at b1 c).state)
      b1.clients_waiting b1.clients_connecting) :
    PairingInv (erase_node b1 A) :=
  PairingInv.of_roles (keys_erase _ _ hk) hr
    (fun c => by
      show ((find_node (b1.nodes.filter (fun n => !decide (n.addr = A))) c).getD
        (Node.fresh c)).state = _
      rw [node_at_erase]
      split <;> rfl)
    rfl rfl

/-- The second loop of disconnected for a server: what it leaves of the
pairings and of the registry. -/
theorem reset_loop_spec (b0 : Broker) (A : Address) (srv : List Address) :
    (remove_loop (fun (c : ClientConnection) => decide (c.server = A)) reset_client
        b0.clients_connecting.length 0 b0.clients_connecting
        { nodes := b0.nodes, servers := srv, clients_waiting := b0.clients_waiting,
          clients_connecting := b0.clients_connecting, sent := b0.sent,
          assert_failed := b0.assert_failed }).1.Perm
      (b0.clients_connecting.filter (fun c => !decide (c.server = A)))
    ∧ ((b0.nodes.map (fun n => n.addr)).Nodup →
      ((remove_loop (fun (c : ClientConnection) => decide (c.server = A)) reset_client
        b0.clients_connecting.length 0 b0.clients_connecting
        { nodes := b0.nodes, servers := srv, clients_waiting := b0.clients_waiting,
          clients_connecting := b0.clients_connecting, sent := b0.sent,
          assert_failed := b0.assert_failed }).2.nodes.map (fun n => n.addr)).Nodup)
    ∧ (∀ a, node_at (remove_loop (fun (c : ClientConnection) => decide (c.server = A))
        reset_client b0.clients_connecting.length 0 b0.clients_connecting
        { nodes := b0.nodes, servers := srv, clients_waiting := b0.clients_waiting,
          clients_connecting := b0.clients_connecting, sent := b0.sent,
          assert_failed := b0.assert_failed }).2 a
        = if a ∈ (b0.clients_connecting.filter (fun c => decide (c.server = A))).map
            (fun c => c.client)
          then { node_at b0 a with state := State.ClientWaiting } else node_at b0 a)
    ∧ (remove_loop (fun (c : ClientConnection) => decide (c.server = A)) reset_client
        b0.clients_connecting.length 0 b0.clients_connecting
        { nodes := b0.nodes, servers := srv, clients_waiting := b0.clients_waiting,
          clients_connecting := b0.clients_connecting, sent := b0.sent,
          assert_failed := b0.assert_failed }).2.servers = srv
    ∧ (remove_loop (fun (c : ClientConnection) => decide (c.server = A)) reset_client
        b0.clients_connecting.length 0 b0.clients_connecting
        { nodes := b0.nodes, servers := srv, clients_waiting := b0.clients_waiting,
          clients_connecting := b0.clients_connecting, sent := b0.sent,
          assert_failed := b0.assert_failed }).2.clients_waiting = b0.clients_waiting
    ∧ (remove_loop (fun (c : ClientConnection) => decide (c.server = A)) reset_client
        b0.clients_connecting.length 0 b0.clients_connecting
        { nodes := b0.nodes, servers := srv, clients_waiting := b0.clients_waiting,
          clients_connecting := b0.clients_connecting, sent := b0.sent,
          assert_failed := b0.assert_failed }).2.sent = b0.sent
    ∧ (remove_loop (fun (c : ClientConnection) => decide (c.server = A)) reset_client
        b0.clients_connecting.length 0 b0.clients_connecting
        { nodes := b0.nodes, servers := srv, clients_waiting := b0.clients_waiting,
          clients_connecting := b0.clients_connecting, sent := b0.sent,
          assert_failed := b0.assert_failed }).2.assert_failed = b0.assert_failed := by
  obtain ⟨rs, hr1, hr2, hr3⟩ := remove_loop_zero
    (fun (c : ClientConnection) => decide (c.server = A)) reset_client b0.clients_connecting
    { nodes := b0.nodes, servers := srv, clients_waiting := b0.clients_waiting,
      clients_connecting := b0.clients_connecting, sent := b0.sent,
      assert_failed := b0.assert_failed }
  obtain ⟨f1, f2, f3, f4, _, f6, f7⟩ := reset_fold rs
    { nodes := b0.nodes, servers := srv, clients_waiting := b0.clients_waiting,
      clients_connecting := b0.clients_connecting, sent := b0.sent,
      assert_failed := b0.assert_failed }
  rw [hr2]
  refine ⟨hr1, f1, ?_, f3, f4, f6, f7⟩
  intro a
  rw [f2 a]
  have hm : a ∈ rs.map (fun c => c.client) ↔
      a ∈ (b0.clients_connecting.filter (fun c => decide (c.server = A))).map
        (fun c => c.client) := (hr3.map _).mem_iff
  by_cases e2 : a ∈ rs.map (fun c => c.client)
  · rw [if_pos e2, if_pos (hm.mp e2)]; rfl
  · rw [if_neg e2, if_neg (fun x => e2 (hm.mpr x))]; rfl

theorem PairingInv.of_disconnected {b : Broker} (A : Address) (h : PairingInv b) :
    PairingInv (disconnected b A) := by
  have h0 := h.lookup A
  have hst : ∀ c, (node_at (node_for_address b A).1 c).state = (node_at b c).state :=
    fun c => by rw [node_at_node_for_address]
  by_cases hs : (node_at b A).state = State.ServerActive
      ∨ (node_at b A).state = State.ServerLoading ∨ (node_at b A).state = State.ServerIdle
  · -- a server
    simp only [disconnected, node_for_address_snd, hs, if_true]
    obtain ⟨g1, g2, g3, _, g5, _, _⟩ := reset_loop_spec (node_for_address b A).1 A
      (remove_loop (fun a => decide (a = A)) (fun (u : Unit) _ => u)
          (node_for_address b A).1.servers.length 0 (node_for_address b A).1.servers ()).1
    apply PairingInv.erase
    · exact g2 h0.keys
    · dsimp only
      rw [g5]
      have hA : A ∉ ((node_for_address b A).1.clients_connecting.filter
          (fun c => decide (c.server = A))).map (fun c => c.client) := by
        intro hm
        obtain ⟨q, hq, hqc⟩ := List.mem_map.mp hm
        have := h0.roles.pairing_state q (List.mem_filter.mp hq).1
        rw [hqc, hst] at this
        rw [this] at hs
        simp at hs
      have key := ((h0.roles.drop_server A).neutral A State.Invalid
        (by simp only [hA, if_false, hst]; rcases hs with e | e | e <;> rw [e] <;> decide)
        (by simp only [hA, if_false, hst]; rcases hs with e | e | e <;> rw [e] <;> decide)
        (by decide)).perm (List.Perm.refl _) g1
      convert key using 2
      rename_i c
      have e := g3 c
      unfold node_at at e ⊢
      dsimp only at e ⊢
      rw [e]
      by_cases e1 : c = A
      · simp [e1]
      · by_cases e2 : c ∈ ((node_for_address b A).1.clients_connecting.filter
            (fun c => decide (c.server = A))).map (fun c => c.client)
        · simp only [e1, e2, if_true, if_false]
        · simp only [e1, e2, if_false]
  · by_cases hw : (node_at b A).state = State.ClientWaiting
    · simp only [disconnected, node_for_address_snd, hs, if_false, hw, if_true]
      apply PairingInv.erase
      · exact h0.keys
      · have key := (h0.roles.drop_waiting A (by rw [hst]; exact hw)).perm
          (remove_loop_unit (fun a => decide (a = A)) (node_for_address b A).1.clients_waiting)
          (List.Perm.refl _)
        exact key
    · by_cases hc : (node_at b A).state = State.ClientConnecting
      · simp only [disconnected, node_for_address_snd, hs, if_false, hw, hc, if_true]
        apply PairingInv.erase
        · exact h0.keys
        · have key := (h0.roles.drop_connecting A (by rw [hst]; exact hc)).perm
            (List.Perm.refl _)
            (remove_loop_unit (fun (c : ClientConnection) => decide (c.client = A))
              (node_for_address b A).1.clients_connecting)
          exact key
      · simp only [disconnected, node_for_address_snd, hs, if_false, hw, hc]
        apply PairingInv.erase
        · exact h0.keys
        · exact h0.roles.neutral A State.Invalid (by rw [hst]; exact hw) (by rw [hst]; exact hc)
            (by decide)

theorem state_update_node_same (b : Broker) (a c : Address) (f : Node → Node)
    (hf : ∀ n, (f n).addr = n.addr) (hs : ∀ n, (f n).state = n.state) :
    (node_at (update_node b a f) c).state = (node_at b c).state := by
  rw [node_at_update_node b a c f hf]
  split
  · next e => rw [hs, e]
  · rfl

/-- The loop of packet_handle that tells the clients of a server to connect. -/
theorem connect_fold (t : ℚ) (a : Address) (l : List ClientConnection) (b : Broker) :
    l.foldl (fun acc connection =>
        if connection.server = a then send_client_connect t acc a connection.client else acc) b
      = { b with
          sent := b.sent ++ List.map (fun c => Outgoing.ClientConnect t c.client a.host a.port)
            (l.filter (fun c => decide (c.server = a))) } := by
  induction l generalizing b with
  | nil => simp
  | cons x xs ih =>
    rw [List.foldl_cons]
    by_cases h : x.server = a
    · rw [if_pos h, ih]
      simp [send_client_connect, List.filter_cons, h]
    · rw [if_neg h, ih]
      simp [List.filter_cons, h]

theorem PairingInv.of_packet_handle (k : Env) {b : Broker} (received : Bool) (p : Packet)
    (addr : Address) (timestamp : ℚ) (h : PairingInv b) :
    PairingInv (packet_handle k b received p addr timestamp).2 := by
  have ht : PairingInv
      (update_node b addr (fun n => { n with last_message_timestamp := timestamp })) :=
    h.same_state addr _ (fun _ => rfl) (fun _ => rfl)
  generalize hb1 : update_node b addr (fun n => { n with last_message_timestamp := timestamp })
    = b1 at ht
  cases received with
  | false => exact h
  | true =>
    cases p with
    | Ack => simpa [packet_handle, hb1] using ht
    | Disconnect =>
      simp only [packet_handle, hb1]
      exact ht.of_disconnected addr
    | ServerLoad => simpa [packet_handle, hb1] using ht
    | ClientConnect => simpa [packet_handle, hb1] using ht
    | ClientRequestServer os =>
      cases os with
      | none => simpa [packet_handle, hb1] using ht
      | some s =>
        simp only [packet_handle, hb1, Bool.not_true, Bool.false_eq_true, if_false]
        split
        · exact ht
        · split
          · exact ht
          · split
            · next hcc hv =>
              have h2 : PairingInv (update_node b1 addr (fun n => { n with server_state := s })) :=
                ht.same_state addr _ (fun _ => rfl) (fun _ => rfl)
              have hst2 : ∀ c, (node_at (update_node b1 addr
                  (fun n => { n with server_state := s })) c).state = (node_at b1 c).state :=
                fun c => state_update_node_same b1 addr c _ (fun _ => rfl) (fun _ => rfl)
              by_cases hw : (node_at b1 addr).state = State.ClientWaiting
              · simp only [hw, ne_eq, not_true_eq_false, if_false]
                refine PairingInv.of_roles (keys_update_node _ _ _ (fun _ => rfl) h2.keys)
                  h2.roles ?_ (update_node_clients_waiting _ _ _)
                  (update_node_clients_connecting _ _ _)
                intro c
                rw [node_at_set_state]
                split
                · next e => rw [hst2, e, hw]
                · rfl
              · simp only [hw, ne_eq, not_false_eq_true, if_true]
                have hr := h2.roles.request addr (by rw [hst2]; exact hw) (by rw [hst2]; exact hcc)
                have hn : ∀ (W : List Address) (x : State), (update_node
                    { update_node b1 addr (fun n => { n with server_state := s }) with
                      clients_waiting := W } addr (fun n => { n with state := x })).nodes
                    = (update_node (update_node b1 addr (fun n => { n with server_state := s }))
                      addr (fun n => { n with state := x })).nodes := by
                  intro W x
                  apply update_node_nodes_congr
                  rfl
                refine PairingInv.of_roles ?_ hr ?_ ?_ ?_
                · rw [hn]
                  exact keys_update_node _ _ _ (fun _ => rfl) h2.keys
                · intro c
                  rw [node_at_of_nodes_eq (hn _ _), node_at_set_state]
                  split <;> rfl
                · rw [update_node_clients_waiting, node_at_addr]
                · rw [update_node_clients_connecting]
            · exact ht
    | ServerStatusUpdate secret active os =>
      simp only [packet_handle, hb1, Bool.not_true, Bool.false_eq_true, if_false]
      split
      · exact ht
      · cases os with
        | none => exact ht
        | some s =>
          simp only []
          split
          · next hl =>
            split
            · rw [connect_fold]
              have h2 : PairingInv (update_node b1 addr
                  (fun n => { n with server_state := s, state := State.ServerActive })) :=
                ht.of_neutral addr _ (fun _ => rfl) (by rw [hl]; decide) (by rw [hl]; decide)
                  (by simp)
              exact h2.congr _ rfl rfl rfl
            · exact ht
          · split
            · next hnl hv =>
              have h1 : (node_at b1 addr).state ≠ State.ClientWaiting := by
                rcases hv with e | e | e <;> rw [e] <;> decide
              have h2 : (node_at b1 addr).state ≠ State.ClientConnecting := by
                rcases hv with e | e | e <;> rw [e] <;> decide
              have h3 : PairingInv (update_node b1 addr (fun n => { n with server_state := s })) :=
                ht.same_state addr _ (fun _ => rfl) (fun _ => rfl)
              have hst3 : ∀ c, (node_at (update_node b1 addr
                  (fun n => { n with server_state := s })) c).state = (node_at b1 c).state :=
                fun c => state_update_node_same b1 addr c _ (fun _ => rfl) (fun _ => rfl)
              have h4 : PairingInv (if (node_at b1 addr).state = State.Invalid then
                  { update_node b1 addr (fun n => { n with server_state := s }) with
                    servers := (update_node b1 addr
                      (fun n => { n with server_state := s })).servers ++ [(node_at b1 addr).addr] }
                  else update_node b1 addr (fun n => { n with server_state := s })) := by
                split
                · exact h3.congr _ rfl rfl rfl
                · exact h3
              have hst4 : ∀ c, (node_at (if (node_at b1 addr).state = State.Invalid then
                  { update_node b1 addr (fun n => { n with server_state := s }) with
                    servers := (update_node b1 addr
                      (fun n => { n with server_state := s })).servers ++ [(node_at b1 addr).addr] }
                  else update_node b1 addr (fun n => { n with server_state := s })) c).state
                  = (node_at b1 c).state := by
                intro c
                rw [← hst3 c]
                split <;> rfl
              exact h4.of_neutral addr _ (fun _ => rfl) (by rw [hst4]; exact h1)
                (by rw [hst4]; exact h2) (by cases active <;> simp)
            · exact ht

theorem request_invalid_eq_false (k : Env) (s : ServerState) (h : valid_request k s) :
    request_invalid k s = false := by
  obtain ⟨h1, h2, h3, h4⟩ := h
  unfold request_invalid
  cases hs : s.story_mode with
  | false => simp [h1, h2, h3]
  | true =>
    obtain ⟨h5, h6⟩ := h4 hs
    simp [h1, h2, h3, h5, h6]

theorem request_invalid_eq_true (k : Env) (s : ServerState)
    (h : s.level < 0 ∨ s.level ≥ k.level_count ∨ s.open_slots = 0
      ∨ (s.story_mode = true ∧ s.open_slots ≠ 1) ∨ (s.story_mode = true ∧ s.team_count ≠ 2)) :
    request_invalid k s = true := by
  unfold request_invalid
  rcases h with h | h | h | ⟨h, h'⟩ | ⟨h, h'⟩ <;> simp [h]
  · simp [h']
  · simp [h']

theorem node_at_mk (b : Broker) (s w : List Address) (p : List ClientConnection)
    (o : List Outgoing) (f : Bool) (c : Address) :
    node_at (Broker.mk b.nodes s w p o f) c = node_at b c := rfl

theorem node_at_touch (b : Broker) (addr c : Address) (t : ℚ) :
    node_at (update_node b addr (fun n => { n with last_message_timestamp := t })) c
      = if c = addr then { node_at b addr with last_message_timestamp := t } else node_at b c :=
  node_at_update_node b addr c _ (fun _ => rfl)

theorem node_at_set_server_state (b : Broker) (a c : Address) (s : ServerState) :
    node_at (update_node b a (fun n => { n with server_state := s })) c
      = if c = a then { node_at b a with server_state := s } else node_at b c :=
  node_at_update_node b a c _ (fun _ => rfl)

theorem find_node_update_node (b : Broker) (a : Address) (f : Node → Node)
    (hf : ∀ n, (f n).addr = n.addr) :
    find_node (update_node b a f).nodes a = some (f (node_at b a)) := by
  simp only [update_node]
  rw [find_node_map _ _ _ _ hf, find_node_node_for_address]
  simp [node_at_addr]

/-- C1 (amended): an accepted ServerStatusUpdate whose secret differs from the
configured one is rejected (packet_handle returns false); the state and the
description of the sending node, the servers list, the waiting list, the
pairings and the sent messages are as before; but the sender has a registry
node afterwards and its last_message_timestamp is the time of the message. -/
theorem secret_mismatch_refreshes_timestamp (k : Env) (b : Broker) (secret : Int) (active : Bool)
    (os : Option ServerState) (addr : Address) (timestamp : ℚ) (h : secret ≠ k.secret) :
    (packet_handle k b true (Packet.ServerStatusUpdate secret active os) addr timestamp).1 = false
    ∧ (node_at (packet_handle k b true (Packet.ServerStatusUpdate secret active os) addr
        timestamp).2 addr).state = (node_at b addr).state
    ∧ (node_at (packet_handle k b true (Packet.ServerStatusUpdate secret active os) addr
        timestamp).2 addr).server_state = (node_at b addr).server_state
    ∧ (node_at (packet_handle k b true (Packet.ServerStatusUpdate secret active os) addr
        timestamp).2 addr).last_message_timestamp = timestamp
    ∧ (find_node (packet_handle k b true (Packet.ServerStatusUpdate secret active os) addr
        timestamp).2.nodes addr).isSome = true
    ∧ (packet_handle k b true (Packet.ServerStatusUpdate secret active os) addr
        timestamp).2.servers = b.servers
    ∧ (packet_handle k b true (Packet.ServerStatusUpdate secret active os) addr
        timestamp).2.clients_waiting = b.clients_waiting
    ∧ (packet_handle k b true (Packet.ServerStatusUpdate secret active os) addr
        timestamp).2.clients_connecting = b.clients_connecting
    ∧ (packet_handle k b true (Packet.ServerStatusUpdate secret active os) addr
        timestamp).2.sent = b.sent := by
  have hf := find_node_update_node b addr
    (fun n => { n with last_message_timestamp := timestamp }) (fun _ => rfl)
  simp [packet_handle, h, node_at_touch, update_node_servers, update_node_clients_waiting,
    update_node_clients_connecting, update_node_sent, hf]

/-- C2: when the received check of the messenger returns false, packet_handle
returns false and the whole state (registry, timestamps, servers list,
waiting list, pairings, sent messages) is the state before the call. -/
theorem packet_handle_not_received (k : Env) (b : Broker) (p : Packet) (addr : Address) (timestamp : ℚ) :
    packet_handle k b false p addr timestamp = (false, b) := by
  simp [packet_handle]

/-- C3: an accepted ClientRequestServer whose description is invalid (level < 0,
level >= Level::count, open_slots == 0, story_mode with open_slots != 1, or
story_mode with team_count != 2) is rejected: packet_handle returns false,
the state and the stored description of the sender are as before (an unknown
sender reads as Invalid before and after), and the waiting list, the servers
list and the pairings are unchanged. -/
theorem invalid_request_rejected (k : Env) (b : Broker) (s : ServerState) (addr : Address) (timestamp : ℚ)
    (h : s.level < 0 ∨ s.level ≥ k.level_count ∨ s.open_slots = 0
      ∨ (s.story_mode = true ∧ s.open_slots ≠ 1) ∨ (s.story_mode = true ∧ s.team_count ≠ 2)) :
    (packet_handle k b true (Packet.ClientRequestServer (some s)) addr timestamp).1 = false
    ∧ (node_at (packet_handle k b true (Packet.ClientRequestServer (some s)) addr
        timestamp).2 addr).state = (node_at b addr).state
    ∧ (node_at (packet_handle k b true (Packet.ClientRequestServer (some s)) addr
        timestamp).2 addr).server_state = (node_at b addr).server_state
    ∧ (packet_handle k b true (Packet.ClientRequestServer (some s)) addr
        timestamp).2.clients_waiting = b.clients_waiting
    ∧ (packet_handle k b true (Packet.ClientRequestServer (some s)) addr
        timestamp).2.servers = b.servers
    ∧ (packet_handle k b true (Packet.ClientRequestServer (some s)) addr
        timestamp).2.clients_connecting = b.clients_connecting := by
  simp [packet_handle, request_invalid_eq_true k s h, node_at_touch, update_node_servers,
    update_node_clients_waiting, update_node_clients_connecting]

/-- C4: an accepted ClientRequestServer with a valid description from a node in
state Invalid (an unknown address included): packet_handle returns true, the
node is ClientWaiting, its stored description is the requested one, and the
waiting list is the old waiting list with the address appended once at the
end. -/
theorem request_from_invalid_waits (k : Env) (b : Broker) (s : ServerState) (addr : Address) (timestamp : ℚ)
    (hv : valid_request k s) (hs : (node_at b addr).state = State.Invalid) :
    (packet_handle k b true (Packet.ClientRequestServer (some s)) addr timestamp).1 = true
    ∧ (node_at (packet_handle k b true (Packet.ClientRequestServer (some s)) addr
        timestamp).2 addr).state = State.ClientWaiting
    ∧ (node_at (packet_handle k b true (Packet.ClientRequestServer (some s)) addr
        timestamp).2 addr).server_state = s
    ∧ (packet_handle k b true (Packet.ClientRequestServer (some s)) addr
        timestamp).2.clients_waiting = b.clients_waiting ++ [addr] := by
  simp [packet_handle, request_invalid_eq_false k s hv, node_at_touch, hs, node_at_set_state,
    node_at_set_server_state, update_node_clients_waiting, node_at_addr, node_at_mk]

/-- C5: an accepted valid ClientRequestServer from a node already ClientWaiting:
the node stays ClientWaiting, its stored description is the newly requested
one, and the waiting list is unchanged. -/
theorem repeated_request_refreshes (k : Env) (b : Broker) (s : ServerState) (addr : Address) (timestamp : ℚ)
    (hv : valid_request k s) (hs : (node_at b addr).state = State.ClientWaiting) :
    (packet_handle k b true (Packet.ClientRequestServer (some s)) addr timestamp).1 = true
    ∧ (node_at (packet_handle k b true (Packet.ClientRequestServer (some s)) addr
        timestamp).2 addr).state = State.ClientWaiting
    ∧ (node_at (packet_handle k b true (Packet.ClientRequestServer (some s)) addr
        timestamp).2 addr).server_state = s
    ∧ (packet_handle k b true (Packet.ClientRequestServer (some s)) addr
        timestamp).2.clients_waiting = b.clients_waiting := by
  simp [packet_handle, request_invalid_eq_false k s hv, node_at_touch, hs, node_at_set_state,
    node_at_set_server_state, update_node_clients_waiting, node_at_addr, node_at_mk]

theorem node_at_set_both (b : Broker) (a c : Address) (s : ServerState) (x : State) :
    node_at (update_node b a (fun n => { n with server_state := s, state := x })) c
      = if c = a then { node_at b a with server_state := s, state := x } else node_at b c :=
  node_at_update_node b a c _ (fun _ => rfl)

/-- C6: an accepted ServerStatusUpdate with the configured secret, the active
flag set and the assigned description, from a node in ServerLoading: the node
becomes ServerActive and the messages sent by the call are exactly one
ClientConnect, carrying host and port of the server, to the client of each
pairing that references the server, in the order of the pairing list; the
pairing list itself is unchanged. -/
theorem loading_server_becomes_active (k : Env) (b : Broker) (s : ServerState) (addr : Address) (timestamp : ℚ)
    (hl : (node_at b addr).state = State.ServerLoading)
    (he : s = (node_at b addr).server_state) :
    (packet_handle k b true (Packet.ServerStatusUpdate k.secret true (some s)) addr
        timestamp).1 = true
    ∧ (node_at (packet_handle k b true (Packet.ServerStatusUpdate k.secret true (some s)) addr
        timestamp).2 addr).state = State.ServerActive
    ∧ (packet_handle k b true (Packet.ServerStatusUpdate k.secret true (some s)) addr
        timestamp).2.sent = b.sent ++ (b.clients_connecting.filter
          (fun c => decide (c.server = addr))).map
          (fun c => Outgoing.ClientConnect timestamp c.client addr.host addr.port)
    ∧ (packet_handle k b true (Packet.ServerStatusUpdate k.secret true (some s)) addr
        timestamp).2.clients_connecting = b.clients_connecting := by
  subst he
  simp [packet_handle, node_at_touch, hl, ServerState.equals, connect_fold, node_at_addr,
    node_at_mk, update_node_sent, update_node_clients_connecting, node_at_set_both]

/-- C7: an accepted ServerStatusUpdate with the configured secret from a node in
state Invalid, ServerActive or ServerIdle: the new state is ServerActive when
the active flag is set and ServerIdle otherwise, the stored description is
that of the message, and the address is appended to the servers list exactly
when the prior state was Invalid. -/
theorem status_update_outside_loading (k : Env) (b : Broker) (s : ServerState) (active : Bool) (addr : Address)
    (timestamp : ℚ)
    (hs : (node_at b addr).state = State.Invalid ∨ (node_at b addr).state = State.ServerActive
      ∨ (node_at b addr).state = State.ServerIdle) :
    (packet_handle k b true (Packet.ServerStatusUpdate k.secret active (some s)) addr
        timestamp).1 = true
    ∧ (node_at (packet_handle k b true (Packet.ServerStatusUpdate k.secret active (some s)) addr
        timestamp).2 addr).state = (if active then State.ServerActive else State.ServerIdle)
    ∧ (node_at (packet_handle k b true (Packet.ServerStatusUpdate k.secret active (some s)) addr
        timestamp).2 addr).server_state = s
    ∧ (packet_handle k b true (Packet.ServerStatusUpdate k.secret active (some s)) addr
        timestamp).2.servers
        = (if (node_at b addr).state = State.Invalid then b.servers ++ [addr] else b.servers) := by
  rcases hs with hs | hs | hs <;>
    simp [packet_handle, node_at_touch, hs, node_at_addr, node_at_mk, node_at_set_state,
      node_at_set_server_state, update_node_servers]

theorem PairingInv.empty : PairingInv Broker.empty where
  keys := List.nodup_nil
  roles :=
    { waiting_state := fun a ha => by simp [Broker.empty] at ha
      waiting_nodup := List.nodup_nil
      pairing_state := fun c hc => by simp [Broker.empty] at hc
      pairing_nodup := List.nodup_nil
      connecting_paired := fun a ha => by
        simp [Broker.empty, node_at, find_node, Node.fresh] at ha }

theorem PairingInv.of_disconnected_list {b : Broker} (l : List Address) (h : PairingInv b) :
    PairingInv (l.foldl disconnected b) := by
  induction l generalizing b with
  | nil => exact h
  | cons x xs ih => exact ih (h.of_disconnected x)

/-- Every state the master server can be in satisfies the role invariant. -/
theorem Reachable.pairing_inv {k : Env} {b : Broker} (h : Reachable k b) : PairingInv b := by
  induction h with
  | init => exact PairingInv.empty
  | packet b received p addr timestamp _ ih => exact ih.of_packet_handle k received p addr timestamp
  | audit b timestamp order _ _ ih => exact ih.of_disconnected_list order
  | matchmake b timestamp _ ih => exact ih.of_matchmake k b timestamp

theorem find_node_of_mem (nodes : List Node) (hk : (nodes.map (fun n => n.addr)).Nodup)
    {n : Node} (hn : n ∈ nodes) : find_node nodes n.addr = some n := by
  unfold find_node
  induction nodes with
  | nil => simp at hn
  | cons x xs ih =>
    rw [List.map_cons, List.nodup_cons] at hk
    rw [List.find?_cons]
    rcases List.mem_cons.mp hn with e | e
    · subst e; simp
    · have hne : x.addr ≠ n.addr := fun e' =>
        hk.1 (e' ▸ List.mem_map.mpr ⟨n, e, rfl⟩)
      simp only [hne, decide_False]
      exact ih hk.2 e

theorem node_at_of_mem {b : Broker} (hk : (b.nodes.map (fun n => n.addr)).Nodup) {n : Node}
    (hn : n ∈ b.nodes) : node_at b n.addr = n := by
  unfold node_at
  rw [find_node_of_mem b.nodes hk hn]
  rfl

theorem filter_client_length (P : List ClientConnection) (a : Address) :
    (P.filter (fun c => decide (c.client = a))).length = (P.map (fun c => c.client)).count a := by
  induction P with
  | nil => rfl
  | cons x xs ih =>
    by_cases h : x.client = a
    · simp [List.filter_cons, h, ih]
    · simp [List.filter_cons, h, ih, List.count_cons]

/-- C9: in every state reachable from the empty broker by packet_handle calls,
audits and matchmaking passes, every registry node in state ClientConnecting
is the client of exactly one pairing of the pairing list, and its address is
not in the waiting list. -/
theorem connecting_client_has_one_pairing (k : Env) (b : Broker) (h : Reachable k b) :
    ∀ n ∈ b.nodes, n.state = State.ClientConnecting →
      (b.clients_connecting.filter (fun c => decide (c.client = n.addr))).length = 1
      ∧ n.addr ∉ b.clients_waiting := by
  intro n hn hs
  have inv := h.pairing_inv
  have hat : (node_at b n.addr).state = State.ClientConnecting := by
    rw [node_at_of_mem inv.keys hn]; exact hs
  refine ⟨?_, ?_⟩
  · rw [filter_client_length]
    exact List.count_eq_one_of_mem inv.roles.pairing_nodup (inv.roles.connecting_paired _ hat)
  · intro hw
    have := inv.roles.waiting_state _ hw
    simp only [] at this
    rw [hat] at this
    exact State.noConfusion this

theorem run3_reachable : Reachable example_env run3 :=
  Reachable.matchmake _ _ (Reachable.packet _ _ _ _ _ (Reachable.packet _ _ _ _ _ Reachable.init))

/-- C9, witness: the state after step 3 of the first run is reachable, and its
connecting client has one pairing and is not waiting. -/
theorem connecting_client_has_one_pairing_witness :
    Reachable example_env run3 ∧
    ∀ n ∈ run3.nodes, n.state = State.ClientConnecting →
      (run3.clients_connecting.filter (fun c => decide (c.client = n.addr))).length = 1
      ∧ n.addr ∉ run3.clients_waiting :=
  ⟨run3_reachable, connecting_client_has_one_pairing example_env run3 run3_reachable⟩

theorem pairings_kept_refl (b : Broker) : pairings_kept b b :=
  ⟨List.prefix_refl _, [], by simp, fun _ _ _ _ h => by simp at h⟩

theorem pairings_kept_step {b0 b : Broker} (h : pairings_kept b0 b) (b' : Broker)
    (new : List Outgoing) (hP : b.clients_connecting <+: b'.clients_connecting)
    (hs : b'.sent = b.sent ++ new)
    (hn : ∀ (t : ℚ) (c : Address) (host port : Nat), Outgoing.ClientConnect t c host port ∈ new →
      ({ client := c, server := ⟨host, port⟩ } : ClientConnection) ∈ b'.clients_connecting) :
    pairings_kept b0 b' := by
  obtain ⟨h1, ms, h2, h3⟩ := h
  refine ⟨h1.trans hP, ms ++ new, by rw [hs, h2, List.append_assoc], ?_⟩
  intro t c host port hm
  rcases List.mem_append.mp hm with hm | hm
  · exact hP.subset (h3 t c host port hm)
  · exact hn t c host port hm

theorem pairings_kept_pass (b0 : Broker) (timestamp : ℚ) :
    PassStable timestamp (pairings_kept b0) where
  lookup b a h := pairings_kept_step h _ []
    (by rw [node_for_address_clients_connecting]) (by rw [node_for_address_sent]; simp)
    (fun _ _ _ _ hm => by simp at hm)
  assert b h := pairings_kept_step h _ [] (List.prefix_refl _) (by simp)
    (fun _ _ _ _ hm => by simp at hm)
  load b a s h _ := pairings_kept_step h _ [Outgoing.ServerLoad timestamp a s]
    (by rw [send_server_load_clients_connecting]) (send_server_load_sent _ _ _ _)
    (fun _ _ _ _ hm => by simp at hm)
  join b server c h _ := pairings_kept_step h _ []
    (by rw [client_queue_join_clients_connecting]; exact List.prefix_append _ _)
    (by rw [client_queue_join_sent]; simp) (fun _ _ _ _ hm => by simp at hm)
  connect b server c h hp := pairings_kept_step h _
    [Outgoing.ClientConnect timestamp c server.host server.port]
    (List.prefix_refl _) rfl
    (fun t' c' host port hm => by
      simp only [List.mem_singleton, Outgoing.ClientConnect.injEq] at hm
      obtain ⟨_, e2, e3, e4⟩ := hm
      subst e2 e3 e4
      exact hp)

theorem status_update_clients_connecting (k : Env) (b : Broker) (received : Bool)
    (secret : Int) (active : Bool) (os : Option ServerState) (addr : Address) (timestamp : ℚ) :
    (packet_handle k b received (Packet.ServerStatusUpdate secret active os) addr
      timestamp).2.clients_connecting = b.clients_connecting := by
  cases received with
  | false => rfl
  | true =>
    simp only [packet_handle, Bool.not_true, Bool.false_eq_true, if_false]
    split
    · exact update_node_clients_connecting _ _ _
    · cases os with
      | none => exact update_node_clients_connecting _ _ _
      | some s =>
        simp only []
        split
        · split
          · rw [connect_fold]
            simp [update_node_clients_connecting]
          · exact update_node_clients_connecting _ _ _
        · split
          · split <;> simp [update_node_clients_connecting]
          · exact update_node_clients_connecting _ _ _

theorem status_update_sent (k : Env) (b : Broker) (received : Bool)
    (secret : Int) (active : Bool) (os : Option ServerState) (addr : Address) (timestamp : ℚ) :
    (packet_handle k b received (Packet.ServerStatusUpdate secret active os) addr
      timestamp).2.sent = b.sent
    ∨ (packet_handle k b received (Packet.ServerStatusUpdate secret active os) addr
      timestamp).2.sent = b.sent ++ (b.clients_connecting.filter
          (fun c => decide (c.server = addr))).map
          (fun c => Outgoing.ClientConnect timestamp c.client addr.host addr.port) := by
  cases received with
  | false => exact Or.inl rfl
  | true =>
    simp only [packet_handle, Bool.not_true, Bool.false_eq_true, if_false]
    split
    · exact Or.inl (update_node_sent _ _ _)
    · cases os with
      | none => exact Or.inl (update_node_sent _ _ _)
      | some s =>
        simp only []
        split
        · split
          · right
            rw [connect_fold]
            simp [update_node_sent, update_node_clients_connecting, node_at_addr]
          · exact Or.inl (update_node_sent _ _ _)
        · split
          · left
            split <;> simp [update_node_sent]
          · exact Or.inl (update_node_sent _ _ _)

/-- Every message but Disconnect leaves the pairing list as it is. -/
theorem packet_clients_connecting (k : Env) (b : Broker) (received : Bool) (p : Packet)
    (addr : Address) (timestamp : ℚ) (hp : p ≠ Packet.Disconnect) :
    (packet_handle k b received p addr timestamp).2.clients_connecting
      = b.clients_connecting := by
  cases received with
  | false => rfl
  | true =>
    cases p with
    | Disconnect => exact absurd rfl hp
    | Ack => simp [packet_handle, update_node_clients_connecting]
    | ServerLoad => simp [packet_handle, update_node_clients_connecting]
    | ClientConnect => simp [packet_handle, update_node_clients_connecting]
    | ServerStatusUpdate secret active os =>
      exact status_update_clients_connecting k b true secret active os addr timestamp
    | ClientRequestServer os =>
      cases os with
      | none => simp [packet_handle, update_node_clients_connecting]
      | some s =>
        simp only [packet_handle, Bool.not_true, Bool.false_eq_true, if_false]
        split
        · exact update_node_clients_connecting _ _ _
        · split
          · exact update_node_clients_connecting _ _ _
          · split
            · split <;> simp [update_node_clients_connecting]
            · exact update_node_clients_connecting _ _ _

/-- C8 (amended): a pairing is not destroyed when the match is confirmed.
Handling a ServerStatusUpdate leaves the pairing list as it is, a matchmaking
pass only appends to it, and in both the pairing of every ClientConnect sent
is in the pairing list afterwards (pairings_kept).  No message but Disconnect
changes the pairing list, so that pairings are removed by disconnected
only. -/
theorem pairing_survives_confirmation :
    (∀ (k : Env) (b : Broker) (received : Bool) (secret : Int) (active : Bool)
        (os : Option ServerState) (addr : Address) (timestamp : ℚ),
      (packet_handle k b received (Packet.ServerStatusUpdate secret active os) addr
        timestamp).2.clients_connecting = b.clients_connecting
      ∧ pairings_kept b (packet_handle k b received
        (Packet.ServerStatusUpdate secret active os) addr timestamp).2)
    ∧ (∀ (k : Env) (b : Broker) (timestamp : ℚ), pairings_kept b (matchmake k b timestamp))
    ∧ (∀ (k : Env) (b : Broker) (received : Bool) (p : Packet) (addr : Address)
        (timestamp : ℚ), p ≠ Packet.Disconnect →
      (packet_handle k b received p addr timestamp).2.clients_connecting
        = b.clients_connecting) := by
  refine ⟨?_, fun k b timestamp =>
    pass_matchmake k (pairings_kept_pass b timestamp) b (pairings_kept_refl b),
    fun k b received p addr timestamp hp =>
      packet_clients_connecting k b received p addr timestamp hp⟩
  intro k b received secret active os addr timestamp
  have hP := status_update_clients_connecting k b received secret active os addr timestamp
  refine ⟨hP, ?_⟩
  rcases status_update_sent k b received secret active os addr timestamp with hs | hs
  · exact pairings_kept_step (pairings_kept_refl b) _ [] (by rw [hP]) (by rw [hs]; simp)
      (fun _ _ _ _ hm => by simp at hm)
  · refine pairings_kept_step (pairings_kept_refl b) _ _ (by rw [hP]) hs ?_
    intro t c host port hm
    rw [hP]
    obtain ⟨q, hq, he⟩ := List.mem_map.mp hm
    simp only [Outgoing.ClientConnect.injEq] at he
    obtain ⟨_, e2, e3, e4⟩ := he
    rw [List.mem_filter] at hq
    have hsrv : q.server = addr := by simpa using hq.2
    have : q = { client := c, server := ⟨host, port⟩ } := by
      cases q
      simp only [ClientConnection.mk.injEq]
      simp only at e2 hsrv
      subst e2 e3 e4
      exact ⟨rfl, hsrv⟩
    rw [← this]
    exact hq.1

/-- C8, witness: an Ack of the paired client after the connect notice of the
first run leaves its pairing in the list, and the matchmaking pass of the
first run kept the pairings. -/
theorem pairing_survives_confirmation_witness :
    Packet.Ack ≠ Packet.Disconnect
    ∧ (packet_handle example_env run3 true Packet.Ack example_client 3).2.clients_connecting
        = run3.clients_connecting
    ∧ pairings_kept run2 (matchmake example_env run2 2) :=
  ⟨by decide,
    pairing_survives_confirmation.2.2 example_env run3 true Packet.Ack example_client 3
      (by decide),
    pairing_survives_confirmation.2.1 example_env run2 2⟩

/-- C8, counterexample.  First run: the matchmaking pass sends the ClientConnect
for the client and the already active server, and the pairing of the two is
in the pairing list after the pass.  Second run: the server reports active out
of ServerLoading, the ClientConnect is sent, and the pairing is still in the
pairing list. -/
theorem pairing_present_after_connect :
    (Outgoing.ClientConnect 2 example_client example_server.host example_server.port
        ∈ (matchmake example_env run2 2).sent
      ∧ Outgoing.ClientConnect 2 example_client example_server.host example_server.port
        ∉ run2.sent
      ∧ ({ client := example_client, server := example_server } : ClientConnection)
        ∈ (matchmake example_env run2 2).clients_connecting)
    ∧ ((node_at load3 example_server).state = State.ServerLoading
      ∧ (node_at load4 example_server).state = State.ServerActive
      ∧ load4.sent = load3.sent ++
        [Outgoing.ClientConnect 3 example_client example_server.host example_server.port]
      ∧ ({ client := example_client, server := example_server } : ClientConnection)
        ∈ load4.clients_connecting) := by
  decide

theorem wrap8_id (x : Int) (h0 : 0 ≤ x) (h1 : x ≤ 127) : wrap8 x = x := by
  unfold wrap8; omega

theorem is_server_iff (s : State) :
    s.is_server = true ↔
      (s = State.ServerLoading ∨ s = State.ServerActive ∨ s = State.ServerIdle) := by
  cases s <;> simp [State.is_server]

theorem paired_slots_congr {b b' : Broker}
    (hP : b'.clients_connecting = b.clients_connecting)
    (hn : ∀ c, (node_at b' c).server_state = (node_at b c).server_state) (s : Address) :
    paired_slots b' s = paired_slots b s := by
  unfold paired_slots
  rw [hP]
  congr 1
  apply List.map_congr_left
  intro c _
  rw [hn]

theorem paired_slots_join (b : Broker) (server c s : Address) :
    paired_slots (client_queue_join b server c) s
      = paired_slots b s + (if server = s then (node_at b c).server_state.open_slots else 0) := by
  have hn : ∀ x, (node_at (client_queue_join b server c) x).server_state
      = (node_at b x).server_state := by
    intro x
    rw [node_at_client_queue_join]
    split
    · next e => rw [e]
    · rfl
  unfold paired_slots
  rw [client_queue_join_clients_connecting, List.filter_append, List.map_append, List.sum_append]
  congr 1
  · congr 1
    apply List.map_congr_left
    intro x _
    rw [hn]
  · by_cases e : server = s
    · subst e
      simp [List.filter_cons, hn]
    · simp [List.filter_cons, e]

/-- The loop of server_open_slots: without overflow it subtracts the open
slots of the paired clients, and it leaves nodes and lists as they are. -/
theorem slots_fold_spec (a1 : Address) (l : List ClientConnection) (z : Int) (b : Broker) :
    (∀ c, node_at (l.foldl (open_slots_step a1) (z, b)).2 c = node_at b c)
    ∧ (l.foldl (open_slots_step a1) (z, b)).2.clients_connecting = b.clients_connecting
    ∧ (l.foldl (open_slots_step a1) (z, b)).2.clients_waiting = b.clients_waiting
    ∧ (z ≤ 127 →
      ((((l.filter (fun c => decide (c.server = a1))).map
        (fun c => (node_at b c.client).server_state.open_slots)).sum : Nat) : Int) ≤ z →
      (l.foldl (open_slots_step a1) (z, b)).1
        = z - (((l.filter (fun c => decide (c.server = a1))).map
          (fun c => (node_at b c.client).server_state.open_slots)).sum : Nat)) := by
  induction l generalizing z b with
  | nil => simp
  | cons x xs ih =>
    rw [List.foldl_cons]
    by_cases h : x.server = a1
    · have hstep : open_slots_step a1 (z, b) x
          = (wrap8 (z - ((node_at b x.client).server_state.open_slots : Int)),
            (node_for_address b x.client).1) := by
        simp only [open_slots_step, h, if_true, node_for_address_snd]
      rw [hstep]
      obtain ⟨h1, h2, h3, h4⟩ := ih
        (wrap8 (z - ((node_at b x.client).server_state.open_slots : Int)))
        (node_for_address b x.client).1
      refine ⟨fun c => by rw [h1, node_at_node_for_address],
        by rw [h2, node_for_address_clients_connecting],
        by rw [h3, node_for_address_clients_waiting], ?_⟩
      intro hz hsum
      simp only [List.filter_cons, h, decide_True, if_true, List.map_cons, List.sum_cons,
        Nat.cast_add] at hsum ⊢
      simp only [node_at_node_for_address] at h4
      have hw : wrap8 (z - ((node_at b x.client).server_state.open_slots : Int))
          = z - ((node_at b x.client).server_state.open_slots : Int) := by
        apply wrap8_id <;> omega
      rw [hw] at h4 ⊢
      rw [h4 (by omega) (by omega)]
      omega
    · have hstep : open_slots_step a1 (z, b) x = (z, b) := by
        simp only [open_slots_step, h, if_false]
      rw [hstep]
      obtain ⟨h1, h2, h3, h4⟩ := ih z b
      refine ⟨h1, h2, h3, ?_⟩
      intro hz hsum
      simp only [List.filter_cons, h, decide_False, if_false] at hsum ⊢
      exact h4 hz hsum

theorem scan_bounded_congr {a : Address} {z : Int} {b : Broker} (h : scan_bounded a z b)
    (b' : Broker) (hn : ∀ c, node_at b' c = node_at b c)
    (hP : b'.clients_connecting = b.clients_connecting) : scan_bounded a z b' := by
  refine ⟨fun s hs => ?_, fun s hs => ?_⟩
  · rw [hn] at hs ⊢; exact h.1 s hs
  · rw [hn] at hs ⊢
    rw [paired_slots_congr hP (fun c => by rw [hn])]
    exact h.2 s hs

theorem scan_bounded_done {a : Address} {z : Int} {b : Broker} (h : scan_bounded a z b)
    (hz : 0 ≤ z) : slots_fit_s8 b ∧ slots_bounded b := by
  refine ⟨h.1, fun s hs => ?_⟩
  have := h.2 s hs
  split at this <;> omega

theorem scan_bounded_join {a : Address} {z : Int} {b : Broker} (c : Address)
    (h : scan_bounded a z b) :
    scan_bounded a (z - ((node_at b c).server_state.open_slots : Int))
      (client_queue_join b a c) := by
  have hsrv : ∀ s, (node_at (client_queue_join b a c) s).state.is_server = true →
      node_at (client_queue_join b a c) s = node_at b s := by
    intro s hs
    rw [node_at_client_queue_join] at hs ⊢
    by_cases e : s = c
    · simp [e, State.is_server] at hs
    · simp only [e, if_false]
  refine ⟨fun s hs => ?_, fun s hs => ?_⟩
  · have e := hsrv s hs
    rw [e] at hs ⊢
    exact h.1 s hs
  · have e := hsrv s hs
    rw [e] at hs ⊢
    rw [paired_slots_join]
    have := h.2 s hs
    by_cases e1 : s = a
    · subst e1
      simp only [if_true] at this ⊢
      push_cast
      omega
    · have e2 : ¬ a = s := fun e' => e1 e'.symm
      simp only [e1, e2, if_false] at this ⊢
      simpa using this

theorem assign_loop_bounded (t : ℚ) (a : Address) (fuel j : Nat) (z : Int) (b : Broker)
    (hz0 : 0 ≤ z) (hz1 : z ≤ 127) (h : scan_bounded a z b) :
    slots_fit_s8 (assign_loop t a fuel j z b) ∧ slots_bounded (assign_loop t a fuel j z b) := by
  induction fuel generalizing j z b with
  | zero => exact scan_bounded_done h hz0
  | succ n ih =>
    unfold assign_loop
    split
    · exact scan_bounded_done h hz0
    · next c hc =>
      have h1 : scan_bounded a z (node_for_address b c).1 :=
        scan_bounded_congr h _ (fun x => node_at_node_for_address b c x)
          (node_for_address_clients_connecting b c)
      simp only []
      split
      · next hge =>
        have h2 := scan_bounded_join c h1
        have h3 : scan_bounded a
            (z - ((node_at (node_for_address b c).1 c).server_state.open_slots : Int))
            (if (node_at (client_queue_join (node_for_address b c).1 a c) a).state
                ≠ State.ServerLoading
              then send_client_connect t (client_queue_join (node_for_address b c).1 a c) a c
              else client_queue_join (node_for_address b c).1 a c) := by
          split
          · exact scan_bounded_congr h2 _ (fun x => rfl) rfl
          · exact h2
        have hw : wrap8 (z - ((node_at (node_for_address b c).1 c).server_state.open_slots : Int))
            = z - ((node_at (node_for_address b c).1 c).server_state.open_slots : Int) := by
          apply wrap8_id <;> omega
        rw [hw]
        split
        · exact scan_bounded_done h3 (by omega)
        · exact ih _ _ _ (by omega) (by omega) h3
      · exact ih _ _ _ hz0 hz1 h1

theorem assign_target_bounded (t : ℚ) (b : Broker) (a : Address)
    (h : slots_fit_s8 b ∧ slots_bounded b) :
    slots_fit_s8 (assign_target t b a) ∧ slots_bounded (assign_target t b a) := by
  unfold assign_target
  simp only []
  have hn : ∀ c, node_at (node_for_address b a).1 c = node_at b c :=
    fun c => node_at_node_for_address b a c
  have h1 : slots_fit_s8 (node_for_address b a).1 := fun s hs => by
    rw [hn] at hs ⊢; exact h.1 s hs
  have h2 : slots_bounded (node_for_address b a).1 := fun s hs => by
    rw [hn] at hs ⊢
    rw [paired_slots_congr (node_for_address_clients_connecting b a) (fun c => by rw [hn])]
    exact h.2 s hs
  generalize (node_for_address b a).1 = b1 at h1 h2
  by_cases hs : (node_at b1 a).state = State.ServerLoading
      ∨ (node_at b1 a).state = State.ServerActive ∨ (node_at b1 a).state = State.ServerIdle
  · have hsrv : (node_at b1 a).state.is_server = true := (is_server_iff _).mpr hs
    have hfit := h1 a hsrv
    have hbd := h2 a hsrv
    obtain ⟨f1, f2, f3, f4⟩ := slots_fold_spec a b1.clients_connecting
      (wrap8 ((node_at b1 a).server_state.open_slots : Int)) b1
    have hw : wrap8 ((node_at b1 a).server_state.open_slots : Int)
        = ((node_at b1 a).server_state.open_slots : Int) := by
      apply wrap8_id <;> omega
    rw [hw] at f1 f2 f3 f4
    have hval := f4 (by omega) (by unfold paired_slots at hbd; exact_mod_cast hbd)
    have hr : server_open_slots b1 a
        = b1.clients_connecting.foldl (open_slots_step a)
          (((node_at b1 a).server_state.open_slots : Int), b1) := by
      simp only [server_open_slots, hs, if_true, node_at_addr, hw]
    rw [hr, f3]
    apply assign_loop_bounded
    · rw [hval]; unfold paired_slots at hbd; omega
    · rw [hval]; omega
    · refine ⟨fun s hs' => ?_, fun s hs' => ?_⟩
      · rw [f1] at hs' ⊢; exact h1 s hs'
      · rw [f1] at hs' ⊢
        rw [paired_slots_congr f2 (fun c => by rw [f1]), hval]
        have := h2 s hs'
        by_cases e : s = a
        · subst e
          simp only [if_true]
          unfold paired_slots
          omega
        · simp only [e, if_false]
          omega
  · have hr : server_open_slots b1 a = (0, { b1 with assert_failed := true }) := by
      simp only [server_open_slots, hs, if_false]
    rw [hr]
    apply assign_loop_bounded _ _ _ _ _ _ (le_refl _) (by omega)
    refine ⟨fun s hs' => h1 s hs', fun s hs' => ?_⟩
    have := h2 s hs'
    have e : paired_slots { b1 with assert_failed := true } s = paired_slots b1 s := rfl
    have e' : node_at { b1 with assert_failed := true } s = node_at b1 s := rfl
    rw [e, e']
    split <;> omega

/-- C10 (amended): the assignment step of the matchmaking pass keeps the bound.
When in a state every server advertises at most 127 open slots and the open
slots requested by the clients paired with it do not exceed the advertised
ones, the same bound holds after the assignment loop over any list of
targets. -/
theorem assignment_keeps_slots_bounded (timestamp : ℚ) (targets : List Address) (b : Broker)
    (h8 : slots_fit_s8 b) (hb : slots_bounded b) :
    slots_bounded (targets.foldl (assign_target timestamp) b) := by
  have : slots_fit_s8 (targets.foldl (assign_target timestamp) b)
      ∧ slots_bounded (targets.foldl (assign_target timestamp) b) := by
    induction targets generalizing b with
    | nil => exact ⟨h8, hb⟩
    | cons x xs ih =>
      have hx := assign_target_bounded timestamp b x ⟨h8, hb⟩
      exact ih _ hx.1 hx.2
  exact this.2

/-! ## Witnesses and counterexamples on the example runs -/

/-- C1, counterexample: the server of the first run, last heard at time 1,
sends a ServerStatusUpdate with the secret 8 (configured: 7) at time 5.  The
message is rejected, and the last_message_timestamp of the node is 5
afterwards, not the 1 it was before. -/
theorem secret_mismatch_timestamp_counterexample :
    (8 : Int) ≠ example_env.secret
    ∧ (packet_handle example_env run1 true
        (Packet.ServerStatusUpdate 8 true (some ⟨1, 4, false, 2⟩)) example_server 5).1 = false
    ∧ (node_at run1 example_server).last_message_timestamp = 1
    ∧ (node_at (packet_handle example_env run1 true
        (Packet.ServerStatusUpdate 8 true (some ⟨1, 4, false, 2⟩)) example_server 5).2
        example_server).last_message_timestamp = 5
    ∧ ¬ ((node_at (packet_handle example_env run1 true
        (Packet.ServerStatusUpdate 8 true (some ⟨1, 4, false, 2⟩)) example_server 5).2
        example_server).last_message_timestamp
        = (node_at run1 example_server).last_message_timestamp) := by
  decide

/-- C1, witness: the amended claim at the message of the counterexample. -/
theorem secret_mismatch_refreshes_timestamp_witness :
    (8 : Int) ≠ example_env.secret
    ∧ (packet_handle example_env run1 true
        (Packet.ServerStatusUpdate 8 true (some ⟨1, 4, false, 2⟩)) example_server 5).1 = false
    ∧ (node_at (packet_handle example_env run1 true
        (Packet.ServerStatusUpdate 8 true (some ⟨1, 4, false, 2⟩)) example_server 5).2
        example_server).state = (node_at run1 example_server).state :=
  ⟨by decide,
    (secret_mismatch_refreshes_timestamp example_env run1 8 true (some ⟨1, 4, false, 2⟩)
      example_server 5 (by decide)).1,
    (secret_mismatch_refreshes_timestamp example_env run1 8 true (some ⟨1, 4, false, 2⟩)
      example_server 5 (by decide)).2.1⟩

/-- C3, witness (scenario B): a story-mode request for two slots from an
unknown client is rejected and the client reads as Invalid afterwards. -/
theorem invalid_request_rejected_witness :
    (example_story_two.story_mode = true ∧ example_story_two.open_slots ≠ 1)
    ∧ (packet_handle example_env run1 true
        (Packet.ClientRequestServer (some example_story_two)) example_client 2).1 = false
    ∧ (node_at (packet_handle example_env run1 true
        (Packet.ClientRequestServer (some example_story_two)) example_client 2).2
        example_client).state = State.Invalid :=
  ⟨by decide,
    (invalid_request_rejected example_env run1 example_story_two example_client 2
      (Or.inr (Or.inr (Or.inr (Or.inl (by decide)))))).1,
    (invalid_request_rejected example_env run1 example_story_two example_client 2
      (Or.inr (Or.inr (Or.inr (Or.inl (by decide)))))).2.1⟩

/-- C4, witness: step 2 of the first run, the request of an unknown client. -/
theorem request_from_invalid_waits_witness :
    valid_request example_env example_request
    ∧ (node_at run1 example_client).state = State.Invalid
    ∧ (node_at run2 example_client).state = State.ClientWaiting
    ∧ run2.clients_waiting = run1.clients_waiting ++ [example_client] :=
  ⟨⟨by decide, by decide, by decide, by decide⟩, by decide,
    (request_from_invalid_waits example_env run1 example_request example_client 2
      ⟨by decide, by decide, by decide, by decide⟩ (by decide)).2.1,
    (request_from_invalid_waits example_env run1 example_request example_client 2
      ⟨by decide, by decide, by decide, by decide⟩ (by decide)).2.2.2⟩

/-- C5, witness: the waiting client of the first run asks again, for one
slot on another level. -/
theorem repeated_request_refreshes_witness :
    valid_request example_env ⟨2, 1, false, 2⟩
    ∧ (node_at run2 example_client).state = State.ClientWaiting
    ∧ (node_at (packet_handle example_env run2 true
        (Packet.ClientRequestServer (some ⟨2, 1, false, 2⟩)) example_client 3).2
        example_client).server_state = ⟨2, 1, false, 2⟩
    ∧ (packet_handle example_env run2 true
        (Packet.ClientRequestServer (some ⟨2, 1, false, 2⟩)) example_client 3).2.clients_waiting
        = run2.clients_waiting :=
  ⟨⟨by decide, by decide, by decide, by decide⟩, by decide,
    (repeated_request_refreshes example_env run2 ⟨2, 1, false, 2⟩ example_client 3
      ⟨by decide, by decide, by decide, by decide⟩ (by decide)).2.2.1,
    (repeated_request_refreshes example_env run2 ⟨2, 1, false, 2⟩ example_client 3
      ⟨by decide, by decide, by decide, by decide⟩ (by decide)).2.2.2⟩

/-- C6, witness: step 4 of the second run, the loading server reports
active. -/
theorem loading_server_becomes_active_witness :
    (node_at load3 example_server).state = State.ServerLoading
    ∧ (⟨3, 4, false, 2⟩ : ServerState) = (node_at load3 example_server).server_state
    ∧ (node_at (packet_handle example_env load3 true
        (Packet.ServerStatusUpdate example_env.secret true (some ⟨3, 4, false, 2⟩))
        example_server 3).2 example_server).state = State.ServerActive :=
  ⟨by decide, by decide,
    (loading_server_becomes_active example_env load3 ⟨3, 4, false, 2⟩ example_server 3
      (by decide) (by decide)).2.1⟩

/-- C7, witness: step 1 of the second run, the first status update of an
unknown server, not active. -/
theorem status_update_outside_loading_witness :
    ((node_at Broker.empty example_server).state = State.Invalid
      ∨ (node_at Broker.empty example_server).state = State.ServerActive
      ∨ (node_at Broker.empty example_server).state = State.ServerIdle)
    ∧ (node_at (packet_handle example_env Broker.empty true
        (Packet.ServerStatusUpdate example_env.secret false (some ⟨1, 4, false, 2⟩))
        example_server 1).2 example_server).state
        = (if false = true then State.ServerActive else State.ServerIdle) :=
  ⟨by decide,
    (status_update_outside_loading example_env Broker.empty ⟨1, 4, false, 2⟩ false
      example_server 1 (by decide)).2.1⟩

/-- A node in a server state is registered. -/
theorem server_registered (b : Broker) (s : Address)
    (h : (node_at b s).state.is_server = true) : s ∈ b.nodes.map (fun n => n.addr) := by
  unfold node_at at h
  cases hf : find_node b.nodes s with
  | none => rw [hf] at h; simp [Node.fresh, State.is_server] at h
  | some n =>
    exact List.mem_map.mpr ⟨n, List.mem_of_find?_eq_some hf, find_node_addr hf⟩

/-- The slot bound may be checked on the registered addresses. -/
theorem slots_bounded_of_registry (b : Broker)
    (h : ∀ a ∈ b.nodes.map (fun n => n.addr), (node_at b a).state.is_server = true →
      paired_slots b a ≤ (node_at b a).server_state.open_slots) : slots_bounded b :=
  fun s hs => h s (server_registered b s hs) hs

/-- The s8 range may be checked on the registered addresses. -/
theorem slots_fit_s8_of_registry (b : Broker)
    (h : ∀ a ∈ b.nodes.map (fun n => n.addr), (node_at b a).state.is_server = true →
      (node_at b a).server_state.open_slots ≤ 127) : slots_fit_s8 b :=
  fun s hs => h s (server_registered b s hs) hs

/-- The state after step 4 of the first run is reachable. -/
theorem run4_reachable : Reachable example_env run4 :=
  Reachable.packet _ _ _ _ _ run3_reachable

/-- C10, counterexample: in the first run the matchmaking pass pairs the
client, who asked for 2 slots, with the active server advertising 4; then the
server reports 1 open slot.  The state is reachable, the server is
ServerActive and advertises 1 open slot, and the clients paired with it ask
for 2. -/
theorem status_update_breaks_slot_bound :
    Reachable example_env run4
    ∧ (node_at run4 example_server).state = State.ServerActive
    ∧ (node_at run4 example_server).server_state.open_slots = 1
    ∧ paired_slots run4 example_server = 2
    ∧ ¬ slots_bounded run4 :=
  ⟨run4_reachable, by decide, by decide, by decide,
    fun h => absurd (h example_server (by decide)) (by decide)⟩

/-- C10, witness: the assignment loop for the active server, from the state
of step 2 of the first run. -/
theorem assignment_keeps_slots_bounded_witness :
    slots_fit_s8 run2 ∧ slots_bounded run2
    ∧ slots_bounded ([example_server].foldl (assign_target 2) run2) :=
  ⟨slots_fit_s8_of_registry run2 (by decide), slots_bounded_of_registry run2 (by decide),
    assignment_keeps_slots_bounded 2 [example_server] run2
      (slots_fit_s8_of_registry run2 (by decide)) (slots_bounded_of_registry run2 (by decide))⟩

/-! ## The registry, eviction and the invariant of the servers -/

/-! ### The registered addresses -/

theorem mem_registered_iff (b : Broker) (a : Address) :
    a ∈ registered b ↔ (find_node b.nodes a).isSome = true := by
  unfold registered find_node
  rw [List.find?_isSome]
  simp only [List.mem_map, decide_eq_true_eq]

theorem not_mem_registered_iff (b : Broker) (a : Address) :
    a ∉ registered b ↔ find_node b.nodes a = none := by
  rw [mem_registered_iff]
  cases find_node b.nodes a <;> simp

theorem node_at_of_not_registered {b : Broker} {a : Address} (h : a ∉ registered b) :
    node_at b a = Node.fresh a := by
  unfold node_at
  rw [(not_mem_registered_iff b a).mp h]
  rfl

theorem registered_of_state {b : Broker} {a : Address}
    (h : (node_at b a).state ≠ State.Invalid) : a ∈ registered b := by
  by_contra hn
  rw [node_at_of_not_registered hn] at h
  exact h rfl

theorem find_node_of_registered {b : Broker} {a : Address} (h : a ∈ registered b) :
    find_node b.nodes a = some (node_at b a) := by
  unfold node_at
  rw [mem_registered_iff] at h
  cases hf : find_node b.nodes a with
  | none => rw [hf] at h; simp at h
  | some n => rfl

theorem mem_registered_node_for_address (b : Broker) (a c : Address) :
    c ∈ registered (node_for_address b a).1 ↔ c ∈ registered b ∨ c = a := by
  unfold node_for_address
  cases hf : find_node b.nodes a with
  | some n =>
    have : a ∈ registered b := (mem_registered_iff b a).mpr (by rw [hf]; rfl)
    constructor
    · exact Or.inl
    · rintro (h | h)
      · exact h
      · rw [h]; exact this
  | none => simp [registered, Node.fresh]

theorem registered_update_node (b : Broker) (a : Address) (f : Node → Node)
    (hf : ∀ n, (f n).addr = n.addr) :
    registered (update_node b a f) = registered (node_for_address b a).1 := by
  simp only [registered, update_node, List.map_map]
  apply List.map_congr_left
  intro n _
  simp only [Function.comp]
  split
  · exact hf n
  · rfl

theorem mem_registered_update_node (b : Broker) (a c : Address) (f : Node → Node)
    (hf : ∀ n, (f n).addr = n.addr) :
    c ∈ registered (update_node b a f) ↔ c ∈ registered b ∨ c = a := by
  rw [registered_update_node b a f hf, mem_registered_node_for_address]

theorem mem_registered_erase_node (b : Broker) (A c : Address) :
    c ∈ registered (erase_node b A) ↔ c ∈ registered b ∧ c ≠ A := by
  simp only [registered, erase_node, List.mem_map, List.mem_filter, Bool.not_eq_true',
    decide_eq_false_iff_not]
  constructor
  · rintro ⟨n, ⟨hn, hna⟩, rfl⟩
    exact ⟨⟨n, hn, rfl⟩, hna⟩
  · rintro ⟨⟨n, hn, rfl⟩, hna⟩
    exact ⟨n, ⟨hn, hna⟩, rfl⟩

theorem node_at_erase_node (b : Broker) (A c : Address) :
    node_at (erase_node b A) c = if c = A then Node.fresh c else node_at b c :=
  node_at_erase b A c

theorem mem_registered_reset_fold (rs : List ClientConnection) (b : Broker) (c : Address) :
    c ∈ registered (rs.foldl reset_client b) ↔
      c ∈ registered b ∨ c ∈ rs.map (fun p => p.client) := by
  induction rs generalizing b with
  | nil => simp
  | cons x xs ih =>
    rw [List.foldl_cons, ih]
    have h := mem_registered_update_node b x.client c
      (fun n => { n with state := State.ClientWaiting }) (fun _ => rfl)
    unfold reset_client
    rw [h]
    simp only [List.map_cons, List.mem_cons]
    tauto

/-! ### What disconnected does -/

/-- The registered addresses after the second loop of disconnected. -/
theorem reset_loop_registered (b0 : Broker) (A : Address) (srv : List Address) (c : Address) :
    c ∈ registered (remove_loop (fun (c : ClientConnection) => decide (c.server = A))
        reset_client b0.clients_connecting.length 0 b0.clients_connecting
        (Broker.mk b0.nodes srv b0.clients_waiting b0.clients_connecting b0.sent
          b0.assert_failed)).2
      ↔ c ∈ registered b0 ∨
        c ∈ (b0.clients_connecting.filter (fun c => decide (c.server = A))).map
          (fun c => c.client) := by
  obtain ⟨rs, _, hr2, hr3⟩ := remove_loop_zero
    (fun (c : ClientConnection) => decide (c.server = A)) reset_client b0.clients_connecting
    (Broker.mk b0.nodes srv b0.clients_waiting b0.clients_connecting b0.sent b0.assert_failed)
  rw [hr2, mem_registered_reset_fold, (hr3.map _).mem_iff]
  rfl

theorem registered_mk (b : Broker) (s w : List Address) (p : List ClientConnection)
    (o : List Outgoing) (f : Bool) : registered (Broker.mk b.nodes s w p o f) = registered b :=
  rfl

theorem is_server_false_of_eq {s : State}
    (h : s = State.ClientWaiting ∨ s = State.ClientConnecting ∨ s = State.Invalid
      ∨ s = State.ClientIdle) : s.is_server = false := by
  rcases h with h | h | h | h <;> rw [h] <;> rfl

theorem disconnected_facts (b : Broker) (A : Address) :
    Disconnected b (disconnected b A) A := by
  have hn0 : ∀ c, node_at (node_for_address b A).1 c = node_at b c :=
    fun c => node_at_node_for_address b A c
  have hk0 : ∀ c, c ∈ registered (node_for_address b A).1 ↔ c ∈ registered b ∨ c = A :=
    fun c => mem_registered_node_for_address b A c
  have hkn : (registered b).Nodup → (registered (node_for_address b A).1).Nodup :=
    fun h => keys_node_for_address b A h
  have hS0 := node_for_address_servers b A
  have hW0 := node_for_address_clients_waiting b A
  have hP0 := node_for_address_clients_connecting b A
  have hsent0 := node_for_address_sent b A
  have hassert0 := node_for_address_assert_failed b A
  have hkeys : ∀ (b1 : Broker), (∀ c, c ∈ registered b1 ↔ c ∈ registered b ∨ c = A) →
      ∀ a, a ∈ registered (erase_node b1 A) ↔ a ≠ A ∧ a ∈ registered b := by
    intro b1 h1 a
    rw [mem_registered_erase_node, h1]
    constructor
    · rintro ⟨h | h, h2⟩
      · exact ⟨h2, h⟩
      · exact absurd h h2
    · rintro ⟨h2, h⟩
      exact ⟨Or.inl h, h2⟩
  by_cases hs : (node_at b A).state = State.ServerActive
      ∨ (node_at b A).state = State.ServerLoading ∨ (node_at b A).state = State.ServerIdle
  · have hsrv : (node_at b A).state.is_server = true := by
      rcases hs with e | e | e <;> rw [e] <;> rfl
    have hcw : (node_at b A).state ≠ State.ClientWaiting := by
      rcases hs with e | e | e <;> rw [e] <;> decide
    simp only [disconnected, node_for_address_snd, hs, if_true]
    generalize (node_for_address b A).1 = b0 at hn0 hk0 hkn hS0 hW0 hP0 hsent0 hassert0 ⊢
    obtain ⟨g1, g2, g3, g4, g5, g6, g7⟩ := reset_loop_spec b0 A
      (remove_loop (fun a => decide (a = A)) (fun (u : Unit) _ => u)
          b0.servers.length 0 b0.servers ()).1
    have g8 := reset_loop_registered b0 A
      (remove_loop (fun a => decide (a = A)) (fun (u : Unit) _ => u)
          b0.servers.length 0 b0.servers ()).1
    have hsv := remove_loop_unit (fun a => decide (a = A)) b0.servers
    refine ⟨?_, ?_, ?_, ?_, ?_, ?_, ?_, ?_⟩
    · intro a
      rw [node_at_erase_node]
      by_cases e : a = A
      · simp only [e, if_true]
      · simp only [e, if_false, hsrv, true_and]
        rw [← hP0, ← hn0 a]
        exact (node_at_mk _ _ _ _ _ _ a).trans (g3 a)
    · intro a
      rw [mem_registered_erase_node, registered_mk]
      have := g8 a
      rw [hk0] at this
      simp only [hsrv, true_and]
      rw [← hP0]
      constructor
      · rintro ⟨h1, h2⟩
        refine ⟨h2, ?_⟩
        rcases (this.mp h1) with (h | h) | h
        · exact Or.inl h
        · exact absurd h h2
        · exact Or.inr h
      · rintro ⟨h2, h | h⟩
        · exact ⟨this.mpr (Or.inl (Or.inl h)), h2⟩
        · exact ⟨this.mpr (Or.inr h), h2⟩
    · intro hk
      exact keys_erase _ _ (g2 (hkn hk))
    · simp only [hsrv, if_true]
      dsimp only [erase_node]
      rw [g4, ← hS0]
      exact hsv
    · simp only [hcw, if_false]
      dsimp only [erase_node]
      rw [g5, hW0]
    · simp only [hsrv, if_true]
      rw [← hP0]
      exact g1
    · exact g6.trans hsent0
    · exact g7.trans hassert0
  · have hsrv : (node_at b A).state.is_server = false := by
      rw [Bool.eq_false_iff, ne_eq, is_server_iff]; tauto
    have hnode : ∀ (b1 : Broker), (∀ c, node_at b1 c = node_at b c) →
        ∀ a, node_at (erase_node b1 A) a =
          if a = A then Node.fresh A
          else if (node_at b A).state.is_server = true
              ∧ a ∈ (b.clients_connecting.filter (fun c => decide (c.server = A))).map
                (fun c => c.client)
            then { node_at b a with state := State.ClientWaiting }
            else node_at b a := by
      intro b1 h1 a
      rw [node_at_erase_node]
      by_cases e : a = A
      · simp only [e, if_true]
      · simp only [e, if_false, hsrv, Bool.false_eq_true, false_and]
        exact h1 a
    have hkeys2 : ∀ (b1 : Broker), (∀ c, c ∈ registered b1 ↔ c ∈ registered b ∨ c = A) →
        ∀ a, a ∈ registered (erase_node b1 A) ↔
          a ≠ A ∧ (a ∈ registered b ∨ ((node_at b A).state.is_server = true
            ∧ a ∈ (b.clients_connecting.filter (fun c => decide (c.server = A))).map
              (fun c => c.client))) := by
      intro b1 h1 a
      rw [hkeys b1 h1]
      simp only [hsrv, Bool.false_eq_true, false_and, or_false]
    have hs' : ¬ ((node_for_address b A).2.state = State.ServerActive
        ∨ (node_for_address b A).2.state = State.ServerLoading
        ∨ (node_for_address b A).2.state = State.ServerIdle) := by
      rw [node_for_address_snd]; exact hs
    have hsrvn : ¬ (node_at b A).state.is_server = true := by rw [hsrv]; decide
    by_cases hw : (node_at b A).state = State.ClientWaiting
    · have hw' : (node_for_address b A).2.state = State.ClientWaiting := by
        rw [node_for_address_snd]; exact hw
      unfold disconnected
      dsimp only
      rw [if_neg hs', if_pos hw']
      have hcc : (node_at b A).state ≠ State.ClientConnecting := by rw [hw]; decide
      refine ⟨hnode _ hn0, hkeys2 _ hk0, fun hk => keys_erase _ _ (hkn hk), ?_, ?_, ?_,
        hsent0, hassert0⟩
      · rw [if_neg hsrvn]
        exact hS0 ▸ List.Perm.refl _
      · rw [if_pos hw, ← hW0]
        exact remove_loop_unit (fun a => decide (a = A))
          (node_for_address b A).1.clients_waiting
      · rw [if_neg hsrvn, if_neg hcc]
        exact hP0 ▸ List.Perm.refl _
    · have hw' : ¬ (node_for_address b A).2.state = State.ClientWaiting := by
        rw [node_for_address_snd]; exact hw
      by_cases hc : (node_at b A).state = State.ClientConnecting
      · have hc' : (node_for_address b A).2.state = State.ClientConnecting := by
          rw [node_for_address_snd]; exact hc
        unfold disconnected
        dsimp only
        rw [if_neg hs', if_neg hw', if_pos hc']
        refine ⟨hnode _ hn0, hkeys2 _ hk0, fun hk => keys_erase _ _ (hkn hk), ?_, ?_, ?_,
          hsent0, hassert0⟩
        · rw [if_neg hsrvn]
          exact hS0 ▸ List.Perm.refl _
        · rw [if_neg hw]
          exact hW0 ▸ List.Perm.refl _
        · rw [if_neg hsrvn, if_pos hc, ← hP0]
          exact remove_loop_unit (fun (c : ClientConnection) => decide (c.client = A))
            (node_for_address b A).1.clients_connecting
      · have hc' : ¬ (node_for_address b A).2.state = State.ClientConnecting := by
          rw [node_for_address_snd]; exact hc
        unfold disconnected
        dsimp only
        rw [if_neg hs', if_neg hw', if_neg hc']
        refine ⟨hnode _ hn0, hkeys2 _ hk0, fun hk => keys_erase _ _ (hkn hk), ?_, ?_, ?_,
          hsent0, hassert0⟩
        · rw [if_neg hsrvn]
          exact hS0 ▸ List.Perm.refl _
        · rw [if_neg hw]
          exact hW0 ▸ List.Perm.refl _
        · rw [if_neg hsrvn, if_neg hc]
          exact hP0 ▸ List.Perm.refl _

/-! ### The matchmaking pass, step by step -/

/-- The pass leaves the servers list as it is. -/
theorem servers_kept_pass (S0 : List Address) (timestamp : ℚ) :
    PassStable timestamp (fun b => b.servers = S0) where
  lookup b a h := (node_for_address_servers b a).trans h
  assert _ h := h
  load b a s h _ := (send_server_load_servers timestamp b a s).trans h
  join b server c h _ := (client_queue_join_servers b server c).trans h
  connect _ _ _ h _ := h

theorem step_slots_fold {R : Broker → Prop}
    (st : LookupStep R) (a1 : Address) (l : List ClientConnection) (z : Int)
    (b : Broker) (h : R b)
    (hl : ∀ p ∈ l, p.client ∈ b.clients_connecting.map (fun c => c.client)) :
    R (l.foldl (open_slots_step a1) (z, b)).2 := by
  induction l generalizing z b with
  | nil => exact h
  | cons x xs ih =>
    simp only [List.foldl_cons, open_slots_step]
    split
    · apply ih _ _ (st.lookup _ _ h (Or.inr (Or.inr (hl x (List.mem_cons_self _ _)))))
      intro p hp
      rw [node_for_address_clients_connecting]
      exact hl p (List.mem_cons_of_mem _ hp)
    · exact ih _ _ h (fun p hp => hl p (List.mem_cons_of_mem _ hp))

theorem step_server_open_slots {R : Broker → Prop}
    (st : LookupStep R) (b : Broker) (a : Address) (h : R b) (ha : a ∈ b.servers) :
    R (server_open_slots b a).2 := by
  unfold server_open_slots
  simp only []
  split
  · exact step_slots_fold st _ _ _ _ h (fun p hp => List.mem_map.mpr ⟨p, hp, rfl⟩)
  · next hs =>
    apply st.assert _ a h ha
    rw [Bool.eq_false_iff, ne_eq, is_server_iff]
    exact hs

theorem step_needed_fold {R : Broker → Prop}
    (st : LookupStep R) (l : List Address) (z : Int) (b : Broker) (h : R b)
    (hl : ∀ c ∈ l, c ∈ b.clients_waiting) :
    R (l.foldl
      (fun (acc : Int × Broker) a =>
        let b := (node_for_address acc.2 a).1
        if !(node_at b a).server_state.story_mode then
          (acc.1 + (node_at b a).server_state.open_slots, b)
        else (acc.1, b)) (z, b)).2 := by
  induction l generalizing z b with
  | nil => exact h
  | cons x xs ih =>
    have hx := st.lookup _ x h (Or.inr (Or.inl (hl x (List.mem_cons_self _ _))))
    have hl' : ∀ c ∈ xs, c ∈ (node_for_address b x).1.clients_waiting := by
      intro c hc
      rw [node_for_address_clients_waiting]
      exact hl c (List.mem_cons_of_mem _ hc)
    simp only [List.foldl_cons]
    split
    · exact ih _ _ hx hl'
    · exact ih _ _ hx hl'

theorem step_needed_multiplayer_slots {R : Broker → Prop}
    (st : LookupStep R) (b : Broker) (h : R b) :
    R (needed_multiplayer_slots b).2 :=
  step_needed_fold st b.clients_waiting 0 b h (fun _ hc => hc)

theorem step_alloc_server {k : Env} {timestamp : ℚ} {R : Broker → Prop}
    (st : PassStep k timestamp R) (l : List Address) (b : Broker) (h : R b)
    (hl : ∀ a ∈ l, a ∈ b.servers) :
    R (alloc_server timestamp (multiplayer_state k) l b).2 := by
  induction l generalizing b with
  | nil => exact h
  | cons x xs ih =>
    have hx := st.lookup _ x h (Or.inl (hl x (List.mem_cons_self _ _)))
    simp only [alloc_server]
    split
    · next hs =>
      apply st.load _ _ _ hx _ hs (Or.inl rfl)
      rw [node_for_address_servers]
      exact hl x (List.mem_cons_self _ _)
    · apply ih _ hx
      intro a ha
      rw [node_for_address_servers]
      exact hl a (List.mem_cons_of_mem _ ha)

theorem step_story_scan {k : Env} {timestamp : ℚ} {R : Broker → Prop}
    (st : PassStep k timestamp R) (server : Address) (l : List Address) (b : Broker) (h : R b)
    (hsrv : server ∈ b.servers) (hs : (node_at b server).state = State.ServerIdle)
    (hl : ∀ c ∈ l, c ∈ b.clients_waiting) :
    R (story_scan timestamp server l b) := by
  induction l generalizing b with
  | nil => exact h
  | cons x xs ih =>
    have hx := st.lookup _ x h (Or.inr (Or.inl (hl x (List.mem_cons_self _ _))))
    have hxw : x ∈ (node_for_address b x).1.clients_waiting := by
      rw [node_for_address_clients_waiting]; exact hl x (List.mem_cons_self _ _)
    have hsrv' : server ∈ (node_for_address b x).1.servers := by
      rw [node_for_address_servers]; exact hsrv
    have hs' : (node_at (node_for_address b x).1 server).state = State.ServerIdle := by
      rw [node_at_node_for_address]; exact hs
    simp only [story_scan]
    split
    · next hstory =>
      apply st.join
      · exact st.load _ _ _ hx hsrv' hs' (Or.inr ⟨x, hxw, rfl, hstory⟩)
      · rw [send_server_load_clients_waiting]; exact hxw
      · rw [send_server_load_servers]; exact hsrv'
    · apply ih _ hx hsrv' hs'
      intro c hc
      rw [node_for_address_clients_waiting]
      exact hl c (List.mem_cons_of_mem _ hc)

theorem step_match_server {k : Env} {timestamp : ℚ} {R : Broker → Prop}
    (st : PassStep k timestamp R) (m : MatchState) (a : Address) (h : R m.broker)
    (ha : a ∈ m.broker.servers) :
    R (match_server timestamp m a).broker := by
  have hx := st.lookup _ a h (Or.inl ha)
  have ha' : a ∈ (node_for_address m.broker a).1.servers := by
    rw [node_for_address_servers]; exact ha
  by_cases hs : (node_at (node_for_address m.broker a).1 a).state = State.ServerIdle
  · have h1 : R (story_scan timestamp a (node_for_address m.broker a).1.clients_waiting
        (node_for_address m.broker a).1) :=
      step_story_scan st a _ _ hx ha' hs (fun c hc => hc)
    simp only [match_server, hs, if_true]
    split <;> exact h1
  · by_cases hact : (node_at (node_for_address m.broker a).1 a).state = State.ServerActive
        ∨ (node_at (node_for_address m.broker a).1 a).state = State.ServerLoading
    · simp only [match_server, hs, if_false, hact, if_true]
      split <;> exact step_server_open_slots st.toLookupStep _ _ hx ha'
    · simp only [match_server, hs, if_false, hact]
      have hns : (node_at (node_for_address m.broker a).1 a).state.is_server = false := by
        rw [Bool.eq_false_iff, ne_eq, is_server_iff]
        tauto
      split <;> exact step_server_open_slots st.toLookupStep _ _ (st.assert _ a hx ha' hns) ha'

/-- The servers list and the targets through one round of the first loop. -/
theorem match_server_lists (timestamp : ℚ) (m : MatchState) (a : Address) :
    (match_server timestamp m a).broker.servers = m.broker.servers
    ∧ ∀ x ∈ (match_server timestamp m a).multiplayer_servers,
        x ∈ m.multiplayer_servers ∨ x = a := by
  refine ⟨pass_match_server (servers_kept_pass m.broker.servers timestamp) m a rfl, ?_⟩
  intro x hx
  by_cases hs : (node_at (node_for_address m.broker a).1 a).state = State.ServerIdle
  · simp only [match_server, hs, if_true] at hx
    split at hx <;> exact Or.inl hx
  · by_cases hact : (node_at (node_for_address m.broker a).1 a).state = State.ServerActive
        ∨ (node_at (node_for_address m.broker a).1 a).state = State.ServerLoading
    · simp only [match_server, hs, if_false, hact, if_true] at hx
      split at hx
      · simpa only [List.mem_append, List.mem_singleton] using hx
      · exact Or.inl hx
    · simp only [match_server, hs, if_false, hact] at hx
      split at hx
      · simpa only [List.mem_append, List.mem_singleton] using hx
      · exact Or.inl hx

theorem step_match_servers {k : Env} {timestamp : ℚ} {R : Broker → Prop}
    (st : PassStep k timestamp R) (l : List Address) (m : MatchState) (h : R m.broker)
    (hl : ∀ a ∈ l, a ∈ m.broker.servers)
    (hm : ∀ a ∈ m.multiplayer_servers, a ∈ m.broker.servers) :
    R (l.foldl (match_server timestamp) m).broker
    ∧ (l.foldl (match_server timestamp) m).broker.servers = m.broker.servers
    ∧ ∀ a ∈ (l.foldl (match_server timestamp) m).multiplayer_servers, a ∈ m.broker.servers := by
  induction l generalizing m with
  | nil => exact ⟨h, rfl, hm⟩
  | cons x xs ih =>
    have hx := hl x (List.mem_cons_self _ _)
    obtain ⟨e1, e2⟩ := match_server_lists timestamp m x
    obtain ⟨r1, r2, r3⟩ := ih (match_server timestamp m x) (step_match_server st m x h hx)
      (fun a ha => by rw [e1]; exact hl a (List.mem_cons_of_mem _ ha))
      (fun a ha => by
        rw [e1]
        rcases e2 a ha with h' | h'
        · exact hm a h'
        · rw [h']; exact hx)
    rw [List.foldl_cons]
    exact ⟨r1, r2.trans e1, fun a ha => e1 ▸ r3 a ha⟩

theorem alloc_server_mem (timestamp : ℚ) (s : ServerState) (l : List Address) (b : Broker)
    (a : Address) (h : (alloc_server timestamp s l b).1 = some a) : a ∈ l := by
  induction l generalizing b with
  | nil => simp [alloc_server] at h
  | cons x xs ih =>
    simp only [alloc_server] at h
    split at h
    · simp only [Option.some.injEq] at h
      rw [← h]; exact List.mem_cons_self _ _
    · exact List.mem_cons_of_mem _ (ih _ h)

theorem step_alloc_loop {k : Env} {timestamp : ℚ} {R : Broker → Prop}
    (st : PassStep k timestamp R) (n : Nat) (m : MatchState) (h : R m.broker)
    (hm : ∀ a ∈ m.multiplayer_servers, a ∈ m.broker.servers) :
    R (alloc_loop k timestamp n m).broker
    ∧ (alloc_loop k timestamp n m).broker.servers = m.broker.servers
    ∧ ∀ a ∈ (alloc_loop k timestamp n m).multiplayer_servers, a ∈ m.broker.servers := by
  induction n generalizing m with
  | zero => exact ⟨h, rfl, hm⟩
  | succ n ih =>
    unfold alloc_loop
    have h1 := step_alloc_server st m.broker.servers m.broker h (fun _ ha => ha)
    have h2 : (alloc_server timestamp (multiplayer_state k) m.broker.servers
        m.broker).2.servers = m.broker.servers :=
      pass_alloc_server (servers_kept_pass m.broker.servers timestamp) _ _ _ rfl
    have h3 := alloc_server_mem timestamp (multiplayer_state k) m.broker.servers m.broker
    split
    · next a b he =>
      rw [he] at h1 h2 h3
      obtain ⟨r1, r2, r3⟩ := ih
        { m with broker := b, multiplayer_servers := m.multiplayer_servers ++ [a] } h1
        (fun x hx => by
          rw [h2]
          rcases List.mem_append.mp hx with hx | hx
          · exact hm x hx
          · rw [List.mem_singleton.mp hx]; exact h3 a rfl)
      exact ⟨r1, r2.trans h2, fun x hx => h2 ▸ r3 x hx⟩
    · next b he =>
      rw [he] at h1 h2
      exact ⟨h1, h2, hm⟩

theorem step_assign_loop {timestamp : ℚ} {R : Broker → Prop}
    (st : AssignStep timestamp R) (server : Address) (fuel j : Nat) (slots : Int) (b : Broker)
    (h : R b) (hsrv : server ∈ b.servers) :
    R (assign_loop timestamp server fuel j slots b) := by
  induction fuel generalizing j slots b with
  | zero => exact h
  | succ n ih =>
    unfold assign_loop
    split
    · exact h
    · next c hc =>
      have hcw : c ∈ b.clients_waiting := List.mem_iff_getElem?.mpr ⟨j, hc⟩
      have hx := st.lookup _ c h (Or.inr (Or.inl hcw))
      have hmem : c ∈ (node_for_address b c).1.clients_waiting := by
        rw [node_for_address_clients_waiting]; exact hcw
      have hsrv1 : server ∈ (node_for_address b c).1.servers := by
        rw [node_for_address_servers]; exact hsrv
      have hj := st.join _ server c hx hmem hsrv1
      have hsrv2 : server ∈ (client_queue_join (node_for_address b c).1 server c).servers := by
        rw [client_queue_join_servers]; exact hsrv1
      have h2 : R (if (node_at (client_queue_join (node_for_address b c).1 server c) server).state
            ≠ State.ServerLoading
          then send_client_connect timestamp (client_queue_join (node_for_address b c).1 server c)
            server c
          else client_queue_join (node_for_address b c).1 server c) := by
        split
        · next hne =>
          apply st.connect _ _ _ hj _ hsrv2 hne
          rw [client_queue_join_clients_connecting]
          simp
        · exact hj
      have hsrv3 : server ∈ (if (node_at (client_queue_join (node_for_address b c).1 server c)
            server).state ≠ State.ServerLoading
          then send_client_connect timestamp (client_queue_join (node_for_address b c).1 server c)
            server c
          else client_queue_join (node_for_address b c).1 server c).servers := by
        split
        · exact hsrv2
        · exact hsrv2
      simp only []
      split
      · split
        · exact h2
        · exact ih _ _ _ h2 hsrv3
      · exact ih _ _ _ hx hsrv1

theorem step_assign_target {timestamp : ℚ} {R : Broker → Prop}
    (st : AssignStep timestamp R) (b : Broker) (a : Address) (h : R b) (ha : a ∈ b.servers) :
    R (assign_target timestamp b a) := by
  unfold assign_target
  have ha1 : a ∈ (node_for_address b a).1.servers := by
    rw [node_for_address_servers]; exact ha
  have h1 := step_server_open_slots st.toLookupStep _ a (st.lookup _ a h (Or.inl ha)) ha1
  have ha2 : a ∈ (server_open_slots (node_for_address b a).1 a).2.servers := by
    rw [pass_server_open_slots (servers_kept_pass (node_for_address b a).1.servers timestamp)
      _ _ rfl]
    exact ha1
  exact step_assign_loop st _ _ _ _ _ h1 ha2

theorem step_assign_targets {timestamp : ℚ} {R : Broker → Prop}
    (st : AssignStep timestamp R) (l : List Address) (b : Broker) (h : R b)
    (hl : ∀ a ∈ l, a ∈ b.servers) :
    R (l.foldl (assign_target timestamp) b) := by
  induction l generalizing b with
  | nil => exact h
  | cons x xs ih =>
    apply ih _ (step_assign_target st b x h (hl x (List.mem_cons_self _ _)))
    intro a ha
    rw [pass_assign_target (servers_kept_pass b.servers timestamp) b x rfl]
    exact hl a (List.mem_cons_of_mem _ ha)

theorem matchmake_stages (k : Env) (b : Broker) (timestamp : ℚ) :
    matchmake k b timestamp
      = match_assign timestamp (match_alloc k timestamp (match_servers b timestamp)) := rfl

theorem needed_servers (b : Broker) : (needed_multiplayer_slots b).2.servers = b.servers :=
  pass_needed_multiplayer_slots (servers_kept_pass b.servers 0) b rfl

theorem step_match_alloc {k : Env} {timestamp : ℚ} {R : Broker → Prop}
    (st : PassStep k timestamp R) (m : MatchState) (h : R m.broker)
    (hm : ∀ a ∈ m.multiplayer_servers, a ∈ m.broker.servers) :
    R (match_alloc k timestamp m).broker
    ∧ (match_alloc k timestamp m).broker.servers = m.broker.servers
    ∧ ∀ a ∈ (match_alloc k timestamp m).multiplayer_servers,
        a ∈ (match_alloc k timestamp m).broker.servers := by
  unfold match_alloc
  simp only []
  have hn := step_needed_multiplayer_slots st.toLookupStep _ h
  have hns := needed_servers m.broker
  obtain ⟨q1, q2, q3⟩ := step_alloc_loop st
    (server_allocs k m.idle_servers (needed_multiplayer_slots m.broker).1
      m.existing_multiplayer_slots).toNat
    { m with broker := (needed_multiplayer_slots m.broker).2 }
    hn (fun a ha => by
      show a ∈ (needed_multiplayer_slots _).2.servers
      rw [hns]
      exact hm a ha)
  exact ⟨q1, q2.trans hns, fun a ha => q2.symm ▸ q3 a ha⟩

theorem step_match_assign {timestamp : ℚ} {R : Broker → Prop}
    (st : AssignStep timestamp R) (m : MatchState) (h : R m.broker)
    (hm : ∀ a ∈ m.multiplayer_servers, a ∈ m.broker.servers) :
    R (match_assign timestamp m) :=
  step_assign_targets st _ _ h hm

/-- Induction principle for the matchmaking pass, with the steps taken as the
pass takes them: a property of the state that every such step keeps is kept
by the pass. -/
theorem step_matchmake {k : Env} {timestamp : ℚ} {R : Broker → Prop}
    (st : PassStep k timestamp R) (b : Broker) (h : R b) :
    R (matchmake k b timestamp) := by
  rw [matchmake_stages]
  obtain ⟨r1, r2, r3⟩ := step_match_servers st b.servers (match_start b) h
    (fun _ ha => ha) (fun _ ha => by simp [match_start] at ha)
  change R (match_servers b timestamp).broker at r1
  change (match_servers b timestamp).broker.servers = _ at r2
  change ∀ a ∈ (match_servers b timestamp).multiplayer_servers, _ at r3
  obtain ⟨q1, q2, q3⟩ := step_match_alloc st _ r1 (fun a ha => by rw [r2]; exact r3 a ha)
  exact step_match_assign st.toAssignStep _ q1 q3

/-! ### What packet_handle does to the other nodes and to the servers list -/

/-- A message leaves the nodes of the other addresses as they are, except
for a Disconnect. -/
theorem packet_handle_other (k : Env) (b : Broker) (received : Bool) (p : Packet)
    (addr : Address) (timestamp : ℚ) (hp : p ≠ Packet.Disconnect) (a : Address)
    (hne : a ≠ addr) :
    node_at (packet_handle k b received p addr timestamp).2 a = node_at b a := by
  cases received with
  | false => rfl
  | true =>
    cases p with
    | Disconnect => exact absurd rfl hp
    | Ack => simp [packet_handle, node_at_touch, hne]
    | ServerLoad => simp [packet_handle, node_at_touch, hne]
    | ClientConnect => simp [packet_handle, node_at_touch, hne]
    | ClientRequestServer os =>
      cases os with
      | none => simp [packet_handle, node_at_touch, hne]
      | some s =>
        simp only [packet_handle, Bool.not_true, Bool.false_eq_true, if_false]
        split_ifs <;>
          simp [node_at_touch, node_at_set_state, node_at_set_server_state, node_at_mk, hne]
    | ServerStatusUpdate secret active os =>
      cases os with
      | none =>
        simp only [packet_handle, Bool.not_true, Bool.false_eq_true, if_false]
        split_ifs <;> simp [node_at_touch, hne]
      | some s =>
        simp only [packet_handle, Bool.not_true, Bool.false_eq_true, if_false]
        split_ifs <;>
          simp [node_at_touch, node_at_set_state, node_at_set_server_state, node_at_set_both,
            node_at_mk, connect_fold, hne]

/-- The role of the sender after a message other than Disconnect: it is a
server after the message exactly when it was before, with the servers list
unchanged, or it was Invalid, is a server now and has been appended to the
servers list. -/
theorem packet_handle_sender (k : Env) (b : Broker) (received : Bool) (p : Packet)
    (addr : Address) (timestamp : ℚ) (hp : p ≠ Packet.Disconnect) :
    ((node_at (packet_handle k b received p addr timestamp).2 addr).state.is_server
        = (node_at b addr).state.is_server
      ∧ (packet_handle k b received p addr timestamp).2.servers = b.servers)
    ∨ ((node_at b addr).state = State.Invalid
      ∧ (node_at (packet_handle k b received p addr timestamp).2 addr).state.is_server = true
      ∧ (packet_handle k b received p addr timestamp).2.servers = b.servers ++ [addr]) := by
  cases received with
  | false => exact Or.inl ⟨rfl, rfl⟩
  | true =>
    cases p with
    | Disconnect => exact absurd rfl hp
    | Ack => left; simp [packet_handle, node_at_touch, update_node_servers]
    | ServerLoad => left; simp [packet_handle, node_at_touch, update_node_servers]
    | ClientConnect => left; simp [packet_handle, node_at_touch, update_node_servers]
    | ClientRequestServer os =>
      cases os with
      | none => left; simp [packet_handle, node_at_touch, update_node_servers]
      | some s =>
        left
        simp only [packet_handle, Bool.not_true, Bool.false_eq_true, if_false]
        split_ifs with h1 h2 h3 h4 <;>
          simp [node_at_touch, node_at_set_state, node_at_set_server_state, node_at_mk,
            update_node_servers] at *
        · rcases h3 with e | e | e <;> simp [e, State.is_server]
        · rcases h3 with e | e | e <;> simp [e, State.is_server] at h4 ⊢
    | ServerStatusUpdate secret active os =>
      cases os with
      | none =>
        left
        simp only [packet_handle, Bool.not_true, Bool.false_eq_true, if_false]
        split_ifs <;> simp [node_at_touch, update_node_servers]
      | some s =>
        simp only [packet_handle, Bool.not_true, Bool.false_eq_true, if_false]
        by_cases hsec : secret ≠ k.secret
        · left
          simp [hsec, node_at_touch, update_node_servers]
        · simp only [hsec, if_false]
          by_cases hl : (node_at (update_node b addr
              (fun n => { n with last_message_timestamp := timestamp })) addr).state
              = State.ServerLoading
          · left
            have hl' : (node_at b addr).state = State.ServerLoading := by
              simpa [node_at_touch] using hl
            simp only [hl, if_true]
            split_ifs <;>
              simp [node_at_touch, node_at_set_both, node_at_mk, connect_fold,
                update_node_servers, hl', State.is_server]
          · have hl' : ¬ (node_at b addr).state = State.ServerLoading := by
              simpa [node_at_touch] using hl
            simp only [hl, if_false]
            by_cases hv : (node_at b addr).state = State.Invalid
                ∨ (node_at b addr).state = State.ServerActive
                ∨ (node_at b addr).state = State.ServerIdle
            · have hv' : (node_at (update_node b addr
                  (fun n => { n with last_message_timestamp := timestamp })) addr).state
                  = State.Invalid
                ∨ (node_at (update_node b addr
                  (fun n => { n with last_message_timestamp := timestamp })) addr).state
                  = State.ServerActive
                ∨ (node_at (update_node b addr
                  (fun n => { n with last_message_timestamp := timestamp })) addr).state
                  = State.ServerIdle := by
                simpa [node_at_touch] using hv
              simp only [hv', if_true]
              by_cases hi : (node_at b addr).state = State.Invalid
              · right
                refine ⟨hi, ?_, ?_⟩
                · cases active <;>
                    simp [node_at_touch, node_at_set_state, node_at_mk, State.is_server]
                · simp [node_at_touch, hi, update_node_servers, node_at_addr]
              · left
                have hsv : (node_at b addr).state.is_server = true := by
                  rcases hv with e | e | e
                  · exact absurd e hi
                  · rw [e]; rfl
                  · rw [e]; rfl
                constructor
                · rw [hsv]
                  cases active <;>
                    simp [node_at_touch, node_at_set_state, node_at_mk, State.is_server]
                · simp [node_at_touch, hi, update_node_servers]
            · left
              have hv' : ¬ ((node_at (update_node b addr
                  (fun n => { n with last_message_timestamp := timestamp })) addr).state
                  = State.Invalid
                ∨ (node_at (update_node b addr
                  (fun n => { n with last_message_timestamp := timestamp })) addr).state
                  = State.ServerActive
                ∨ (node_at (update_node b addr
                  (fun n => { n with last_message_timestamp := timestamp })) addr).state
                  = State.ServerIdle) := by
                simpa [node_at_touch] using hv
              simp only [hv', if_false]
              simp [node_at_touch, update_node_servers]

/-! ### The invariant of the servers -/

theorem ServerCore.same {st st' : Address → State} {S S' : List Address}
    {P P' : List ClientConnection} (h : ServerCore st S P)
    (hst : ∀ a, (st' a).is_server = (st a).is_server) (hS : S'.Perm S)
    (hP : ∀ p ∈ P', p ∈ P) : ServerCore st' S' P' where
  servers_state a ha := by rw [hst]; exact h.servers_state a (hS.mem_iff.mp ha)
  servers_nodup := hS.nodup_iff.mpr h.servers_nodup
  server_listed a ha := hS.mem_iff.mpr (h.server_listed a (by rw [← hst]; exact ha))
  pairing_server p hp := hS.mem_iff.mpr (h.pairing_server p (hP p hp))

theorem ServerCore.add {st st' : Address → State} {S : List Address}
    {P : List ClientConnection} (h : ServerCore st S P) (a : Address)
    (ha : (st a).is_server = false) (ha' : (st' a).is_server = true)
    (hst : ∀ c, c ≠ a → (st' c).is_server = (st c).is_server) :
    ServerCore st' (S ++ [a]) P where
  servers_state c hc := by
    rcases List.mem_append.mp hc with hc | hc
    · have hne : c ≠ a := fun e => by
        have := h.servers_state c hc
        rw [e, ha] at this
        exact Bool.false_ne_true this
      rw [hst c hne]; exact h.servers_state c hc
    · rw [List.mem_singleton.mp hc]; exact ha'
  servers_nodup := by
    rw [List.nodup_append]
    refine ⟨h.servers_nodup, List.nodup_singleton a, ?_⟩
    intro c hc hc'
    rw [List.mem_singleton] at hc'
    have := h.servers_state c hc
    rw [hc', ha] at this
    exact Bool.false_ne_true this
  server_listed c hc := by
    by_cases e : c = a
    · rw [e]; simp
    · rw [hst c e] at hc
      exact List.mem_append_left _ (h.server_listed c hc)
  pairing_server p hp := List.mem_append_left _ (h.pairing_server p hp)

theorem ServerCore.pair {st : Address → State} {S : List Address}
    {P : List ClientConnection} (h : ServerCore st S P) (c server : Address)
    (hs : server ∈ S) : ServerCore st S (P ++ [{ client := c, server := server }]) where
  servers_state := h.servers_state
  servers_nodup := h.servers_nodup
  server_listed := h.server_listed
  pairing_server p hp := by
    rcases List.mem_append.mp hp with hp | hp
    · exact h.pairing_server p hp
    · rw [List.mem_singleton.mp hp]; exact hs

theorem ServerCore.drop {st st' : Address → State} {S S' : List Address}
    {P P' : List ClientConnection} (h : ServerCore st S P) (A : Address)
    (hst : ∀ a, a ≠ A → (st' a).is_server = (st a).is_server)
    (hA : (st' A).is_server = false)
    (hS : S'.Perm (S.filter (fun a => !decide (a = A))))
    (hP : ∀ p ∈ P', p ∈ P ∧ p.server ≠ A) : ServerCore st' S' P' where
  servers_state a ha := by
    have := List.mem_filter.mp (hS.mem_iff.mp ha)
    have hne : a ≠ A := by simpa using this.2
    rw [hst a hne]; exact h.servers_state a this.1
  servers_nodup := hS.nodup_iff.mpr (h.servers_nodup.filter _)
  server_listed a ha := by
    have hne : a ≠ A := fun e => by
      rw [e, hA] at ha
      exact Bool.false_ne_true ha
    rw [hst a hne] at ha
    exact hS.mem_iff.mpr (List.mem_filter.mpr ⟨h.server_listed a ha, by simpa using hne⟩)
  pairing_server p hp := by
    obtain ⟨h1, h2⟩ := hP p hp
    exact hS.mem_iff.mpr (List.mem_filter.mpr ⟨h.pairing_server p h1, by simpa using h2⟩)

theorem FullInv.init : FullInv Broker.empty where
  pairing := PairingInv.empty
  servers :=
    { servers_state := fun a ha => by simp [Broker.empty] at ha
      servers_nodup := List.nodup_nil
      server_listed := fun a ha => by
        simp [Broker.empty, node_at, find_node, Node.fresh, State.is_server] at ha
      pairing_server := fun p hp => by simp [Broker.empty] at hp }

theorem FullInv.after_disconnected {b : Broker} (A : Address) (h : FullInv b) :
    FullInv (disconnected b A) := by
  refine ⟨h.pairing.of_disconnected A, ?_⟩
  have d := disconnected_facts b A
  have hfresh : (Node.fresh A).state.is_server = false := rfl
  by_cases hs : (node_at b A).state.is_server = true
  · apply h.servers.drop A
    · intro a hne
      try simp only []
      rw [d.node a, if_neg hne]
      split
      · next hc =>
        obtain ⟨q, hq, hqc⟩ := List.mem_map.mp hc.2
        have := h.pairing.roles.pairing_state q (List.mem_filter.mp hq).1
        try simp only [] at this
        rw [hqc] at this
        rw [this]
        rfl
      · rfl
    · try simp only []
      rw [d.node A, if_pos rfl]
      rfl
    · have := d.servers
      rw [if_pos hs] at this
      exact this
    · intro p hp
      have := d.pairings
      rw [if_pos hs] at this
      have := List.mem_filter.mp (this.mem_iff.mp hp)
      exact ⟨this.1, by simpa using this.2⟩
  · have hA : A ∉ b.servers := fun hm => hs (h.servers.servers_state A hm)
    have hfilter : b.servers.filter (fun a => !decide (a = A)) = b.servers := by
      rw [List.filter_eq_self]
      intro a ha
      have : a ≠ A := fun e => hA (e ▸ ha)
      simpa using this
    apply h.servers.drop A
    · intro a hne
      try simp only []
      rw [d.node a, if_neg hne, if_neg (fun hc => hs hc.1)]
    · try simp only []
      rw [d.node A, if_pos rfl]
      rfl
    · have := d.servers
      rw [if_neg hs] at this
      rw [hfilter]
      exact this
    · intro p hp
      have hsub : p ∈ b.clients_connecting := by
        have := d.pairings
        rw [if_neg hs] at this
        have hp' := this.mem_iff.mp hp
        split at hp'
        · exact (List.mem_filter.mp hp').1
        · exact hp'
      refine ⟨hsub, fun e => hA ?_⟩
      rw [← e]
      exact h.servers.pairing_server p hsub

theorem FullInv.after_audit {b : Broker} (l : List Address) (h : FullInv b) :
    FullInv (l.foldl disconnected b) := by
  induction l generalizing b with
  | nil => exact h
  | cons x xs ih => exact ih (h.after_disconnected x)

theorem FullInv.after_packet (k : Env) {b : Broker} (received : Bool) (p : Packet)
    (addr : Address) (timestamp : ℚ) (h : FullInv b) :
    FullInv (packet_handle k b received p addr timestamp).2 := by
  by_cases hp : p = Packet.Disconnect
  · subst hp
    cases received with
    | false => exact h
    | true =>
      have ht : FullInv
          (update_node b addr (fun n => { n with last_message_timestamp := timestamp })) := by
        refine ⟨h.pairing.same_state addr _ (fun _ => rfl) (fun _ => rfl), ?_⟩
        apply h.servers.same _ (by rw [update_node_servers])
          (by rw [update_node_clients_connecting]; exact fun _ hp => hp)
        intro a
        try simp only []
        rw [node_at_touch]
        split
        · next e => rw [e]
        · rfl
      simp only [packet_handle]
      exact ht.after_disconnected addr
  · refine ⟨h.pairing.of_packet_handle k received p addr timestamp, ?_⟩
    have hP := packet_clients_connecting k b received p addr timestamp hp
    have ho := packet_handle_other k b received p addr timestamp hp
    rcases packet_handle_sender k b received p addr timestamp hp with ⟨h1, h2⟩ | ⟨h1, h2, h3⟩
    · apply h.servers.same _ (by rw [h2]) (by rw [hP]; exact fun _ hp => hp)
      intro a
      try simp only []
      by_cases e : a = addr
      · rw [e]; exact h1
      · rw [ho a e]
    · rw [h3, hP]
      apply h.servers.add addr
      · try simp only []
        rw [h1]; rfl
      · exact h2
      · intro c hc
        try simp only []
        rw [ho c hc]

theorem FullInv.step (k : Env) (t : ℚ) : PassStep k t FullInv where
  lookup b a h _ := by
    refine ⟨h.pairing.lookup a, ?_⟩
    apply h.servers.same _ (by rw [node_for_address_servers])
      (by rw [node_for_address_clients_connecting]; exact fun _ hp => hp)
    intro c
    rw [node_at_node_for_address]
  assert b a h _ _ := ⟨h.pairing.congr _ rfl rfl rfl, h.servers⟩
  load b a s h _ hs _ := by
    refine ⟨h.pairing.load t a s hs, ?_⟩
    apply h.servers.same _ (by rw [send_server_load_servers])
      (by rw [send_server_load_clients_connecting]; exact fun _ hp => hp)
    intro c
    rw [node_at_send_server_load]
    split
    · next e => rw [e, hs]; rfl
    · rfl
  join b server c h hc hs := by
    refine ⟨h.pairing.of_join server c hc, ?_⟩
    rw [client_queue_join_clients_connecting]
    have hcw := h.pairing.roles.waiting_state c hc
    simp only [] at hcw
    apply (h.servers.pair c server hs).same _ (by rw [client_queue_join_servers])
      (fun _ hp => hp)
    intro a
    rw [node_at_client_queue_join]
    split
    · next e => rw [e, hcw]; rfl
    · rfl
  connect b server c h _ _ _ := ⟨h.pairing.congr _ rfl rfl rfl, h.servers⟩

theorem FullInv.after_matchmake (k : Env) (b : Broker) (t : ℚ) (h : FullInv b) :
    FullInv (matchmake k b t) :=
  step_matchmake (FullInv.step k t) b h

/-- Every state the master server can be in satisfies the invariant of the three lists. -/
theorem Reachable.full_inv {k : Env} {b : Broker} (h : Reachable k b) : FullInv b := by
  induction h with
  | init => exact FullInv.init
  | packet b received p addr timestamp _ ih => exact ih.after_packet k received p addr timestamp
  | audit b timestamp order _ _ ih => exact ih.after_audit order
  | matchmake b timestamp _ ih => exact ih.after_matchmake k b timestamp

theorem FullInv.touch {b : Broker} (addr : Address) (t : ℚ) (h : FullInv b) :
    FullInv (update_node b addr (fun n => { n with last_message_timestamp := t })) := by
  refine ⟨h.pairing.same_state addr _ (fun _ => rfl) (fun _ => rfl), ?_⟩
  apply h.servers.same _ (by rw [update_node_servers])
    (by rw [update_node_clients_connecting]; exact fun _ hp => hp)
  intro a
  rw [node_at_touch]
  split
  · next e => rw [e]
  · rfl

theorem FullInv.unreferenced {b : Broker} {A : Address} (h : FullInv b)
    (hA : A ∉ registered b) : no_reference b A := by
  have hst : (node_at b A).state = State.Invalid := by
    rw [node_at_of_not_registered hA]; rfl
  refine ⟨(not_mem_registered_iff b A).mp hA, ?_, ?_, ?_⟩
  · intro hm
    have := h.servers.servers_state A hm
    simp only [hst] at this
    exact Bool.false_ne_true this
  · intro hm
    have := h.pairing.roles.waiting_state A hm
    simp only [hst] at this
    exact State.noConfusion this
  · intro p hp
    refine ⟨fun e => ?_, fun e => ?_⟩
    · have := h.pairing.roles.pairing_state p hp
      simp only [e, hst] at this
      exact State.noConfusion this
    · have := h.servers.servers_state _ (h.servers.pairing_server p hp)
      simp only [e, hst] at this
      exact Bool.false_ne_true this

theorem not_registered_disconnected (b : Broker) (A : Address) :
    A ∉ registered (disconnected b A) :=
  fun hm => (((disconnected_facts b A).keys A).mp hm).1 rfl

theorem mem_registered_disconnected {b : Broker} (h : FullInv b) (X a : Address) :
    a ∈ registered (disconnected b X) ↔ a ∈ registered b ∧ a ≠ X := by
  rw [(disconnected_facts b X).keys a]
  constructor
  · rintro ⟨h1, h2 | ⟨_, h2⟩⟩
    · exact ⟨h2, h1⟩
    · obtain ⟨q, hq, hqc⟩ := List.mem_map.mp h2
      have := h.pairing.roles.pairing_state q (List.mem_filter.mp hq).1
      simp only [hqc] at this
      exact ⟨registered_of_state (by rw [this]; decide), h1⟩
  · rintro ⟨h1, h2⟩
    exact ⟨h2, Or.inl h1⟩

theorem mem_registered_disconnected_list (l : List Address) {b : Broker} (h : FullInv b)
    (a : Address) :
    a ∈ registered (l.foldl disconnected b) ↔ a ∈ registered b ∧ a ∉ l := by
  induction l generalizing b with
  | nil => simp
  | cons x xs ih =>
    rw [List.foldl_cons, ih (h.after_disconnected x), mem_registered_disconnected h]
    simp only [List.mem_cons, not_or]
    tauto

theorem mem_audit_removals {b : Broker} (hk : (registered b).Nodup) (t : ℚ) (a : Address) :
    a ∈ audit_removals b t ↔ a ∈ registered b
      ∧ (node_at b a).last_message_timestamp < t - MASTER_INACTIVE_THRESHOLD := by
  unfold audit_removals
  simp only [List.mem_map, List.mem_filter, decide_eq_true_eq]
  constructor
  · rintro ⟨n, ⟨hn, hlt⟩, rfl⟩
    refine ⟨List.mem_map.mpr ⟨n, hn, rfl⟩, ?_⟩
    rw [node_at_of_mem hk hn]
    exact hlt
  · rintro ⟨hr, hlt⟩
    obtain ⟨n, hn, rfl⟩ := List.mem_map.mp hr
    rw [node_at_of_mem hk hn] at hlt
    exact ⟨n, ⟨hn, hlt⟩, rfl⟩

theorem timestamp_disconnected (b : Broker) (X a : Address) (hne : a ≠ X) :
    (node_at (disconnected b X) a).last_message_timestamp
      = (node_at b a).last_message_timestamp := by
  rw [(disconnected_facts b X).node a, if_neg hne]
  split <;> rfl

theorem timestamp_disconnected_list (l : List Address) (b : Broker) (a : Address)
    (ha : a ∉ l) :
    (node_at (l.foldl disconnected b) a).last_message_timestamp
      = (node_at b a).last_message_timestamp := by
  induction l generalizing b with
  | nil => rfl
  | cons x xs ih =>
    rw [List.foldl_cons, ih _ (fun hm => ha (List.mem_cons_of_mem _ hm)),
      timestamp_disconnected b x a (fun e => ha (e ▸ List.mem_cons_self _ _))]

/-! ### The first loop of the pass on servers that are not idle -/

theorem SameView.refl (b : Broker) : SameView b b :=
  ⟨fun _ => rfl, rfl, rfl, rfl, rfl⟩

theorem SameView.lookups (b0 : Broker) : LookupStep (SameView b0) where
  lookup b a h _ :=
    ⟨fun c => (node_at_node_for_address b a c).trans (h.node c),
      (node_for_address_servers b a).trans h.servers,
      (node_for_address_clients_waiting b a).trans h.waiting,
      (node_for_address_clients_connecting b a).trans h.pairings,
      (node_for_address_sent b a).trans h.sent⟩
  assert _ _ h _ _ := ⟨h.node, h.servers, h.waiting, h.pairings, h.sent⟩

theorem LookupStep.both {R1 R2 : Broker → Prop} (s1 : LookupStep R1) (s2 : LookupStep R2) :
    LookupStep (fun b => R1 b ∧ R2 b) where
  lookup b a h hm := ⟨s1.lookup b a h.1 hm, s2.lookup b a h.2 hm⟩
  assert b a h hm hs := ⟨s1.assert b a h.1 hm hs, s2.assert b a h.2 hm hs⟩

/-- One round of the first loop on a server that is not idle: lookups only. -/
theorem lookup_match_server {R : Broker → Prop} (timestamp : ℚ) (st : LookupStep R)
    (m : MatchState) (a : Address) (h : R m.broker) (ha : a ∈ m.broker.servers)
    (hs : (node_at m.broker a).state ≠ State.ServerIdle) :
    R (match_server timestamp m a).broker := by
  have hx := st.lookup _ a h (Or.inl ha)
  have ha' : a ∈ (node_for_address m.broker a).1.servers := by
    rw [node_for_address_servers]; exact ha
  have hs' : ¬ (node_at (node_for_address m.broker a).1 a).state = State.ServerIdle := by
    rw [node_at_node_for_address]; exact hs
  by_cases hact : (node_at (node_for_address m.broker a).1 a).state = State.ServerActive
      ∨ (node_at (node_for_address m.broker a).1 a).state = State.ServerLoading
  · simp only [match_server, hs', if_false, hact, if_true]
    split <;> exact step_server_open_slots st _ _ hx ha'
  · simp only [match_server, hs', if_false, hact]
    have hns : (node_at (node_for_address m.broker a).1 a).state.is_server = false := by
      rw [Bool.eq_false_iff, ne_eq, is_server_iff]
      tauto
    split <;> exact step_server_open_slots st _ _ (st.assert _ a hx ha' hns) ha'

/-- The story-mode scan over waiting clients none of which asks for story
mode up to the client c, who does: the server is told to load the description
of c and c joins it. -/
theorem story_scan_first {R : Broker → Prop} (timestamp : ℚ) (st : LookupStep R)
    (S c : Address) (w1 w2 : List Address) (b : Broker) (h : R b)
    (hw : ∀ a ∈ w1 ++ [c], a ∈ b.clients_waiting)
    (h1 : ∀ a ∈ w1, (node_at b a).server_state.story_mode = false)
    (hc : (node_at b c).server_state.story_mode = true) :
    ∃ b1, R b1 ∧ SameView b b1
      ∧ story_scan timestamp S (w1 ++ c :: w2) b
        = client_queue_join (send_server_load timestamp b1 S (node_at b c).server_state) S c := by
  induction w1 generalizing b with
  | nil =>
    refine ⟨(node_for_address b c).1, st.lookup b c h (Or.inr (Or.inl (hw c (by simp)))),
      (SameView.lookups b).lookup b c (SameView.refl b) (Or.inr (Or.inl (hw c (by simp)))), ?_⟩
    simp only [List.nil_append, story_scan, node_at_node_for_address, hc, if_true]
  | cons x xs ih =>
    have hxw : x ∈ b.clients_waiting := hw x (by simp)
    have hx := st.lookup b x h (Or.inr (Or.inl hxw))
    have hv := (SameView.lookups b).lookup b x (SameView.refl b) (Or.inr (Or.inl hxw))
    have hxs : (node_at b x).server_state.story_mode = false := h1 x (List.mem_cons_self _ _)
    obtain ⟨b1, r1, v1, e1⟩ := ih (node_for_address b x).1 hx
      (fun a ha => by
        rw [node_for_address_clients_waiting]
        exact hw a (by simp at ha ⊢; tauto))
      (fun a ha => by
        rw [node_at_node_for_address]
        exact h1 a (List.mem_cons_of_mem _ ha))
      (by rw [node_at_node_for_address]; exact hc)
    refine ⟨b1, r1, ⟨fun a => (v1.node a).trans (hv.node a), v1.servers.trans hv.servers,
      v1.waiting.trans hv.waiting, v1.pairings.trans hv.pairings, v1.sent.trans hv.sent⟩, ?_⟩
    rw [node_at_node_for_address] at e1
    simp only [List.cons_append, story_scan, node_at_node_for_address, hxs, Bool.false_eq_true,
      if_false]
    exact e1

/-! ### The story-mode step -/

theorem StoryPaired.kept (k : Env) (t : ℚ) (S c : Address) (d : ServerState) :
    PassStep k t (StoryPaired t S c d) where
  lookup b a h hm :=
    { inv := (FullInv.step k t).lookup b a h.inv hm
      server_state := by rw [node_at_node_for_address]; exact h.server_state
      description := by rw [node_at_node_for_address]; exact h.description
      client_state := by rw [node_at_node_for_address]; exact h.client_state
      not_waiting := by rw [node_for_address_clients_waiting]; exact h.not_waiting
      paired := by rw [node_for_address_clients_connecting]; exact h.paired
      sent := by rw [node_for_address_sent]; exact h.sent }
  assert b a h hm hs :=
    { inv := (FullInv.step k t).assert b a h.inv hm hs
      server_state := h.server_state
      description := h.description
      client_state := h.client_state
      not_waiting := h.not_waiting
      paired := h.paired
      sent := h.sent }
  load b a s h hm hs hd := by
    have hS : S ≠ a := fun e => by
      have := h.server_state
      rw [e, hs] at this
      exact State.noConfusion this
    have hc : c ≠ a := fun e => by
      have := h.client_state
      rw [e, hs] at this
      exact State.noConfusion this
    exact
      { inv := (FullInv.step k t).load b a s h.inv hm hs hd
        server_state := by rw [node_at_send_server_load, if_neg hS]; exact h.server_state
        description := by rw [node_at_send_server_load, if_neg hS]; exact h.description
        client_state := by rw [node_at_send_server_load, if_neg hc]; exact h.client_state
        not_waiting := by rw [send_server_load_clients_waiting]; exact h.not_waiting
        paired := by rw [send_server_load_clients_connecting]; exact h.paired
        sent := by
          rw [send_server_load_sent]
          exact List.mem_append_left _ h.sent }
  join b server x h hx hsrv := by
    have hxs := h.inv.pairing.roles.waiting_state x hx
    simp only [] at hxs
    have hS : S ≠ x := fun e => by
      have := h.server_state
      rw [e, hxs] at this
      exact State.noConfusion this
    have hc : c ≠ x := fun e => h.not_waiting (e ▸ hx)
    exact
      { inv := (FullInv.step k t).join b server x h.inv hx hsrv
        server_state := by rw [node_at_client_queue_join, if_neg hS]; exact h.server_state
        description := by rw [node_at_client_queue_join, if_neg hS]; exact h.description
        client_state := by rw [node_at_client_queue_join, if_neg hc]; exact h.client_state
        not_waiting := fun hm =>
          h.not_waiting (List.mem_of_mem_erase
            ((client_queue_join_waiting_perm b server x hx).mem_iff.mp hm))
        paired := by
          rw [client_queue_join_clients_connecting]
          exact List.mem_append_left _ h.paired
        sent := by rw [client_queue_join_sent]; exact h.sent }
  connect b server x h hp hsrv hne :=
    { inv := (FullInv.step k t).connect b server x h.inv hp hsrv hne
      server_state := h.server_state
      description := h.description
      client_state := h.client_state
      not_waiting := h.not_waiting
      paired := h.paired
      sent := List.mem_append_left _ h.sent }

/-- The state right after the server S, idle, has been told to load the
description of the waiting client c and c has joined it. -/
theorem StoryPaired.start (k : Env) (t : ℚ) (S c : Address) (b : Broker) (h : FullInv b)
    (hS : S ∈ b.servers) (hi : (node_at b S).state = State.ServerIdle)
    (hc : c ∈ b.clients_waiting) (hstory : (node_at b c).server_state.story_mode = true) :
    StoryPaired t S c (node_at b c).server_state
      (client_queue_join (send_server_load t b S (node_at b c).server_state) S c) := by
  have hcs := h.pairing.roles.waiting_state c hc
  simp only [] at hcs
  have hne : S ≠ c := fun e => by
    rw [e, hcs] at hi
    exact State.noConfusion hi
  have hl := (FullInv.step k t).load b S _ h hS hi (Or.inr ⟨c, hc, rfl, hstory⟩)
  have hcw : c ∈ (send_server_load t b S (node_at b c).server_state).clients_waiting := by
    rw [send_server_load_clients_waiting]; exact hc
  have hj := (FullInv.step k t).join _ S c hl hcw
    (by rw [send_server_load_servers]; exact hS)
  exact
    { inv := hj
      server_state := by
        rw [node_at_client_queue_join, if_neg hne, node_at_send_server_load, if_pos rfl]
      description := by
        rw [node_at_client_queue_join, if_neg hne, node_at_send_server_load, if_pos rfl]
      client_state := by rw [node_at_client_queue_join, if_pos rfl]
      not_waiting := fun hm => by
        have := (client_queue_join_waiting_perm _ S c hcw).mem_iff.mp hm
        exact List.Nodup.not_mem_erase hl.pairing.roles.waiting_nodup this
      paired := by
        rw [client_queue_join_clients_connecting]
        simp
      sent := by
        rw [client_queue_join_sent, send_server_load_sent]
        simp }

theorem PassStep.trivial (k : Env) (t : ℚ) : PassStep k t (fun _ => True) where
  lookup _ _ _ _ := True.intro
  assert _ _ _ _ _ := True.intro
  load _ _ _ _ _ _ _ := True.intro
  join _ _ _ _ _ _ := True.intro
  connect _ _ _ _ _ _ _ := True.intro

/-- The first loop keeps the servers list, and lists servers only. -/
theorem match_servers_lists (timestamp : ℚ) (l : List Address) (m : MatchState)
    (hl : ∀ a ∈ l, a ∈ m.broker.servers)
    (hm : ∀ a ∈ m.multiplayer_servers, a ∈ m.broker.servers) :
    (l.foldl (match_server timestamp) m).broker.servers = m.broker.servers
    ∧ ∀ a ∈ (l.foldl (match_server timestamp) m).multiplayer_servers, a ∈ m.broker.servers :=
  (step_match_servers (PassStep.trivial ⟨0, 0, 0, 0⟩ timestamp) l m True.intro hl hm).2

/-- The pass from the middle of its first loop on: a property every step of
the pass keeps, and that holds when the first loop has done the servers of l1,
holds after the pass. -/
theorem step_matchmake_from {k : Env} {timestamp : ℚ} {R : Broker → Prop}
    (st : PassStep k timestamp R) (b : Broker) (l1 l2 : List Address)
    (hb : b.servers = l1 ++ l2)
    (h : R (l1.foldl (match_server timestamp) (match_start b)).broker) :
    R (matchmake k b timestamp) := by
  rw [matchmake_stages]
  obtain ⟨e1, e2⟩ := match_servers_lists timestamp l1 (match_start b)
    (fun a ha => by
      show a ∈ b.servers
      rw [hb]; exact List.mem_append_left _ ha)
    (fun _ ha => by simp [match_start] at ha)
  obtain ⟨r1, r2, r3⟩ := step_match_servers st l2
    (l1.foldl (match_server timestamp) (match_start b)) h
    (fun a ha => by
      rw [e1]
      show a ∈ b.servers
      rw [hb]; exact List.mem_append_right _ ha)
    (fun a ha => by rw [e1]; exact e2 a ha)
  have hfold : match_servers b timestamp
      = l2.foldl (match_server timestamp) (l1.foldl (match_server timestamp) (match_start b)) := by
    unfold match_servers
    rw [hb, List.foldl_append]
  rw [hfold]
  obtain ⟨q1, q2, q3⟩ := step_match_alloc st _ r1 (fun a ha => by rw [r2]; exact r3 a ha)
  exact step_match_assign st.toAssignStep _ q1 q3

/-! ### One round of the first loop, by cases -/

/-- The story-mode scan over waiting clients none of which asks for story
mode: lookups only. -/
theorem story_scan_none {R : Broker → Prop} (timestamp : ℚ) (st : LookupStep R)
    (S : Address) (l : List Address) (b : Broker) (h : R b)
    (hw : ∀ a ∈ l, a ∈ b.clients_waiting)
    (h1 : ∀ a ∈ l, (node_at b a).server_state.story_mode = false) :
    R (story_scan timestamp S l b) := by
  induction l generalizing b with
  | nil => exact h
  | cons x xs ih =>
    have hxs : (node_at b x).server_state.story_mode = false := h1 x (List.mem_cons_self _ _)
    simp only [story_scan, node_at_node_for_address, hxs, Bool.false_eq_true, if_false]
    apply ih _ (st.lookup b x h (Or.inr (Or.inl (hw x (List.mem_cons_self _ _)))))
    · intro a ha
      rw [node_for_address_clients_waiting]
      exact hw a (List.mem_cons_of_mem _ ha)
    · intro a ha
      rw [node_at_node_for_address]
      exact h1 a (List.mem_cons_of_mem _ ha)

/-- What one round of the first loop makes of the state, for a server x of
the servers list: lookups only when x is not idle or no waiting client asks
for story mode; otherwise x is told to load the description of the first
waiting client c asking for story mode, and c joins x. -/
theorem match_server_cases (k : Env) (t : ℚ) (m : MatchState) (x : Address)
    (h : FullInv m.broker) (hx : x ∈ m.broker.servers) :
    ((node_at m.broker x).state ≠ State.ServerIdle
      ∧ FullInv (match_server t m x).broker ∧ SameView m.broker (match_server t m x).broker
      ∧ (match_server t m x).idle_servers = m.idle_servers)
    ∨ ((node_at m.broker x).state = State.ServerIdle
      ∧ FullInv (match_server t m x).broker ∧ SameView m.broker (match_server t m x).broker
      ∧ (match_server t m x).idle_servers = m.idle_servers + 1
      ∧ (match_server t m x).multiplayer_servers = m.multiplayer_servers
      ∧ (match_server t m x).existing_multiplayer_slots = m.existing_multiplayer_slots)
    ∨ ((node_at m.broker x).state = State.ServerIdle
      ∧ (match_server t m x).idle_servers = m.idle_servers
      ∧ (match_server t m x).multiplayer_servers = m.multiplayer_servers
      ∧ (match_server t m x).existing_multiplayer_slots = m.existing_multiplayer_slots
      ∧ ∃ b1 c, FullInv b1 ∧ SameView m.broker b1 ∧ c ∈ m.broker.clients_waiting
        ∧ (node_at m.broker c).server_state.story_mode = true
        ∧ (match_server t m x).broker
          = client_queue_join (send_server_load t b1 x (node_at m.broker c).server_state) x c) := by
  have st : LookupStep (fun y => FullInv y ∧ SameView m.broker y) :=
    LookupStep.both (FullInv.step k t).toLookupStep (SameView.lookups m.broker)
  have h0 := st.lookup m.broker x ⟨h, SameView.refl _⟩ (Or.inl hx)
  have v0 : SameView m.broker (node_for_address m.broker x).1 := h0.2
  by_cases hs : (node_at m.broker x).state = State.ServerIdle
  · right
    have hidle : (node_at (node_for_address m.broker x).1 x).state = State.ServerIdle := by
      rw [v0.node]; exact hs
    cases hf : m.broker.clients_waiting.find?
        (fun a => (node_at m.broker a).server_state.story_mode) with
    | none =>
      left
      rw [List.find?_eq_none] at hf
      have hscan := story_scan_none t st x m.broker.clients_waiting
        (node_for_address m.broker x).1 h0
        (fun a ha => by rw [v0.waiting]; exact ha)
        (fun a ha => by
          rw [v0.node]
          simpa using hf a ha)
      have hstill : (node_at (story_scan t x m.broker.clients_waiting
          (node_for_address m.broker x).1) x).state = State.ServerIdle := by
        rw [hscan.2.node]; exact hs
      have e : match_server t m x = { m with
          broker := story_scan t x m.broker.clients_waiting (node_for_address m.broker x).1
          idle_servers := m.idle_servers + 1 } := by
        simp only [match_server, hidle, if_true, v0.waiting, hstill]
      rw [e]
      exact ⟨hs, hscan.1, hscan.2, rfl, rfl, rfl⟩
    | some c =>
      right
      obtain ⟨hcs, w1, w2, hw, hw'⟩ := List.find?_eq_some.mp hf
      have hcm : c ∈ m.broker.clients_waiting := by rw [hw]; simp
      obtain ⟨b3, ⟨i3, v3⟩, _, e3⟩ := story_scan_first t st x c w1 w2
        (node_for_address m.broker x).1 h0
        (fun a ha => by
          rw [v0.waiting, hw]
          simp only [List.mem_append, List.mem_singleton] at ha
          simp only [List.mem_append, List.mem_cons]
          tauto)
        (fun a ha => by
          rw [v0.node]
          simpa using hw' a ha)
        (by rw [v0.node]; exact hcs)
      rw [v0.node] at e3
      have hcw := h.pairing.roles.waiting_state c hcm
      simp only [] at hcw
      have hne : x ≠ c := fun e => by
        rw [e, hcw] at hs
        exact State.noConfusion hs
      have hafter : (node_at (client_queue_join (send_server_load t b3 x
          (node_at m.broker c).server_state) x c) x).state = State.ServerLoading := by
        rw [node_at_client_queue_join, if_neg hne, node_at_send_server_load, if_pos rfl]
      have e : match_server t m x = { m with
          broker := client_queue_join (send_server_load t b3 x
            (node_at m.broker c).server_state) x c } := by
        simp only [match_server, hidle, if_true, v0.waiting, hw, e3, hafter, reduceCtorEq,
          if_false]
      rw [e]
      exact ⟨hs, rfl, rfl, rfl, b3, c, i3, v3, hcm, hcs, rfl⟩
  · left
    have hl := lookup_match_server t st m x ⟨h, SameView.refl _⟩ hx hs
    refine ⟨hs, hl.1, hl.2, ?_⟩
    have hs' : ¬ (node_at (node_for_address m.broker x).1 x).state = State.ServerIdle := by
      rw [v0.node]; exact hs
    simp only [match_server, hs', if_false]
    split_ifs <;> rfl

/-! ### Counting the idle servers -/

theorem idle_among_congr {b b' : Broker} (l : List Address)
    (h : ∀ a ∈ l, (node_at b' a).state = (node_at b a).state) :
    idle_among b' l = idle_among b l := by
  unfold idle_among
  congr 1
  apply List.filter_congr
  intro a ha
  rw [h a ha]

theorem idle_among_append (b : Broker) (l1 l2 : List Address) :
    idle_among b (l1 ++ l2) = idle_among b l1 + idle_among b l2 := by
  simp [idle_among, List.filter_append]

theorem idle_among_single (b : Broker) (x : Address) :
    idle_among b [x] = if (node_at b x).state = State.ServerIdle then 1 else 0 := by
  unfold idle_among
  by_cases h : (node_at b x).state = State.ServerIdle <;> simp [List.filter_cons, h]

/-- One round of the first loop leaves the nodes of the other servers as
they are. -/
theorem match_server_others (k : Env) (t : ℚ) (m : MatchState) (x : Address)
    (h : FullInv m.broker) (hx : x ∈ m.broker.servers) (a : Address)
    (ha : a ∈ m.broker.servers) (hne : a ≠ x) :
    node_at (match_server t m x).broker a = node_at m.broker a := by
  rcases match_server_cases k t m x h hx with ⟨_, _, v, _⟩ | ⟨_, _, v, _⟩
    | ⟨_, _, _, _, b1, c, _, v, hc, _, e⟩
  · exact v.node a
  · exact v.node a
  · have hcw := h.pairing.roles.waiting_state c hc
    simp only [] at hcw
    have hac : a ≠ c := fun e' => by
      have := h.servers.servers_state a ha
      simp only [e', hcw] at this
      exact Bool.false_ne_true this
    rw [e, node_at_client_queue_join, if_neg hac, node_at_send_server_load, if_neg hne]
    exact v.node a

/-- One round of the first loop counts the server when it leaves it idle. -/
theorem match_server_idle_servers (k : Env) (t : ℚ) (m : MatchState) (x : Address)
    (h : FullInv m.broker) (hx : x ∈ m.broker.servers) :
    (match_server t m x).idle_servers
      = m.idle_servers + idle_among (match_server t m x).broker [x] := by
  rw [idle_among_single]
  rcases match_server_cases k t m x h hx with ⟨hs, _, v, e⟩ | ⟨hs, _, v, e, _⟩
    | ⟨hs, e, _, _, b1, c, _, v, hc, _, eb⟩
  · rw [e, v.node, if_neg hs]; simp
  · rw [e, v.node, if_pos hs]; simp
  · have hcw := h.pairing.roles.waiting_state c hc
    simp only [] at hcw
    have hne : x ≠ c := fun e' => by
      rw [e', hcw] at hs
      exact State.noConfusion hs
    rw [e, eb, node_at_client_queue_join, if_neg hne, node_at_send_server_load, if_pos rfl]
    simp

/-- The first loop counts the servers it leaves idle: after the servers of l,
with those of P done before, idle_servers is the number of idle servers among
P and l. -/
theorem match_servers_idle (k : Env) (t : ℚ) (l P : List Address) (m : MatchState)
    (h : FullInv m.broker) (hs : m.broker.servers = P ++ l)
    (hi : m.idle_servers = idle_among m.broker P) :
    FullInv (l.foldl (match_server t) m).broker
    ∧ (l.foldl (match_server t) m).broker.servers = P ++ l
    ∧ (l.foldl (match_server t) m).idle_servers
      = idle_among (l.foldl (match_server t) m).broker (P ++ l) := by
  induction l generalizing m P with
  | nil => exact ⟨h, hs, by simpa using hi⟩
  | cons x xs ih =>
    have hx : x ∈ m.broker.servers := by rw [hs]; simp
    have hnd : (P ++ x :: xs).Nodup := hs ▸ h.servers.servers_nodup
    have hxP : x ∉ P := fun hm => by
      have := (List.nodup_append.mp hnd).2.2
      exact this hm (List.mem_cons_self _ _)
    have h' : FullInv (match_server t m x).broker :=
      step_match_server (FullInv.step k t) m x h hx
    have hs' : (match_server t m x).broker.servers = (P ++ [x]) ++ xs := by
      rw [(match_server_lists t m x).1, hs]; simp
    have hi' : (match_server t m x).idle_servers
        = idle_among (match_server t m x).broker (P ++ [x]) := by
      have hP : idle_among (match_server t m x).broker P = idle_among m.broker P := by
        apply idle_among_congr
        intro a ha
        rw [match_server_others k t m x h hx a (by rw [hs]; exact List.mem_append_left _ ha)
          (fun e => hxP (e ▸ ha))]
      rw [match_server_idle_servers k t m x h hx, idle_among_append, hi, hP]
      push_cast
      rfl
    have := ih (P ++ [x]) (match_server t m x) h' hs' hi'
    simpa using this

theorem match_servers_idle_count (k : Env) (t : ℚ) (b : Broker) (h : FullInv b) :
    FullInv (match_servers b t).broker
    ∧ (match_servers b t).broker.servers = b.servers
    ∧ (match_servers b t).idle_servers = idle_count (match_servers b t).broker := by
  obtain ⟨h1, h2, h3⟩ := match_servers_idle k t b.servers [] (match_start b) h rfl rfl
  refine ⟨h1, h2, ?_⟩
  unfold idle_count
  rw [show (match_servers b t).broker.servers = b.servers from h2]
  exact h3

/-! ### The demand and the allocation -/

theorem needed_fold_value (b0 : Broker) (l : List Address) (z : Int) (b : Broker)
    (hv : ∀ a, node_at b a = node_at b0 a) :
    (l.foldl
      (fun (acc : Int × Broker) a =>
        let b := (node_for_address acc.2 a).1
        if !(node_at b a).server_state.story_mode then
          (acc.1 + (node_at b a).server_state.open_slots, b)
        else (acc.1, b)) (z, b)).1
      = z + ((l.filter (fun c => !(node_at b0 c).server_state.story_mode)).map
        (fun c => ((node_at b0 c).server_state.open_slots : Int))).sum := by
  induction l generalizing z b with
  | nil => simp
  | cons x xs ih =>
    have hv' : ∀ a, node_at (node_for_address b x).1 a = node_at b0 a :=
      fun a => (node_at_node_for_address b x a).trans (hv a)
    simp only [List.foldl_cons, hv' x]
    by_cases hs : (node_at b0 x).server_state.story_mode = true
    · simp only [hs, Bool.not_true, Bool.false_eq_true, if_false, List.filter_cons]
      exact ih _ _ hv'
    · simp only [hs, Bool.not_false, if_true, List.filter_cons, List.map_cons, List.sum_cons]
      rw [ih _ _ hv']
      ring

/-- The demand the pass computes is the sum, over the waiting clients outside
story mode, of the open slots they ask for. -/
theorem needed_multiplayer_slots_value (b : Broker) :
    (needed_multiplayer_slots b).1 = waiting_demand b := by
  unfold needed_multiplayer_slots waiting_demand
  rw [needed_fold_value b b.clients_waiting 0 b (fun _ => rfl)]
  simp

theorem needed_multiplayer_slots_view (k : Env) (t : ℚ) (b : Broker) (h : FullInv b) :
    FullInv (needed_multiplayer_slots b).2 ∧ SameView b (needed_multiplayer_slots b).2 :=
  step_needed_multiplayer_slots
    (LookupStep.both (FullInv.step k t).toLookupStep (SameView.lookups b)) b
    ⟨h, SameView.refl b⟩

theorem idle_count_view {b b' : Broker} (hv : SameView b b') : idle_count b' = idle_count b := by
  unfold idle_count
  rw [hv.servers]
  exact idle_among_congr _ (fun a _ => by rw [hv.node])

/-- The number of allocations asked for: none when the demand is within the
capacity, else the smaller of the number of idle servers and the shortfall
divided by MAX_PLAYERS, rounded up. -/
theorem server_allocs_value (k : Env) (hmax : 0 < k.max_players) (I : Nat) (D C : Int) :
    (((server_allocs k I D C).toNat : Nat) : Int)
      = if D > C then min (I : Int) ⌈((D - C : Int) : ℚ) / ((k.max_players : Int) : ℚ)⌉
        else 0 := by
  unfold server_allocs
  by_cases h : D > C
  · rw [if_pos h]
    have hx : 0 < D - C := by omega
    have hnum : 0 ≤ D - C + k.max_players - 1 := by omega
    have hdiv : Int.tdiv (D - C + k.max_players - 1) k.max_players
        = ⌈((D - C : Int) : ℚ) / ((k.max_players : Int) : ℚ)⌉ := by
      rw [Int.tdiv_eq_ediv hnum (le_of_lt hmax)]
      symm
      rw [Int.ceil_eq_iff]
      have hM : (0 : ℚ) < ((k.max_players : Int) : ℚ) := by exact_mod_cast hmax
      have h1 := Int.ediv_mul_le (D - C + k.max_players - 1) (ne_of_gt hmax)
      have h2 := Int.lt_ediv_add_one_mul_self (D - C + k.max_players - 1) hmax
      constructor
      · rw [lt_div_iff₀ hM]
        have : ((D - C + k.max_players - 1) / k.max_players - 1) * k.max_players < D - C := by
          nlinarith
        exact_mod_cast this
      · rw [div_le_iff₀ hM]
        have : D - C ≤ (D - C + k.max_players - 1) / k.max_players * k.max_players := by
          nlinarith
        exact_mod_cast this
    rw [hdiv]
    have hpos : 0 ≤ ⌈((D - C : Int) : ℚ) / ((k.max_players : Int) : ℚ)⌉ := by
      apply Int.ceil_nonneg
      apply div_nonneg
      · exact_mod_cast le_of_lt hx
      · exact_mod_cast le_of_lt hmax
    rw [Int.toNat_of_nonneg]
    exact le_min (Int.ofNat_nonneg I) hpos
  · rw [if_neg h]
    have hle : Int.tdiv (D - C + k.max_players - 1) k.max_players ≤ 0 := by
      by_cases hn : 0 ≤ D - C + k.max_players - 1
      · rw [Int.tdiv_eq_ediv hn (le_of_lt hmax)]
        have : (D - C + k.max_players - 1) / k.max_players < 1 := by
          apply Int.ediv_lt_of_lt_mul hmax
          omega
        omega
      · have hneg : D - C + k.max_players - 1 ≤ 0 := by omega
        obtain ⟨n, hn'⟩ := Int.exists_eq_neg_ofNat hneg
        rw [hn', Int.neg_tdiv]
        have : 0 ≤ Int.tdiv (n : Int) k.max_players :=
          Int.tdiv_nonneg (Int.ofNat_nonneg n) (le_of_lt hmax)
        omega
    have : min (I : Int) (Int.tdiv (D - C + k.max_players - 1) k.max_players) ≤ 0 :=
      le_trans (min_le_right _ _) hle
    rw [Int.toNat_eq_zero.mpr this]
    rfl

/-- A call of alloc_server on servers none of which is idle finds none:
lookups only. -/
theorem alloc_server_none {R : Broker → Prop} (t : ℚ) (s : ServerState) (st : LookupStep R)
    (l : List Address) (b : Broker) (h : R b) (hl : ∀ a ∈ l, a ∈ b.servers)
    (hn : ∀ a ∈ l, (node_at b a).state ≠ State.ServerIdle) :
    (alloc_server t s l b).1 = none ∧ R (alloc_server t s l b).2 := by
  induction l generalizing b with
  | nil => exact ⟨rfl, h⟩
  | cons x xs ih =>
    have hx : ¬ (node_at b x).state = State.ServerIdle := hn x (List.mem_cons_self _ _)
    simp only [alloc_server, node_at_node_for_address, hx, if_false]
    apply ih _ (st.lookup b x h (Or.inl (hl x (List.mem_cons_self _ _))))
    · intro a ha
      rw [node_for_address_servers]
      exact hl a (List.mem_cons_of_mem _ ha)
    · intro a ha
      rw [node_at_node_for_address]
      exact hn a (List.mem_cons_of_mem _ ha)

/-- A call of alloc_server tells the first idle server of the list to load. -/
theorem alloc_server_first {R : Broker → Prop} (t : ℚ) (s : ServerState) (st : LookupStep R)
    (pre post : List Address) (a : Address) (b : Broker) (h : R b)
    (hl : ∀ x ∈ pre ++ [a], x ∈ b.servers)
    (hn : ∀ x ∈ pre, (node_at b x).state ≠ State.ServerIdle)
    (ha : (node_at b a).state = State.ServerIdle) :
    ∃ b1, R b1 ∧ SameView b b1
      ∧ alloc_server t s (pre ++ a :: post) b = (some a, send_server_load t b1 a s) := by
  induction pre generalizing b with
  | nil =>
    have hm : a ∈ b.servers := hl a (by simp)
    refine ⟨(node_for_address b a).1, st.lookup b a h (Or.inl hm),
      (SameView.lookups b).lookup b a (SameView.refl b) (Or.inl hm), ?_⟩
    simp only [List.nil_append, alloc_server, node_at_node_for_address, ha, if_true]
  | cons x xs ih =>
    have hxm : x ∈ b.servers := hl x (by simp)
    have hx : ¬ (node_at b x).state = State.ServerIdle := hn x (List.mem_cons_self _ _)
    have hv := (SameView.lookups b).lookup b x (SameView.refl b) (Or.inl hxm)
    obtain ⟨b1, r1, v1, e1⟩ := ih (node_for_address b x).1 (st.lookup b x h (Or.inl hxm))
      (fun y hy => by
        rw [node_for_address_servers]
        exact hl y (by simp at hy ⊢; tauto))
      (fun y hy => by
        rw [node_at_node_for_address]
        exact hn y (List.mem_cons_of_mem _ hy))
      (by rw [node_at_node_for_address]; exact ha)
    refine ⟨b1, r1, ⟨fun c => (v1.node c).trans (hv.node c), v1.servers.trans hv.servers,
      v1.waiting.trans hv.waiting, v1.pairings.trans hv.pairings, v1.sent.trans hv.sent⟩, ?_⟩
    simp only [List.cons_append, alloc_server, node_at_node_for_address, hx, if_false]
    exact e1

/-- Telling an idle server of the servers list to load takes one off the
number of idle servers. -/
theorem idle_count_load (t : ℚ) (b : Broker) (a : Address) (s : ServerState)
    (hnd : b.servers.Nodup) (ha : a ∈ b.servers)
    (hi : (node_at b a).state = State.ServerIdle) :
    idle_count (send_server_load t b a s) + 1 = idle_count b := by
  obtain ⟨pre, post, hsplit⟩ := List.append_of_mem ha
  have hnd' := hnd
  rw [hsplit] at hnd'
  have hpre : a ∉ pre := fun hm =>
    (List.nodup_append.mp hnd').2.2 hm (List.mem_cons_self _ _)
  have hpost : a ∉ post := (List.nodup_cons.mp (List.nodup_append.mp hnd').2.1).1
  have hother : ∀ l : List Address, a ∉ l →
      idle_among (send_server_load t b a s) l = idle_among b l := by
    intro l hl
    apply idle_among_congr
    intro x hx
    have hne : x ≠ a := fun e => hl (e ▸ hx)
    rw [node_at_send_server_load, if_neg hne]
  unfold idle_count
  rw [send_server_load_servers, hsplit]
  have hcons : pre ++ a :: post = pre ++ ([a] ++ post) := by simp
  rw [hcons, idle_among_append, idle_among_append, idle_among_append, idle_among_append,
    hother pre hpre, hother post hpost, idle_among_single, idle_among_single,
    node_at_send_server_load, if_pos rfl, if_pos hi]
  simp only [reduceCtorEq, if_false]
  omega

theorem mem_of_idle_count_pos (b : Broker) (h : 0 < idle_count b) :
    ∃ a pre post, b.servers = pre ++ a :: post
      ∧ (∀ x ∈ pre, (node_at b x).state ≠ State.ServerIdle)
      ∧ (node_at b a).state = State.ServerIdle := by
  unfold idle_count idle_among at h
  cases hf : b.servers.find? (fun a => decide ((node_at b a).state = State.ServerIdle)) with
  | none =>
    rw [List.find?_eq_none] at hf
    have : b.servers.filter (fun a => decide ((node_at b a).state = State.ServerIdle)) = [] := by
      rw [List.filter_eq_nil_iff]
      exact hf
    rw [this] at h
    simp at h
  | some a =>
    obtain ⟨ha, pre, post, hsplit, hpre⟩ := List.find?_eq_some.mp hf
    exact ⟨a, pre, post, hsplit, fun x hx => by simpa using hpre x hx, by simpa using ha⟩

/-- The allocation loop asked for no more servers than are idle: every call
of alloc_server finds one.  The servers of the list new, all different, were
idle and are told to load the default multiplayer description, in this order;
they are appended to the targets; no other node changes. -/
theorem alloc_loop_spec (k : Env) (t : ℚ) (n : Nat) (m : MatchState) (h : FullInv m.broker)
    (hn : n ≤ idle_count m.broker) :
    ∃ new : List Address,
      (alloc_loop k t n m).multiplayer_servers = m.multiplayer_servers ++ new
      ∧ new.length = n ∧ new.Nodup
      ∧ FullInv (alloc_loop k t n m).broker
      ∧ (alloc_loop k t n m).broker.servers = m.broker.servers
      ∧ (∀ a ∈ new, a ∈ m.broker.servers ∧ (node_at m.broker a).state = State.ServerIdle
        ∧ node_at (alloc_loop k t n m).broker a
          = { node_at m.broker a with
              state := State.ServerLoading, server_state := multiplayer_state k })
      ∧ (∀ a, a ∉ new → node_at (alloc_loop k t n m).broker a = node_at m.broker a) := by
  induction n generalizing m with
  | zero =>
    exact ⟨[], by simp [alloc_loop], rfl, List.nodup_nil, h, rfl,
      fun a ha => by simp at ha, fun _ _ => rfl⟩
  | succ n ih =>
    obtain ⟨a, pre, post, hsplit, hpre, hidle⟩ := mem_of_idle_count_pos m.broker (by omega)
    obtain ⟨b1, ⟨i1, _⟩, v1, e1⟩ := alloc_server_first t (multiplayer_state k)
      (LookupStep.both (FullInv.step k t).toLookupStep (SameView.lookups m.broker))
      pre post a m.broker ⟨h, SameView.refl _⟩
      (fun x hx => by
        rw [hsplit]
        simp only [List.mem_append, List.mem_singleton] at hx
        simp only [List.mem_append, List.mem_cons]
        tauto)
      hpre hidle
    have ham : a ∈ m.broker.servers := by rw [hsplit]; simp
    have ha1 : a ∈ b1.servers := by rw [v1.servers]; exact ham
    have hi1 : (node_at b1 a).state = State.ServerIdle := by rw [v1.node]; exact hidle
    have i2 : FullInv (send_server_load t b1 a (multiplayer_state k)) :=
      (FullInv.step k t).load b1 a _ i1 ha1 hi1 (Or.inl rfl)
    have hcount : n ≤ idle_count (send_server_load t b1 a (multiplayer_state k)) := by
      have h1 := idle_count_load t b1 a (multiplayer_state k) i1.servers.servers_nodup ha1 hi1
      have h2 := idle_count_view v1
      omega
    obtain ⟨new, q1, q2, q3, q4, q5, q6, q7⟩ := ih
      { m with broker := send_server_load t b1 a (multiplayer_state k)
               multiplayer_servers := m.multiplayer_servers ++ [a] } i2 hcount
    have hstep : alloc_loop k t (n + 1) m = alloc_loop k t n
        { m with broker := send_server_load t b1 a (multiplayer_state k)
                 multiplayer_servers := m.multiplayer_servers ++ [a] } := by
      rw [← hsplit] at e1
      rw [alloc_loop, e1]
    have hanew : a ∉ new := fun hm => by
      have := (q6 a hm).2.1
      simp only [] at this
      rw [node_at_send_server_load, if_pos rfl] at this
      exact State.noConfusion this
    rw [hstep]
    refine ⟨a :: new, by rw [q1]; simp, by simp [q2], List.nodup_cons.mpr ⟨hanew, q3⟩, q4,
      by rw [q5]; exact (send_server_load_servers _ _ _ _).trans v1.servers, ?_, ?_⟩
    · intro x hx
      rcases List.mem_cons.mp hx with hx | hx
      · subst hx
        refine ⟨ham, hidle, ?_⟩
        rw [q7 x hanew]
        simp only []
        rw [node_at_send_server_load, if_pos rfl, v1.node]
      · obtain ⟨r1, r2, r3⟩ := q6 x hx
        have hne : x ≠ a := fun e => hanew (e ▸ hx)
        simp only [] at r1 r2 r3
        rw [node_at_send_server_load, if_neg hne, v1.node] at r2 r3
        rw [send_server_load_servers, v1.servers] at r1
        exact ⟨r1, r2, r3⟩
    · intro x hx
      have hne : x ≠ a := fun e => hx (e ▸ List.mem_cons_self _ _)
      have hx' : x ∉ new := fun hm => hx (List.mem_cons_of_mem _ hm)
      rw [q7 x hx']
      simp only []
      rw [node_at_send_server_load, if_neg hne, v1.node]

/-! ### The effective open slots of a server -/

/-- The count of server_open_slots, without the lookups. -/
theorem slots_fold_value (b0 : Broker) (a1 : Address) (l : List ClientConnection) (z : Int)
    (b : Broker) (hv : ∀ c, node_at b c = node_at b0 c) :
    (l.foldl (open_slots_step a1) (z, b)).1
      = l.foldl (fun (y : Int) (p : ClientConnection) =>
          if p.server = a1 then wrap8 (y - (node_at b0 p.client).server_state.open_slots)
          else y) z := by
  induction l generalizing z b with
  | nil => rfl
  | cons x xs ih =>
    simp only [List.foldl_cons, open_slots_step]
    split
    · rw [ih _ _ (fun c => (node_at_node_for_address b x.client c).trans (hv c))]
      rw [node_for_address_snd, hv]
    · exact ih _ _ hv

theorem server_open_slots_value (b : Broker) (a : Address)
    (hs : (node_at b a).state.is_server = true) :
    (server_open_slots b a).1
      = b.clients_connecting.foldl (fun (y : Int) (p : ClientConnection) =>
          if p.server = a then wrap8 (y - (node_at b p.client).server_state.open_slots)
          else y) (wrap8 (node_at b a).server_state.open_slots) := by
  have hs' := (is_server_iff _).mp hs
  unfold server_open_slots
  simp only [hs', if_true, node_at_addr]
  exact slots_fold_value b a _ _ b (fun _ => rfl)

/-- The effective open slots of a server depend on its node, on the pairings
with it and on what their clients ask for. -/
theorem server_open_slots_congr {b b' : Broker} (a : Address) (ext : List ClientConnection)
    (hs : (node_at b a).state.is_server = true)
    (hn : node_at b' a = node_at b a)
    (hP : b'.clients_connecting = b.clients_connecting ++ ext)
    (hext : ∀ p ∈ ext, p.server ≠ a)
    (hc : ∀ p ∈ b.clients_connecting,
      (node_at b' p.client).server_state = (node_at b p.client).server_state) :
    (server_open_slots b' a).1 = (server_open_slots b a).1 := by
  rw [server_open_slots_value b a hs, server_open_slots_value b' a (by rw [hn]; exact hs),
    hP, List.foldl_append, hn]
  have hnoop : ∀ (l : List ClientConnection) (z : Int), (∀ p ∈ l, p.server ≠ a) →
      l.foldl (fun (y : Int) (p : ClientConnection) =>
        if p.server = a then wrap8 (y - (node_at b' p.client).server_state.open_slots)
        else y) z = z := by
    intro l
    induction l with
    | nil => intro _ _; rfl
    | cons x xs ih =>
      intro z hl
      rw [List.foldl_cons, if_neg (hl x (List.mem_cons_self _ _))]
      exact ih z (fun p hp => hl p (List.mem_cons_of_mem _ hp))
  rw [hnoop ext _ hext]
  have hsame : ∀ (l : List ClientConnection) (z : Int),
      (∀ p ∈ l, (node_at b' p.client).server_state = (node_at b p.client).server_state) →
      l.foldl (fun (y : Int) (p : ClientConnection) =>
        if p.server = a then wrap8 (y - (node_at b' p.client).server_state.open_slots)
        else y) z
      = l.foldl (fun (y : Int) (p : ClientConnection) =>
        if p.server = a then wrap8 (y - (node_at b p.client).server_state.open_slots)
        else y) z := by
    intro l
    induction l with
    | nil => intro _ _; rfl
    | cons x xs ih =>
      intro z hl
      rw [List.foldl_cons, List.foldl_cons, hl x (List.mem_cons_self _ _)]
      exact ih _ (fun p hp => hl p (List.mem_cons_of_mem _ hp))
  exact hsame _ _ hc

theorem server_open_slots_view {b b' : Broker} (hv : SameView b b') (a : Address)
    (hs : (node_at b a).state.is_server = true) :
    (server_open_slots b' a).1 = (server_open_slots b a).1 :=
  server_open_slots_congr a [] hs (hv.node a) (by rw [hv.pairings]; simp)
    (fun _ hp => by simp at hp) (fun p _ => by rw [hv.node])

/-- One round of the first loop on a server that is not idle: it becomes a
target, its effective open slots added to the capacity, when it is not in
story mode and has effective open slots left. -/
theorem match_server_target (t : ℚ) (m : MatchState) (x : Address)
    (h : FullInv m.broker) (hx : x ∈ m.broker.servers)
    (hs : (node_at m.broker x).state ≠ State.ServerIdle) :
    (match_server t m x).multiplayer_servers
      = (if (!(node_at m.broker x).server_state.story_mode
            && decide ((server_open_slots m.broker x).1 > 0)) = true
          then m.multiplayer_servers ++ [x] else m.multiplayer_servers)
    ∧ (match_server t m x).existing_multiplayer_slots
      = (if (!(node_at m.broker x).server_state.story_mode
            && decide ((server_open_slots m.broker x).1 > 0)) = true
          then m.existing_multiplayer_slots + (server_open_slots m.broker x).1
          else m.existing_multiplayer_slots) := by
  have hsrv : (node_at m.broker x).state.is_server = true := h.servers.servers_state x hx
  have v0 : SameView m.broker (node_for_address m.broker x).1 :=
    (SameView.lookups m.broker).lookup m.broker x (SameView.refl _) (Or.inl hx)
  have hs' : ¬ (node_at (node_for_address m.broker x).1 x).state = State.ServerIdle := by
    rw [v0.node]; exact hs
  have hact : (node_at (node_for_address m.broker x).1 x).state = State.ServerActive
      ∨ (node_at (node_for_address m.broker x).1 x).state = State.ServerLoading := by
    rw [v0.node]
    rcases (is_server_iff _).mp hsrv with e | e | e
    · exact Or.inr e
    · exact Or.inl e
    · exact absurd e hs
  have v1 : SameView m.broker (server_open_slots (node_for_address m.broker x).1 x).2 :=
    step_server_open_slots (SameView.lookups m.broker) _ x v0 (by rw [v0.servers]; exact hx)
  have e1 : (server_open_slots (node_for_address m.broker x).1 x).1
      = (server_open_slots m.broker x).1 := server_open_slots_view v0 x hsrv
  simp only [match_server, hs', if_false, hact, if_true, v1.node, e1]
  split <;> exact ⟨rfl, rfl⟩

theorem targets_capacity_append (b : Broker) (l : List Address) (x : Address) (z : Int)
    (m : MatchState) (hb : m.broker = b) (hl : m.multiplayer_servers = l ++ [x])
    (hz : z = ((l.map (fun a => (server_open_slots b a).1)).sum)) :
    targets_capacity m = z + (server_open_slots b x).1 := by
  unfold targets_capacity
  rw [hb, hl, hz]
  simp

/-- The first loop sums the effective open slots of its targets: after the
servers of l, with those of P done before, existing_multiplayer_slots is the
sum of the effective open slots of the targets, all of which are among P and
l. -/
theorem match_servers_capacity (k : Env) (t : ℚ) (l P : List Address) (m : MatchState)
    (h : FullInv m.broker) (hs : m.broker.servers = P ++ l)
    (hm : ∀ a ∈ m.multiplayer_servers, a ∈ P)
    (he : m.existing_multiplayer_slots = targets_capacity m) :
    (l.foldl (match_server t) m).existing_multiplayer_slots
      = targets_capacity (l.foldl (match_server t) m) := by
  induction l generalizing m P with
  | nil => exact he
  | cons x xs ih =>
    have hx : x ∈ m.broker.servers := by rw [hs]; simp
    have hnd : (P ++ x :: xs).Nodup := hs ▸ h.servers.servers_nodup
    have hxP : x ∉ P := fun hm' =>
      (List.nodup_append.mp hnd).2.2 hm' (List.mem_cons_self _ _)
    have h' : FullInv (match_server t m x).broker :=
      step_match_server (FullInv.step k t) m x h hx
    have hs' : (match_server t m x).broker.servers = (P ++ [x]) ++ xs := by
      rw [(match_server_lists t m x).1, hs]; simp
    have hm' : ∀ a ∈ (match_server t m x).multiplayer_servers, a ∈ P ++ [x] := by
      intro a ha
      rcases (match_server_lists t m x).2 a ha with h1 | h1
      · exact List.mem_append_left _ (hm a h1)
      · rw [h1]; simp
    rw [List.foldl_cons]
    apply ih (P ++ [x]) (match_server t m x) h' hs' hm'
    -- the effective open slots of the earlier targets are as before
    have hold : ∀ a ∈ m.multiplayer_servers,
        (server_open_slots (match_server t m x).broker a).1 = (server_open_slots m.broker a).1 := by
      intro a ha
      have haP := hm a ha
      have hasrv : a ∈ m.broker.servers := by rw [hs]; exact List.mem_append_left _ haP
      have hsv : (node_at m.broker a).state.is_server = true := h.servers.servers_state a hasrv
      have hne : a ≠ x := fun e => hxP (e ▸ haP)
      rcases match_server_cases k t m x h hx with ⟨_, _, v, _⟩ | ⟨_, _, v, _⟩
        | ⟨hxi, _, _, _, b1, c, i1, v, hc, _, e⟩
      · exact server_open_slots_view v a hsv
      · exact server_open_slots_view v a hsv
      · have hcw := h.pairing.roles.waiting_state c hc
        simp only [] at hcw
        have hac : a ≠ c := fun e' => by
          rw [e', hcw] at hsv
          exact Bool.false_ne_true hsv
        have hsv1 : (node_at b1 a).state.is_server = true := by rw [v.node]; exact hsv
        rw [e, ← server_open_slots_view v a hsv]
        apply server_open_slots_congr a [{ client := c, server := x }] hsv1
        · rw [node_at_client_queue_join, if_neg hac, node_at_send_server_load, if_neg hne]
        · rw [client_queue_join_clients_connecting, send_server_load_clients_connecting]
        · intro p hp
          rw [List.mem_singleton.mp hp]
          exact fun e' => hne e'.symm
        · intro p hp
          have hpc := i1.pairing.roles.pairing_state p hp
          simp only [v.node] at hpc
          have h1 : p.client ≠ c := fun e' => by
            rw [e', hcw] at hpc
            exact State.noConfusion hpc
          have h2 : p.client ≠ x := fun e' => by
            rw [e', hxi] at hpc
            exact State.noConfusion hpc
          rw [node_at_client_queue_join, if_neg h1, node_at_send_server_load, if_neg h2]
    have hsum : ((m.multiplayer_servers.map
        (fun a => (server_open_slots (match_server t m x).broker a).1)).sum)
        = targets_capacity m := by
      unfold targets_capacity
      congr 1
      exact List.map_congr_left hold
    by_cases hxi : (node_at m.broker x).state = State.ServerIdle
    · have hkeep : (match_server t m x).multiplayer_servers = m.multiplayer_servers
          ∧ (match_server t m x).existing_multiplayer_slots = m.existing_multiplayer_slots := by
        rcases match_server_cases k t m x h hx with ⟨hn, _⟩ | ⟨_, _, _, _, e1, e2⟩
          | ⟨_, _, e1, e2, _⟩
        · exact absurd hxi hn
        · exact ⟨e1, e2⟩
        · exact ⟨e1, e2⟩
      rw [hkeep.2, he, ← hsum]
      unfold targets_capacity
      rw [hkeep.1]
    · obtain ⟨e1, e2⟩ := match_server_target t m x h hx hxi
      have hview : SameView m.broker (match_server t m x).broker := by
        rcases match_server_cases k t m x h hx with ⟨_, _, v, _⟩ | ⟨hi, _⟩ | ⟨hi, _⟩
        · exact v
        · exact absurd hi hxi
        · exact absurd hi hxi
      have hxs : (server_open_slots (match_server t m x).broker x).1
          = (server_open_slots m.broker x).1 :=
        server_open_slots_view hview x (h.servers.servers_state x hx)
      by_cases hcond : (!(node_at m.broker x).server_state.story_mode
          && decide ((server_open_slots m.broker x).1 > 0)) = true
      · rw [if_pos hcond] at e1 e2
        rw [e2, he, ← hsum, ← hxs]
        exact (targets_capacity_append _ _ _ _ _ rfl e1 rfl).symm
      · rw [if_neg hcond] at e1 e2
        rw [e2, he, ← hsum]
        unfold targets_capacity
        rw [e1]

theorem match_servers_capacity_sum (k : Env) (t : ℚ) (b : Broker) (h : FullInv b) :
    (match_servers b t).existing_multiplayer_slots = targets_capacity (match_servers b t) :=
  match_servers_capacity k t b.servers [] (match_start b) h rfl
    (fun _ ha => by simp [match_start] at ha) rfl

/-- The assignment loop leaves the node of a loading server as it is. -/
theorem loading_kept (k : Env) (t : ℚ) (a : Address) (n : Node)
    (hn : n.state = State.ServerLoading) :
    AssignStep t (fun b => FullInv b ∧ node_at b a = n) where
  lookup b x h hm :=
    ⟨(FullInv.step k t).lookup b x h.1 hm, (node_at_node_for_address b x a).trans h.2⟩
  assert b x h hm hs := ⟨(FullInv.step k t).assert b x h.1 hm hs, h.2⟩
  join b server c h hc hsrv := by
    refine ⟨(FullInv.step k t).join b server c h.1 hc hsrv, ?_⟩
    have hcw := h.1.pairing.roles.waiting_state c hc
    simp only [] at hcw
    have hne : a ≠ c := fun e => by
      have := h.2
      rw [e] at this
      rw [this, hn] at hcw
      exact State.noConfusion hcw
    rw [node_at_client_queue_join, if_neg hne]
    exact h.2
  connect b server c h hp hsrv hne := ⟨(FullInv.step k t).connect b server c h.1 hp hsrv hne, h.2⟩

/-! ### The registry through a message and through the pass -/

theorem mem_registered_touch (b : Broker) (a c : Address) (t : ℚ) :
    c ∈ registered (update_node b a (fun n => { n with last_message_timestamp := t }))
      ↔ c ∈ registered b ∨ c = a :=
  mem_registered_update_node b a c _ (fun _ => rfl)

theorem mem_registered_set_state (b : Broker) (a c : Address) (x : State) :
    c ∈ registered (update_node b a (fun n => { n with state := x }))
      ↔ c ∈ registered b ∨ c = a :=
  mem_registered_update_node b a c _ (fun _ => rfl)

theorem mem_registered_set_server_state (b : Broker) (a c : Address) (s : ServerState) :
    c ∈ registered (update_node b a (fun n => { n with server_state := s }))
      ↔ c ∈ registered b ∨ c = a :=
  mem_registered_update_node b a c _ (fun _ => rfl)

theorem mem_registered_set_both (b : Broker) (a c : Address) (s : ServerState) (x : State) :
    c ∈ registered (update_node b a (fun n => { n with server_state := s, state := x }))
      ↔ c ∈ registered b ∨ c = a :=
  mem_registered_update_node b a c _ (fun _ => rfl)

/-- A message other than Disconnect registers its sender when it passes the
check of the messenger, and nobody else. -/
theorem mem_registered_packet_handle (k : Env) (b : Broker) (received : Bool) (p : Packet)
    (addr : Address) (timestamp : ℚ) (hp : p ≠ Packet.Disconnect) (c : Address) :
    c ∈ registered (packet_handle k b received p addr timestamp).2
      ↔ c ∈ registered b ∨ (received = true ∧ c = addr) := by
  cases received with
  | false => simp [packet_handle]
  | true =>
    cases p with
    | Disconnect => exact absurd rfl hp
    | Ack => simp [packet_handle, mem_registered_touch]
    | ServerLoad => simp [packet_handle, mem_registered_touch]
    | ClientConnect => simp [packet_handle, mem_registered_touch]
    | ClientRequestServer os =>
      cases os with
      | none => simp [packet_handle, mem_registered_touch]
      | some s =>
        simp only [packet_handle, Bool.not_true, Bool.false_eq_true, if_false]
        split_ifs <;>
          simp [mem_registered_touch, mem_registered_set_state, mem_registered_set_server_state,
            registered_mk, or_assoc]
    | ServerStatusUpdate secret active os =>
      cases os with
      | none =>
        simp only [packet_handle, Bool.not_true, Bool.false_eq_true, if_false]
        split_ifs <;> simp [mem_registered_touch]
      | some s =>
        simp only [packet_handle, Bool.not_true, Bool.false_eq_true, if_false]
        split_ifs <;>
          simp [mem_registered_touch, mem_registered_set_state, mem_registered_set_server_state,
            mem_registered_set_both, registered_mk, connect_fold, or_assoc]

/-- A message other than Disconnect that passes the check of the messenger
leaves the node of its sender with the time of the message. -/
theorem packet_handle_stamp (k : Env) (b : Broker) (p : Packet)
    (addr : Address) (timestamp : ℚ) (hp : p ≠ Packet.Disconnect) :
    (node_at (packet_handle k b true p addr timestamp).2 addr).last_message_timestamp
      = timestamp := by
  cases p with
  | Disconnect => exact absurd rfl hp
  | Ack => simp [packet_handle, node_at_touch]
  | ServerLoad => simp [packet_handle, node_at_touch]
  | ClientConnect => simp [packet_handle, node_at_touch]
  | ClientRequestServer os =>
    cases os with
    | none => simp [packet_handle, node_at_touch]
    | some s =>
      simp only [packet_handle, Bool.not_true, Bool.false_eq_true, if_false]
      split_ifs <;>
        simp [node_at_touch, node_at_set_state, node_at_set_server_state, node_at_mk]
  | ServerStatusUpdate secret active os =>
    cases os with
    | none =>
      simp only [packet_handle, Bool.not_true, Bool.false_eq_true, if_false]
      split_ifs <;> simp [node_at_touch]
    | some s =>
      simp only [packet_handle, Bool.not_true, Bool.false_eq_true, if_false]
      split_ifs <;>
        simp [node_at_touch, node_at_set_state, node_at_set_server_state, node_at_set_both,
          node_at_mk, connect_fold]

theorem FullInv.listed_registered {b : Broker} (h : FullInv b) {a : Address}
    (ha : a ∈ b.servers ∨ a ∈ b.clients_waiting
      ∨ a ∈ b.clients_connecting.map (fun c => c.client)) : a ∈ registered b := by
  apply registered_of_state
  rcases ha with ha | ha | ha
  · intro e
    have := h.servers.servers_state a ha
    simp only [e] at this
    exact Bool.false_ne_true this
  · have := h.pairing.roles.waiting_state a ha
    simp only [] at this
    rw [this]; decide
  · obtain ⟨p, hp, rfl⟩ := List.mem_map.mp ha
    have := h.pairing.roles.pairing_state p hp
    simp only [] at this
    rw [this]; decide

theorem registered_of_nodes_eq {b b' : Broker} (h : b'.nodes = b.nodes) :
    registered b' = registered b := by
  unfold registered
  rw [h]

/-- The matchmaking pass registers nobody and leaves the times of the last
messages as they are. -/
theorem registry_kept (k : Env) (t : ℚ) (b0 : Broker) :
    PassStep k t (fun b => FullInv b ∧ (∀ a, a ∈ registered b ↔ a ∈ registered b0)
      ∧ ∀ a, (node_at b a).last_message_timestamp = (node_at b0 a).last_message_timestamp) where
  lookup b a h hm := by
    refine ⟨(FullInv.step k t).lookup b a h.1 hm, fun c => ?_, fun c => ?_⟩
    · rw [mem_registered_node_for_address, ← h.2.1 c]
      constructor
      · rintro (h1 | h1)
        · exact h1
        · rw [h1]; exact h.1.listed_registered hm
      · exact Or.inl
    · rw [node_at_node_for_address]; exact h.2.2 c
  assert b a h hm hs := ⟨(FullInv.step k t).assert b a h.1 hm hs, h.2.1, h.2.2⟩
  load b a s h hm hs hd := by
    refine ⟨(FullInv.step k t).load b a s h.1 hm hs hd, fun c => ?_, fun c => ?_⟩
    · have e : registered (send_server_load t b a s) = registered (update_node b a
          (fun n => { n with state := State.ServerLoading, server_state := s })) := rfl
      have key := mem_registered_update_node b a c
        (fun n => { n with state := State.ServerLoading, server_state := s }) (fun _ => rfl)
      rw [e, key, ← h.2.1 c]
      constructor
      · rintro (h1 | h1)
        · exact h1
        · rw [h1]; exact h.1.listed_registered (Or.inl hm)
      · exact Or.inl
    · rw [node_at_send_server_load, ← h.2.2 c]
      split
      · next e => rw [e]
      · rfl
  join b server c h hc hsrv := by
    refine ⟨(FullInv.step k t).join b server c h.1 hc hsrv, fun x => ?_, fun x => ?_⟩
    · rw [registered_of_nodes_eq (client_queue_join_nodes b server c),
        mem_registered_set_state, ← h.2.1 x]
      constructor
      · rintro (h1 | h1)
        · exact h1
        · rw [h1]; exact h.1.listed_registered (Or.inr (Or.inl hc))
      · exact Or.inl
    · rw [node_at_client_queue_join, ← h.2.2 x]
      split
      · next e => rw [e]
      · rfl
  connect b server c h hp hsrv hne :=
    ⟨(FullInv.step k t).connect b server c h.1 hp hsrv hne, h.2.1, h.2.2⟩

theorem matchmake_registry (k : Env) (t : ℚ) (b : Broker) (h : FullInv b) :
    (∀ a, a ∈ registered (matchmake k b t) ↔ a ∈ registered b)
    ∧ ∀ a, (node_at (matchmake k b t) a).last_message_timestamp
      = (node_at b a).last_message_timestamp :=
  (step_matchmake (registry_kept k t b) b ⟨h, fun _ => Iff.rfl, fun _ => rfl⟩).2

/-! ### The main loop -/

theorem proc_step_timestamp (k : Env) (s : Loop) (i : Input) :
    (proc_step k s i).timestamp = s.timestamp + min (1 / 4) (i.time - s.last_update) := rfl

theorem proc_step_last_audit (k : Env) (s : Loop) (i : Input) :
    (proc_step k s i).last_audit
      = if (proc_step k s i).timestamp - s.last_audit > MASTER_AUDIT_INTERVAL
        then (proc_step k s i).timestamp else s.last_audit := by
  rw [proc_step_timestamp]
  unfold proc_step
  simp only []
  split_ifs <;> rfl

/-- After an iteration the last audit is no older than the audit interval. -/
theorem proc_step_gap (k : Env) (s : Loop) (i : Input) :
    (proc_step k s i).timestamp - (proc_step k s i).last_audit ≤ MASTER_AUDIT_INTERVAL := by
  rw [proc_step_last_audit]
  split
  · rw [sub_self]; norm_num [MASTER_AUDIT_INTERVAL]
  · next h => exact not_lt.mp h

/-- With a clock that does not run backwards the time of the last audit
stays behind the time of the loop. -/
theorem proc_step_clock (k : Env) (s : Loop) (i : Input) (hi : s.last_update ≤ i.time)
    (h : s.last_audit ≤ s.timestamp) :
    s.timestamp ≤ (proc_step k s i).timestamp
    ∧ (proc_step k s i).last_audit ≤ (proc_step k s i).timestamp := by
  have h0 : (0 : ℚ) ≤ min (1 / 4) (i.time - s.last_update) :=
    le_min (by norm_num) (sub_nonneg.mpr hi)
  have h1 : s.timestamp ≤ (proc_step k s i).timestamp := by
    rw [proc_step_timestamp]; linarith
  refine ⟨h1, ?_⟩
  rw [proc_step_last_audit]
  split
  · exact le_refl _
  · exact le_trans h h1

theorem proc_step_inv (k : Env) (s : Loop) (i : Input) (h : FullInv s.broker) :
    FullInv (proc_step k s i).broker := by
  unfold proc_step
  simp only []
  have h1 : FullInv (if s.timestamp + min (1 / 4) (i.time - s.last_update) - s.last_audit
      > MASTER_AUDIT_INTERVAL
      then { s with broker := i.order.foldl disconnected s.broker,
                    last_audit := s.timestamp + min (1 / 4) (i.time - s.last_update) }
      else s).broker := by
    split
    · exact h.after_audit i.order
    · exact h
  generalize (if s.timestamp + min (1 / 4) (i.time - s.last_update) - s.last_audit
      > MASTER_AUDIT_INTERVAL
      then { s with broker := i.order.foldl disconnected s.broker,
                    last_audit := s.timestamp + min (1 / 4) (i.time - s.last_update) }
      else s) = s1 at h1
  have h2 : FullInv (if s.timestamp + min (1 / 4) (i.time - s.last_update) - s1.last_match
      > MASTER_MATCH_INTERVAL
      then { s1 with broker := matchmake k s1.broker
                        (s.timestamp + min (1 / 4) (i.time - s.last_update)),
                     last_match := s.timestamp + min (1 / 4) (i.time - s.last_update) }
      else s1).broker := by
    split
    · exact h1.after_matchmake k _ _
    · exact h1
  generalize (if s.timestamp + min (1 / 4) (i.time - s.last_update) - s1.last_match
      > MASTER_MATCH_INTERVAL
      then { s1 with broker := matchmake k s1.broker
                        (s.timestamp + min (1 / 4) (i.time - s.last_update)),
                     last_match := s.timestamp + min (1 / 4) (i.time - s.last_update) }
      else s1) = s2 at h2
  split
  · exact h2
  · exact h2.after_packet k _ _ _ _

theorem proc_run_append (k : Env) (s : Loop) (l1 l2 : List Input) :
    proc_run k s (l1 ++ l2) = proc_run k (proc_run k s l1) l2 := by
  simp [proc_run, List.foldl_append]

theorem inputs_ok_append (k : Env) (s : Loop) (l1 l2 : List Input) :
    inputs_ok k s (l1 ++ l2) ↔ inputs_ok k s l1 ∧ inputs_ok k (proc_run k s l1) l2 := by
  induction l1 generalizing s with
  | nil => simp [inputs_ok, proc_run]
  | cons x xs ih =>
    have := ih (proc_step k s x)
    simp only [proc_run] at this
    show input_ok s x ∧ inputs_ok k (proc_step k s x) (xs ++ l2) ↔ _
    rw [this]
    simp only [inputs_ok, proc_run, List.foldl_cons, and_assoc]

/-- Along the main loop from its entry: the invariant of the lists holds and
the time of the last audit stays behind the time of the loop. -/
theorem proc_run_inv (k : Env) (s : Loop) (l : List Input) (h : FullInv s.broker)
    (hc : s.last_audit ≤ s.timestamp) (hv : inputs_ok k s l) :
    FullInv (proc_run k s l).broker
    ∧ (proc_run k s l).last_audit ≤ (proc_run k s l).timestamp
    ∧ s.timestamp ≤ (proc_run k s l).timestamp := by
  induction l generalizing s with
  | nil => exact ⟨h, hc, le_refl _⟩
  | cons x xs ih =>
    obtain ⟨c1, c2⟩ := proc_step_clock k s x hv.1.1 hc
    obtain ⟨r1, r2, r3⟩ := ih (proc_step k s x) (proc_step_inv k s x h) c2 hv.2
    exact ⟨r1, r2, le_trans c1 r3⟩

/-- A message that is not an accepted message of A leaves the node of A, and
whether it has one, as they are. -/
theorem packet_handle_silent (k : Env) (b : Broker) (received : Bool) (p : Packet)
    (addr A : Address) (t : ℚ) (h : FullInv b) (hA : ¬ (received = true ∧ addr = A)) :
    (A ∈ registered (packet_handle k b received p addr t).2 ↔ A ∈ registered b)
    ∧ (node_at (packet_handle k b received p addr t).2 A).last_message_timestamp
      = (node_at b A).last_message_timestamp := by
  cases received with
  | false => exact ⟨Iff.rfl, rfl⟩
  | true =>
    have hne : A ≠ addr := fun e => hA ⟨rfl, e.symm⟩
    by_cases hp : p = Packet.Disconnect
    · subst hp
      have e : (packet_handle k b true Packet.Disconnect addr t).2
          = disconnected (update_node b addr
            (fun n => { n with last_message_timestamp := t })) addr := rfl
      rw [e]
      constructor
      · rw [mem_registered_disconnected (h.touch addr t), mem_registered_touch]
        constructor
        · rintro ⟨h1 | h1, _⟩
          · exact h1
          · exact absurd h1 hne
        · exact fun h1 => ⟨Or.inl h1, hne⟩
      · rw [timestamp_disconnected _ addr A hne, node_at_touch, if_neg hne]
    · constructor
      · rw [mem_registered_packet_handle k b true p addr t hp]
        constructor
        · rintro (h1 | ⟨_, h1⟩)
          · exact h1
          · exact absurd h1 hne
        · exact Or.inl
      · rw [packet_handle_other k b true p addr t hp A hne]

/-- One iteration without an accepted message of A keeps A silent. -/
theorem Silent.iteration (k : Env) {A : Address} {L : ℚ} {s : Loop} (i : Input)
    (h : Silent A L s) (hi : input_ok s i)
    (hq : ∀ q, i.packet ≠ some (true, q, A)) : Silent A L (proc_step k s i) := by
  unfold proc_step
  simp only []
  generalize hT : s.timestamp + min (1 / 4) (i.time - s.last_update) = T
  have hperm := hi.2
  rw [hT] at hperm
  -- the audit
  have h1 : Silent A L (if T - s.last_audit > MASTER_AUDIT_INTERVAL
      then { s with broker := i.order.foldl disconnected s.broker, last_audit := T }
      else s) := by
    split
    · next hdue =>
      have hmem : ∀ a, a ∈ registered (i.order.foldl disconnected s.broker)
          ↔ a ∈ registered s.broker ∧ a ∉ i.order :=
        mem_registered_disconnected_list i.order h.inv
      refine ⟨h.inv.after_audit i.order, fun hr => ?_, fun hlate hr => ?_⟩
      · obtain ⟨hr0, hno⟩ := (hmem A).mp hr
        simp only []
        rw [timestamp_disconnected_list i.order s.broker A hno]
        exact h.stamp hr0
      · obtain ⟨hr0, hno⟩ := (hmem A).mp hr
        apply hno
        rw [(hperm hdue).mem_iff, mem_audit_removals h.inv.pairing.keys]
        refine ⟨hr0, ?_⟩
        have := h.stamp hr0
        simp only [] at hlate
        linarith
    · exact h
  generalize (if T - s.last_audit > MASTER_AUDIT_INTERVAL
      then { s with broker := i.order.foldl disconnected s.broker, last_audit := T }
      else s) = s1 at h1
  -- the matchmaking pass
  have h2 : Silent A L (if T - s1.last_match > MASTER_MATCH_INTERVAL
      then { s1 with broker := matchmake k s1.broker T, last_match := T }
      else s1) := by
    split
    · obtain ⟨r1, r2⟩ := matchmake_registry k T s1.broker h1.inv
      refine ⟨h1.inv.after_matchmake k _ _, fun hr => ?_, fun hlate hr => ?_⟩
      · simp only [] at hr ⊢
        rw [r2 A]
        exact h1.stamp ((r1 A).mp hr)
      · exact h1.gone hlate ((r1 A).mp hr)
    · exact h1
  generalize (if T - s1.last_match > MASTER_MATCH_INTERVAL
      then { s1 with broker := matchmake k s1.broker T, last_match := T }
      else s1) = s2 at h2
  -- the message
  cases hpk : i.packet with
  | none => exact ⟨h2.inv, h2.stamp, h2.gone⟩
  | some x =>
    obtain ⟨received, p, addr⟩ := x
    have hA : ¬ (received = true ∧ addr = A) := by
      rintro ⟨e1, e2⟩
      exact hq p (by rw [hpk, e1, e2])
    obtain ⟨r1, r2⟩ := packet_handle_silent k s2.broker received p addr A T h2.inv hA
    refine ⟨h2.inv.after_packet k _ _ _ _, fun hr => ?_, fun hlate hr => ?_⟩
    · simp only [] at hr ⊢
      rw [r2]
      exact h2.stamp (r1.mp hr)
    · exact h2.gone hlate (r1.mp hr)

theorem Silent.run (k : Env) {A : Address} {L : ℚ} (l : List Input) {s : Loop}
    (h : Silent A L s) (hv : inputs_ok k s l)
    (hq : ∀ j ∈ l, ∀ q, j.packet ≠ some (true, q, A)) : Silent A L (proc_run k s l) := by
  induction l generalizing s with
  | nil => exact h
  | cons x xs ih =>
    exact ih (h.iteration k x hv.1 (hq x (List.mem_cons_self _ _))) hv.2
      (fun j hj => hq j (List.mem_cons_of_mem _ hj))

/-- The iteration that handles an accepted message of A leaves A silent
since the time of that iteration. -/
theorem Silent.of_message (k : Env) (s : Loop) (i : Input) (A : Address) (p : Packet)
    (h : FullInv s.broker) (hc : s.last_audit ≤ s.timestamp) (hi : input_ok s i)
    (hp : i.packet = some (true, p, A)) :
    Silent A (proc_step k s i).timestamp (proc_step k s i) := by
  obtain ⟨_, c2⟩ := proc_step_clock k s i hi.1 hc
  refine ⟨proc_step_inv k s i h, fun hr => ?_, fun hlate => ?_⟩
  · by_cases hd : p = Packet.Disconnect
    · exfalso
      revert hr
      unfold proc_step
      simp only [hp, hd]
      exact not_registered_disconnected _ A
    · apply le_of_eq
      unfold proc_step
      simp only [hp]
      exact packet_handle_stamp k _ p A _ hd
  · exfalso
    have : (0 : ℚ) < MASTER_INACTIVE_THRESHOLD := by norm_num [MASTER_INACTIVE_THRESHOLD]
    linarith

theorem find_node_of_state {b : Broker} {a : Address} {x : State}
    (h : (node_at b a).state = x) (hx : x ≠ State.Invalid) :
    ∃ n, find_node b.nodes a = some n ∧ n.state = x :=
  ⟨node_at b a, find_node_of_registered (registered_of_state (by rw [h]; exact hx)), h⟩

theorem find_node_of_server {b : Broker} {a : Address}
    (h : (node_at b a).state.is_server = true) :
    ∃ n, find_node b.nodes a = some n ∧ (n.state = State.ServerActive
      ∨ n.state = State.ServerLoading ∨ n.state = State.ServerIdle) := by
  refine ⟨node_at b a, find_node_of_registered (registered_of_state ?_), ?_⟩
  · intro e
    rw [e] at h
    exact Bool.false_ne_true h
  · rcases (is_server_iff _).mp h with h | h | h
    · exact Or.inr (Or.inl h)
    · exact Or.inl h
    · exact Or.inr (Or.inr h)

/-- C11: in every state reachable from the empty broker by packet_handle calls,
audits and matchmaking passes, every address of the servers list has a
registry node in ServerActive, ServerLoading or ServerIdle, every address of
the waiting list has a registry node in ClientWaiting, and of every pairing
the client has a registry node in ClientConnecting and the server a registry
node in one of the three server states. -/
theorem role_lists_match_registry (k : Env) (b : Broker) (h : Reachable k b) :
    (∀ a ∈ b.servers, ∃ n, find_node b.nodes a = some n ∧ (n.state = State.ServerActive
      ∨ n.state = State.ServerLoading ∨ n.state = State.ServerIdle))
    ∧ (∀ a ∈ b.clients_waiting,
      ∃ n, find_node b.nodes a = some n ∧ n.state = State.ClientWaiting)
    ∧ (∀ p ∈ b.clients_connecting,
      (∃ n, find_node b.nodes p.client = some n ∧ n.state = State.ClientConnecting)
      ∧ (∃ n, find_node b.nodes p.server = some n ∧ (n.state = State.ServerActive
        ∨ n.state = State.ServerLoading ∨ n.state = State.ServerIdle))) := by
  have inv := h.full_inv
  refine ⟨fun a ha => find_node_of_server (inv.servers.servers_state a ha),
    fun a ha => find_node_of_state (inv.pairing.roles.waiting_state a ha) (by decide),
    fun p hp => ⟨find_node_of_state (inv.pairing.roles.pairing_state p hp) (by decide),
      find_node_of_server
        (inv.servers.servers_state _ (inv.servers.pairing_server p hp))⟩⟩

/-- C11, witness: the state after step 3 of the first run is reachable; its
server list, waiting list and pairing list agree with the registry. -/
theorem role_lists_match_registry_witness :
    Reachable example_env run3
    ∧ (∀ a ∈ run3.servers, ∃ n, find_node run3.nodes a = some n
      ∧ (n.state = State.ServerActive
        ∨ n.state = State.ServerLoading ∨ n.state = State.ServerIdle))
    ∧ (∀ a ∈ run3.clients_waiting,
      ∃ n, find_node run3.nodes a = some n ∧ n.state = State.ClientWaiting)
    ∧ (∀ p ∈ run3.clients_connecting,
      (∃ n, find_node run3.nodes p.client = some n ∧ n.state = State.ClientConnecting)
      ∧ (∃ n, find_node run3.nodes p.server = some n ∧ (n.state = State.ServerActive
        ∨ n.state = State.ServerLoading ∨ n.state = State.ServerIdle))) :=
  ⟨run3_reachable, role_lists_match_registry example_env run3 run3_reachable⟩

theorem left4_reachable : Reachable example_env left4 :=
  Reachable.matchmake _ _ (Reachable.packet _ _ _ _ _ (Reachable.packet _ _ _ _ _
    (Reachable.packet _ _ _ _ _ run3_reachable)))

/-- C12, failing run: the server of the first run says Disconnect at time 3
while the client is paired with it.  The state is reachable; the node of the
client is back in ClientWaiting and the waiting list is empty.  The client
asking again at time 4 is accepted and the waiting list stays empty, and with
another server active with 4 open slots the matchmaking pass at time 5 forms
no pairing: the client is still ClientWaiting, outside the waiting list. -/
theorem waiting_client_missing_from_list :
    Reachable example_env left1
    ∧ (∃ n, find_node left1.nodes example_client = some n ∧ n.state = State.ClientWaiting)
    ∧ left1.clients_waiting = []
    ∧ (packet_handle example_env left1 true
        (Packet.ClientRequestServer (some example_request)) example_client 4).1 = true
    ∧ left2.clients_waiting = []
    ∧ Reachable example_env left4
    ∧ (∃ n, find_node left4.nodes example_client = some n ∧ n.state = State.ClientWaiting)
    ∧ (node_at left4 ⟨4, 4⟩).state = State.ServerActive
    ∧ left4.clients_waiting = []
    ∧ left4.clients_connecting = [] :=
  ⟨Reachable.packet _ _ _ _ _ run3_reachable,
    find_node_of_state (b := left1) (a := example_client) (by decide) (by decide),
    by decide, by decide, by decide, left4_reachable,
    find_node_of_state (b := left4) (a := example_client) (by decide) (by decide),
    by decide, by decide, by decide⟩

theorem disconnected_of_unregistered (b : Broker) (A : Address)
    (h : find_node b.nodes A = none) : disconnected b A = b := by
  have hall : ∀ n ∈ b.nodes, n.addr ≠ A := by
    intro n hn e
    have := List.find?_eq_none.mp h n hn
    simp [e] at this
  have hfilter : (b.nodes ++ [Node.fresh A]).filter (fun n => !decide (n.addr = A))
      = b.nodes := by
    rw [List.filter_append, List.filter_eq_self.mpr
      (fun n hn => by simpa using hall n hn)]
    simp [Node.fresh]
  unfold disconnected
  simp only [node_for_address, h]
  simp only [Node.fresh, erase_node, reduceCtorEq, or_self, if_false]
  have := hfilter
  simp only [Node.fresh] at this
  rw [this]

theorem find_node_disconnected (b : Broker) (A : Address) :
    find_node (disconnected b A).nodes A = none := by
  rw [← not_mem_registered_iff]
  intro hm
  exact ((disconnected_facts b A).keys A).mp hm |>.1 rfl

/-- C13: disconnected on an address without a registry entry gives back the
broker state it was called on (registry, servers list, waiting list, pairing
list and all), and for every broker state and address a second call of
disconnected on the same address gives the state of the first call. -/
theorem disconnected_idempotent (b : Broker) (A : Address) :
    (find_node b.nodes A = none → disconnected b A = b)
    ∧ disconnected (disconnected b A) A = disconnected b A :=
  ⟨disconnected_of_unregistered b A,
    disconnected_of_unregistered _ A (find_node_disconnected b A)⟩

/-- C13, witness: in the state after step 3 of the first run the address
(9, 9) has no registry entry and disconnecting it changes nothing;
disconnecting the server twice gives the state of disconnecting it once. -/
theorem disconnected_idempotent_witness :
    find_node run3.nodes ⟨9, 9⟩ = none
    ∧ disconnected run3 ⟨9, 9⟩ = run3
    ∧ disconnected (disconnected run3 example_server) example_server
      = disconnected run3 example_server :=
  ⟨by decide, (disconnected_idempotent run3 ⟨9, 9⟩).1 (by decide),
    (disconnected_idempotent run3 example_server).2⟩

/-- C14: for every reachable broker state and address A, nothing refers to A
after disconnected(A), whether called directly, by packet_handle for an accepted
Disconnect message from A, or by an audit that collected A (the collected
addresses being disconnected in any order): A has no registry entry, is in
neither the servers list nor the waiting list, and no pairing has A as its
client or as its server. -/
theorem disconnected_leaves_no_reference (k : Env) (b : Broker) (A : Address)
    (h : Reachable k b) :
    no_reference (disconnected b A) A
    ∧ (∀ timestamp : ℚ,
      no_reference (packet_handle k b true Packet.Disconnect A timestamp).2 A)
    ∧ (∀ (timestamp : ℚ) (order : List Address), order.Perm (audit_removals b timestamp) →
      A ∈ order → no_reference (order.foldl disconnected b) A) := by
  have inv := h.full_inv
  refine ⟨(inv.after_disconnected A).unreferenced (not_registered_disconnected b A), ?_, ?_⟩
  · intro timestamp
    exact ((inv.touch A timestamp).after_disconnected A).unreferenced
      (not_registered_disconnected _ A)
  · intro timestamp order _ hA
    apply (inv.after_audit order).unreferenced
    intro hm
    exact ((mem_registered_disconnected_list order inv A).mp hm).2 hA

/-- C14, witness: the state after step 3 of the first run is reachable, and
nothing refers to the server after it is disconnected, after its Disconnect
message at time 3, and after the audit at time 10. -/
theorem disconnected_leaves_no_reference_witness :
    Reachable example_env run3
    ∧ no_reference (disconnected run3 example_server) example_server
    ∧ no_reference (packet_handle example_env run3 true Packet.Disconnect example_server 3).2
      example_server
    ∧ no_reference (audit run3 10) example_server :=
  have h := disconnected_leaves_no_reference example_env run3 example_server run3_reachable
  ⟨run3_reachable, h.1, h.2.1 3,
    h.2.2 10 (audit_removals run3 10) (List.Perm.refl _) (by decide!)⟩

/-- C15: for every reachable broker state and every address S in a server
state, after disconnected(S) the servers list does not contain S, every client
of a pairing against S is in state ClientWaiting and is the client of no
pairing, and the pairings are those against other servers, each as often as
before (the removal by swap with the last entry may reorder them). -/
theorem evicted_server_frees_clients (k : Env) (b : Broker) (S : Address)
    (h : Reachable k b) (hS : (node_at b S).state.is_server = true) :
    S ∉ (disconnected b S).servers
    ∧ (∀ p ∈ b.clients_connecting, p.server = S →
      (node_at b p.client).state = State.ClientConnecting
      ∧ (node_at (disconnected b S) p.client).state = State.ClientWaiting
      ∧ ∀ q ∈ (disconnected b S).clients_connecting, q.client ≠ p.client)
    ∧ (disconnected b S).clients_connecting.Perm
      (b.clients_connecting.filter (fun p => !decide (p.server = S))) := by
  have inv := h.full_inv
  have d := disconnected_facts b S
  have hP := d.pairings
  rw [if_pos hS] at hP
  refine ⟨?_, ?_, hP⟩
  · intro hm
    have := d.servers
    rw [if_pos hS] at this
    have := (List.mem_filter.mp (this.mem_iff.mp hm)).2
    simp at this
  · intro p hp hps
    have hcc := inv.pairing.roles.pairing_state p hp
    simp only [] at hcc
    have hne : p.client ≠ S := fun e => by
      rw [e] at hcc
      rw [hcc] at hS
      exact Bool.false_ne_true hS
    refine ⟨hcc, ?_, ?_⟩
    · rw [d.node p.client, if_neg hne, if_pos]
      exact ⟨hS, List.mem_map.mpr ⟨p, List.mem_filter.mpr ⟨hp, by simpa using hps⟩, rfl⟩⟩
    · intro q hq e
      have hq' := List.mem_filter.mp (hP.mem_iff.mp hq)
      have := inv.pairing.roles.pairing_inj hq'.1 hp e
      rw [this] at hq'
      simp [hps] at hq'

/-- C15, witness: in the state after step 3 of the first run, which is
reachable, the server is evicted: it leaves the servers list, its client goes
back to ClientWaiting and no pairing is left. -/
theorem evicted_server_frees_clients_witness :
    Reachable example_env run3
    ∧ (node_at run3 example_server).state.is_server = true
    ∧ example_server ∉ (disconnected run3 example_server).servers
    ∧ (∀ p ∈ run3.clients_connecting, p.server = example_server →
      (node_at run3 p.client).state = State.ClientConnecting
      ∧ (node_at (disconnected run3 example_server) p.client).state = State.ClientWaiting
      ∧ ∀ q ∈ (disconnected run3 example_server).clients_connecting, q.client ≠ p.client)
    ∧ (disconnected run3 example_server).clients_connecting.Perm
      (run3.clients_connecting.filter (fun p => !decide (p.server = example_server))) :=
  ⟨run3_reachable, by decide,
    evicted_server_frees_clients example_env run3 example_server run3_reachable (by decide)⟩

/-- C16: for every reachable broker state and time t, after the audit at t
(the collected addresses being disconnected in any order) the addresses that
had a registry entry and have none any more are exactly those whose node had
last_message_timestamp < t - 7, and every address whose node had
last_message_timestamp >= t - 7 still has a registry entry, with the same
timestamp. -/
theorem audit_removes_exactly_silent_nodes (k : Env) (b : Broker) (t : ℚ)
    (order : List Address) (h : Reachable k b) (ho : order.Perm (audit_removals b t)) :
    MASTER_INACTIVE_THRESHOLD = 7
    ∧ (∀ a, (a ∈ registered b ∧ a ∉ registered (order.foldl disconnected b))
      ↔ ∃ n, find_node b.nodes a = some n ∧ n.last_message_timestamp < t - 7)
    ∧ (∀ a n, find_node b.nodes a = some n → n.last_message_timestamp ≥ t - 7 →
      ∃ n', find_node (order.foldl disconnected b).nodes a = some n'
        ∧ n'.last_message_timestamp = n.last_message_timestamp) := by
  have inv := h.full_inv
  have hk : (registered b).Nodup := inv.pairing.keys
  have h7 : MASTER_INACTIVE_THRESHOLD = 7 := rfl
  have hrem : ∀ a, a ∈ order ↔ a ∈ registered b
      ∧ (node_at b a).last_message_timestamp < t - 7 := by
    intro a
    rw [ho.mem_iff, mem_audit_removals hk, h7]
  refine ⟨h7, ?_, ?_⟩
  · intro a
    rw [mem_registered_disconnected_list order inv a]
    constructor
    · rintro ⟨hr, hn⟩
      have hm : a ∈ order := by
        by_contra hc
        exact hn ⟨hr, hc⟩
      exact ⟨node_at b a, find_node_of_registered hr, ((hrem a).mp hm).2⟩
    · rintro ⟨n, hf, hlt⟩
      have hr : a ∈ registered b := (mem_registered_iff b a).mpr (by rw [hf]; rfl)
      have hn : node_at b a = n := by
        have := find_node_of_registered hr
        rw [hf] at this
        exact (Option.some.inj this).symm
      refine ⟨hr, fun hc => hc.2 ((hrem a).mpr ⟨hr, by rw [hn]; exact hlt⟩)⟩
  · intro a n hf hge
    have hr : a ∈ registered b := (mem_registered_iff b a).mpr (by rw [hf]; rfl)
    have hn : node_at b a = n := by
      have := find_node_of_registered hr
      rw [hf] at this
      exact (Option.some.inj this).symm
    have hno : a ∉ order := fun hm => by
      have := ((hrem a).mp hm).2
      rw [hn] at this
      exact absurd this (not_lt.mpr hge)
    refine ⟨node_at (order.foldl disconnected b) a, find_node_of_registered
      ((mem_registered_disconnected_list order inv a).mpr ⟨hr, hno⟩), ?_⟩
    rw [timestamp_disconnected_list order b a hno, hn]

/-- C16, witness: the audit at time 9 of the state after step 3 of the first
run, which is reachable: the cutoff is 2, the server (last message at 1) is
removed and the client (last message at 2) stays. -/
theorem audit_removes_exactly_silent_nodes_witness :
    Reachable example_env run3
    ∧ (audit_removals run3 9).Perm (audit_removals run3 9)
    ∧ MASTER_INACTIVE_THRESHOLD = 7
    ∧ (∀ a, (a ∈ registered run3
        ∧ a ∉ registered ((audit_removals run3 9).foldl disconnected run3))
      ↔ ∃ n, find_node run3.nodes a = some n ∧ n.last_message_timestamp < 9 - 7)
    ∧ (∀ a n, find_node run3.nodes a = some n → n.last_message_timestamp ≥ 9 - 7 →
      ∃ n', find_node ((audit_removals run3 9).foldl disconnected run3).nodes a = some n'
        ∧ n'.last_message_timestamp = n.last_message_timestamp) :=
  ⟨run3_reachable, List.Perm.refl _,
    audit_removes_exactly_silent_nodes example_env run3 9 (audit_removals run3 9)
      run3_reachable (List.Perm.refl _)⟩

/-- C17: take a run of the main loop of proc from its entry, every reading
of the clock no earlier than the one before and every audit visiting the nodes
it collects in some order.  If an iteration handles a message of A that the
messenger accepts, and no later iteration of the run does, then once the run
has completed an iteration at a time greater than the time of that iteration
+ audit interval + inactivity threshold (8.25), nothing refers to A: it has no
registry entry, it is in neither the servers list nor the waiting list, and no
pairing has it as client or server. -/
theorem silent_node_gone_after_bound (k : Env) (t0 : ℚ) (pre post : List Input) (i : Input)
    (A : Address) (p : Packet)
    (hv : inputs_ok k (proc_start t0) (pre ++ i :: post))
    (hi : i.packet = some (true, p, A))
    (hsilent : ∀ j ∈ post, ∀ q, j.packet ≠ some (true, q, A))
    (hlate : (proc_run k (proc_start t0) (pre ++ i :: post)).timestamp
      > (proc_run k (proc_start t0) (pre ++ [i])).timestamp
        + MASTER_AUDIT_INTERVAL + MASTER_INACTIVE_THRESHOLD) :
    MASTER_AUDIT_INTERVAL + MASTER_INACTIVE_THRESHOLD = 33 / 4
    ∧ no_reference (proc_run k (proc_start t0) (pre ++ i :: post)).broker A := by
  refine ⟨by norm_num [MASTER_AUDIT_INTERVAL, MASTER_INACTIVE_THRESHOLD], ?_⟩
  have hsplit : pre ++ i :: post = (pre ++ [i]) ++ post := by simp
  rw [hsplit] at hv hlate ⊢
  rw [inputs_ok_append] at hv
  obtain ⟨hv1, hv2⟩ := hv
  rw [inputs_ok_append] at hv1
  obtain ⟨hpre, hi1, _⟩ := hv1
  obtain ⟨inv0, clock0, _⟩ := proc_run_inv k (proc_start t0) pre FullInv.init (le_refl _) hpre
  have hstart : Silent A (proc_run k (proc_start t0) (pre ++ [i])).timestamp
      (proc_run k (proc_start t0) (pre ++ [i])) := by
    rw [proc_run_append]
    exact Silent.of_message k _ i A p inv0 clock0 hi1 hi
  have hend := hstart.run k post hv2 hsilent
  rw [← proc_run_append] at hend
  apply hend.inv.unreferenced
  apply hend.gone
  have hgap : (proc_run k (proc_start t0) (pre ++ [i] ++ post)).timestamp
      - (proc_run k (proc_start t0) (pre ++ [i] ++ post)).last_audit ≤ MASTER_AUDIT_INTERVAL := by
    rcases List.eq_nil_or_concat post with hnil | ⟨init, last, hl⟩
    · exfalso
      rw [hnil, List.append_nil] at hlate
      have h1 : (0 : ℚ) < MASTER_AUDIT_INTERVAL + MASTER_INACTIVE_THRESHOLD := by
        norm_num [MASTER_AUDIT_INTERVAL, MASTER_INACTIVE_THRESHOLD]
      linarith
    · rw [hl, List.concat_eq_append, ← List.append_assoc, proc_run_append]
      exact proc_step_gap k _ last
  linarith

/-- C17, witness (scenario D): a server reports at time 1/4 and is heard of
no more; the loop runs 34 more iterations a quarter of a second apart.  The
inputs are ones the loop can get, the run ends at time 35/4 > 1/4 + 33/4, and
nothing refers to the server then. -/
theorem silent_node_gone_after_bound_witness :
    inputs_ok example_env (proc_start 0) ([] ++ quiet_first :: quiet_rest)
    ∧ quiet_first.packet
      = some (true, Packet.ServerStatusUpdate 7 true (some ⟨1, 4, false, 2⟩), example_server)
    ∧ (∀ j ∈ quiet_rest, ∀ q, j.packet ≠ some (true, q, example_server))
    ∧ (proc_run example_env (proc_start 0) ([] ++ quiet_first :: quiet_rest)).timestamp
      > (proc_run example_env (proc_start 0) ([] ++ [quiet_first])).timestamp
        + MASTER_AUDIT_INTERVAL + MASTER_INACTIVE_THRESHOLD
    ∧ MASTER_AUDIT_INTERVAL + MASTER_INACTIVE_THRESHOLD = 33 / 4
    ∧ no_reference
      (proc_run example_env (proc_start 0) ([] ++ quiet_first :: quiet_rest)).broker
      example_server :=
  have hs : ∀ j ∈ quiet_rest, ∀ q, j.packet ≠ some (true, q, example_server) := by
    intro j hj q
    simp only [quiet_rest, List.mem_map] at hj
    obtain ⟨n, _, rfl⟩ := hj
    simp
  ⟨by decide!, rfl, hs, by decide!,
    silent_node_gone_after_bound example_env 0 [] quiet_rest quiet_first example_server
      (Packet.ServerStatusUpdate 7 true (some ⟨1, 4, false, 2⟩)) (by decide!) rfl hs
      (by decide!)⟩

/-- C18: for every reachable broker state in which S is the first ServerIdle
server of the servers list and c the first client of the waiting list whose
description asks for story mode, after the matchmaking pass at time t the
server S is ServerLoading with the description c had, c is ClientConnecting
and not in the waiting list, the pairing of c with S is in the pairing list,
and a ServerLoad message with that description for S is among the messages
sent. -/
theorem story_client_gets_first_idle_server (k : Env) (b : Broker) (t : ℚ) (S c : Address)
    (h : Reachable k b)
    (hS : b.servers.find? (fun a => decide ((node_at b a).state = State.ServerIdle)) = some S)
    (hc : b.clients_waiting.find? (fun a => (node_at b a).server_state.story_mode) = some c) :
    (node_at (matchmake k b t) S).state = State.ServerLoading
    ∧ (node_at (matchmake k b t) S).server_state = (node_at b c).server_state
    ∧ (node_at (matchmake k b t) c).state = State.ClientConnecting
    ∧ c ∉ (matchmake k b t).clients_waiting
    ∧ { client := c, server := S } ∈ (matchmake k b t).clients_connecting
    ∧ Outgoing.ServerLoad t S (node_at b c).server_state ∈ (matchmake k b t).sent := by
  have inv := h.full_inv
  obtain ⟨hSi, pre, post, hpre, hpre'⟩ := List.find?_eq_some.mp hS
  obtain ⟨hcs, w1, w2, hw, hw'⟩ := List.find?_eq_some.mp hc
  simp only [decide_eq_true_eq] at hSi
  have hSm : S ∈ b.servers := by rw [hpre]; simp
  have hcm : c ∈ b.clients_waiting := by rw [hw]; simp
  -- the servers before S are not idle: lookups only
  have st : LookupStep (fun x => FullInv x ∧ SameView b x) :=
    LookupStep.both (FullInv.step k t).toLookupStep (SameView.lookups b)
  have h1 : FullInv (pre.foldl (match_server t) (match_start b)).broker
      ∧ SameView b (pre.foldl (match_server t) (match_start b)).broker := by
    have : ∀ (l : List Address) (m : MatchState), (FullInv m.broker ∧ SameView b m.broker) →
        (∀ a ∈ l, a ∈ b.servers ∧ (node_at b a).state ≠ State.ServerIdle) →
        FullInv (l.foldl (match_server t) m).broker
          ∧ SameView b (l.foldl (match_server t) m).broker := by
      intro l
      induction l with
      | nil => exact fun m hm _ => hm
      | cons x xs ih =>
        intro m hm hl
        rw [List.foldl_cons]
        apply ih _ _ (fun a ha => hl a (List.mem_cons_of_mem _ ha))
        have hx := hl x (List.mem_cons_self _ _)
        exact lookup_match_server t st m x hm (by rw [hm.2.servers]; exact hx.1)
          (by rw [hm.2.node]; exact hx.2)
    apply this pre (match_start b) ⟨inv, SameView.refl b⟩
    intro a ha
    refine ⟨by rw [hpre]; exact List.mem_append_left _ ha, ?_⟩
    simpa using hpre' a ha
  -- the round of S
  have hround : ∀ m1 : MatchState, FullInv m1.broker → SameView b m1.broker →
      StoryPaired t S c (node_at b c).server_state (match_server t m1 S).broker := by
    intro m1 i1 v1
    have h2 := st.lookup m1.broker S ⟨i1, v1⟩ (Or.inl (by rw [v1.servers]; exact hSm))
    have v2 : SameView b (node_for_address m1.broker S).1 := h2.2
    obtain ⟨b3, ⟨i3, v3⟩, _, e3⟩ := story_scan_first t st S c w1 w2
      (node_for_address m1.broker S).1 h2
      (fun a ha => by
        rw [v2.waiting, hw]
        simp only [List.mem_append, List.mem_singleton] at ha
        simp only [List.mem_append, List.mem_cons]
        tauto)
      (fun a ha => by
        rw [v2.node]
        simpa using hw' a ha)
      (by rw [v2.node]; exact hcs)
    have hstart := StoryPaired.start k t S c b3 i3 (by rw [v3.servers]; exact hSm)
      (by rw [v3.node]; exact hSi) (by rw [v3.waiting]; exact hcm)
      (by rw [v3.node]; exact hcs)
    rw [v3.node] at hstart
    rw [v2.node] at e3
    have hidle : (node_at (node_for_address m1.broker S).1 S).state = State.ServerIdle := by
      rw [v2.node]; exact hSi
    simp only [match_server, hidle, if_true, v2.waiting, hw, e3]
    split <;> exact hstart
  -- the rest of the pass
  have hfinal := step_matchmake_from (StoryPaired.kept k t S c (node_at b c).server_state) b
    (pre ++ [S]) post (by rw [hpre]; simp)
    (by
      rw [List.foldl_append]
      exact hround _ h1.1 h1.2)
  exact ⟨hfinal.server_state, hfinal.description, hfinal.client_state, hfinal.not_waiting,
    hfinal.paired, hfinal.sent⟩

theorem story1_reachable : Reachable example_env story1 :=
  Reachable.packet _ _ _ _ _ (Reachable.packet _ _ _ _ _ Reachable.init)

/-- C18, witness (scenario A): one idle server and one waiting client asking
for story mode; the state is reachable, and after the pass at time 2 the
server is loading the description of the client, who is paired with it. -/
theorem story_client_gets_first_idle_server_witness :
    Reachable example_env story1
    ∧ story1.servers.find? (fun a => decide ((node_at story1 a).state = State.ServerIdle))
      = some example_server
    ∧ story1.clients_waiting.find? (fun a => (node_at story1 a).server_state.story_mode)
      = some example_client
    ∧ (node_at (matchmake example_env story1 2) example_server).state = State.ServerLoading
    ∧ (node_at (matchmake example_env story1 2) example_server).server_state
      = (node_at story1 example_client).server_state
    ∧ (node_at (matchmake example_env story1 2) example_client).state
      = State.ClientConnecting
    ∧ example_client ∉ (matchmake example_env story1 2).clients_waiting
    ∧ { client := example_client, server := example_server }
      ∈ (matchmake example_env story1 2).clients_connecting
    ∧ Outgoing.ServerLoad 2 example_server (node_at story1 example_client).server_state
      ∈ (matchmake example_env story1 2).sent :=
  ⟨story1_reachable, by decide, by decide,
    story_client_gets_first_idle_server example_env story1 2 example_server example_client
      story1_reachable (by decide) (by decide)⟩

theorem pair1_reachable : Reachable example_env pair1 :=
  Reachable.packet _ _ _ _ _ (Reachable.packet _ _ _ _ _
    (Reachable.packet _ _ _ _ _ Reachable.init))

/-- C19, failing run (scenario C): one idle server, no other server, and two
waiting clients outside story mode asking for 2 open slots each; the state is
reachable.  The matchmaking pass tells the idle server to load the default
multiplayer description (4 open slots) and pairs the first client with it, but
leaves the second client ClientWaiting in the waiting list; the second client
is paired by the next pass only. -/
theorem second_client_left_waiting :
    Reachable example_env pair1
    ∧ pair1.servers = [example_server]
    ∧ (node_at pair1 example_server).state = State.ServerIdle
    ∧ pair1.clients_waiting = [example_client, example_second_client]
    ∧ (node_at pair1 example_client).server_state = ⟨1, 2, false, 2⟩
    ∧ (node_at pair1 example_second_client).server_state = ⟨1, 2, false, 2⟩
    ∧ pair1.clients_connecting = []
    ∧ (node_at pair2 example_server).state = State.ServerLoading
    ∧ (node_at pair2 example_server).server_state = multiplayer_state example_env
    ∧ (multiplayer_state example_env).open_slots = 4
    ∧ pair2.clients_connecting = [{ client := example_client, server := example_server }]
    ∧ pair2.clients_waiting = [example_second_client]
    ∧ (node_at pair2 example_second_client).state = State.ClientWaiting
    ∧ pair3.clients_connecting = [{ client := example_client, server := example_server },
        { client := example_second_client, server := example_server }]
    ∧ pair3.clients_waiting = [] :=
  ⟨pair1_reachable, by decide, by decide, by decide, by decide, by decide, by decide,
    by decide, by decide, by decide, by decide, by decide, by decide, by decide, by decide⟩

theorem load2_reachable : Reachable example_env load2 :=
  Reachable.packet _ _ _ _ _ (Reachable.packet _ _ _ _ _ Reachable.init)

/-- C20: for every reachable broker state b and MAX_PLAYERS > 0, split the
matchmaking pass at time t into its first loop (match_servers, with the
story-mode step), its allocation step (match_alloc) and its assignment loop.
With I the number of servers ServerIdle after the first loop, D the open
slots asked for by the waiting clients outside story mode, summed, and C the
effective open slots of the targets of the first loop, summed, the allocation
step appends to the targets a list new of different servers, min(I,
ceil((D - C) / MAX_PLAYERS)) of them when D > C and none when D <= C; each
was idle after the first loop and is ServerLoading with the default
multiplayer description at the end of the pass, and the allocation step
changes no other node. -/
theorem allocation_count_is_min_of_idle_and_shortfall (k : Env) (b : Broker) (t : ℚ)
    (h : Reachable k b) (hmax : 0 < k.max_players) :
    matchmake k b t = match_assign t (match_alloc k t (match_servers b t))
    ∧ ∃ new : List Address,
      (match_alloc k t (match_servers b t)).multiplayer_servers
        = (match_servers b t).multiplayer_servers ++ new
      ∧ new.Nodup
      ∧ (new.length : Int)
        = (if waiting_demand (match_servers b t).broker > targets_capacity (match_servers b t)
          then min (idle_count (match_servers b t).broker : Int)
            ⌈((waiting_demand (match_servers b t).broker
                - targets_capacity (match_servers b t) : Int) : ℚ)
              / ((k.max_players : Int) : ℚ)⌉
          else 0)
      ∧ (∀ a ∈ new, a ∈ b.servers
        ∧ (node_at (match_servers b t).broker a).state = State.ServerIdle
        ∧ (node_at (matchmake k b t) a).state = State.ServerLoading
        ∧ (node_at (matchmake k b t) a).server_state = multiplayer_state k)
      ∧ (∀ a, a ∉ new → node_at (match_alloc k t (match_servers b t)).broker a
        = node_at (match_servers b t).broker a) := by
  refine ⟨rfl, ?_⟩
  have inv := h.full_inv
  obtain ⟨i1, s1, c1⟩ := match_servers_idle_count k t b inv
  have cap := match_servers_capacity_sum k t b inv
  obtain ⟨i2, v2⟩ := needed_multiplayer_slots_view k t (match_servers b t).broker i1
  have hD := needed_multiplayer_slots_value (match_servers b t).broker
  have hval := server_allocs_value k hmax (idle_count (match_servers b t).broker)
    (waiting_demand (match_servers b t).broker) (targets_capacity (match_servers b t))
  have hle : (server_allocs k (idle_count (match_servers b t).broker)
      (waiting_demand (match_servers b t).broker)
      (targets_capacity (match_servers b t))).toNat
      ≤ idle_count (needed_multiplayer_slots (match_servers b t).broker).2 := by
    rw [idle_count_view v2]
    have : ((server_allocs k (idle_count (match_servers b t).broker)
        (waiting_demand (match_servers b t).broker)
        (targets_capacity (match_servers b t))).toNat : Int)
        ≤ (idle_count (match_servers b t).broker : Int) := by
      rw [hval]
      split
      · exact min_le_left _ _
      · exact Int.ofNat_nonneg _
    exact_mod_cast this
  obtain ⟨new, q1, q2, q3, q4, q5, q6, q7⟩ := alloc_loop_spec k t _
    { (match_servers b t) with broker := (needed_multiplayer_slots (match_servers b t).broker).2 }
    i2 hle
  have halloc : match_alloc k t (match_servers b t) = alloc_loop k t
      (server_allocs k (idle_count (match_servers b t).broker)
        (waiting_demand (match_servers b t).broker)
        (targets_capacity (match_servers b t))).toNat
      { (match_servers b t) with
        broker := (needed_multiplayer_slots (match_servers b t).broker).2 } := by
    unfold match_alloc
    simp only [hD, c1, cap]
  rw [halloc]
  refine ⟨new, q1, q3, by rw [q2]; exact hval, ?_, ?_⟩
  · intro a ha
    obtain ⟨r1, r2, r3⟩ := q6 a ha
    simp only [] at r1 r2 r3
    rw [v2.servers, s1] at r1
    rw [v2.node] at r2 r3
    refine ⟨r1, r2, ?_⟩
    have hkept := step_match_assign
      (loading_kept k t a { node_at (match_servers b t).broker a with
        state := State.ServerLoading, server_state := multiplayer_state k } rfl)
      (match_alloc k t (match_servers b t))
      (by rw [halloc]; exact ⟨q4, r3⟩)
      (by
        have hm1 := (match_servers_lists t b.servers (match_start b) (fun _ hx => hx)
          (fun _ hx => by simp [match_start] at hx)).2
        intro x hx
        rw [halloc, q5] at *
        rw [q1] at hx
        simp only [] at hx ⊢
        rw [v2.servers, s1]
        rcases List.mem_append.mp hx with hx | hx
        · exact hm1 x hx
        · have := (q6 x hx).1
          simp only [] at this
          rw [v2.servers, s1] at this
          exact this)
    rw [matchmake_stages, hkept.2]
    exact ⟨rfl, rfl⟩
  · intro a ha
    rw [q7 a ha]
    exact v2.node a

/-- C20, witness: in the second run, after the idle server and the client
asking for 2 slots (a reachable state, MAX_PLAYERS being 4), the pass at
time 2 allocates as the formula says. -/
theorem allocation_count_is_min_of_idle_and_shortfall_witness :
    Reachable example_env load2 ∧ 0 < example_env.max_players
    ∧ matchmake example_env load2 2
      = match_assign 2 (match_alloc example_env 2 (match_servers load2 2))
    ∧ ∃ new : List Address,
      (match_alloc example_env 2 (match_servers load2 2)).multiplayer_servers
        = (match_servers load2 2).multiplayer_servers ++ new
      ∧ new.Nodup
      ∧ (new.length : Int)
        = (if waiting_demand (match_servers load2 2).broker
              > targets_capacity (match_servers load2 2)
          then min (idle_count (match_servers load2 2).broker : Int)
            ⌈((waiting_demand (match_servers load2 2).broker
                - targets_capacity (match_servers load2 2) : Int) : ℚ)
              / ((example_env.max_players : Int) : ℚ)⌉
          else 0)
      ∧ (∀ a ∈ new, a ∈ load2.servers
        ∧ (node_at (match_servers load2 2).broker a).state = State.ServerIdle
        ∧ (node_at (matchmake example_env load2 2) a).state = State.ServerLoading
        ∧ (node_at (matchmake example_env load2 2) a).server_state
          = multiplayer_state example_env)
      ∧ (∀ a, a ∉ new → node_at (match_alloc example_env 2 (match_servers load2 2)).broker a
        = node_at (match_servers load2 2).broker a) :=
  ⟨load2_reachable, by decide,
    allocation_count_is_min_of_idle_and_shortfall example_env load2 2 load2_reachable
      (by decide)⟩

/-! ## The assertions, the targets and the pass in compound steps -/

/-! ### The assertions of the source -/

theorem send_server_load_assert_failed (t : ℚ) (b : Broker) (a : Address) (s : ServerState) :
    (send_server_load t b a s).assert_failed = b.assert_failed := by
  simp [send_server_load, update_node_assert_failed]

theorem client_queue_join_assert_failed (b : Broker) (server c : Address)
    (hs : (node_at b c).state = State.ClientWaiting) (hc : c ∈ b.clients_waiting) :
    (client_queue_join b server c).assert_failed = b.assert_failed := by
  have hi : b.clients_waiting.indexOf c < b.clients_waiting.length :=
    List.indexOf_lt_length.mpr hc
  simp [client_queue_join, hs, hi, update_node_assert_failed]

theorem packet_handle_assert_failed (k : Env) (b : Broker) (received : Bool) (p : Packet)
    (addr : Address) (timestamp : ℚ) :
    (packet_handle k b received p addr timestamp).2.assert_failed = b.assert_failed := by
  cases received with
  | false => rfl
  | true =>
    cases p with
    | Disconnect =>
      show (disconnected _ addr).assert_failed = _
      rw [(disconnected_facts _ addr).assert_failed, update_node_assert_failed]
    | Ack => simp [packet_handle, update_node_assert_failed]
    | ServerLoad => simp [packet_handle, update_node_assert_failed]
    | ClientConnect => simp [packet_handle, update_node_assert_failed]
    | ClientRequestServer os =>
      cases os with
      | none => simp [packet_handle, update_node_assert_failed]
      | some s =>
        simp only [packet_handle, Bool.not_true, Bool.false_eq_true, if_false]
        split_ifs <;> simp [update_node_assert_failed]
    | ServerStatusUpdate secret active os =>
      cases os with
      | none =>
        simp only [packet_handle, Bool.not_true, Bool.false_eq_true, if_false]
        split_ifs <;> simp [update_node_assert_failed]
      | some s =>
        simp only [packet_handle, Bool.not_true, Bool.false_eq_true, if_false]
        split_ifs <;> simp [update_node_assert_failed, connect_fold]

theorem disconnected_list_assert_failed (l : List Address) (b : Broker) :
    (l.foldl disconnected b).assert_failed = b.assert_failed := by
  induction l generalizing b with
  | nil => rfl
  | cons x xs ih => rw [List.foldl_cons, ih, (disconnected_facts b x).assert_failed]

/-- No step of the matchmaking pass makes an assertion fail. -/
theorem asserts_hold (k : Env) (t : ℚ) :
    PassStep k t (fun b => FullInv b ∧ b.assert_failed = false) where
  lookup b a h hm :=
    ⟨(FullInv.step k t).lookup b a h.1 hm, (node_for_address_assert_failed b a).trans h.2⟩
  assert b a h hm hs := by
    have := h.1.servers.servers_state a hm
    simp only [] at this
    rw [hs] at this
    exact absurd this Bool.false_ne_true
  load b a s h hm hs hd :=
    ⟨(FullInv.step k t).load b a s h.1 hm hs hd,
      (send_server_load_assert_failed t b a s).trans h.2⟩
  join b server c h hc hsrv :=
    ⟨(FullInv.step k t).join b server c h.1 hc hsrv,
      (client_queue_join_assert_failed b server c
        (h.1.pairing.roles.waiting_state c hc) hc).trans h.2⟩
  connect b server c h hp hsrv hne :=
    ⟨(FullInv.step k t).connect b server c h.1 hp hsrv hne, h.2⟩

/-- No assertion of the source has failed in a state the master server can
be in. -/
theorem Reachable.asserts_held {k : Env} {b : Broker} (h : Reachable k b) :
    b.assert_failed = false := by
  induction h with
  | init => rfl
  | packet b received p addr timestamp _ ih =>
    rw [packet_handle_assert_failed]; exact ih
  | audit b timestamp order _ _ ih =>
    rw [disconnected_list_assert_failed]; exact ih
  | matchmake b timestamp hb ih =>
    exact (step_matchmake (asserts_hold k timestamp) b ⟨hb.full_inv, ih⟩).2

/-! ### The targets of the first loop -/

/-- The count of server_open_slots when no step leaves the range of s8. -/
theorem slots_fold_exact (b : Broker) (a : Address) (l : List ClientConnection) (z : Int)
    (h1 : z ≤ 127)
    (h2 : -128 ≤ z - (((l.filter (fun c => decide (c.server = a))).map
      (fun c => (node_at b c.client).server_state.open_slots)).sum : Nat)) :
    l.foldl (fun (y : Int) (p : ClientConnection) =>
        if p.server = a then wrap8 (y - (node_at b p.client).server_state.open_slots)
        else y) z
      = z - (((l.filter (fun c => decide (c.server = a))).map
        (fun c => (node_at b c.client).server_state.open_slots)).sum : Nat) := by
  induction l generalizing z with
  | nil => simp
  | cons x xs ih =>
    rw [List.foldl_cons]
    by_cases hx : x.server = a
    · simp only [hx, if_true, List.filter_cons, decide_True, List.map_cons, List.sum_cons,
        Nat.cast_add] at h2 ⊢
      have hw : wrap8 (z - ((node_at b x.client).server_state.open_slots : Int))
          = z - ((node_at b x.client).server_state.open_slots : Int) := by
        unfold wrap8; omega
      rw [hw, ih _ (by omega) (by omega)]
      ring
    · simp only [hx, if_false, List.filter_cons, decide_False] at h2 ⊢
      exact ih z h1 h2

/-- One round of the first loop leaves the effective open slots of the other
servers as they are. -/
theorem match_server_slots_others (k : Env) (t : ℚ) (m : MatchState) (x : Address)
    (h : FullInv m.broker) (hx : x ∈ m.broker.servers) (a : Address)
    (ha : a ∈ m.broker.servers) (hne : a ≠ x) :
    (server_open_slots (match_server t m x).broker a).1 = (server_open_slots m.broker a).1 := by
  have hsv : (node_at m.broker a).state.is_server = true := h.servers.servers_state a ha
  rcases match_server_cases k t m x h hx with ⟨_, _, v, _⟩ | ⟨_, _, v, _⟩
    | ⟨hxi, _, _, _, b1, c, i1, v, hc, _, e⟩
  · exact server_open_slots_view v a hsv
  · exact server_open_slots_view v a hsv
  · have hcw := h.pairing.roles.waiting_state c hc
    simp only [] at hcw
    have hac : a ≠ c := fun e' => by
      rw [e', hcw] at hsv
      exact Bool.false_ne_true hsv
    have hsv1 : (node_at b1 a).state.is_server = true := by rw [v.node]; exact hsv
    rw [e, ← server_open_slots_view v a hsv]
    apply server_open_slots_congr a [{ client := c, server := x }] hsv1
    · rw [node_at_client_queue_join, if_neg hac, node_at_send_server_load, if_neg hne]
    · rw [client_queue_join_clients_connecting, send_server_load_clients_connecting]
    · intro p hp
      rw [List.mem_singleton.mp hp]
      exact fun e' => hne e'.symm
    · intro p hp
      have hpc := i1.pairing.roles.pairing_state p hp
      simp only [v.node] at hpc
      have h1 : p.client ≠ c := fun e' => by
        rw [e', hcw] at hpc
        exact State.noConfusion hpc
      have h2 : p.client ≠ x := fun e' => by
        rw [e', hxi] at hpc
        exact State.noConfusion hpc
      rw [node_at_client_queue_join, if_neg h1, node_at_send_server_load, if_neg h2]

theorem multiplayer_capable_idle {b : Broker} {a : Address}
    (h : (node_at b a).state = State.ServerIdle) : multiplayer_capable b a = false := by
  simp [multiplayer_capable, h]

theorem multiplayer_capable_busy {b : Broker} {a : Address}
    (hs : (node_at b a).state.is_server = true)
    (h : (node_at b a).state ≠ State.ServerIdle) :
    multiplayer_capable b a
      = (!(node_at b a).server_state.story_mode && decide ((server_open_slots b a).1 > 0)) := by
  rcases (is_server_iff _).mp hs with e | e | e
  · simp [multiplayer_capable, e]
  · simp [multiplayer_capable, e]
  · exact absurd e h

/-- The first loop collects the servers that are multiplayer capable in the
state b0 at the start of the pass, in the order of the servers list, and sums
their effective open slots: after the servers of l, with those of P done
before. -/
theorem match_servers_targets (k : Env) (t : ℚ) (b0 : Broker) (l P : List Address)
    (m : MatchState) (h : FullInv m.broker) (hs : m.broker.servers = P ++ l)
    (hn : ∀ a ∈ P ++ l, (a ∈ l ∨ (node_at b0 a).state ≠ State.ServerIdle) →
      node_at m.broker a = node_at b0 a
      ∧ ((node_at b0 a).state ≠ State.ServerIdle →
        (server_open_slots m.broker a).1 = (server_open_slots b0 a).1))
    (hm : m.multiplayer_servers = P.filter (multiplayer_capable b0))
    (he : m.existing_multiplayer_slots
      = ((P.filter (multiplayer_capable b0)).map (fun a => (server_open_slots b0 a).1)).sum) :
    (l.foldl (match_server t) m).multiplayer_servers
      = (P ++ l).filter (multiplayer_capable b0)
    ∧ (l.foldl (match_server t) m).existing_multiplayer_slots
      = (((P ++ l).filter (multiplayer_capable b0)).map
        (fun a => (server_open_slots b0 a).1)).sum := by
  induction l generalizing m P with
  | nil => simpa using ⟨hm, he⟩
  | cons x xs ih =>
    have hx : x ∈ m.broker.servers := by rw [hs]; simp
    have hnd : (P ++ x :: xs).Nodup := hs ▸ h.servers.servers_nodup
    have hxP : x ∉ P := fun hm' =>
      (List.nodup_append.mp hnd).2.2 hm' (List.mem_cons_self _ _)
    have hxxs : x ∉ xs := (List.nodup_cons.mp (List.nodup_append.mp hnd).2.1).1
    have h' : FullInv (match_server t m x).broker :=
      step_match_server (FullInv.step k t) m x h hx
    have hs' : (match_server t m x).broker.servers = (P ++ [x]) ++ xs := by
      rw [(match_server_lists t m x).1, hs]; simp
    have hxn := hn x (by simp) (Or.inl (List.mem_cons_self _ _))
    have hxs : (node_at m.broker x).state.is_server = true := h.servers.servers_state x hx
    have hsplit : P ++ x :: xs = (P ++ [x]) ++ xs := by simp
    rw [List.foldl_cons, hsplit]
    apply ih (P ++ [x]) (match_server t m x) h' hs'
    · -- the nodes and the effective open slots
      intro a ha hcond
      have ha' : a ∈ P ++ x :: xs := by rw [hsplit]; exact ha
      have hasrv : a ∈ m.broker.servers := by rw [hs]; exact ha'
      by_cases hax : a = x
      · subst hax
        have hbusy : (node_at b0 a).state ≠ State.ServerIdle := by
          rcases hcond with h1 | h1
          · exact absurd h1 hxxs
          · exact h1
        have hbusy' : (node_at m.broker a).state ≠ State.ServerIdle := by
          rw [hxn.1]; exact hbusy
        have hview : SameView m.broker (match_server t m a).broker := by
          rcases match_server_cases k t m a h hx with ⟨_, _, v, _⟩ | ⟨hi, _⟩ | ⟨hi, _⟩
          · exact v
          · exact absurd hi hbusy'
          · exact absurd hi hbusy'
        refine ⟨(hview.node a).trans hxn.1, fun _ => ?_⟩
        rw [server_open_slots_view hview a hxs]
        exact hxn.2 hbusy
      · have hold := hn a ha' (by
          rcases hcond with h1 | h1
          · exact Or.inl (List.mem_cons_of_mem _ h1)
          · exact Or.inr h1)
        refine ⟨(match_server_others k t m x h hx a hasrv hax).trans hold.1, fun hb => ?_⟩
        rw [match_server_slots_others k t m x h hx a hasrv hax]
        exact hold.2 hb
    · -- the targets
      by_cases hxi : (node_at b0 x).state = State.ServerIdle
      · have hxi' : (node_at m.broker x).state = State.ServerIdle := by rw [hxn.1]; exact hxi
        have hkeep : (match_server t m x).multiplayer_servers = m.multiplayer_servers := by
          rcases match_server_cases k t m x h hx with ⟨hno, _⟩ | ⟨_, _, _, _, e1, _⟩
            | ⟨_, _, e1, _⟩
          · exact absurd hxi' hno
          · exact e1
          · exact e1
        rw [hkeep, hm, List.filter_append]
        simp [List.filter_cons, multiplayer_capable_idle hxi]
      · have hxi' : (node_at m.broker x).state ≠ State.ServerIdle := by rw [hxn.1]; exact hxi
        have hcap := multiplayer_capable_busy (b := b0) (a := x) (by rw [← hxn.1]; exact hxs) hxi
        rw [(match_server_target t m x h hx hxi').1, hxn.1, hxn.2 hxi, ← hcap, hm,
          List.filter_append]
        by_cases hc : multiplayer_capable b0 x = true
        · simp [List.filter_cons, hc]
        · simp [List.filter_cons, hc]
    · by_cases hxi : (node_at b0 x).state = State.ServerIdle
      · have hxi' : (node_at m.broker x).state = State.ServerIdle := by rw [hxn.1]; exact hxi
        have hkeep : (match_server t m x).existing_multiplayer_slots
            = m.existing_multiplayer_slots := by
          rcases match_server_cases k t m x h hx with ⟨hno, _⟩ | ⟨_, _, _, _, _, e2⟩
            | ⟨_, _, _, e2, _⟩
          · exact absurd hxi' hno
          · exact e2
          · exact e2
        rw [hkeep, he, List.filter_append]
        simp [List.filter_cons, multiplayer_capable_idle hxi]
      · have hxi' : (node_at m.broker x).state ≠ State.ServerIdle := by rw [hxn.1]; exact hxi
        have hcap := multiplayer_capable_busy (b := b0) (a := x) (by rw [← hxn.1]; exact hxs) hxi
        rw [(match_server_target t m x h hx hxi').2, hxn.1, hxn.2 hxi, ← hcap, he,
          List.filter_append]
        by_cases hc : multiplayer_capable b0 x = true
        · simp [List.filter_cons, hc]
        · simp [List.filter_cons, hc]

/-! ### A pass with nothing to do -/

theorem node_for_address_of_registered {b : Broker} {a : Address} (h : a ∈ registered b) :
    (node_for_address b a).1 = b := by
  unfold node_for_address
  rw [find_node_of_registered h]

/-- In a state with the invariant of the lists the lookups of the pass find
every node registered and its assertions hold: they leave the state as it
is. -/
theorem lookups_identity {b0 : Broker} (h : FullInv b0) : LookupStep (fun y => y = b0) where
  lookup b a e hm := by
    subst e
    exact node_for_address_of_registered (h.listed_registered hm)
  assert b a e hm hs := by
    subst e
    have := h.servers.servers_state a hm
    simp only [] at this
    rw [hs] at this
    exact absurd this Bool.false_ne_true

theorem match_servers_busy (k : Env) (t : ℚ) (b : Broker) (h : FullInv b) (l : List Address)
    (m : MatchState) (hm : m.broker = b) (hl : ∀ a ∈ l, a ∈ b.servers)
    (hbusy : ∀ a ∈ l, (node_at b a).state ≠ State.ServerIdle) :
    (l.foldl (match_server t) m).broker = b
    ∧ (l.foldl (match_server t) m).idle_servers = m.idle_servers := by
  induction l generalizing m with
  | nil => exact ⟨hm, rfl⟩
  | cons x xs ih =>
    have hx : x ∈ m.broker.servers := by rw [hm]; exact hl x (List.mem_cons_self _ _)
    have hxb : (node_at m.broker x).state ≠ State.ServerIdle := by
      rw [hm]; exact hbusy x (List.mem_cons_self _ _)
    have h1 : (match_server t m x).broker = b :=
      lookup_match_server t (lookups_identity h) m x hm hx hxb
    have h2 : (match_server t m x).idle_servers = m.idle_servers := by
      rcases match_server_cases k t m x (hm ▸ h) hx with ⟨_, _, _, e⟩ | ⟨hi, _⟩ | ⟨hi, _⟩
      · exact e
      · exact absurd hi hxb
      · exact absurd hi hxb
    obtain ⟨r1, r2⟩ := ih (match_server t m x) h1
      (fun a ha => hl a (List.mem_cons_of_mem _ ha))
      (fun a ha => hbusy a (List.mem_cons_of_mem _ ha))
    rw [List.foldl_cons]
    exact ⟨r1, r2.trans h2⟩

/-! ### The matchmaking pass in compound steps -/

/-- A server that is ServerActive or ServerLoading stays so through the
pass. -/
theorem busy_kept (k : Env) (t : ℚ) (a : Address) :
    PassStep k t (fun b => FullInv b ∧ ((node_at b a).state = State.ServerActive
      ∨ (node_at b a).state = State.ServerLoading)) where
  lookup b x h hm :=
    ⟨(FullInv.step k t).lookup b x h.1 hm, by rw [node_at_node_for_address]; exact h.2⟩
  assert b x h hm hs := ⟨(FullInv.step k t).assert b x h.1 hm hs, h.2⟩
  load b x s h hm hs hd := by
    refine ⟨(FullInv.step k t).load b x s h.1 hm hs hd, ?_⟩
    have hne : a ≠ x := fun e => by
      rcases h.2 with e1 | e1 <;> rw [e, hs] at e1 <;> exact State.noConfusion e1
    rw [node_at_send_server_load, if_neg hne]
    exact h.2
  join b server c h hc hsrv := by
    refine ⟨(FullInv.step k t).join b server c h.1 hc hsrv, ?_⟩
    have hcw := h.1.pairing.roles.waiting_state c hc
    simp only [] at hcw
    have hne : a ≠ c := fun e => by
      rcases h.2 with e1 | e1 <;> rw [e, hcw] at e1 <;> exact State.noConfusion e1
    rw [node_at_client_queue_join, if_neg hne]
    exact h.2
  connect b server c h hp hsrv hne := ⟨(FullInv.step k t).connect b server c h.1 hp hsrv hne, h.2⟩

/-- The lookups of the pass, for a property kept step by step, together with
the invariant of the lists. -/
theorem TickStep.to_lookups {k : Env} {t : ℚ} {R : Broker → Prop} (st : TickStep k t R) :
    LookupStep (fun b => FullInv b ∧ R b) where
  lookup b a h hm := ⟨(FullInv.step k t).lookup b a h.1 hm, st.lookup b a h.1 h.2 hm⟩
  assert b a h hm hs := by
    have := h.1.servers.servers_state a hm
    simp only [] at this
    rw [hs] at this
    exact absurd this Bool.false_ne_true

theorem match_server_broker_idle (t : ℚ) (m : MatchState) (x : Address)
    (hs : (node_at m.broker x).state = State.ServerIdle) :
    (match_server t m x).broker
      = story_scan t x (node_for_address m.broker x).1.clients_waiting
        (node_for_address m.broker x).1 := by
  have hs' : (node_at (node_for_address m.broker x).1 x).state = State.ServerIdle := by
    rw [node_at_node_for_address]; exact hs
  simp only [match_server, hs', if_true]
  split <;> rfl

theorem tick_story_scan {k : Env} {t : ℚ} {R : Broker → Prop} (st : TickStep k t R)
    (S : Address) (b : Broker) (h : FullInv b) (hr : R b) (hS : S ∈ b.servers)
    (hi : (node_at b S).state = State.ServerIdle) :
    R (story_scan t S b.clients_waiting b) := by
  cases hf : b.clients_waiting.find? (fun a => (node_at b a).server_state.story_mode) with
  | none =>
    rw [List.find?_eq_none] at hf
    exact (story_scan_none t st.to_lookups S b.clients_waiting b ⟨h, hr⟩ (fun _ ha => ha)
      (fun a ha => by simpa using hf a ha)).2
  | some c =>
    obtain ⟨hcs, w1, w2, hw, hw'⟩ := List.find?_eq_some.mp hf
    have hcm : c ∈ b.clients_waiting := by rw [hw]; simp
    obtain ⟨b1, ⟨i1, r1⟩, v1, e1⟩ := story_scan_first t st.to_lookups S c w1 w2 b ⟨h, hr⟩
      (fun a ha => by
        rw [hw]
        simp only [List.mem_append, List.mem_singleton] at ha
        simp only [List.mem_append, List.mem_cons]
        tauto)
      (fun a ha => by simpa using hw' a ha) hcs
    rw [hw, e1, ← v1.node c]
    exact st.story b1 S c i1 r1 (by rw [v1.servers]; exact hS) (by rw [v1.node]; exact hi)
      (by rw [v1.waiting]; exact hcm) (by rw [v1.node]; exact hcs)

theorem tick_match_server {k : Env} {t : ℚ} {R : Broker → Prop} (st : TickStep k t R)
    (m : MatchState) (x : Address) (h : FullInv m.broker) (hr : R m.broker)
    (hx : x ∈ m.broker.servers) : R (match_server t m x).broker := by
  by_cases hs : (node_at m.broker x).state = State.ServerIdle
  · rw [match_server_broker_idle t m x hs]
    have h0 := st.to_lookups.lookup m.broker x ⟨h, hr⟩ (Or.inl hx)
    exact tick_story_scan st x _ h0.1 h0.2 (by rw [node_for_address_servers]; exact hx)
      (by rw [node_at_node_for_address]; exact hs)
  · exact (lookup_match_server t st.to_lookups m x ⟨h, hr⟩ hx hs).2

theorem tick_match_servers {k : Env} {t : ℚ} {R : Broker → Prop} (st : TickStep k t R)
    (l : List Address) (m : MatchState) (h : FullInv m.broker) (hr : R m.broker)
    (hl : ∀ a ∈ l, a ∈ m.broker.servers) :
    R (l.foldl (match_server t) m).broker := by
  induction l generalizing m with
  | nil => exact hr
  | cons x xs ih =>
    have hx := hl x (List.mem_cons_self _ _)
    rw [List.foldl_cons]
    apply ih _ (step_match_server (FullInv.step k t) m x h hx) (tick_match_server st m x h hr hx)
    intro a ha
    rw [(match_server_lists t m x).1]
    exact hl a (List.mem_cons_of_mem _ ha)

theorem tick_alloc_server {k : Env} {t : ℚ} {R : Broker → Prop} (st : TickStep k t R)
    (b : Broker) (h : FullInv b) (hr : R b) :
    R (alloc_server t (multiplayer_state k) b.servers b).2 := by
  cases hf : b.servers.find? (fun a => decide ((node_at b a).state = State.ServerIdle)) with
  | none =>
    rw [List.find?_eq_none] at hf
    exact (alloc_server_none t (multiplayer_state k) st.to_lookups b.servers b ⟨h, hr⟩
      (fun _ ha => ha) (fun a ha => by simpa using hf a ha)).2.2
  | some a =>
    obtain ⟨hai, pre, post, hsplit, hpre⟩ := List.find?_eq_some.mp hf
    simp only [decide_eq_true_eq] at hai
    obtain ⟨b1, ⟨i1, r1⟩, v1, e1⟩ := alloc_server_first t (multiplayer_state k) st.to_lookups
      pre post a b ⟨h, hr⟩
      (fun x hx => by
        rw [hsplit]
        simp only [List.mem_append, List.mem_singleton] at hx
        simp only [List.mem_append, List.mem_cons]
        tauto)
      (fun x hx => by simpa using hpre x hx) hai
    rw [hsplit, e1]
    exact st.alloc b1 a i1 r1 (by rw [v1.servers, hsplit]; simp) (by rw [v1.node]; exact hai)

theorem tick_alloc_loop {k : Env} {t : ℚ} {R : Broker → Prop} (st : TickStep k t R)
    (n : Nat) (m : MatchState) (h : FullInv m.broker) (hr : R m.broker) :
    R (alloc_loop k t n m).broker := by
  induction n generalizing m with
  | zero => exact hr
  | succ n ih =>
    have h1 := tick_alloc_server st m.broker h hr
    have h2 := step_alloc_server (FullInv.step k t) m.broker.servers m.broker h (fun _ ha => ha)
    unfold alloc_loop
    split
    · next a b he =>
      rw [he] at h1 h2
      exact ih { m with broker := b, multiplayer_servers := m.multiplayer_servers ++ [a] } h2 h1
    · next b he =>
      rw [he] at h1
      exact h1

theorem tick_match_alloc {k : Env} {t : ℚ} {R : Broker → Prop} (st : TickStep k t R)
    (m : MatchState) (h : FullInv m.broker) (hr : R m.broker) :
    R (match_alloc k t m).broker := by
  unfold match_alloc
  simp only []
  have hn := step_needed_multiplayer_slots st.to_lookups _ ⟨h, hr⟩
  exact tick_alloc_loop st _ { m with broker := (needed_multiplayer_slots m.broker).2 } hn.1 hn.2

/-- One assignment of the assignment loop: the client joins the server, and
is sent the connect notice unless the server is loading. -/
theorem tick_assign_one {k : Env} {t : ℚ} {R : Broker → Prop} (st : TickStep k t R)
    (server c : Address) (b : Broker) (h : FullInv b) (hr : R b)
    (hc : c ∈ b.clients_waiting) (hsrv : server ∈ b.servers)
    (hbusy : (node_at b server).state = State.ServerActive
      ∨ (node_at b server).state = State.ServerLoading) (b3 : Broker)
    (e3 : b3 = if (node_at (client_queue_join b server c) server).state ≠ State.ServerLoading
      then send_client_connect t (client_queue_join b server c) server c
      else client_queue_join b server c) :
    FullInv b3 ∧ R b3 ∧ server ∈ b3.servers
      ∧ ((node_at b3 server).state = State.ServerActive
        ∨ (node_at b3 server).state = State.ServerLoading) := by
  have hcs := h.pairing.roles.waiting_state c hc
  simp only [] at hcs
  have hne : server ≠ c := fun e => by
    rcases hbusy with e1 | e1 <;> rw [e, hcs] at e1 <;> exact State.noConfusion e1
  have hstate : (node_at (client_queue_join b server c) server).state
      = (node_at b server).state := by
    rw [node_at_client_queue_join, if_neg hne]
  have i2 : FullInv (client_queue_join b server c) :=
    (FullInv.step k t).join _ server c h hc hsrv
  have hsrv2 : server ∈ (client_queue_join b server c).servers := by
    rw [client_queue_join_servers]; exact hsrv
  rcases hbusy with e1 | e1
  · have hnl : (node_at (client_queue_join b server c) server).state ≠ State.ServerLoading := by
      rw [hstate, e1]; decide
    rw [if_pos hnl] at e3
    subst e3
    exact ⟨(FullInv.step k t).connect _ server c i2
        (by rw [client_queue_join_clients_connecting]; simp) hsrv2 hnl,
      st.assign_active _ server c h hr hc hsrv e1, hsrv2, Or.inl (hstate.trans e1)⟩
  · have hl : ¬ (node_at (client_queue_join b server c) server).state ≠ State.ServerLoading := by
      rw [hstate, e1]; simp
    rw [if_neg hl] at e3
    subst e3
    exact ⟨i2, st.assign_loading _ server c h hr hc hsrv e1, hsrv2, Or.inr (hstate.trans e1)⟩

theorem tick_assign_loop {k : Env} {t : ℚ} {R : Broker → Prop} (st : TickStep k t R)
    (server : Address) (fuel j : Nat) (slots : Int) (b : Broker)
    (h : FullInv b) (hr : R b) (hsrv : server ∈ b.servers)
    (hbusy : (node_at b server).state = State.ServerActive
      ∨ (node_at b server).state = State.ServerLoading) :
    R (assign_loop t server fuel j slots b) := by
  induction fuel generalizing j slots b with
  | zero => exact hr
  | succ n ih =>
    unfold assign_loop
    split
    · exact hr
    · next c hc =>
      have hcw : c ∈ b.clients_waiting := List.mem_iff_getElem?.mpr ⟨j, hc⟩
      obtain ⟨i1, r1⟩ := st.to_lookups.lookup b c ⟨h, hr⟩ (Or.inr (Or.inl hcw))
      have hcw1 : c ∈ (node_for_address b c).1.clients_waiting := by
        rw [node_for_address_clients_waiting]; exact hcw
      have hsrv1 : server ∈ (node_for_address b c).1.servers := by
        rw [node_for_address_servers]; exact hsrv
      have hbusy1 : (node_at (node_for_address b c).1 server).state = State.ServerActive
          ∨ (node_at (node_for_address b c).1 server).state = State.ServerLoading := by
        rw [node_at_node_for_address]; exact hbusy
      have key := tick_assign_one st server c (node_for_address b c).1 i1 r1 hcw1 hsrv1 hbusy1
        _ rfl
      simp only []
      split
      · split
        · exact key.2.1
        · exact ih _ _ _ key.1 key.2.1 key.2.2.1 key.2.2.2
      · exact ih _ _ _ i1 r1 hsrv1 hbusy1

theorem tick_assign_target {k : Env} {t : ℚ} {R : Broker → Prop} (st : TickStep k t R)
    (b : Broker) (a : Address) (h : FullInv b) (hr : R b) (ha : a ∈ b.servers)
    (hbusy : (node_at b a).state = State.ServerActive
      ∨ (node_at b a).state = State.ServerLoading) :
    R (assign_target t b a) := by
  unfold assign_target
  have ha1 : a ∈ (node_for_address b a).1.servers := by
    rw [node_for_address_servers]; exact ha
  have h1 := step_server_open_slots
    (LookupStep.both st.to_lookups (busy_kept k t a).toLookupStep) _ a
    ⟨st.to_lookups.lookup b a ⟨h, hr⟩ (Or.inl ha),
      (busy_kept k t a).lookup b a ⟨h, hbusy⟩ (Or.inl ha)⟩ ha1
  have ha2 : a ∈ (server_open_slots (node_for_address b a).1 a).2.servers := by
    rw [pass_server_open_slots (servers_kept_pass (node_for_address b a).1.servers t) _ _ rfl]
    exact ha1
  exact tick_assign_loop st _ _ _ _ _ h1.1.1 h1.1.2 ha2 h1.2.2

theorem tick_match_assign {k : Env} {t : ℚ} {R : Broker → Prop} (st : TickStep k t R)
    (l : List Address) (b : Broker) (h : FullInv b) (hr : R b)
    (hl : ∀ a ∈ l, a ∈ b.servers ∧ ((node_at b a).state = State.ServerActive
      ∨ (node_at b a).state = State.ServerLoading)) :
    R (l.foldl (assign_target t) b) := by
  induction l generalizing b with
  | nil => exact hr
  | cons x xs ih =>
    obtain ⟨hx, hxb⟩ := hl x (List.mem_cons_self _ _)
    rw [List.foldl_cons]
    apply ih _ (step_assign_target (FullInv.step k t).toAssignStep b x h hx)
      (tick_assign_target st b x h hr hx hxb)
    intro a ha
    obtain ⟨has, hab⟩ := hl a (List.mem_cons_of_mem _ ha)
    refine ⟨?_, (step_assign_target (busy_kept k t a).toAssignStep b x ⟨h, hab⟩ hx).2⟩
    rw [pass_assign_target (servers_kept_pass b.servers t) b x rfl]
    exact has

/-- The targets of the pass when its assignment loop starts are servers of
the servers list that are ServerActive or ServerLoading. -/
theorem targets_busy (k : Env) (t : ℚ) (b : Broker) (h : FullInv b) :
    FullInv (match_alloc k t (match_servers b t)).broker
    ∧ ∀ a ∈ (match_alloc k t (match_servers b t)).multiplayer_servers,
      a ∈ (match_alloc k t (match_servers b t)).broker.servers
      ∧ ((node_at (match_alloc k t (match_servers b t)).broker a).state = State.ServerActive
        ∨ (node_at (match_alloc k t (match_servers b t)).broker a).state
          = State.ServerLoading) := by
  obtain ⟨i1, s1, c1⟩ := match_servers_idle_count k t b h
  obtain ⟨tg, _⟩ := match_servers_targets k t b b.servers [] (match_start b) h rfl
    (fun a _ _ => ⟨rfl, fun _ => rfl⟩) rfl rfl
  rw [List.nil_append] at tg
  change (match_servers b t).multiplayer_servers = _ at tg
  obtain ⟨i2, v2⟩ := needed_multiplayer_slots_view k t (match_servers b t).broker i1
  have hle : (server_allocs k (match_servers b t).idle_servers
      (needed_multiplayer_slots (match_servers b t).broker).1
      (match_servers b t).existing_multiplayer_slots).toNat
      ≤ idle_count (needed_multiplayer_slots (match_servers b t).broker).2 := by
    rw [idle_count_view v2, Int.toNat_le, c1]
    exact min_le_left _ _
  obtain ⟨new, q1, _, _, q4, q5, q6, q7⟩ := alloc_loop_spec k t _
    { (match_servers b t) with broker := (needed_multiplayer_slots (match_servers b t).broker).2 }
    i2 hle
  have halloc : match_alloc k t (match_servers b t) = alloc_loop k t
      (server_allocs k (match_servers b t).idle_servers
        (needed_multiplayer_slots (match_servers b t).broker).1
        (match_servers b t).existing_multiplayer_slots).toNat
      { (match_servers b t) with
        broker := (needed_multiplayer_slots (match_servers b t).broker).2 } := rfl
  rw [halloc]
  refine ⟨q4, fun a ha => ?_⟩
  rw [q1] at ha
  rw [q5]
  simp only [] at ha ⊢
  rw [v2.servers, s1]
  rcases List.mem_append.mp ha with ha | ha
  · -- a target of the first loop
    rw [tg] at ha
    obtain ⟨hasrv, hcap⟩ := List.mem_filter.mp ha
    have hb0 : (node_at b a).state = State.ServerActive
        ∨ (node_at b a).state = State.ServerLoading := by
      simp only [multiplayer_capable, Bool.and_eq_true, Bool.or_eq_true,
        decide_eq_true_eq] at hcap
      exact hcap.1.1
    have hb1 := (step_match_servers (busy_kept k t a) b.servers (match_start b) ⟨h, hb0⟩
      (fun _ hx => hx) (fun _ hx => by simp [match_start] at hx)).1.2
    change (node_at (match_servers b t).broker a).state = State.ServerActive
      ∨ (node_at (match_servers b t).broker a).state = State.ServerLoading at hb1
    have hnew : a ∉ new := fun hm => by
      have := (q6 a hm).2.1
      simp only [] at this
      rw [v2.node] at this
      rcases hb1 with e | e <;> rw [this] at e <;> exact State.noConfusion e
    refine ⟨hasrv, ?_⟩
    rw [q7 a hnew]
    simp only []
    rw [v2.node]
    exact hb1
  · obtain ⟨r1, _, r3⟩ := q6 a ha
    simp only [] at r1 r3
    rw [v2.servers, s1] at r1
    refine ⟨r1, Or.inr ?_⟩
    rw [r3]

/-- Induction principle for the matchmaking pass in compound steps: from a
state with the invariant of the lists, a property that every compound step
keeps is kept by the pass. -/
theorem tick_matchmake {k : Env} {t : ℚ} {R : Broker → Prop} (st : TickStep k t R)
    (b : Broker) (h : FullInv b) (hr : R b) : R (matchmake k b t) := by
  rw [matchmake_stages]
  obtain ⟨i1, _, _⟩ := match_servers_idle_count k t b h
  have r1 : R (match_servers b t).broker :=
    tick_match_servers st b.servers (match_start b) h hr (fun _ ha => ha)
  have r2 := tick_match_alloc st (match_servers b t) i1 r1
  obtain ⟨i2, hb⟩ := targets_busy k t b h
  exact tick_match_assign st _ _ i2 r2 hb

/-! ### The connect notices of a pass -/

/-- The log of the pass after a step that leaves the servers of the pairings
formed so far as they are, appends the pairings ps and sends the messages
es. -/
theorem TickLog.extend {t : ℚ} {b0 b b1 : Broker} {new : List ClientConnection}
    {ms : List Outgoing} (h : TickLog t b0 b new ms) (ps : List ClientConnection)
    (es : List Outgoing)
    (hnode : ∀ p ∈ new, (node_at b1 p.server).state = (node_at b p.server).state)
    (hP : b1.clients_connecting = b.clients_connecting ++ ps)
    (hS : b1.sent = b.sent ++ es)
    (hbusy : ∀ p ∈ ps, (node_at b1 p.server).state = State.ServerActive
      ∨ (node_at b1 p.server).state = State.ServerLoading)
    (hmsg : es.filter Outgoing.is_connect
      = (ps.filter (fun p => decide ((node_at b1 p.server).state = State.ServerActive))).map
        (connect_notice t)) :
    TickLog t b0 b1 (new ++ ps) (ms ++ es) := by
  obtain ⟨h1, h2, h3, h4⟩ := h
  refine ⟨by rw [hP, h1, List.append_assoc], by rw [hS, h2, List.append_assoc], ?_, ?_⟩
  · intro p hp
    rcases List.mem_append.mp hp with hp | hp
    · rw [hnode p hp]; exact h3 p hp
    · exact hbusy p hp
  · have hold : new.filter (fun p => decide ((node_at b1 p.server).state = State.ServerActive))
        = new.filter (fun p => decide ((node_at b p.server).state = State.ServerActive)) := by
      apply List.filter_congr
      intro p hp
      rw [hnode p hp]
    rw [List.filter_append, List.filter_append, List.map_append, h4, hmsg, hold]

theorem log_kept (k : Env) (t : ℚ) (b0 : Broker) :
    TickStep k t (fun b => ∃ new ms, TickLog t b0 b new ms) where
  lookup b a _ h _ := by
    obtain ⟨new, ms, hl⟩ := h
    refine ⟨new, ms, ?_⟩
    have := @TickLog.extend _ _ _ (node_for_address b a).1 _ _ hl [] []
      (fun p _ => by rw [node_at_node_for_address])
      (by rw [node_for_address_clients_connecting, List.append_nil])
      (by rw [node_for_address_sent, List.append_nil])
      (fun p hp => by simp at hp) rfl
    simpa using this
  story b S c inv h hS hi hc _ := by
    obtain ⟨new, ms, hl⟩ := h
    have hcs := inv.pairing.roles.waiting_state c hc
    simp only [] at hcs
    have hSc : S ≠ c := fun e => by
      rw [e, hcs] at hi
      exact State.noConfusion hi
    refine ⟨new ++ [{ client := c, server := S }],
      ms ++ [Outgoing.ServerLoad t S (node_at b c).server_state], ?_⟩
    apply hl.extend
    · intro p hp
      have hb := hl.2.2.1 p hp
      have h1 : p.server ≠ c := fun e => by
        rcases hb with e1 | e1 <;> rw [e, hcs] at e1 <;> exact State.noConfusion e1
      have h2 : p.server ≠ S := fun e => by
        rcases hb with e1 | e1 <;> rw [e, hi] at e1 <;> exact State.noConfusion e1
      rw [node_at_client_queue_join, if_neg h1, node_at_send_server_load, if_neg h2]
    · rw [client_queue_join_clients_connecting, send_server_load_clients_connecting]
    · rw [client_queue_join_sent, send_server_load_sent]
    · intro p hp
      rw [List.mem_singleton.mp hp]
      right
      rw [node_at_client_queue_join, if_neg hSc, node_at_send_server_load, if_pos rfl]
    · have hld : (node_at (client_queue_join (send_server_load t b S
          (node_at b c).server_state) S c) S).state = State.ServerLoading := by
        rw [node_at_client_queue_join, if_neg hSc, node_at_send_server_load, if_pos rfl]
      simp [List.filter_cons, Outgoing.is_connect, hld]
  alloc b a inv h ha hi := by
    obtain ⟨new, ms, hl⟩ := h
    refine ⟨new, ms ++ [Outgoing.ServerLoad t a (multiplayer_state k)], ?_⟩
    have := @TickLog.extend _ _ _ (send_server_load t b a (multiplayer_state k)) _ _ hl []
      [Outgoing.ServerLoad t a (multiplayer_state k)]
      (fun p hp => by
        have hb := hl.2.2.1 p hp
        have h2 : p.server ≠ a := fun e => by
          rcases hb with e1 | e1 <;> rw [e, hi] at e1 <;> exact State.noConfusion e1
        rw [node_at_send_server_load, if_neg h2])
      (by rw [send_server_load_clients_connecting, List.append_nil])
      (by rw [send_server_load_sent])
      (fun p hp => by simp at hp)
      (by simp [List.filter_cons, Outgoing.is_connect])
    simpa using this
  assign_active b server c inv h hc hsrv hact := by
    obtain ⟨new, ms, hl⟩ := h
    have hcs := inv.pairing.roles.waiting_state c hc
    simp only [] at hcs
    have hne : server ≠ c := fun e => by
      rw [e, hcs] at hact
      exact State.noConfusion hact
    have hnode : ∀ x, node_at (send_client_connect t (client_queue_join b server c) server c) x
        = node_at (client_queue_join b server c) x := fun _ => rfl
    refine ⟨new ++ [{ client := c, server := server }],
      ms ++ [Outgoing.ClientConnect t c server.host server.port], ?_⟩
    apply hl.extend
    · intro p hp
      have hb := hl.2.2.1 p hp
      have h1 : p.server ≠ c := fun e => by
        rcases hb with e1 | e1 <;> rw [e, hcs] at e1 <;> exact State.noConfusion e1
      rw [hnode, node_at_client_queue_join, if_neg h1]
    · show (client_queue_join b server c).clients_connecting = _
      rw [client_queue_join_clients_connecting]
    · show (client_queue_join b server c).sent ++ _ = _
      rw [client_queue_join_sent]
    · intro p hp
      rw [List.mem_singleton.mp hp]
      left
      rw [hnode, node_at_client_queue_join, if_neg hne]
      exact hact
    · have hst : (node_at (send_client_connect t (client_queue_join b server c) server c)
          server).state = State.ServerActive := by
        rw [hnode, node_at_client_queue_join, if_neg hne]
        exact hact
      simp [List.filter_cons, Outgoing.is_connect, hst, connect_notice]
  assign_loading b server c inv h hc hsrv hld := by
    obtain ⟨new, ms, hl⟩ := h
    have hcs := inv.pairing.roles.waiting_state c hc
    simp only [] at hcs
    have hne : server ≠ c := fun e => by
      rw [e, hcs] at hld
      exact State.noConfusion hld
    refine ⟨new ++ [{ client := c, server := server }], ms, ?_⟩
    have := @TickLog.extend _ _ _ (client_queue_join b server c) _ _ hl [{ client := c, server := server }] []
      (fun p hp => by
        have hb := hl.2.2.1 p hp
        have h1 : p.server ≠ c := fun e => by
          rcases hb with e1 | e1 <;> rw [e, hcs] at e1 <;> exact State.noConfusion e1
        rw [node_at_client_queue_join, if_neg h1])
      (by rw [client_queue_join_clients_connecting])
      (by rw [client_queue_join_sent, List.append_nil])
      (fun p hp => by
        rw [List.mem_singleton.mp hp]
        right
        rw [node_at_client_queue_join, if_neg hne]
        exact hld)
      (by
        have hst : (node_at (client_queue_join b server c) server).state
            = State.ServerLoading := by
          rw [node_at_client_queue_join, if_neg hne]
          exact hld
        simp [List.filter_cons, hst])
    simpa using this

theorem filter_client_single (l : List ClientConnection)
    (hnd : (l.map (fun q => q.client)).Nodup) (p : ClientConnection) (hp : p ∈ l) :
    l.filter (fun q => decide (q.client = p.client)) = [p] := by
  induction l with
  | nil => simp at hp
  | cons x xs ih =>
    rw [List.map_cons, List.nodup_cons] at hnd
    rcases List.mem_cons.mp hp with e | hm
    · subst e
      have hrest : xs.filter (fun q => decide (q.client = p.client)) = [] := by
        rw [List.filter_eq_nil_iff]
        intro q hq
        have : q.client ≠ p.client := fun e => hnd.1 (e ▸ List.mem_map_of_mem _ hq)
        simpa using this
      simp [List.filter_cons, hrest]
    · have hx : x.client ≠ p.client := fun e =>
        hnd.1 (e ▸ List.mem_map_of_mem (fun q => q.client) hm)
      simp [List.filter_cons, hx, ih hnd.2 hm]

theorem filter_connects_eq (c : Address) (ms : List Outgoing) :
    ms.filter (Outgoing.connects c)
      = (ms.filter Outgoing.is_connect).filter (Outgoing.connects c) := by
  rw [List.filter_filter]
  apply List.filter_congr
  intro m _
  cases m <;> simp [Outgoing.connects, Outgoing.is_connect]

theorem filter_connects_notices (t : ℚ) (c : Address) (l : List ClientConnection) :
    (l.map (connect_notice t)).filter (Outgoing.connects c)
      = (l.filter (fun q => decide (q.client = c))).map (connect_notice t) := by
  induction l with
  | nil => rfl
  | cons x xs ih =>
    by_cases h : x.client = c
    · simp [List.filter_cons, connect_notice, Outgoing.connects, h, ih]
    · simp [List.filter_cons, connect_notice, Outgoing.connects, h, ih]

/-- The pass makes no server ServerActive and leaves the ServerActive ones
so. -/
theorem active_kept (k : Env) (t : ℚ) (b0 : Broker) :
    PassStep k t (fun b => FullInv b ∧ ∀ a, (node_at b a).state = State.ServerActive
      ↔ (node_at b0 a).state = State.ServerActive) where
  lookup b x h hm :=
    ⟨(FullInv.step k t).lookup b x h.1 hm, fun a => by
      rw [node_at_node_for_address]; exact h.2 a⟩
  assert b x h hm hs := ⟨(FullInv.step k t).assert b x h.1 hm hs, h.2⟩
  load b x s h hm hs hd := by
    refine ⟨(FullInv.step k t).load b x s h.1 hm hs hd, fun a => ?_⟩
    rw [node_at_send_server_load]
    split
    · next e =>
      rw [← h.2 a, e, hs]
      simp
    · exact h.2 a
  join b server c h hc hsrv := by
    refine ⟨(FullInv.step k t).join b server c h.1 hc hsrv, fun a => ?_⟩
    have hcw := h.1.pairing.roles.waiting_state c hc
    simp only [] at hcw
    rw [node_at_client_queue_join]
    split
    · next e =>
      rw [← h.2 a, e, hcw]
      simp
    · exact h.2 a
  connect b server c h hp hsrv hne := ⟨(FullInv.step k t).connect b server c h.1 hp hsrv hne, h.2⟩

/-- C21: for every broker state and every address whose node is in a server
state, with at most 127 advertised open slots and the advertised open slots
minus the open slots asked for by the clients of the pairings with it no less
than -128 (no step of the s8 count overflows), server_open_slots returns that
difference.  And for every reachable broker state b, the targets the first
loop of the matchmaking pass collects are the servers of the servers list, in
its order, that in b are ServerActive or ServerLoading, with a description
that is not story mode and with server_open_slots positive, and
existing_multiplayer_slots is the sum of server_open_slots over them. -/
theorem effective_slots_and_existing_targets (k : Env) (b : Broker) (t : ℚ)
    (h : Reachable k b) :
    (∀ (x : Broker) (a : Address), (node_at x a).state.is_server = true →
      (node_at x a).server_state.open_slots ≤ 127 →
      -128 ≤ ((node_at x a).server_state.open_slots : Int) - (paired_slots x a : Int) →
      (server_open_slots x a).1
        = ((node_at x a).server_state.open_slots : Int) - (paired_slots x a : Int))
    ∧ (match_servers b t).multiplayer_servers = b.servers.filter (multiplayer_capable b)
    ∧ (match_servers b t).existing_multiplayer_slots
      = ((b.servers.filter (multiplayer_capable b)).map
        (fun a => (server_open_slots b a).1)).sum := by
  constructor
  · intro x a hs h1 h2
    rw [server_open_slots_value x a hs]
    have hw : wrap8 ((node_at x a).server_state.open_slots : Int)
        = ((node_at x a).server_state.open_slots : Int) :=
      wrap8_id _ (Int.ofNat_nonneg _) (by exact_mod_cast h1)
    rw [hw]
    exact slots_fold_exact x a x.clients_connecting _ (by exact_mod_cast h1) h2
  · have := match_servers_targets k t b b.servers [] (match_start b) h.full_inv rfl
      (fun a _ _ => ⟨rfl, fun _ => rfl⟩) rfl rfl
    simpa [match_servers] using this

/-- C21, witness: the state after step 4 of the first run is reachable; the
server advertises 1 open slot and is paired with a client asking for 2, and
server_open_slots returns 1 - 2; the first loop of the pass at time 3 collects
the servers the description gives. -/
theorem effective_slots_and_existing_targets_witness :
    Reachable example_env run4
    ∧ (node_at run4 example_server).state.is_server = true
    ∧ (node_at run4 example_server).server_state.open_slots ≤ 127
    ∧ -128 ≤ ((node_at run4 example_server).server_state.open_slots : Int)
        - (paired_slots run4 example_server : Int)
    ∧ (server_open_slots run4 example_server).1
      = ((node_at run4 example_server).server_state.open_slots : Int)
        - (paired_slots run4 example_server : Int)
    ∧ (match_servers run4 3).multiplayer_servers = run4.servers.filter (multiplayer_capable run4)
    ∧ (match_servers run4 3).existing_multiplayer_slots
      = ((run4.servers.filter (multiplayer_capable run4)).map
        (fun a => (server_open_slots run4 a).1)).sum :=
  have h := effective_slots_and_existing_targets example_env run4 3 run4_reachable
  ⟨run4_reachable, by decide, by decide, by decide,
    h.1 run4 example_server (by decide) (by decide) (by decide), h.2.1, h.2.2⟩

theorem skip1_reachable : Reachable example_env skip1 :=
  Reachable.packet _ _ _ _ _ (Reachable.packet _ _ _ _ _
    (Reachable.packet _ _ _ _ _ Reachable.init))

/-- C22, failing run: one ServerActive server with 4 open slots and two
waiting clients asking for 2 slots each; the state is reachable.  The server
is the only target of the pass at time 2.  Its scan pairs the first client,
whose removal moves the second client to index 0 of the waiting list, and
goes on at index 1, where the list ends.  After the pass the second client is
still ClientWaiting in the waiting list, asking for 2 slots, and the target
has 2 effective open slots left. -/
theorem fitting_client_skipped_by_scan :
    Reachable example_env skip1
    ∧ skip1.clients_waiting = [example_client, example_second_client]
    ∧ (match_alloc example_env 2 (match_servers skip1 2)).multiplayer_servers
      = [example_server]
    ∧ skip2 = match_assign 2 (match_alloc example_env 2 (match_servers skip1 2))
    ∧ skip2.clients_connecting = [{ client := example_client, server := example_server }]
    ∧ skip2.clients_waiting = [example_second_client]
    ∧ skip2.clients_waiting[1]? = none
    ∧ (node_at skip2 example_second_client).state = State.ClientWaiting
    ∧ (node_at skip2 example_second_client).server_state.open_slots = 2
    ∧ (server_open_slots skip2 example_server).1 = 2 :=
  ⟨skip1_reachable, by decide, by decide, rfl, by decide, by decide, by decide, by decide,
    by decide, by decide⟩

/-- C23: for every reachable broker state, the matchmaking pass at time t
appends a list new of pairings to the pairing list and a list ms of messages
to the messages sent, such that for every pairing of new (formed by the
assignment loop or by the story-mode step) either its server is ServerActive
and ms holds exactly one connect notice for its client, the one with the
address of the server, or its server is ServerLoading and ms holds no connect
notice for its client; and every connect notice in ms is the notice of a
pairing of new whose server is ServerActive, so none names a server that is
ServerLoading.  The state of the server is read after the pass; the servers
that are ServerActive after the pass are those that were before it. -/
theorem connect_notice_iff_target_active (k : Env) (b : Broker) (t : ℚ)
    (h : Reachable k b) :
    ∃ (new : List ClientConnection) (ms : List Outgoing),
      (matchmake k b t).clients_connecting = b.clients_connecting ++ new
      ∧ (matchmake k b t).sent = b.sent ++ ms
      ∧ (∀ p ∈ new,
        ((node_at (matchmake k b t) p.server).state = State.ServerActive
          ∧ ms.filter (Outgoing.connects p.client)
            = [Outgoing.ClientConnect t p.client p.server.host p.server.port])
        ∨ ((node_at (matchmake k b t) p.server).state = State.ServerLoading
          ∧ ms.filter (Outgoing.connects p.client) = []))
      ∧ (∀ m ∈ ms, m.is_connect = true →
        ∃ p ∈ new, m = Outgoing.ClientConnect t p.client p.server.host p.server.port
          ∧ (node_at (matchmake k b t) p.server).state = State.ServerActive)
      ∧ (∀ a, (node_at (matchmake k b t) a).state = State.ServerActive
        ↔ (node_at b a).state = State.ServerActive) := by
  have inv := h.full_inv
  obtain ⟨new, ms, h1, h2, h3, h4⟩ := tick_matchmake (log_kept k t b) b inv
    ⟨[], [], by simp [TickLog]⟩
  have inv' := inv.after_matchmake k b t
  have hnd : (new.map (fun q => q.client)).Nodup := by
    have := inv'.pairing.roles.pairing_nodup
    rw [h1, List.map_append] at this
    exact (List.nodup_append.mp this).2.1
  refine ⟨new, ms, h1, h2, ?_, ?_,
    (step_matchmake (active_kept k t b) b ⟨inv, fun _ => Iff.rfl⟩).2⟩
  · intro p hp
    have hfilter : ms.filter (Outgoing.connects p.client)
        = ((new.filter (fun q => decide ((node_at (matchmake k b t) q.server).state
            = State.ServerActive))).filter (fun q => decide (q.client = p.client))).map
          (connect_notice t) := by
      rw [filter_connects_eq, h4, filter_connects_notices]
    rw [List.filter_filter] at hfilter
    have hswap : new.filter (fun q => decide (q.client = p.client)
          && decide ((node_at (matchmake k b t) q.server).state = State.ServerActive))
        = (new.filter (fun q => decide (q.client = p.client))).filter
          (fun q => decide ((node_at (matchmake k b t) q.server).state
            = State.ServerActive)) := by
      rw [List.filter_filter]
      apply List.filter_congr
      intro q _
      exact Bool.and_comm _ _
    rw [hswap, filter_client_single new hnd p hp] at hfilter
    rcases h3 p hp with e | e
    · left
      refine ⟨e, ?_⟩
      rw [hfilter]
      simp [List.filter_cons, e, connect_notice]
    · right
      refine ⟨e, ?_⟩
      rw [hfilter]
      simp [List.filter_cons, e]
  · intro m hm hc
    have hmem : m ∈ ms.filter Outgoing.is_connect := List.mem_filter.mpr ⟨hm, hc⟩
    rw [h4] at hmem
    obtain ⟨p, hp, rfl⟩ := List.mem_map.mp hmem
    obtain ⟨hp1, hp2⟩ := List.mem_filter.mp hp
    exact ⟨p, hp1, rfl, by simpa using hp2⟩

/-- C23, witness: the state of the seventh run with one ServerActive server
and two waiting clients is reachable; the pass at time 2 forms pairings and
sends connect notices as the description says. -/
theorem connect_notice_iff_target_active_witness :
    Reachable example_env skip1
    ∧ ∃ (new : List ClientConnection) (ms : List Outgoing),
      (matchmake example_env skip1 2).clients_connecting = skip1.clients_connecting ++ new
      ∧ (matchmake example_env skip1 2).sent = skip1.sent ++ ms
      ∧ (∀ p ∈ new,
        ((node_at (matchmake example_env skip1 2) p.server).state = State.ServerActive
          ∧ ms.filter (Outgoing.connects p.client)
            = [Outgoing.ClientConnect 2 p.client p.server.host p.server.port])
        ∨ ((node_at (matchmake example_env skip1 2) p.server).state = State.ServerLoading
          ∧ ms.filter (Outgoing.connects p.client) = []))
      ∧ (∀ m ∈ ms, m.is_connect = true →
        ∃ p ∈ new, m = Outgoing.ClientConnect 2 p.client p.server.host p.server.port
          ∧ (node_at (matchmake example_env skip1 2) p.server).state = State.ServerActive)
      ∧ (∀ a, (node_at (matchmake example_env skip1 2) a).state = State.ServerActive
        ↔ (node_at skip1 a).state = State.ServerActive) :=
  ⟨skip1_reachable, connect_notice_iff_target_active example_env skip1 2 skip1_reachable⟩

theorem mixed1_reachable : Reachable example_env mixed1 :=
  Reachable.packet _ _ _ _ _ (Reachable.packet _ _ _ _ _ Reachable.init)

/-- C24, failing run: one ServerActive server with a multiplayer description
and 4 open slots, no idle server, and one waiting client asking for story
mode; the state is reachable.  The demand of the pass at time 2 leaves the
story-mode client out, but its assignment loop pairs the client with the
multiplayer server, whose description stays the multiplayer one, and sends
the client the connect notice. -/
theorem story_client_paired_with_multiplayer_server :
    Reachable example_env mixed1
    ∧ mixed1.servers = [example_server]
    ∧ (node_at mixed1 example_server).state = State.ServerActive
    ∧ (node_at mixed1 example_server).server_state.story_mode = false
    ∧ mixed1.clients_waiting = [example_client]
    ∧ (node_at mixed1 example_client).server_state = example_story
    ∧ example_story.story_mode = true
    ∧ valid_request example_env example_story
    ∧ waiting_demand mixed1 = 0
    ∧ (match_alloc example_env 2 (match_servers mixed1 2)).multiplayer_servers
      = [example_server]
    ∧ mixed2.clients_connecting = [{ client := example_client, server := example_server }]
    ∧ (node_at mixed2 example_client).state = State.ClientConnecting
    ∧ (node_at mixed2 example_server).state = State.ServerActive
    ∧ (node_at mixed2 example_server).server_state = ⟨1, 4, false, 2⟩
    ∧ mixed2.sent = [Outgoing.ClientConnect 2 example_client 1 1] :=
  ⟨mixed1_reachable, by decide, by decide, by decide, by decide, by decide, by decide,
    ⟨by decide, by decide, by decide, by decide⟩, by decide, by decide, by decide, by decide,
    by decide, by decide, by decide⟩

/-- C25: for every reachable broker state in which no server of the servers
list is ServerIdle and every one either has a story-mode description or has
no effective open slots left (server_open_slots <= 0), the matchmaking pass
gives back the state it started from: registry, servers list, waiting list,
pairing list and messages sent are as before, so that every waiting client is
still ClientWaiting and in the waiting list. -/
theorem pass_without_capacity_changes_nothing (k : Env) (b : Broker) (t : ℚ)
    (h : Reachable k b)
    (hidle : ∀ a ∈ b.servers, (node_at b a).state ≠ State.ServerIdle)
    (hcap : ∀ a ∈ b.servers, (node_at b a).server_state.story_mode = true
      ∨ (server_open_slots b a).1 ≤ 0) :
    matchmake k b t = b := by
  have inv := h.full_inv
  obtain ⟨tg, _⟩ := match_servers_targets k t b b.servers [] (match_start b) inv rfl
    (fun a _ _ => ⟨rfl, fun _ => rfl⟩) rfl rfl
  obtain ⟨hb, hi⟩ := match_servers_busy k t b inv b.servers (match_start b) rfl
    (fun _ ha => ha) hidle
  have hnone : b.servers.filter (multiplayer_capable b) = [] := by
    rw [List.filter_eq_nil_iff]
    intro a ha
    rw [multiplayer_capable_busy (inv.servers.servers_state a ha) (hidle a ha)]
    rcases hcap a ha with e | e
    · simp [e]
    · simp [not_lt.mpr e]
  rw [List.nil_append, hnone] at tg
  change (match_servers b t).multiplayer_servers = [] at tg
  change (match_servers b t).broker = b at hb
  change (match_servers b t).idle_servers = 0 at hi
  have hneeded : (needed_multiplayer_slots b).2 = b :=
    step_needed_multiplayer_slots (lookups_identity inv) b rfl
  have hzero : ∀ x : Int, (min 0 x).toNat = 0 := fun x =>
    Int.toNat_eq_zero.mpr (min_le_left 0 x)
  rw [matchmake_stages]
  unfold match_alloc match_assign
  simp only [hb, hi, server_allocs, hzero, alloc_loop, tg, List.foldl_nil, hneeded]

/-- C25, witness: after step 3 of the first run the server, ServerActive and
paired with a client asking for 2 slots, reports no open slot, and a second
client asks for 4 slots.  The state is reachable, the only server is not idle
and has no effective open slots left, and the pass at time 4 changes
nothing: the second client stays in the waiting list. -/
theorem pass_without_capacity_changes_nothing_witness :
    Reachable example_env full2
    ∧ (∀ a ∈ full2.servers, (node_at full2 a).state ≠ State.ServerIdle)
    ∧ (∀ a ∈ full2.servers, (node_at full2 a).server_state.story_mode = true
      ∨ (server_open_slots full2 a).1 ≤ 0)
    ∧ full2.clients_waiting = [example_second_client]
    ∧ matchmake example_env full2 4 = full2 :=
  have hr : Reachable example_env full2 :=
    Reachable.packet _ _ _ _ _ (Reachable.packet _ _ _ _ _ run3_reachable)
  ⟨hr, by decide, by decide, by decide,
    pass_without_capacity_changes_nothing example_env full2 4 hr (by decide) (by decide)⟩

theorem find_node_update_node_other (b : Broker) (a c : Address) (f : Node → Node)
    (hf : ∀ n, (f n).addr = n.addr) (hne : c ≠ a) :
    find_node (update_node b a f).nodes c = find_node b.nodes c := by
  have h1 : find_node (node_for_address b a).1.nodes c = find_node b.nodes c := by
    unfold node_for_address
    cases h : find_node b.nodes a with
    | some n => rfl
    | none =>
      simp only [find_node, List.find?_append]
      have : List.find? (fun n => decide (n.addr = c)) [Node.fresh a] = none := by
        simp [Node.fresh, List.find?_cons, Ne.symm hne]
      rw [this]
      simp
  simp only [update_node]
  rw [find_node_map _ _ _ _ hf, h1]
  cases hc : find_node b.nodes c with
  | none => rfl
  | some n =>
    have hn : n.addr = c := find_node_addr hc
    have hna : ¬ n.addr = a := by rw [hn]; exact hne
    simp [hna]

/-- C26: an accepted Ack from the address A at time t: packet_handle returns
true; the node of A is the node a lookup of A gave before (the registered one,
or a new one in state Invalid), with last_message_timestamp = t, and A has a
registry entry; the registry entries of all other addresses, the servers
list, the waiting list, the pairing list and the messages sent are as
before. -/
theorem ack_only_refreshes_timestamp (k : Env) (b : Broker) (A : Address) (t : ℚ) :
    (packet_handle k b true Packet.Ack A t).1 = true
    ∧ find_node (packet_handle k b true Packet.Ack A t).2.nodes A
      = some { node_at b A with last_message_timestamp := t }
    ∧ (find_node b.nodes A = none →
      (node_at (packet_handle k b true Packet.Ack A t).2 A).state = State.Invalid)
    ∧ (∀ c, c ≠ A →
      find_node (packet_handle k b true Packet.Ack A t).2.nodes c = find_node b.nodes c)
    ∧ (packet_handle k b true Packet.Ack A t).2.servers = b.servers
    ∧ (packet_handle k b true Packet.Ack A t).2.clients_waiting = b.clients_waiting
    ∧ (packet_handle k b true Packet.Ack A t).2.clients_connecting = b.clients_connecting
    ∧ (packet_handle k b true Packet.Ack A t).2.sent = b.sent := by
  have e : packet_handle k b true Packet.Ack A t
      = (true, update_node b A (fun n => { n with last_message_timestamp := t })) := rfl
  rw [e]
  refine ⟨rfl, find_node_update_node b A _ (fun _ => rfl), ?_, ?_, update_node_servers _ _ _,
    update_node_clients_waiting _ _ _, update_node_clients_connecting _ _ _,
    update_node_sent _ _ _⟩
  · intro hn
    simp only []
    rw [node_at_touch, if_pos rfl]
    unfold node_at
    rw [hn]
    rfl
  · intro c hc
    exact find_node_update_node_other b A c _ (fun _ => rfl) hc

/-- C26, witness: an Ack at time 5 from an address without registry entry, in
the state after step 3 of the first run: a node in state Invalid with time 5
is created, the rest is as before. -/
theorem ack_only_refreshes_timestamp_witness :
    find_node run3.nodes ⟨9, 9⟩ = none
    ∧ (packet_handle example_env run3 true Packet.Ack ⟨9, 9⟩ 5).1 = true
    ∧ find_node (packet_handle example_env run3 true Packet.Ack ⟨9, 9⟩ 5).2.nodes ⟨9, 9⟩
      = some { node_at run3 ⟨9, 9⟩ with last_message_timestamp := 5 }
    ∧ (node_at (packet_handle example_env run3 true Packet.Ack ⟨9, 9⟩ 5).2 ⟨9, 9⟩).state
      = State.Invalid
    ∧ (∀ c, c ≠ (⟨9, 9⟩ : Address) →
      find_node (packet_handle example_env run3 true Packet.Ack ⟨9, 9⟩ 5).2.nodes c
        = find_node run3.nodes c) :=
  have h := ack_only_refreshes_timestamp example_env run3 ⟨9, 9⟩ 5
  ⟨by decide, h.1, h.2.1, h.2.2.1 (by decide), h.2.2.2.1⟩

/-- C27 (amended): an accepted message that does not fit the state of its
sender: a ClientRequestServer with a valid description from a node in a server
state is rejected (packet_handle returns false), one from a node in
ClientConnecting is ignored (packet_handle returns true); in both cases, and
for a ServerStatusUpdate with the configured secret from a node in
ClientWaiting, ClientConnecting or ClientIdle, the state and the description
of the sender, the role lists, the pairings and the messages sent are as
before, and the last_message_timestamp of the sender is the time of the
message. -/
theorem misfit_message_changes_timestamp_only (k : Env) (b : Broker) (s : ServerState)
    (active : Bool) (addr : Address) (t : ℚ) (hv : valid_request k s) :
    ((node_at b addr).state.is_server = true →
      (packet_handle k b true (Packet.ClientRequestServer (some s)) addr t).1 = false)
    ∧ ((node_at b addr).state = State.ClientConnecting →
      (packet_handle k b true (Packet.ClientRequestServer (some s)) addr t).1 = true)
    ∧ (∀ p : Packet,
      (p = Packet.ClientRequestServer (some s)
          ∧ ((node_at b addr).state.is_server = true
            ∨ (node_at b addr).state = State.ClientConnecting))
        ∨ (p = Packet.ServerStatusUpdate k.secret active (some s)
          ∧ ((node_at b addr).state = State.ClientWaiting
            ∨ (node_at b addr).state = State.ClientConnecting
            ∨ (node_at b addr).state = State.ClientIdle)) →
      node_at (packet_handle k b true p addr t).2 addr
        = { node_at b addr with last_message_timestamp := t }
      ∧ (packet_handle k b true p addr t).2.servers = b.servers
      ∧ (packet_handle k b true p addr t).2.clients_waiting = b.clients_waiting
      ∧ (packet_handle k b true p addr t).2.clients_connecting = b.clients_connecting
      ∧ (packet_handle k b true p addr t).2.sent = b.sent) := by
  have hreq := request_invalid_eq_false k s hv
  have frame : node_at (update_node b addr (fun n => { n with last_message_timestamp := t })) addr
        = { node_at b addr with last_message_timestamp := t }
      ∧ (update_node b addr (fun n => { n with last_message_timestamp := t })).servers
        = b.servers
      ∧ (update_node b addr (fun n => { n with last_message_timestamp := t })).clients_waiting
        = b.clients_waiting
      ∧ (update_node b addr (fun n => { n with last_message_timestamp := t })).clients_connecting
        = b.clients_connecting
      ∧ (update_node b addr (fun n => { n with last_message_timestamp := t })).sent = b.sent :=
    ⟨by rw [node_at_touch, if_pos rfl], update_node_servers _ _ _,
      update_node_clients_waiting _ _ _, update_node_clients_connecting _ _ _,
      update_node_sent _ _ _⟩
  have hst : (node_at (update_node b addr
      (fun n => { n with last_message_timestamp := t })) addr).state = (node_at b addr).state := by
    rw [frame.1]
  have crs_server : (node_at b addr).state.is_server = true →
      packet_handle k b true (Packet.ClientRequestServer (some s)) addr t
        = (false, update_node b addr (fun n => { n with last_message_timestamp := t })) := by
    intro h
    rcases (is_server_iff _).mp h with e | e | e <;>
      simp [packet_handle, hreq, hst, e]
  have crs_connecting : (node_at b addr).state = State.ClientConnecting →
      packet_handle k b true (Packet.ClientRequestServer (some s)) addr t
        = (true, update_node b addr (fun n => { n with last_message_timestamp := t })) := by
    intro e
    simp [packet_handle, hreq, hst, e]
  have ssu : ((node_at b addr).state = State.ClientWaiting
        ∨ (node_at b addr).state = State.ClientConnecting
        ∨ (node_at b addr).state = State.ClientIdle) →
      (packet_handle k b true (Packet.ServerStatusUpdate k.secret active (some s)) addr t).2
        = update_node b addr (fun n => { n with last_message_timestamp := t }) := by
    intro h
    rcases h with e | e | e <;> simp [packet_handle, hst, e]
  refine ⟨fun h => by rw [crs_server h], fun h => by rw [crs_connecting h], ?_⟩
  rintro p (⟨rfl, h | h⟩ | ⟨rfl, h⟩)
  · rw [crs_server h]; exact frame
  · rw [crs_connecting h]; exact frame
  · rw [ssu h]; exact frame

/-- C27, counterexample: in the state after step 3 of the first run the
client is ClientConnecting; its valid ClientRequestServer at time 3, accepted
by the messenger, is not rejected: packet_handle returns true. -/
theorem request_while_connecting_not_rejected :
    (node_at run3 example_client).state = State.ClientConnecting
    ∧ valid_request example_env example_request
    ∧ (packet_handle example_env run3 true
        (Packet.ClientRequestServer (some example_request)) example_client 3).1 = true :=
  ⟨by decide, ⟨by decide, by decide, by decide, by decide⟩, by decide⟩

/-- C27 (amended), witness: in the state after step 3 of the first run, a
valid ClientRequestServer from the server is rejected and the one from the
connecting client ignored, and neither changes more than the timestamp. -/
theorem misfit_message_changes_timestamp_only_witness :
    valid_request example_env example_request
    ∧ (node_at run3 example_server).state.is_server = true
    ∧ (packet_handle example_env run3 true
        (Packet.ClientRequestServer (some example_request)) example_server 3).1 = false
    ∧ node_at (packet_handle example_env run3 true
        (Packet.ClientRequestServer (some example_request)) example_server 3).2 example_server
      = { node_at run3 example_server with last_message_timestamp := 3 }
    ∧ (packet_handle example_env run3 true
        (Packet.ClientRequestServer (some example_request)) example_server 3).2.servers
      = run3.servers :=
  have hv : valid_request example_env example_request :=
    ⟨by decide, by decide, by decide, by decide⟩
  have h := misfit_message_changes_timestamp_only example_env run3 example_request true
    example_server 3 hv
  have hs : (node_at run3 example_server).state.is_server = true := by decide
  have hf := h.2.2 (Packet.ClientRequestServer (some example_request))
    (Or.inl ⟨rfl, Or.inl hs⟩)
  ⟨hv, hs, h.1 hs, hf.1, hf.2.1⟩

/-- C28: in one iteration of the main loop the timestamp advances by
min(0.25, t - last_update), t being the reading of platform::time and
last_update the reading of the iteration before: never by more than 0.25, and
by t - last_update when that is at most 0.25; the reading is kept as
last_update. -/
theorem clock_advances_by_clamped_delta (k : Env) (s : Loop) (i : Input) :
    (proc_step k s i).timestamp - s.timestamp = min (1 / 4) (i.time - s.last_update)
    ∧ (proc_step k s i).timestamp - s.timestamp ≤ 1 / 4
    ∧ (i.time - s.last_update ≤ 1 / 4 →
      (proc_step k s i).timestamp - s.timestamp = i.time - s.last_update)
    ∧ (proc_step k s i).last_update = i.time := by
  have e : (proc_step k s i).timestamp - s.timestamp = min (1 / 4) (i.time - s.last_update) := by
    rw [proc_step_timestamp]; ring
  refine ⟨e, ?_, ?_, rfl⟩
  · rw [e]; exact min_le_left _ _
  · intro h
    rw [e]; exact min_eq_right h

/-- C28, witness: from the entry of the loop at clock reading 0, a reading of
10 advances the timestamp by 1/4 and a reading of 1/8 by 1/8. -/
theorem clock_advances_by_clamped_delta_witness :
    (proc_step example_env (proc_start 0) ⟨10, [], none⟩).timestamp - (proc_start 0).timestamp
      = 1 / 4
    ∧ ((⟨1 / 8, [], none⟩ : Input).time - (proc_start 0).last_update ≤ 1 / 4)
    ∧ (proc_step example_env (proc_start 0) ⟨1 / 8, [], none⟩).timestamp
        - (proc_start 0).timestamp
      = (⟨1 / 8, [], none⟩ : Input).time - (proc_start 0).last_update :=
  ⟨by
      rw [(clock_advances_by_clamped_delta example_env (proc_start 0) ⟨10, [], none⟩).1]
      decide!,
    by decide!,
    (clock_advances_by_clamped_delta example_env (proc_start 0) ⟨1 / 8, [], none⟩).2.2.1
      (by decide!)⟩

/-- C29: in every reachable broker state a registry node is in ServerActive,
ServerLoading or ServerIdle exactly when its address is in the servers list,
and every address of the servers list has such a node; no assertion of the
source has failed, and none fails in a matchmaking pass from that state (among
them the assertion of the pass that a listed server that is not ServerIdle is
ServerActive or ServerLoading). -/
theorem server_state_iff_in_servers_list (k : Env) (b : Broker) (h : Reachable k b) :
    (∀ n ∈ b.nodes, (n.state = State.ServerActive ∨ n.state = State.ServerLoading
      ∨ n.state = State.ServerIdle) ↔ n.addr ∈ b.servers)
    ∧ (∀ a ∈ b.servers, ∃ n ∈ b.nodes, n.addr = a ∧ (n.state = State.ServerActive
      ∨ n.state = State.ServerLoading ∨ n.state = State.ServerIdle))
    ∧ b.assert_failed = false
    ∧ ∀ t, (matchmake k b t).assert_failed = false := by
  have inv := h.full_inv
  have hiff : ∀ a, (node_at b a).state.is_server = true
      ↔ ((node_at b a).state = State.ServerActive ∨ (node_at b a).state = State.ServerLoading
        ∨ (node_at b a).state = State.ServerIdle) := by
    intro a
    rw [is_server_iff]
    tauto
  refine ⟨?_, ?_, h.asserts_held, fun t => (Reachable.matchmake b t h).asserts_held⟩
  · intro n hn
    have e := node_at_of_mem inv.pairing.keys hn
    have h1 := hiff n.addr
    rw [e] at h1
    rw [← h1, ← e, node_at_addr]
    exact ⟨inv.servers.server_listed n.addr, inv.servers.servers_state n.addr⟩
  · intro a ha
    have hs := inv.servers.servers_state a ha
    simp only [] at hs
    have hr : a ∈ registered b := registered_of_state (fun e => by
      rw [e] at hs
      exact Bool.false_ne_true hs)
    have hf := find_node_of_registered hr
    exact ⟨node_at b a, List.mem_of_find?_eq_some hf, node_at_addr b a, (hiff a).mp hs⟩

/-- C29, witness: the state after step 3 of the second run (a loading server
and its client) is reachable; its servers list and its server nodes agree and
no assertion fails. -/
theorem server_state_iff_in_servers_list_witness :
    Reachable example_env load3
    ∧ (∀ n ∈ load3.nodes, (n.state = State.ServerActive ∨ n.state = State.ServerLoading
      ∨ n.state = State.ServerIdle) ↔ n.addr ∈ load3.servers)
    ∧ (∀ a ∈ load3.servers, ∃ n ∈ load3.nodes, n.addr = a ∧ (n.state = State.ServerActive
      ∨ n.state = State.ServerLoading ∨ n.state = State.ServerIdle))
    ∧ load3.assert_failed = false
    ∧ ∀ t, (matchmake example_env load3 t).assert_failed = false :=
  ⟨Reachable.matchmake _ _ load2_reachable,
    server_state_iff_in_servers_list example_env load3
      (Reachable.matchmake _ _ load2_reachable)⟩

/-- C30: in every reachable broker state no address is twice in the servers
list and no address is twice in the waiting list. -/
theorem role_lists_without_duplicates (k : Env) (b : Broker) (h : Reachable k b) :
    b.servers.Nodup ∧ b.clients_waiting.Nodup :=
  ⟨h.full_inv.servers.servers_nodup, h.full_inv.pairing.roles.waiting_nodup⟩

/-- C30, witness: the state of the third run with one server and two waiting
clients is reachable and its lists have no duplicates. -/
theorem role_lists_without_duplicates_witness :
    Reachable example_env pair1 ∧ pair1.servers.Nodup ∧ pair1.clients_waiting.Nodup :=
  ⟨pair1_reachable, role_lists_without_duplicates example_env pair1 pair1_reachable⟩

/-! ## Roles, descriptions and the conservation of clients -/

/-! ### What a message makes of the node of its sender -/

/-- The node of the sender after a message other than Disconnect: its state
and description are as before; or a valid ClientRequestServer made an Invalid,
ClientIdle or ClientWaiting node ClientWaiting with the requested description;
or a ServerLoading node became ServerActive with its description; or a
ServerStatusUpdate made an Invalid, ServerActive or ServerIdle node
ServerActive or ServerIdle. -/
theorem packet_handle_sender_node (k : Env) (b : Broker) (received : Bool) (p : Packet)
    (addr : Address) (timestamp : ℚ) (hp : p ≠ Packet.Disconnect) :
    ((node_at (packet_handle k b received p addr timestamp).2 addr).state
        = (node_at b addr).state
      ∧ (node_at (packet_handle k b received p addr timestamp).2 addr).server_state
        = (node_at b addr).server_state)
    ∨ (((node_at b addr).state = State.Invalid ∨ (node_at b addr).state = State.ClientIdle
        ∨ (node_at b addr).state = State.ClientWaiting)
      ∧ (node_at (packet_handle k b received p addr timestamp).2 addr).state
        = State.ClientWaiting
      ∧ valid_request k
        (node_at (packet_handle k b received p addr timestamp).2 addr).server_state)
    ∨ ((node_at b addr).state = State.ServerLoading
      ∧ (node_at (packet_handle k b received p addr timestamp).2 addr).state
        = State.ServerActive
      ∧ (node_at (packet_handle k b received p addr timestamp).2 addr).server_state
        = (node_at b addr).server_state)
    ∨ (((node_at b addr).state = State.Invalid ∨ (node_at b addr).state = State.ServerActive
        ∨ (node_at b addr).state = State.ServerIdle)
      ∧ ((node_at (packet_handle k b received p addr timestamp).2 addr).state
          = State.ServerActive
        ∨ (node_at (packet_handle k b received p addr timestamp).2 addr).state
          = State.ServerIdle)) := by
  cases received with
  | false => exact Or.inl ⟨rfl, rfl⟩
  | true =>
    cases p with
    | Disconnect => exact absurd rfl hp
    | Ack => left; simp [packet_handle, node_at_touch]
    | ServerLoad => left; simp [packet_handle, node_at_touch]
    | ClientConnect => left; simp [packet_handle, node_at_touch]
    | ClientRequestServer os =>
      cases os with
      | none => left; simp [packet_handle, node_at_touch]
      | some s =>
        simp only [packet_handle, Bool.not_true, Bool.false_eq_true, if_false]
        by_cases hv : request_invalid k s = true
        · left
          simp [hv, node_at_touch]
        · have hval : valid_request k s := by
            simp only [request_invalid, Bool.or_eq_true, Bool.and_eq_true, decide_eq_true_eq,
              not_or, not_and, not_lt, not_le, beq_iff_eq, bne_iff_ne, ne_eq] at hv
            obtain ⟨⟨⟨⟨h1, h2⟩, h3⟩, h4⟩, h5⟩ := hv
            exact ⟨h1, h3, h2, fun hs => ⟨by simpa using h4 hs, by simpa using h5 hs⟩⟩
          simp only [hv, Bool.false_eq_true, if_false]
          by_cases hc : (node_at b addr).state = State.ClientConnecting
          · left
            simp [node_at_touch, hc]
          · by_cases hw : (node_at b addr).state = State.Invalid
                ∨ (node_at b addr).state = State.ClientIdle
                ∨ (node_at b addr).state = State.ClientWaiting
            · right; left
              refine ⟨hw, ?_, ?_⟩
              · simp [node_at_touch, hc, hw, node_at_set_state]
              · simp [node_at_touch, hc, hw, node_at_set_state, node_at_set_server_state,
                  node_at_mk]
                split_ifs <;>
                  simpa [node_at_set_server_state, node_at_mk, node_at_touch] using hval
            · left
              simp [node_at_touch, hc, hw]
    | ServerStatusUpdate secret active os =>
      cases os with
      | none =>
        left
        simp only [packet_handle, Bool.not_true, Bool.false_eq_true, if_false]
        split_ifs <;> simp [node_at_touch]
      | some s =>
        simp only [packet_handle, Bool.not_true, Bool.false_eq_true, if_false]
        by_cases hsec : secret ≠ k.secret
        · left
          simp [hsec, node_at_touch]
        · simp only [hsec, if_false]
          by_cases hl : (node_at b addr).state = State.ServerLoading
          · by_cases he : (s.equals (node_at b addr).server_state && active) = true
            · right; right; left
              have hs : s = (node_at b addr).server_state := by
                simp only [ServerState.equals, Bool.and_eq_true, decide_eq_true_eq] at he
                exact he.1
              refine ⟨hl, ?_, ?_⟩
              · simp [node_at_touch, hl, he, node_at_set_both, connect_fold, node_at_mk]
              · simp [node_at_touch, hl, he, node_at_set_both, connect_fold, node_at_mk]
                exact hs
            · left
              simp [node_at_touch, hl, he]
          · by_cases hv : (node_at b addr).state = State.Invalid
                ∨ (node_at b addr).state = State.ServerActive
                ∨ (node_at b addr).state = State.ServerIdle
            · right; right; right
              refine ⟨hv, ?_⟩
              cases active <;>
                simp [node_at_touch, hl, hv, node_at_set_state, node_at_mk]
            · left
              simp [node_at_touch, hl, hv]

/-! ### What an eviction and a pass make of a node -/

/-- The node of an address after disconnected, from a state with the
invariant of the lists: the evicted address reads as a fresh node; every other
node is as before, except that a client paired with the evicted server, which
was ClientConnecting, is ClientWaiting. -/
theorem disconnected_node_cases {b : Broker} (A : Address) (h : FullInv b) (a : Address) :
    (a = A ∧ node_at (disconnected b A) a = Node.fresh A)
    ∨ (a ≠ A ∧ node_at (disconnected b A) a = node_at b a)
    ∨ (a ≠ A ∧ (node_at b a).state = State.ClientConnecting
      ∧ (node_at b A).state.is_server = true
      ∧ node_at (disconnected b A) a = { node_at b a with state := State.ClientWaiting }) := by
  have hn := (disconnected_facts b A).node a
  by_cases e : a = A
  · left
    rw [if_pos e] at hn
    exact ⟨e, hn⟩
  · rw [if_neg e] at hn
    by_cases hc : (node_at b A).state.is_server = true
        ∧ a ∈ (b.clients_connecting.filter (fun c => decide (c.server = A))).map
          (fun c => c.client)
    · right; right
      rw [if_pos hc] at hn
      obtain ⟨p, hp, hpa⟩ := List.mem_map.1 hc.2
      have hst := h.pairing.roles.pairing_state p (List.mem_filter.1 hp).1
      simp only [] at hst
      rw [hpa] at hst
      exact ⟨e, hst, hc.1, hn⟩
    · right; left
      rw [if_neg hc] at hn
      exact ⟨e, hn⟩

/-- A property of the state that disconnected keeps from every state with the
invariant of the lists is kept by a series of evictions. -/
theorem disconnected_list_kept {R : Broker → Prop}
    (hstep : ∀ b A, FullInv b → R b → R (disconnected b A)) (l : List Address) (b : Broker)
    (h : FullInv b) (hr : R b) : R (l.foldl disconnected b) := by
  induction l generalizing b with
  | nil => exact hr
  | cons A rest ih =>
    rw [List.foldl_cons]
    exact ih _ (h.after_disconnected A) (hstep b A h hr)

/-- Through the matchmaking pass a node is as at the start of the pass, or it
was ServerIdle and is ServerLoading, or it was ClientWaiting and is
ClientConnecting with nothing else changed. -/
theorem moves_kept (k : Env) (t : ℚ) (b0 : Broker) :
    PassStep k t (fun b => FullInv b ∧ ∀ a,
      node_at b a = node_at b0 a
      ∨ ((node_at b0 a).state = State.ServerIdle
        ∧ (node_at b a).state = State.ServerLoading)
      ∨ ((node_at b0 a).state = State.ClientWaiting
        ∧ node_at b a = { node_at b0 a with state := State.ClientConnecting })) where
  lookup b x h hm :=
    ⟨(FullInv.step k t).lookup b x h.1 hm, fun a => by
      rw [node_at_node_for_address]; exact h.2 a⟩
  assert b x h hm hs := ⟨(FullInv.step k t).assert b x h.1 hm hs, h.2⟩
  load b x s h hm hs hd := by
    refine ⟨(FullInv.step k t).load b x s h.1 hm hs hd, fun a => ?_⟩
    rw [node_at_send_server_load]
    by_cases e : a = x
    · rw [if_pos e]
      rcases h.2 x with h1 | h1 | h1
      · right; left
        rw [e, ← h1]
        exact ⟨hs, rfl⟩
      · rw [h1.2] at hs
        exact State.noConfusion hs
      · rw [h1.2] at hs
        exact State.noConfusion hs
    · rw [if_neg e]
      exact h.2 a
  join b server c h hc hsrv := by
    refine ⟨(FullInv.step k t).join b server c h.1 hc hsrv, fun a => ?_⟩
    have hcw := h.1.pairing.roles.waiting_state c hc
    simp only [] at hcw
    rw [node_at_client_queue_join]
    by_cases e : a = c
    · rw [if_pos e]
      rcases h.2 c with h1 | h1 | h1
      · right; right
        rw [e, ← h1]
        exact ⟨hcw, rfl⟩
      · rw [h1.2] at hcw
        exact State.noConfusion hcw
      · rw [h1.2] at hcw
        exact State.noConfusion hcw
    · rw [if_neg e]
      exact h.2 a
  connect b server c h hp hsrv hne :=
    ⟨(FullInv.step k t).connect b server c h.1 hp hsrv hne, h.2⟩

/-- The nodes after the matchmaking pass, from a state with the invariant of
the lists. -/
theorem matchmake_moves (k : Env) (t : ℚ) (b : Broker) (h : FullInv b) (a : Address) :
    node_at (matchmake k b t) a = node_at b a
    ∨ ((node_at b a).state = State.ServerIdle
      ∧ (node_at (matchmake k b t) a).state = State.ServerLoading)
    ∨ ((node_at b a).state = State.ClientWaiting
      ∧ node_at (matchmake k b t) a
        = { node_at b a with state := State.ClientConnecting }) :=
  (step_matchmake (moves_kept k t b) b ⟨h, fun _ => Or.inl rfl⟩).2 a

/-- An accepted Disconnect is the eviction of the sender after the refresh of
its timestamp. -/
theorem packet_handle_disconnect (k : Env) (b : Broker) (addr : Address) (t : ℚ) :
    (packet_handle k b true Packet.Disconnect addr t).2
      = disconnected (update_node b addr (fun n => { n with last_message_timestamp := t }))
        addr := by
  simp [packet_handle]

/-- A rule on the state and the description of a node holds for every node of
every reachable state when it holds for a fresh node, for every server state,
for a ClientWaiting node with a valid description, and passes from
ClientConnecting to ClientWaiting and back with the description kept. -/
theorem Reachable.node_rule {k : Env} {b : Broker} (h : Reachable k b)
    (Q : State → ServerState → Prop)
    (hfresh : Q State.Invalid ⟨0, 0, false, 0⟩)
    (hserver : ∀ x d, x.is_server = true → Q x d)
    (hrequest : ∀ d, valid_request k d → Q State.ClientWaiting d)
    (hreset : ∀ d, Q State.ClientConnecting d → Q State.ClientWaiting d)
    (hjoin : ∀ d, Q State.ClientWaiting d → Q State.ClientConnecting d) (a : Address) :
    Q (node_at b a).state (node_at b a).server_state := by
  induction h generalizing a with
  | init => exact hfresh
  | packet b received p addr timestamp hb ih =>
    cases received with
    | false => rw [packet_handle_not_received]; exact ih a
    | true =>
      by_cases hp : p = Packet.Disconnect
      · subst hp
        rw [packet_handle_disconnect]
        have htouch : ∀ c, Q (node_at (update_node b addr
            (fun n => { n with last_message_timestamp := timestamp })) c).state
            (node_at (update_node b addr
            (fun n => { n with last_message_timestamp := timestamp })) c).server_state := by
          intro c
          rw [node_at_touch]
          split
          · next e => rw [← e]; exact ih c
          · exact ih c
        rcases disconnected_node_cases addr (hb.full_inv.touch addr timestamp) a with
          h1 | h1 | h1
        · rw [h1.2]; exact hfresh
        · rw [h1.2]; exact htouch a
        · rw [h1.2.2.2]
          have := htouch a
          rw [h1.2.1] at this
          exact hreset _ this
      · by_cases e : a = addr
        · subst e
          rcases packet_handle_sender_node k b true p a timestamp hp with h1 | h1 | h1 | h1
          · rw [h1.1, h1.2]; exact ih a
          · rw [h1.2.1]; exact hrequest _ h1.2.2
          · rw [h1.2.1]; exact hserver _ _ rfl
          · rcases h1.2 with h2 | h2 <;> rw [h2] <;> exact hserver _ _ rfl
        · rw [packet_handle_other k b true p addr timestamp hp a e]
          exact ih a
  | audit b timestamp order hb _ ih =>
    refine disconnected_list_kept
      (R := fun y => ∀ c, Q (node_at y c).state (node_at y c).server_state)
      ?_ order b hb.full_inv ih a
    intro y A hy hr c
    rcases disconnected_node_cases A hy c with h1 | h1 | h1
    · rw [h1.2]; exact hfresh
    · rw [h1.2]; exact hr c
    · rw [h1.2.2.2]
      have := hr c
      rw [h1.2.1] at this
      exact hreset _ this
  | matchmake b timestamp hb ih =>
    rcases matchmake_moves k timestamp b hb.full_inv a with h1 | h1 | h1
    · rw [h1]; exact ih a
    · rw [h1.2]; exact hserver _ _ rfl
    · rw [h1.2]
      have := ih a
      rw [h1.1] at this
      exact hjoin _ this

/-! ### The eviction of a node that is no server -/

/-- The function disconnected on an address whose node is in no server state:
the registry loses the nodes of the address and nothing else, the servers
list is untouched, the waiting list is untouched unless the node is
ClientWaiting, and the pairing list is untouched unless the node is
ClientConnecting. -/
theorem disconnected_of_client (b : Broker) (A : Address)
    (hs : (node_at b A).state.is_server = false) :
    (disconnected b A).nodes = b.nodes.filter (fun n => !decide (n.addr = A))
    ∧ (disconnected b A).servers = b.servers
    ∧ ((node_at b A).state ≠ State.ClientWaiting →
      (disconnected b A).clients_waiting = b.clients_waiting)
    ∧ ((node_at b A).state ≠ State.ClientConnecting →
      (disconnected b A).clients_connecting = b.clients_connecting) := by
  have hs' : ¬ ((node_for_address b A).2.state = State.ServerActive
      ∨ (node_for_address b A).2.state = State.ServerLoading
      ∨ (node_for_address b A).2.state = State.ServerIdle) := by
    rw [node_for_address_snd]
    intro h
    rcases h with e | e | e <;> rw [e] at hs <;> exact Bool.noConfusion hs
  have hnodes : (node_for_address b A).1.nodes.filter (fun n => !decide (n.addr = A))
      = b.nodes.filter (fun n => !decide (n.addr = A)) := by
    unfold node_for_address
    cases find_node b.nodes A with
    | some n => rfl
    | none => simp [List.filter_append, Node.fresh]
  have hS0 := node_for_address_servers b A
  have hW0 := node_for_address_clients_waiting b A
  have hP0 := node_for_address_clients_connecting b A
  have hst := node_for_address_snd b A
  unfold disconnected
  dsimp only
  rw [if_neg hs']
  by_cases hw : (node_for_address b A).2.state = State.ClientWaiting
  · rw [if_pos hw]
    refine ⟨hnodes, hS0, fun h => absurd (hst ▸ hw) h, fun _ => hP0⟩
  · rw [if_neg hw]
    by_cases hc : (node_for_address b A).2.state = State.ClientConnecting
    · rw [if_pos hc]
      exact ⟨hnodes, hS0, fun _ => hW0, fun h => absurd (hst ▸ hc) h⟩
    · rw [if_neg hc]
      exact ⟨hnodes, hS0, fun _ => hW0, fun _ => hP0⟩

/-! ### The role of a node from step to step -/

theorem role_kept_refl (s : State) : role_kept s s := ⟨id, id⟩

theorem role_kept_of_eq {s s2 : State} (h : s2 = s) : role_kept s s2 := by
  rw [h]; exact role_kept_refl s

/-- The node of an address that a series of evictions does not evict, from a
state with the invariant of the lists: it is as before, except that a
ClientConnecting client whose server was evicted is ClientWaiting. -/
theorem disconnected_list_node {b : Broker} (h : FullInv b) (l : List Address) (a : Address)
    (ha : a ∉ l) :
    node_at (l.foldl disconnected b) a = node_at b a
    ∨ ((node_at b a).state = State.ClientConnecting
      ∧ node_at (l.foldl disconnected b) a
        = { node_at b a with state := State.ClientWaiting }) := by
  induction l generalizing b with
  | nil => exact Or.inl rfl
  | cons x xs ih =>
    rw [List.foldl_cons]
    have hx : a ≠ x := fun e => ha (e ▸ List.mem_cons_self _ _)
    have hxs : a ∉ xs := fun e => ha (List.mem_cons_of_mem _ e)
    rcases disconnected_node_cases x h a with h1 | h1 | h1
    · exact absurd h1.1 hx
    · rcases ih (h.after_disconnected x) hxs with h2 | h2
      · left; rw [h2, h1.2]
      · right
        rw [h1.2] at h2
        exact h2
    · rcases ih (h.after_disconnected x) hxs with h2 | h2
      · right
        exact ⟨h1.2.1, by rw [h2, h1.2.2.2]⟩
      · rw [h1.2.2.2] at h2
        exact State.noConfusion h2.1

/-- From a state with the invariant of the lists every step keeps the role of
every node that it does not remove: a message does unless it is an accepted
Disconnect from the address, a series of evictions does unless the address is
among the evicted, and a matchmaking pass always does.  An accepted
ServerStatusUpdate with the configured secret from a node in ClientWaiting or
ClientConnecting leaves its state and the servers list as they are. -/
theorem role_step (k : Env) (b : Broker) (inv : FullInv b) (a : Address) :
    (∀ (received : Bool) (p : Packet) (addr : Address) (t : ℚ),
      role_kept (node_at b a).state (node_at (packet_handle k b received p addr t).2 a).state
      ∨ (received = true ∧ p = Packet.Disconnect ∧ addr = a
        ∧ find_node (packet_handle k b received p addr t).2.nodes a = none))
    ∧ (∀ order : List Address,
      role_kept (node_at b a).state (node_at (order.foldl disconnected b) a).state
      ∨ (a ∈ order ∧ find_node (order.foldl disconnected b).nodes a = none))
    ∧ (∀ t : ℚ, role_kept (node_at b a).state (node_at (matchmake k b t) a).state)
    ∧ (∀ (active : Bool) (s : ServerState) (t : ℚ), (node_at b a).state.is_asking = true →
      (node_at (packet_handle k b true
          (Packet.ServerStatusUpdate k.secret active (some s)) a t).2 a).state
        = (node_at b a).state
      ∧ (packet_handle k b true
          (Packet.ServerStatusUpdate k.secret active (some s)) a t).2.servers = b.servers) := by
  have reset : ∀ n : Node, n.state = State.ClientConnecting →
      role_kept n.state ({ n with state := State.ClientWaiting } : Node).state := by
    intro n e
    rw [e]
    exact ⟨fun x => Bool.noConfusion x, fun _ => rfl⟩
  refine ⟨?_, ?_, ?_, ?_⟩
  · intro received p addr t
    cases received with
    | false => left; rw [packet_handle_not_received]; exact role_kept_refl _
    | true =>
      by_cases hp : p = Packet.Disconnect
      · subst hp
        rw [packet_handle_disconnect]
        have htouch : (node_at (update_node b addr
            (fun n => { n with last_message_timestamp := t })) a).state
            = (node_at b a).state := by
          rw [node_at_touch]
          split
          · next e => rw [e]
          · rfl
        rcases disconnected_node_cases addr (inv.touch addr t) a with h1 | h1 | h1
        · right
          refine ⟨rfl, rfl, h1.1.symm, ?_⟩
          rw [h1.1]
          exact find_node_disconnected _ _
        · left
          rw [h1.2, htouch]
          exact role_kept_refl _
        · left
          rw [h1.2.2.2]
          have := reset _ h1.2.1
          rw [htouch] at this
          exact this
      · left
        by_cases e : a = addr
        · subst e
          rcases packet_handle_sender_node k b true p a t hp with h1 | h1 | h1 | h1
          · exact role_kept_of_eq h1.1
          · rw [h1.2.1]
            rcases h1.1 with e | e | e <;> rw [e] <;>
              exact ⟨fun x => Bool.noConfusion x, fun _ => rfl⟩
          · rw [h1.2.1, h1.1]
            exact ⟨fun _ => rfl, fun x => Bool.noConfusion x⟩
          · rcases h1.2 with e2 | e2 <;> rw [e2] <;> rcases h1.1 with e | e | e <;> rw [e] <;>
              exact ⟨fun _ => rfl, fun x => Bool.noConfusion x⟩
        · rw [packet_handle_other k b true p addr t hp a e]
          exact role_kept_refl _
  · intro order
    by_cases ha : a ∈ order
    · right
      refine ⟨ha, ?_⟩
      rw [← not_mem_registered_iff, mem_registered_disconnected_list order inv]
      exact fun x => x.2 ha
    · left
      rcases disconnected_list_node inv order a ha with h1 | h1
      · rw [h1]; exact role_kept_refl _
      · rw [h1.2]; exact reset _ h1.1
  · intro t
    rcases matchmake_moves k t b inv a with h1 | h1 | h1
    · rw [h1]; exact role_kept_refl _
    · rw [h1.1, h1.2]
      exact ⟨fun _ => rfl, fun x => Bool.noConfusion x⟩
    · rw [h1.2, h1.1]
      exact ⟨fun x => Bool.noConfusion x, fun _ => rfl⟩
  · intro active s t ha
    have hns : (node_at b a).state.is_server = false := by
      cases hst : (node_at b a).state <;> rw [hst] at ha <;>
        first | rfl | exact Bool.noConfusion ha
    have hni : (node_at b a).state ≠ State.Invalid := by
      intro e; rw [e] at ha; exact Bool.noConfusion ha
    constructor
    · rcases packet_handle_sender_node k b true
          (Packet.ServerStatusUpdate k.secret active (some s)) a t (fun e => Packet.noConfusion e)
        with h1 | h1 | h1 | h1
      · exact h1.1
      · rcases h1.1 with e | e | e
        · exact absurd e hni
        · rw [e] at ha; exact Bool.noConfusion ha
        · rw [h1.2.1, e]
      · rw [h1.1] at ha; exact Bool.noConfusion ha
      · rcases h1.1 with e | e | e
        · exact absurd e hni
        · rw [e] at ha; exact Bool.noConfusion ha
        · rw [e] at ha; exact Bool.noConfusion ha
    · rcases packet_handle_sender k b true
          (Packet.ServerStatusUpdate k.secret active (some s)) a t (fun e => Packet.noConfusion e)
        with h1 | h1
      · exact h1.2
      · exact absurd h1.1 hni

/-! ### The clients through a pass -/

/-- Through the matchmaking pass the registry holds the same addresses in the
same order, pairings are only appended to the pairing list, and the waiting
list together with the clients of the appended pairings is a rearrangement of
the waiting list at the start. -/
theorem clients_kept (k : Env) (t : ℚ) (b0 : Broker) :
    PassStep k t (fun b => FullInv b ∧ registered b = registered b0
      ∧ ∃ new : List ClientConnection,
        b.clients_connecting = b0.clients_connecting ++ new
        ∧ (b.clients_waiting ++ new.map (fun p => p.client)).Perm b0.clients_waiting) where
  lookup b a h hm := by
    refine ⟨(FullInv.step k t).lookup b a h.1 hm, ?_, ?_⟩
    · rw [node_for_address_of_registered (h.1.listed_registered hm)]; exact h.2.1
    · rw [node_for_address_clients_connecting, node_for_address_clients_waiting]
      exact h.2.2
  assert b a h hm hs := ⟨(FullInv.step k t).assert b a h.1 hm hs, h.2.1, h.2.2⟩
  load b a s h hm hs hd := by
    refine ⟨(FullInv.step k t).load b a s h.1 hm hs hd, ?_, ?_⟩
    · have e : registered (send_server_load t b a s) = registered (update_node b a
          (fun n => { n with state := State.ServerLoading, server_state := s })) := rfl
      have key := registered_update_node b a
        (fun n => { n with state := State.ServerLoading, server_state := s }) (fun _ => rfl)
      rw [e, key, node_for_address_of_registered (h.1.listed_registered (Or.inl hm))]
      exact h.2.1
    · rw [send_server_load_clients_connecting, send_server_load_clients_waiting]
      exact h.2.2
  join b server c h hc hsrv := by
    refine ⟨(FullInv.step k t).join b server c h.1 hc hsrv, ?_, ?_⟩
    · have key := registered_update_node b c
        (fun n => { n with state := State.ClientConnecting }) (fun _ => rfl)
      rw [registered_of_nodes_eq (client_queue_join_nodes b server c), key,
        node_for_address_of_registered (h.1.listed_registered (Or.inr (Or.inl hc)))]
      exact h.2.1
    · obtain ⟨new, h1, h2⟩ := h.2.2
      refine ⟨new ++ [{ client := c, server := server }], ?_, ?_⟩
      · rw [client_queue_join_clients_connecting, h1, List.append_assoc]
      · have hp := client_queue_join_waiting_perm b server c hc
        have h3 : ((client_queue_join b server c).clients_waiting
            ++ (new ++ [({ client := c, server := server } : ClientConnection)]).map
              (fun p => p.client)).Perm
            (b.clients_waiting ++ new.map (fun p => p.client)) := by
          rw [List.map_append, List.map_singleton]
          have h4 : (b.clients_waiting.erase c ++ (new.map (fun p => p.client) ++ [c])).Perm
              (b.clients_waiting ++ new.map (fun p => p.client)) := by
            have h5 := (List.perm_cons_erase hc).symm
            have h6 : (b.clients_waiting.erase c ++ (new.map (fun p => p.client) ++ [c])).Perm
                (c :: (b.clients_waiting.erase c ++ new.map (fun p => p.client))) := by
              rw [← List.append_assoc]
              exact List.perm_append_singleton _ _
            exact h6.trans ((List.Perm.append_right _ h5))
          exact (List.Perm.append_right _ hp).trans h4
        exact h3.trans h2
  connect b server c h hp hsrv hne :=
    ⟨(FullInv.step k t).connect b server c h.1 hp hsrv hne, h.2.1, h.2.2⟩

/-! ### The ServerLoad messages of a pass -/

theorem loads_of_mem {a : Address} {m : Outgoing} (h : Outgoing.loads a m = true) :
    ∃ (t : ℚ) (s : ServerState), m = Outgoing.ServerLoad t a s := by
  cases m with
  | ServerLoad t dest s =>
    simp only [Outgoing.loads, decide_eq_true_eq] at h
    exact ⟨t, s, by rw [h]⟩
  | ClientConnect t dest host port => exact Bool.noConfusion h

theorem LoadLog.carry {t : ℚ} {b0 b b1 : Broker} {ms : List Outgoing} (h : LoadLog t b0 b ms)
    (hsent : b1.sent = b.sent)
    (hnode : ∀ a, (node_at b a).state = State.ServerLoading → node_at b1 a = node_at b a) :
    LoadLog t b0 b1 ms := by
  refine ⟨hsent.trans h.1, fun t2 a s hm => ?_⟩
  obtain ⟨h1, h2, h3, h4, h5, h6⟩ := h.2 t2 a s hm
  refine ⟨h1, h2, h3, ?_, ?_, h6⟩
  · rw [hnode a h4]; exact h4
  · rw [hnode a h4]; exact h5

/-- Through the matchmaking pass the servers list stays, no server becomes
ServerIdle, and the ServerLoad messages sent are as LoadLog says. -/
theorem loads_kept (k : Env) (t : ℚ) (b0 : Broker) :
    PassStep k t (fun b => FullInv b ∧ b.servers = b0.servers
      ∧ (∀ a, (node_at b a).state = State.ServerIdle → (node_at b0 a).state = State.ServerIdle)
      ∧ ∃ ms, LoadLog t b0 b ms) where
  lookup b x h hm := by
    obtain ⟨h1, h2, h3, ms, h4⟩ := h
    refine ⟨(FullInv.step k t).lookup b x h1 hm, ?_, ?_, ms, ?_⟩
    · rw [node_for_address_servers]; exact h2
    · intro a; rw [node_at_node_for_address]; exact h3 a
    · exact h4.carry (node_for_address_sent b x) (fun a _ => node_at_node_for_address b x a)
  assert b x h hm hs := by
    obtain ⟨h1, h2, h3, ms, h4⟩ := h
    exact ⟨(FullInv.step k t).assert b x h1 hm hs, h2, h3, ms, h4.carry rfl (fun _ _ => rfl)⟩
  load b x s h hm hs hd := by
    obtain ⟨h1, h2, h3, ms, h4⟩ := h
    refine ⟨(FullInv.step k t).load b x s h1 hm hs hd, ?_, ?_,
      ms ++ [Outgoing.ServerLoad t x s], ?_, ?_⟩
    · rw [send_server_load_servers]; exact h2
    · intro a
      rw [node_at_send_server_load]
      split
      · intro e; exact State.noConfusion e
      · exact h3 a
    · rw [send_server_load_sent, h4.1, List.append_assoc]
    · have hnone : ms.filter (Outgoing.loads x) = [] := by
        rw [List.filter_eq_nil_iff]
        intro m hm2 hl
        obtain ⟨t2, s2, e⟩ := loads_of_mem hl
        rw [e] at hm2
        have := (h4.2 t2 x s2 hm2).2.2.2.1
        rw [hs] at this
        exact State.noConfusion this
      intro t2 a s2 hm2
      rcases List.mem_append.mp hm2 with hm3 | hm3
      · obtain ⟨g1, g2, g3, g4, g5, g6⟩ := h4.2 t2 a s2 hm3
        have hne : a ≠ x := fun e => by
          rw [e, hs] at g4
          exact State.noConfusion g4
        refine ⟨g1, g2, g3, ?_, ?_, ?_⟩
        · rw [node_at_send_server_load, if_neg hne]; exact g4
        · rw [node_at_send_server_load, if_neg hne]; exact g5
        · rw [List.filter_append, g6]
          simp [List.filter_cons, Outgoing.loads, Ne.symm hne]
      · rw [List.mem_singleton] at hm3
        injection hm3 with e1 e2 e3
        subst e1 e2 e3
        refine ⟨rfl, h2 ▸ hm, h3 a hs, ?_, ?_, ?_⟩
        · rw [node_at_send_server_load, if_pos rfl]
        · rw [node_at_send_server_load, if_pos rfl]
        · rw [List.filter_append, hnone]
          simp [List.filter_cons, Outgoing.loads]
  join b server c h hc hsrv := by
    obtain ⟨h1, h2, h3, ms, h4⟩ := h
    have hcw := h1.pairing.roles.waiting_state c hc
    simp only [] at hcw
    refine ⟨(FullInv.step k t).join b server c h1 hc hsrv, ?_, ?_, ms, ?_⟩
    · rw [client_queue_join_servers]; exact h2
    · intro a
      rw [node_at_client_queue_join]
      split
      · intro e; exact State.noConfusion e
      · exact h3 a
    · refine h4.carry (client_queue_join_sent b server c) (fun a ha => ?_)
      have hne : a ≠ c := fun e => by
        rw [e, hcw] at ha
        exact State.noConfusion ha
      rw [node_at_client_queue_join, if_neg hne]
  connect b server c h hp hsrv hne := by
    obtain ⟨h1, h2, h3, ms, h4⟩ := h
    refine ⟨(FullInv.step k t).connect b server c h1 hp hsrv hne, h2, h3,
      ms ++ [Outgoing.ClientConnect t c server.host server.port], ?_, ?_⟩
    · show b.sent ++ _ = _
      rw [h4.1, List.append_assoc]
    · intro t2 a s2 hm2
      rcases List.mem_append.mp hm2 with hm3 | hm3
      · obtain ⟨g1, g2, g3, g4, g5, g6⟩ := h4.2 t2 a s2 hm3
        refine ⟨g1, g2, g3, g4, g5, ?_⟩
        rw [List.filter_append, g6]
        simp [List.filter_cons, Outgoing.loads]
      · rw [List.mem_singleton] at hm3
        exact Outgoing.noConfusion hm3

/-! ### The assertions of client_queue_join and server_open_slots -/

theorem slots_fold_assert_failed (a : Address) (l : List ClientConnection) (z : Int)
    (b : Broker) :
    (l.foldl (open_slots_step a) (z, b)).2.assert_failed = b.assert_failed := by
  induction l generalizing z b with
  | nil => rfl
  | cons x xs ih =>
    simp only [List.foldl_cons, open_slots_step]
    split
    · rw [ih, node_for_address_assert_failed]
    · exact ih _ _

/-- No assertion has failed after client_queue_join exactly when none had
failed before the call, the client is ClientWaiting and its address is found
in the waiting list. -/
theorem client_queue_join_asserts (b : Broker) (server c : Address) :
    (client_queue_join b server c).assert_failed = false
      ↔ (b.assert_failed = false ∧ (node_at b c).state = State.ClientWaiting
        ∧ c ∈ b.clients_waiting) := by
  have hi : b.clients_waiting.indexOf c < b.clients_waiting.length ↔ c ∈ b.clients_waiting :=
    List.indexOf_lt_length
  by_cases hs : (node_at b c).state = State.ClientWaiting <;>
    by_cases hc : c ∈ b.clients_waiting <;>
    simp [client_queue_join, hs, hi, hc, update_node_assert_failed]

/-- No assertion has failed after server_open_slots exactly when none had
failed before the call and the node is in a server state. -/
theorem server_open_slots_asserts (b : Broker) (a : Address) :
    (server_open_slots b a).2.assert_failed = false
      ↔ (b.assert_failed = false ∧ (node_at b a).state.is_server = true) := by
  unfold server_open_slots
  simp only []
  split
  · next hs =>
    rw [slots_fold_assert_failed]
    exact ⟨fun h => ⟨h, (is_server_iff _).mpr hs⟩, fun h => h.1⟩
  · next hs =>
    constructor
    · intro h; exact Bool.noConfusion h
    · intro h; exact absurd ((is_server_iff _).mp h.2) hs

/-- A property of the state that the lookups, the ServerLoad and connect
messages and the calls of client_queue_join with its two assertions true
keep, is kept by the steps of the matchmaking pass from the states with the
invariant of the lists. -/
theorem guarded_steps (k : Env) (t : ℚ) (R : Broker → Prop)
    (hlookup : ∀ x a, R x → R (node_for_address x a).1)
    (hload : ∀ x a s, R x → R (send_server_load t x a s))
    (hjoin : ∀ x server c, R x → (node_at x c).state = State.ClientWaiting →
      c ∈ x.clients_waiting → R (client_queue_join x server c))
    (hconnect : ∀ x server c, R x → R (send_client_connect t x server c)) :
    PassStep k t (fun b => FullInv b ∧ R b) where
  lookup b a h hm := ⟨(FullInv.step k t).lookup b a h.1 hm, hlookup b a h.2⟩
  assert b a h hm hs := by
    have := h.1.servers.servers_state a hm
    simp only [] at this
    rw [hs] at this
    exact absurd this Bool.false_ne_true
  load b a s h hm hs hd := ⟨(FullInv.step k t).load b a s h.1 hm hs hd, hload b a s h.2⟩
  join b server c h hc hsrv :=
    ⟨(FullInv.step k t).join b server c h.1 hc hsrv,
      hjoin b server c h.2 (h.1.pairing.roles.waiting_state c hc) hc⟩
  connect b server c h hp hsrv hne :=
    ⟨(FullInv.step k t).connect b server c h.1 hp hsrv hne, hconnect b server c h.2⟩

/-- C31: the assertions of client_queue_join (the client is ClientWaiting;
its address is found in the waiting list) and of server_open_slots (the node
is in a server state) are recorded in assert_failed: the flag is false after
a call exactly when it was false before and the asserted conditions held.
For every reachable broker state the flag is false, and it is false after
each of the three loops of a matchmaking pass from that state.  Moreover the
pass is made of lookups, ServerLoad messages, connect notices and calls of
client_queue_join whose two assertions hold, and of nothing else: every
property of the state that these steps keep is kept by the pass, so that no
call of server_open_slots on a node outside the server states and no call of
client_queue_join with a failing assertion takes place. -/
theorem scheduler_assertions_never_fail (k : Env) (b : Broker) (t : ℚ) (h : Reachable k b) :
    (∀ (x : Broker) (server c : Address),
      (client_queue_join x server c).assert_failed = false
        ↔ (x.assert_failed = false ∧ (node_at x c).state = State.ClientWaiting
          ∧ c ∈ x.clients_waiting))
    ∧ (∀ (x : Broker) (a : Address),
      (server_open_slots x a).2.assert_failed = false
        ↔ (x.assert_failed = false ∧ (node_at x a).state.is_server = true))
    ∧ b.assert_failed = false
    ∧ (match_servers b t).broker.assert_failed = false
    ∧ (match_alloc k t (match_servers b t)).broker.assert_failed = false
    ∧ (matchmake k b t).assert_failed = false
    ∧ ∀ R : Broker → Prop,
      (∀ x a, R x → R (node_for_address x a).1) →
      (∀ x a s, R x → R (send_server_load t x a s)) →
      (∀ x server c, R x → (node_at x c).state = State.ClientWaiting →
        c ∈ x.clients_waiting → R (client_queue_join x server c)) →
      (∀ x server c, R x → R (send_client_connect t x server c)) →
      R b → R (matchmake k b t) := by
  have inv := h.full_inv
  have hb := h.asserts_held
  have st := asserts_hold k t
  obtain ⟨r1, r2, r3⟩ := step_match_servers st b.servers (match_start b) ⟨inv, hb⟩
    (fun _ ha => ha) (fun _ ha => by simp [match_start] at ha)
  obtain ⟨q1, _, _⟩ := step_match_alloc st (b.servers.foldl (match_server t) (match_start b)) r1
    (fun a ha => by rw [r2]; exact r3 a ha)
  refine ⟨client_queue_join_asserts, server_open_slots_asserts, hb, r1.2, q1.2,
    (step_matchmake st b ⟨inv, hb⟩).2, ?_⟩
  intro R h1 h2 h3 h4 hr
  exact (step_matchmake (guarded_steps k t R h1 h2 h3 h4) b ⟨inv, hr⟩).2

/-- C31, witness: the pass at time 2 of the seventh run, which calls
server_open_slots for the active server and client_queue_join for the first
waiting client, leaves assert_failed false. -/
theorem scheduler_assertions_never_fail_witness :
    Reachable example_env skip1
    ∧ skip1.assert_failed = false
    ∧ (matchmake example_env skip1 2).clients_connecting
      = [{ client := example_client, server := example_server }]
    ∧ (matchmake example_env skip1 2).assert_failed = false :=
  ⟨skip1_reachable, by decide, by decide,
    (scheduler_assertions_never_fail example_env skip1 2 skip1_reachable).2.2.2.2.2.1⟩

/-- C32: for every reachable broker state, the matchmaking pass only appends
pairings (new) to the pairing list, so that no pairing is removed or altered;
the waiting list together with the clients of the pairing list is after the
pass a rearrangement of what it was before; every client that the pass takes
out of the waiting list had no pairing, is the client of exactly one pairing
of new and is ClientConnecting after the pass, and every pairing of new is
that of such a client; and the registry holds the same addresses in the same
order after the pass, none added and none removed. -/
theorem tick_conserves_clients (k : Env) (b : Broker) (t : ℚ) (h : Reachable k b) :
    ∃ new : List ClientConnection,
      (matchmake k b t).clients_connecting = b.clients_connecting ++ new
      ∧ ((matchmake k b t).clients_waiting
          ++ (matchmake k b t).clients_connecting.map (fun p => p.client)).Perm
        (b.clients_waiting ++ b.clients_connecting.map (fun p => p.client))
      ∧ (∀ c ∈ b.clients_waiting, c ∉ (matchmake k b t).clients_waiting →
        (new.filter (fun p => decide (p.client = c))).length = 1
        ∧ b.clients_connecting.filter (fun p => decide (p.client = c)) = []
        ∧ (node_at (matchmake k b t) c).state = State.ClientConnecting)
      ∧ (∀ p ∈ new, p.client ∈ b.clients_waiting
        ∧ p.client ∉ (matchmake k b t).clients_waiting)
      ∧ registered (matchmake k b t) = registered b := by
  have inv := h.full_inv
  obtain ⟨inv2, hreg, new, h1, h2⟩ :=
    step_matchmake (clients_kept k t b) b ⟨inv, rfl, [], by simp, by simp⟩
  have hnd : ((matchmake k b t).clients_waiting ++ new.map (fun p => p.client)).Nodup :=
    h2.nodup_iff.mpr inv.pairing.roles.waiting_nodup
  have hnew : ∀ p ∈ new, p.client ∈ b.clients_waiting
      ∧ p.client ∉ (matchmake k b t).clients_waiting := by
    intro p hp
    have hm : p.client ∈ new.map (fun p => p.client) := List.mem_map_of_mem _ hp
    refine ⟨h2.subset (List.mem_append_right _ hm), fun hw => ?_⟩
    exact (List.nodup_append.mp hnd).2.2 hw hm
  refine ⟨new, h1, ?_, ?_, hnew, hreg⟩
  · rw [h1, List.map_append]
    have h3 : ((matchmake k b t).clients_waiting
        ++ (b.clients_connecting.map (fun p => p.client) ++ new.map (fun p => p.client))).Perm
        (((matchmake k b t).clients_waiting ++ new.map (fun p => p.client))
          ++ b.clients_connecting.map (fun p => p.client)) := by
      rw [List.append_assoc]
      exact List.Perm.append_left _ List.perm_append_comm
    exact h3.trans (List.Perm.append_right _ h2)
  · intro c hc hout
    have hm : c ∈ new.map (fun p => p.client) := by
      rcases List.mem_append.mp (h2.symm.subset hc) with x | x
      · exact absurd x hout
      · exact x
    refine ⟨?_, ?_, ?_⟩
    · rw [filter_client_length]
      exact List.count_eq_one_of_mem (List.nodup_append.mp hnd).2.1 hm
    · rw [List.filter_eq_nil_iff]
      intro p hp
      have hst := inv.pairing.roles.pairing_state p hp
      have hcw := inv.pairing.roles.waiting_state c hc
      simp only [] at hst hcw
      have : p.client ≠ c := fun e => by
        rw [e, hcw] at hst
        exact State.noConfusion hst
      simpa using this
    · obtain ⟨p, hp, hpc⟩ := List.mem_map.mp hm
      have hst := inv2.pairing.roles.pairing_state p (by rw [h1]; exact List.mem_append_right _ hp)
      simp only [] at hst
      rw [← hpc]
      exact hst

/-- C32, witness: the pass at time 2 of the seventh run, from a state with
two waiting clients: the first is taken out of the waiting list and paired,
the second stays in the waiting list, and the registry keeps its three
addresses. -/
theorem tick_conserves_clients_witness :
    Reachable example_env skip1
    ∧ skip1.clients_waiting = [example_client, example_second_client]
    ∧ (matchmake example_env skip1 2).clients_waiting = [example_second_client]
    ∧ (matchmake example_env skip1 2).clients_connecting
      = [{ client := example_client, server := example_server }]
    ∧ registered (matchmake example_env skip1 2)
      = [example_server, example_client, example_second_client]
    ∧ ∃ new : List ClientConnection,
      (matchmake example_env skip1 2).clients_connecting = skip1.clients_connecting ++ new
      ∧ ((matchmake example_env skip1 2).clients_waiting
          ++ (matchmake example_env skip1 2).clients_connecting.map (fun p => p.client)).Perm
        (skip1.clients_waiting ++ skip1.clients_connecting.map (fun p => p.client))
      ∧ (∀ c ∈ skip1.clients_waiting, c ∉ (matchmake example_env skip1 2).clients_waiting →
        (new.filter (fun p => decide (p.client = c))).length = 1
        ∧ skip1.clients_connecting.filter (fun p => decide (p.client = c)) = []
        ∧ (node_at (matchmake example_env skip1 2) c).state = State.ClientConnecting)
      ∧ (∀ p ∈ new, p.client ∈ skip1.clients_waiting
        ∧ p.client ∉ (matchmake example_env skip1 2).clients_waiting)
      ∧ registered (matchmake example_env skip1 2) = registered skip1 :=
  ⟨skip1_reachable, by decide, by decide, by decide, by decide,
    tick_conserves_clients example_env skip1 2 skip1_reachable⟩

/-- C33: for every reachable broker state, every server that is ServerActive
or ServerLoading at the start of the matchmaking pass has the same state and
the same stored description at its end; and every ServerLoad message the
pass sends goes, at the time of the pass, to a server of the servers list
that was ServerIdle at the start of the pass, and is the only ServerLoad of
the pass for that server (so the server was still ServerIdle when it was
chosen), which is ServerLoading with the description of the message after the
pass. -/
theorem tick_reassigns_idle_servers_only (k : Env) (b : Broker) (t : ℚ)
    (h : Reachable k b) :
    (∀ a, (node_at b a).state = State.ServerActive
        ∨ (node_at b a).state = State.ServerLoading →
      (node_at (matchmake k b t) a).state = (node_at b a).state
      ∧ (node_at (matchmake k b t) a).server_state = (node_at b a).server_state)
    ∧ ∃ ms : List Outgoing, (matchmake k b t).sent = b.sent ++ ms
      ∧ ∀ (t2 : ℚ) (a : Address) (s : ServerState), Outgoing.ServerLoad t2 a s ∈ ms →
        t2 = t ∧ a ∈ b.servers ∧ (node_at b a).state = State.ServerIdle
        ∧ (node_at (matchmake k b t) a).state = State.ServerLoading
        ∧ (node_at (matchmake k b t) a).server_state = s
        ∧ ms.filter (Outgoing.loads a) = [Outgoing.ServerLoad t a s] := by
  have inv := h.full_inv
  constructor
  · intro a ha
    rcases matchmake_moves k t b inv a with h1 | h1 | h1
    · rw [h1]; exact ⟨rfl, rfl⟩
    · rcases ha with e | e <;> rw [h1.1] at e <;> exact State.noConfusion e
    · rcases ha with e | e <;> rw [h1.1] at e <;> exact State.noConfusion e
  · obtain ⟨_, _, _, ms, hlog⟩ := step_matchmake (loads_kept k t b) b
      ⟨inv, rfl, fun _ x => x, [], by simp, fun _ _ _ x => by simp at x⟩
    exact ⟨ms, hlog.1, hlog.2⟩

/-- C33, witness: the pass at time 2 of the second run sends one ServerLoad,
to the server that was ServerIdle; in the first run the server is
ServerActive before the pass at time 2 and keeps its state and description. -/
theorem tick_reassigns_idle_servers_only_witness :
    Reachable example_env load2
    ∧ (node_at load2 example_server).state = State.ServerIdle
    ∧ (matchmake example_env load2 2).sent
      = load2.sent ++ [Outgoing.ServerLoad 2 example_server ⟨3, 4, false, 2⟩]
    ∧ ((∀ a, (node_at load2 a).state = State.ServerActive
          ∨ (node_at load2 a).state = State.ServerLoading →
        (node_at (matchmake example_env load2 2) a).state = (node_at load2 a).state
        ∧ (node_at (matchmake example_env load2 2) a).server_state
          = (node_at load2 a).server_state)
      ∧ ∃ ms : List Outgoing, (matchmake example_env load2 2).sent = load2.sent ++ ms
        ∧ ∀ (t2 : ℚ) (a : Address) (s : ServerState), Outgoing.ServerLoad t2 a s ∈ ms →
          t2 = 2 ∧ a ∈ load2.servers ∧ (node_at load2 a).state = State.ServerIdle
          ∧ (node_at (matchmake example_env load2 2) a).state = State.ServerLoading
          ∧ (node_at (matchmake example_env load2 2) a).server_state = s
          ∧ ms.filter (Outgoing.loads a) = [Outgoing.ServerLoad 2 a s]) :=
  ⟨load2_reachable, by decide, by decide,
    tick_reassigns_idle_servers_only example_env load2 2 load2_reachable⟩

/-- C34: in every reachable broker state every registry node in ClientWaiting
or ClientConnecting stores a valid requested description: 0 <= level <
Level::count, open_slots != 0, and with story_mode open_slots = 1 and
team_count = 2. -/
theorem client_description_valid (k : Env) (b : Broker) (h : Reachable k b) :
    ∀ n ∈ b.nodes, n.state = State.ClientWaiting ∨ n.state = State.ClientConnecting →
      0 ≤ n.server_state.level ∧ n.server_state.level < k.level_count
      ∧ n.server_state.open_slots ≠ 0
      ∧ (n.server_state.story_mode = true →
        n.server_state.open_slots = 1 ∧ n.server_state.team_count = 2) := by
  intro n hn hs
  have key := h.node_rule
    (fun x d => x = State.ClientWaiting ∨ x = State.ClientConnecting → valid_request k d)
    (fun e => by rcases e with e | e <;> exact State.noConfusion e)
    (fun x d hx e => by rcases e with e | e <;> rw [e] at hx <;> exact Bool.noConfusion hx)
    (fun d hd _ => hd)
    (fun d hd _ => hd (Or.inr rfl))
    (fun d hd _ => hd (Or.inl rfl)) n.addr
  rw [node_at_of_mem h.full_inv.pairing.keys hn] at key
  exact key hs

/-- C34, witness: the state after step 3 of the first run; its connecting
client stores the request for two players. -/
theorem client_description_valid_witness :
    Reachable example_env run3
    ∧ (node_at run3 example_client).state = State.ClientConnecting
    ∧ (node_at run3 example_client).server_state = example_request
    ∧ ∀ n ∈ run3.nodes, n.state = State.ClientWaiting ∨ n.state = State.ClientConnecting →
      0 ≤ n.server_state.level ∧ n.server_state.level < example_env.level_count
      ∧ n.server_state.open_slots ≠ 0
      ∧ (n.server_state.story_mode = true →
        n.server_state.open_slots = 1 ∧ n.server_state.team_count = 2) :=
  ⟨run3_reachable, by decide, by decide, client_description_valid example_env run3 run3_reachable⟩

/-- C35: an accepted ServerStatusUpdate with the configured secret from a node
in ServerLoading, with a description other than the assigned one or with the
active flag not set: packet_handle returns true; the node stays ServerLoading
with its assigned description, only its last_message_timestamp becomes the
time of the message; the registry entries of the other addresses, the servers
list, the waiting list and the pairings are as before, and nothing is sent (no
ClientConnect in particular). -/
theorem unfinished_loading_report_changes_nothing (k : Env) (b : Broker) (s : ServerState)
    (active : Bool) (addr : Address) (t : ℚ)
    (hl : (node_at b addr).state = State.ServerLoading)
    (hd : s ≠ (node_at b addr).server_state ∨ active = false) :
    (packet_handle k b true (Packet.ServerStatusUpdate k.secret active (some s)) addr t).1
      = true
    ∧ node_at (packet_handle k b true
        (Packet.ServerStatusUpdate k.secret active (some s)) addr t).2 addr
      = { node_at b addr with last_message_timestamp := t }
    ∧ (node_at (packet_handle k b true
        (Packet.ServerStatusUpdate k.secret active (some s)) addr t).2 addr).state
      = State.ServerLoading
    ∧ (node_at (packet_handle k b true
        (Packet.ServerStatusUpdate k.secret active (some s)) addr t).2 addr).server_state
      = (node_at b addr).server_state
    ∧ (∀ c, c ≠ addr →
      find_node (packet_handle k b true
        (Packet.ServerStatusUpdate k.secret active (some s)) addr t).2.nodes c
        = find_node b.nodes c)
    ∧ (packet_handle k b true
        (Packet.ServerStatusUpdate k.secret active (some s)) addr t).2.servers = b.servers
    ∧ (packet_handle k b true
        (Packet.ServerStatusUpdate k.secret active (some s)) addr t).2.clients_waiting
      = b.clients_waiting
    ∧ (packet_handle k b true
        (Packet.ServerStatusUpdate k.secret active (some s)) addr t).2.clients_connecting
      = b.clients_connecting
    ∧ (packet_handle k b true
        (Packet.ServerStatusUpdate k.secret active (some s)) addr t).2.sent = b.sent := by
  have hst : (node_at (update_node b addr
      (fun n => { n with last_message_timestamp := t })) addr).state = State.ServerLoading := by
    rw [node_at_touch, if_pos rfl]; exact hl
  have hds : (node_at (update_node b addr
      (fun n => { n with last_message_timestamp := t })) addr).server_state
      = (node_at b addr).server_state := by
    rw [node_at_touch, if_pos rfl]
  have hne : (s.equals (node_at b addr).server_state && active) = false := by
    rcases hd with h | h
    · simp [ServerState.equals, h]
    · simp [h]
  have e : packet_handle k b true (Packet.ServerStatusUpdate k.secret active (some s)) addr t
      = (true, update_node b addr (fun n => { n with last_message_timestamp := t })) := by
    simp only [packet_handle, Bool.not_true, Bool.false_eq_true, if_false, ne_eq,
      not_true_eq_false, hst, if_true, hds, hne]
  rw [e]
  refine ⟨rfl, by rw [node_at_touch, if_pos rfl], hst, hds, ?_, update_node_servers _ _ _,
    update_node_clients_waiting _ _ _, update_node_clients_connecting _ _ _,
    update_node_sent _ _ _⟩
  intro c hc
  exact find_node_update_node_other b addr c _ (fun _ => rfl) hc

/-- C35, witness: in the state after step 3 of the second run the server is
ServerLoading with the default multiplayer description; its report at time 3
with the active flag set but another description leaves it ServerLoading, and
the client paired with it gets no connect notice. -/
theorem unfinished_loading_report_changes_nothing_witness :
    (node_at load3 example_server).state = State.ServerLoading
    ∧ (node_at load3 example_server).server_state = ⟨3, 4, false, 2⟩
    ∧ (packet_handle example_env load3 true
        (Packet.ServerStatusUpdate 7 true (some ⟨1, 4, false, 2⟩)) example_server 3).1 = true
    ∧ (node_at (packet_handle example_env load3 true
        (Packet.ServerStatusUpdate 7 true (some ⟨1, 4, false, 2⟩)) example_server 3).2
        example_server).state = State.ServerLoading
    ∧ (node_at (packet_handle example_env load3 true
        (Packet.ServerStatusUpdate 7 true (some ⟨1, 4, false, 2⟩)) example_server 3).2
        example_server).server_state = ⟨3, 4, false, 2⟩
    ∧ (packet_handle example_env load3 true
        (Packet.ServerStatusUpdate 7 true (some ⟨1, 4, false, 2⟩)) example_server 3).2.sent
      = load3.sent :=
  have h := unfinished_loading_report_changes_nothing example_env load3 ⟨1, 4, false, 2⟩ true
    example_server 3 (by decide) (Or.inl (by decide))
  ⟨by decide, by decide, h.1, h.2.2.1, h.2.2.2.1.trans (by decide), h.2.2.2.2.2.2.2.2⟩

theorem run2_reachable : Reachable example_env run2 :=
  Reachable.packet _ _ _ _ _ (Reachable.packet _ _ _ _ _ Reachable.init)

/-- C36: in every run from a reachable broker state b in which the address a
keeps a registry node after every step (it is not removed by disconnected), a
node of a in a server state in b is in a server state at the end of the run,
and a node of a in ClientWaiting or ClientConnecting in b is in one of these
two states at the end.  In particular an accepted ServerStatusUpdate with the
configured secret from a node in ClientWaiting or ClientConnecting leaves its
state as it is and does not add it to the servers list. -/
theorem role_never_flips (k : Env) (b b2 : Broker) (a : Address) (h : Reachable k b)
    (hrun : StaysFrom k a b b2) :
    (((node_at b a).state.is_server = true → (node_at b2 a).state.is_server = true)
      ∧ ((node_at b a).state = State.ClientWaiting
          ∨ (node_at b a).state = State.ClientConnecting →
        (node_at b2 a).state = State.ClientWaiting
          ∨ (node_at b2 a).state = State.ClientConnecting))
    ∧ ∀ (active : Bool) (s : ServerState) (t : ℚ),
      (node_at b2 a).state = State.ClientWaiting
        ∨ (node_at b2 a).state = State.ClientConnecting →
      (node_at (packet_handle k b2 true
          (Packet.ServerStatusUpdate k.secret active (some s)) a t).2 a).state
        = (node_at b2 a).state
      ∧ (packet_handle k b2 true
          (Packet.ServerStatusUpdate k.secret active (some s)) a t).2.servers = b2.servers := by
  have hask : ∀ x : State, x.is_asking = true
      ↔ (x = State.ClientWaiting ∨ x = State.ClientConnecting) := by
    intro x
    cases x <;> simp [State.is_asking]
  have key : Reachable k b2 ∧ role_kept (node_at b a).state (node_at b2 a).state := by
    induction hrun with
    | start => exact ⟨h, role_kept_refl _⟩
    | packet b1 received p addr timestamp _ hreg ih =>
      refine ⟨Reachable.packet _ _ _ _ _ ih.1, ?_⟩
      rcases (role_step k b1 ih.1.full_inv a).1 received p addr timestamp with h1 | h1
      · exact ⟨fun x => h1.1 (ih.2.1 x), fun x => h1.2 (ih.2.2 x)⟩
      · exact absurd hreg ((not_mem_registered_iff _ _).mpr h1.2.2.2)
    | audit b1 timestamp order _ hperm hreg ih =>
      refine ⟨Reachable.audit _ _ _ ih.1 hperm, ?_⟩
      rcases (role_step k b1 ih.1.full_inv a).2.1 order with h1 | h1
      · exact ⟨fun x => h1.1 (ih.2.1 x), fun x => h1.2 (ih.2.2 x)⟩
      · exact absurd hreg ((not_mem_registered_iff _ _).mpr h1.2)
    | matchmake b1 timestamp _ ih =>
      refine ⟨Reachable.matchmake _ _ ih.1, ?_⟩
      have h1 := (role_step k b1 ih.1.full_inv a).2.2.1 timestamp
      exact ⟨fun x => h1.1 (ih.2.1 x), fun x => h1.2 (ih.2.2 x)⟩
  refine ⟨⟨key.2.1, fun x => (hask _).mp (key.2.2 ((hask _).mpr x))⟩, ?_⟩
  intro active s t hst
  exact (role_step k b2 key.1.full_inv a).2.2.2 active s t ((hask _).mpr hst)

/-- C36, witness: the run from the state after step 2 of the first run, where
the client is ClientWaiting, through the matchmaking pass at time 2 and a
ServerStatusUpdate with the configured secret that the client sends at time
3: the client is ClientConnecting after the pass and after its message, and
the servers list still holds the server only. -/
theorem role_never_flips_witness :
    Reachable example_env run2
    ∧ StaysFrom example_env example_client run2 run3
    ∧ (node_at run2 example_client).state = State.ClientWaiting
    ∧ (node_at run3 example_client).state = State.ClientConnecting
    ∧ (node_at (packet_handle example_env run3 true
        (Packet.ServerStatusUpdate 7 true (some ⟨1, 4, false, 2⟩)) example_client 3).2
        example_client).state = State.ClientConnecting
    ∧ (packet_handle example_env run3 true
        (Packet.ServerStatusUpdate 7 true (some ⟨1, 4, false, 2⟩)) example_client 3).2.servers
      = [example_server] :=
  have hrun : StaysFrom example_env example_client run2 run3 :=
    StaysFrom.matchmake run2 2 StaysFrom.start
  have h := role_never_flips example_env run2 run3 example_client run2_reachable hrun
  have h2 := h.2 true ⟨1, 4, false, 2⟩ 3 (Or.inr (by decide))
  ⟨run2_reachable, hrun, by decide, by decide, h2.1.trans (by decide), h2.2.trans (by decide)⟩

/-- C37: for every reachable broker state and every address A whose node is
Invalid, ClientWaiting or ClientConnecting, disconnected(A) takes the node of
A out of the registry and leaves the registry entry of every other address
(state, description and timestamp) as it was; the servers list is unchanged;
the waiting list is left with its entries other than A and the pairing list
with its pairings whose client is not A (the removal of the source may
reorder them), the list that is not that of the state of A being untouched;
and nothing is sent. -/
theorem client_eviction_is_local (k : Env) (b : Broker) (A : Address) (h : Reachable k b)
    (hA : (node_at b A).state = State.Invalid ∨ (node_at b A).state = State.ClientWaiting
      ∨ (node_at b A).state = State.ClientConnecting) :
    (disconnected b A).nodes = b.nodes.filter (fun n => !decide (n.addr = A))
    ∧ find_node (disconnected b A).nodes A = none
    ∧ (∀ c, c ≠ A → find_node (disconnected b A).nodes c = find_node b.nodes c)
    ∧ (disconnected b A).servers = b.servers
    ∧ (disconnected b A).clients_waiting.Perm
      (b.clients_waiting.filter (fun a => !decide (a = A)))
    ∧ (disconnected b A).clients_connecting.Perm
      (b.clients_connecting.filter (fun c => !decide (c.client = A)))
    ∧ ((node_at b A).state ≠ State.ClientWaiting →
      (disconnected b A).clients_waiting = b.clients_waiting)
    ∧ ((node_at b A).state ≠ State.ClientConnecting →
      (disconnected b A).clients_connecting = b.clients_connecting)
    ∧ (disconnected b A).sent = b.sent := by
  have inv := h.full_inv
  have hs : (node_at b A).state.is_server = false := by
    rcases hA with e | e | e <;> rw [e] <;> rfl
  have hsn : ¬ (node_at b A).state.is_server = true := by rw [hs]; decide
  obtain ⟨g1, g2, g3, g4⟩ := disconnected_of_client b A hs
  have facts := disconnected_facts b A
  have hwait : (node_at b A).state ≠ State.ClientWaiting →
      b.clients_waiting.filter (fun a => !decide (a = A)) = b.clients_waiting := by
    intro hne
    apply List.filter_eq_self.mpr
    intro a ha
    have hst := inv.pairing.roles.waiting_state a ha
    simp only [] at hst
    have : a ≠ A := fun e => hne (e ▸ hst)
    simp [this]
  have hpair : (node_at b A).state ≠ State.ClientConnecting →
      b.clients_connecting.filter (fun c => !decide (c.client = A)) = b.clients_connecting := by
    intro hne
    apply List.filter_eq_self.mpr
    intro p hp
    have hst := inv.pairing.roles.pairing_state p hp
    simp only [] at hst
    have : p.client ≠ A := fun e => hne (e ▸ hst)
    simp [this]
  refine ⟨g1, find_node_disconnected b A, ?_, g2, ?_, ?_, g3, g4, facts.sent⟩
  · intro c hc
    have hn := facts.node c
    rw [if_neg hc, if_neg (fun x => hsn x.1)] at hn
    have hk := facts.keys c
    by_cases hr : c ∈ registered b
    · have hr' : c ∈ registered (disconnected b A) := hk.mpr ⟨hc, Or.inl hr⟩
      rw [find_node_of_registered hr', find_node_of_registered hr, hn]
    · have hr' : c ∉ registered (disconnected b A) := fun x => by
        rcases (hk.mp x).2 with y | y
        · exact hr y
        · exact hsn y.1
      rw [(not_mem_registered_iff _ _).mp hr', (not_mem_registered_iff _ _).mp hr]
  · by_cases hw : (node_at b A).state = State.ClientWaiting
    · have := facts.waiting
      rw [if_pos hw] at this
      exact this
    · rw [g3 hw, hwait hw]
  · by_cases hc : (node_at b A).state = State.ClientConnecting
    · have := facts.pairings
      rw [if_neg hsn, if_pos hc] at this
      exact this
    · rw [g4 hc, hpair hc]

/-- C37, witness: in the state after step 3 of the first run the client is
ClientConnecting; its eviction removes its node and its pairing, and leaves
the server, the servers list and the waiting list as they are. -/
theorem client_eviction_is_local_witness :
    Reachable example_env run3
    ∧ (node_at run3 example_client).state = State.ClientConnecting
    ∧ run3.clients_connecting = [{ client := example_client, server := example_server }]
    ∧ (disconnected run3 example_client).clients_connecting = []
    ∧ find_node (disconnected run3 example_client).nodes example_server
      = find_node run3.nodes example_server
    ∧ (disconnected run3 example_client).servers = run3.servers
    ∧ (disconnected run3 example_client).clients_waiting = run3.clients_waiting :=
  have h := client_eviction_is_local example_env run3 example_client run3_reachable
    (Or.inr (Or.inr (by decide)))
  ⟨run3_reachable, by decide, by decide, by decide, h.2.2.1 example_server (by decide),
    h.2.2.2.1, h.2.2.2.2.2.2.1 (by decide)⟩

/-- C38: in every state reachable from the empty broker by messages, audits
and matchmaking passes, no registry node has the state ClientIdle, and the
node a lookup yields for any address is not ClientIdle either: the handler of
ClientRequestServer never meets a sender in ClientIdle. -/
theorem client_idle_unreachable (k : Env) (b : Broker) (h : Reachable k b) :
    (∀ n ∈ b.nodes, n.state ≠ State.ClientIdle)
    ∧ ∀ a, (node_at b a).state ≠ State.ClientIdle := by
  have key : ∀ a, (node_at b a).state ≠ State.ClientIdle := fun a =>
    h.node_rule (fun x _ => x ≠ State.ClientIdle)
      (fun e => State.noConfusion e)
      (fun x d hx e => by rw [e] at hx; exact Bool.noConfusion hx)
      (fun _ _ e => State.noConfusion e)
      (fun _ _ e => State.noConfusion e)
      (fun _ _ e => State.noConfusion e) a
  refine ⟨fun n hn => ?_, key⟩
  have := key n.addr
  rw [node_at_of_mem h.full_inv.pairing.keys hn] at this
  exact this

/-- C38, witness: the state after step 3 of the first run, with a server and
a connecting client. -/
theorem client_idle_unreachable_witness :
    Reachable example_env run3
    ∧ run3.nodes.map (fun n => n.state) = [State.ServerActive, State.ClientConnecting]
    ∧ (∀ n ∈ run3.nodes, n.state ≠ State.ClientIdle)
    ∧ ∀ a, (node_at run3 a).state ≠ State.ClientIdle :=
  ⟨run3_reachable, by decide, client_idle_unreachable example_env run3 run3_reachable⟩

end Master
end Net
end VI
